import Mathlib

/-!
# qpmad: dense active-set QP solver (Goldfarb–Idnani dual method)

Shallow embedding of `src/src/factorization_data.h` and `src/src/solver.h`.

Scalars are elements of an arbitrary linearly ordered field `K` (exact
arithmetic); the square root used by the plane rotations and by the Cholesky
factorisation is an explicit parameter `sqrt : K → K`.  Dense vectors and
matrices are total functions on `Nat`; sizes are carried separately, as the
members `primal_size_`, `num_general_constraints_`, ... do in the source.
-/

namespace qpmad

/-- Dense vector (`QPVector`), indexed from 0. -/
abbrev QPVector (K : Type) := Nat → K

/-- Dense matrix (`QPMatrix`), `M i j` is row `i`, column `j`. -/
abbrev QPMatrix (K : Type) := Nat → Nat → K

/-- Counted loop `for (i = lo; i < lo + count; ++i) s = body i s`. -/
def forUp {σ : Type} (body : Nat → σ → σ) : Nat → Nat → σ → σ
  | _, 0, s => s
  | i, c + 1, s => forUp body (i + 1) c (body i s)

/-- Product of a row and a column of length `n` (`A.row(i) * x`). -/
def dot {K : Type} [LinearOrderedField K] (n : Nat) (u v : QPVector K) : K :=
  ∑ k in Finset.range n, u k * v k

/-- Modelled from the spec: `constraint_status.h` is not part of the sources; the
statuses are those of spec section 3 together with `UNDEFINED`, which
`ChosenConstraint()` in `solver.h` uses. -/
inductive ConstraintStatus
  | UNDEFINED
  | INCONSISTENT
  | EQUALITY
  | INACTIVE
  | ACTIVE_LOWER_BOUND
  | ACTIVE_UPPER_BOUND
  | VIOLATED
  deriving DecidableEq, Repr

/-- Return codes of `Solver::solve` (`solver.h`, lines 35-41). -/
inductive ReturnStatus
  | OK
  | INFEASIBLE_EQUALITY
  | INFEASIBLE_INEQUALITY
  | MAXIMAL_NUMBER_OF_ITERATIONS
  deriving DecidableEq, Repr

/-- The places where `solve` raises (`QPMAD_THROW`, `QPMAD_ASSERT`). -/
inductive QPError
  | MALFORMED_PARAMETERS
  | INCONSISTENT_BOUNDS
  | FAILED_TO_ADD_EQUALITY
  | FAILED_TO_ADD_INEQUALITY
  | NEGATIVE_STEP_LENGTH
  deriving DecidableEq, Repr

/-! ## External collaborators, modelled from the spec -/

/-- Modelled from the spec: `givens.h` is not part of the sources.  Spec 4.1: a
helper holding `(c, s)`. -/
structure GivensReflection (K : Type) where
  c : K
  s : K

/-- Modelled from the spec: `GivensReflection::computeAndApply(a, b, target)`
(spec 4.1).  It selects `c, s` such that rotating `(a, b)` by
`(x, y) ↦ (c·x − s·y, s·x + c·y)` yields `(length, target)`, writes the new
length into `a` and the target into `b`; if `b = 0` then `(c, s) = (1, 0)` and
`a` is left unchanged.  Returns the rotation and the new `a`, `b`. -/
def GivensReflection.computeAndApply {K : Type} [LinearOrderedField K] (sqrt : K → K)
    (a b target : K) : GivensReflection K × K × K :=
  if b = 0 then
    ({ c := 1, s := 0 }, a, b)
  else
    let r := sqrt (a * a + b * b)
    ({ c := a / r, s := -b / r }, r, target)

/-- Modelled from the spec: `applyColumnWise(M, rowStart, rowEnd, colA, colB)`
(spec 4.1): for each row `r` in `[rowStart, rowEnd)` rotate
`(M[r,colA], M[r,colB]) → (c·x − s·y, s·x + c·y)`. -/
def GivensReflection.applyColumnWise {K : Type} [LinearOrderedField K]
    (g : GivensReflection K) (M : QPMatrix K) (rowStart rowEnd colA colB : Nat) :
    QPMatrix K :=
  fun r col =>
    if rowStart ≤ r ∧ r < rowEnd then
      if col = colA then g.c * M r colA - g.s * M r colB
      else if col = colB then g.s * M r colA + g.c * M r colB
      else M r col
    else M r col

/-- Modelled from the spec: `applyRowWise(M, colStart, colEnd, rowA, rowB)`
(spec 4.1): the same rotation over a row pair, for each column in
`[colStart, colEnd)`. -/
def GivensReflection.applyRowWise {K : Type} [LinearOrderedField K]
    (g : GivensReflection K) (M : QPMatrix K) (colStart colEnd rowA rowB : Nat) :
    QPMatrix K :=
  fun r col =>
    if colStart ≤ col ∧ col < colEnd then
      if r = rowA then g.c * M rowA col - g.s * M rowB col
      else if r = rowB then g.s * M rowA col + g.c * M rowB col
      else M r col
    else M r col

/-- Forward substitution: the first `m` entries of the solution of `L·x = b`
for lower-triangular `L` (entries from `m` on are 0). -/
def forwardSolve {K : Type} [LinearOrderedField K] (L : QPMatrix K) (b : QPVector K) :
    Nat → QPVector K
  | 0 => fun _ => 0
  | m + 1 =>
    let x := forwardSolve L b m
    Function.update x m ((b m - ∑ k in Finset.range m, L m k * x k) / L m m)

/-- Back substitution on the block `[lo, hi)`: the last `c` entries of the
solution of `U[lo:hi, lo:hi]·x[lo:hi] = b[lo:hi]` for upper-triangular `U`
(all other entries are 0).  This is Eigen's
`triangularView<Eigen::Upper>().solve`. -/
def backSolve {K : Type} [LinearOrderedField K] (U : QPMatrix K) (b : QPVector K)
    (hi : Nat) : Nat → QPVector K
  | 0 => fun _ => 0
  | c + 1 =>
    let x := backSolve U b hi c
    let i := hi - (c + 1)
    Function.update x i ((b i - ∑ k in Finset.Ico (i + 1) hi, U i k * x k) / U i i)

/-- Modelled from the spec: `CholeskyFactorization::compute` (`cholesky.h` is not
part of the sources; spec section 2: factor `H = L·Lᵀ` in place, lower-triangular
storage).  One column of the factor. -/
def CholeskyFactorization.column {K : Type} [LinearOrderedField K] (sqrt : K → K)
    (n : Nat) (j : Nat) (H : QPMatrix K) : QPMatrix K :=
  let d := sqrt (H j j - ∑ k in Finset.range j, H j k * H j k)
  fun i c =>
    if c = j ∧ j ≤ i ∧ i < n then
      if i = j then d else (H i j - ∑ k in Finset.range j, H i k * H j k) / d
    else H i c

/-- Modelled from the spec: `CholeskyFactorization::compute(H)`; only the lower
triangle is read and written. -/
def CholeskyFactorization.compute {K : Type} [LinearOrderedField K] (sqrt : K → K)
    (n : Nat) (H : QPMatrix K) : QPMatrix K :=
  forUp (CholeskyFactorization.column sqrt n) 0 n H

/-- Modelled from the spec: `CholeskyFactorization::solve(x, L, b)`, the
triangular solves `L·y = b`, `Lᵀ·x = y` against the factor. -/
def CholeskyFactorization.solve {K : Type} [LinearOrderedField K]
    (n : Nat) (L : QPMatrix K) (b : QPVector K) : QPVector K :=
  backSolve (fun i k => L k i) (forwardSolve L b n) n n

/-- Modelled from the spec: `TriangularInversion::compute(J, L)` (`inverse.h` is
not part of the sources; spec 4.2, `initialize`: `J := L⁻ᵀ`).  Row `i` of `J` is
column `i` of `L⁻¹`, obtained by forward substitution. -/
def TriangularInversion.compute {K : Type} [LinearOrderedField K]
    (n : Nat) (L : QPMatrix K) : QPMatrix K :=
  fun i j =>
    if i < n ∧ j < n then forwardSolve L (fun k => if k = i then 1 else 0) n j else 0

/-- Modelled from the spec: `dropElementWithoutResize(v, j, size)` (`common.h` is
not part of the sources; spec 4.6: drop `v[j]` with left-shift inside
`[j, size)`). -/
def dropElementWithoutResize {K : Type} (v : QPVector K) (index size : Nat) : QPVector K :=
  fun k => if index ≤ k ∧ k + 1 < size then v (k + 1) else v k

/-- Modelled from the spec: `ActiveSet` (`active_set.h` is not part of the
sources; spec sections 3 and 4.3): an ordered container of at most `n` original
constraint indices, equalities in positions `[0, nE)`, inequalities in
`[nE, q)`.  The members `size_`, `num_equalities_`, `num_inequalities_` are
read by `solver.h` and `factorization_data.h`. -/
structure ActiveSet where
  active_constraints_indices_ : Nat → Nat
  size_ : Nat
  num_equalities_ : Nat
  num_inequalities_ : Nat
  max_size_ : Nat

/-- Modelled from the spec: `ActiveSet::initialize(n)`, the empty set of
capacity `n`. -/
def ActiveSet.initialize (max_size : Nat) : ActiveSet :=
  { active_constraints_indices_ := fun _ => 0
    size_ := 0
    num_equalities_ := 0
    num_inequalities_ := 0
    max_size_ := max_size }

/-- Modelled from the spec: `hasEmptySpace() ≡ q < n`. -/
def ActiveSet.hasEmptySpace (as : ActiveSet) : Bool :=
  decide (as.size_ < as.max_size_)

/-- Modelled from the spec: `getIndex(j)`. -/
def ActiveSet.getIndex (as : ActiveSet) (index : Nat) : Nat :=
  as.active_constraints_indices_ index

/-- Modelled from the spec: `addEquality(i)` appends at position `q`. -/
def ActiveSet.addEquality (as : ActiveSet) (index : Nat) : ActiveSet :=
  { as with
    active_constraints_indices_ := Function.update as.active_constraints_indices_ as.size_ index
    size_ := as.size_ + 1
    num_equalities_ := as.num_equalities_ + 1 }

/-- Modelled from the spec: `addInequality(i)` appends at position `q`. -/
def ActiveSet.addInequality (as : ActiveSet) (index : Nat) : ActiveSet :=
  { as with
    active_constraints_indices_ := Function.update as.active_constraints_indices_ as.size_ index
    size_ := as.size_ + 1
    num_inequalities_ := as.num_inequalities_ + 1 }

/-- Modelled from the spec: `removeInequality(j)` shifts the tail left. -/
def ActiveSet.removeInequality (as : ActiveSet) (index : Nat) : ActiveSet :=
  { as with
    active_constraints_indices_ :=
      dropElementWithoutResize as.active_constraints_indices_ index as.size_
    size_ := as.size_ - 1
    num_inequalities_ := as.num_inequalities_ - 1 }

/-! ## `factorization_data.h` -/

/-- The members of `FactorizationData`. -/
structure FactorizationData (K : Type) where
  QLi_aka_J : QPMatrix K
  R : QPMatrix K
  primal_size_ : Nat

/-- `FactorizationData::initialize(H, primal_size)`; `H` holds the Cholesky
factor.  The storage of `R` is taken to be zero (spec 4.2). -/
def FactorizationData.initialize {K : Type} [LinearOrderedField K]
    (H : QPMatrix K) (primal_size : Nat) : FactorizationData K :=
  { QLi_aka_J := TriangularInversion.compute primal_size H
    R := fun _ _ => 0
    primal_size_ := primal_size }

/-- Body of the loop of `update` (lines 45-46): the rotation is computed from and
applied to `R(i-1, R_col), R(i, R_col)`, then applied to columns `i-1, i` of `J`. -/
def FactorizationData.updateStep {K : Type} [LinearOrderedField K] (sqrt : K → K)
    (R_col : Nat) (i : Nat) (fd : FactorizationData K) : FactorizationData K :=
  let g := GivensReflection.computeAndApply sqrt (fd.R (i - 1) R_col) (fd.R i R_col) 0
  { fd with
    R := fun r c =>
      if c = R_col then
        if r = i - 1 then g.2.1 else if r = i then g.2.2 else fd.R r c
      else fd.R r c
    QLi_aka_J := g.1.applyColumnWise fd.QLi_aka_J 0 fd.primal_size_ (i - 1) i }

/-- The loop `for (i = primal_size_-1; i > R_col; --i)` of `update`, entered at `i`. -/
def FactorizationData.updateLoop {K : Type} [LinearOrderedField K] (sqrt : K → K)
    (R_col : Nat) : Nat → FactorizationData K → FactorizationData K
  | 0, fd => fd
  | i + 1, fd =>
    if i + 1 > R_col then
      FactorizationData.updateLoop sqrt R_col i (FactorizationData.updateStep sqrt R_col (i + 1) fd)
    else fd

/-- `FactorizationData::update(R_col, tolerance)`: the new state and the
returned flag. -/
def FactorizationData.update {K : Type} [LinearOrderedField K] (sqrt : K → K)
    (fd : FactorizationData K) (R_col : Nat) (tolerance : K) : FactorizationData K × Bool :=
  let fd1 := FactorizationData.updateLoop sqrt R_col (fd.primal_size_ - 1) fd
  if |fd1.R R_col R_col| < tolerance then (fd1, false) else (fd1, true)

/-- Body of the loop of `downdate` (lines 67-78). -/
def FactorizationData.downdateStep {K : Type} [LinearOrderedField K] (sqrt : K → K)
    (R_cols : Nat) (i : Nat) (fd : FactorizationData K) : FactorizationData K :=
  let g := GivensReflection.computeAndApply sqrt (fd.R (i - 1) i) (fd.R i i) 0
  let R1 : QPMatrix K := fun r c =>
    if c = i then
      if r = i - 1 then g.2.1 else if r = i then g.2.2 else fd.R r c
    else fd.R r c
  let R2 := g.1.applyRowWise R1 (i + 1) R_cols (i - 1) i
  { fd with
    QLi_aka_J := g.1.applyColumnWise fd.QLi_aka_J 0 fd.primal_size_ (i - 1) i
    R := fun r c => if c = i - 1 ∧ r < i then R2 r i else R2 r c }

/-- `FactorizationData::downdate(R_col_index, R_cols, tolerance)`. -/
def FactorizationData.downdate {K : Type} [LinearOrderedField K] (sqrt : K → K)
    (fd : FactorizationData K) (R_col_index R_cols : Nat) (_tolerance : K) :
    FactorizationData K :=
  forUp (FactorizationData.downdateStep sqrt R_cols) (R_col_index + 1)
    (R_cols - (R_col_index + 1)) fd

/-- `FactorizationData::computeEqualityPrimalStep`: the new state (column
`active_set_size` of `R` holds `d = Jᵀ·ctrᵀ`) and the step direction. -/
def FactorizationData.computeEqualityPrimalStep {K : Type} [LinearOrderedField K]
    (fd : FactorizationData K) (ctr : QPVector K) (active_set_size : Nat) :
    FactorizationData K × QPVector K :=
  let R1 : QPMatrix K := fun r c =>
    if c = active_set_size ∧ r < fd.primal_size_ then
      ∑ k in Finset.range fd.primal_size_, fd.QLi_aka_J k r * ctr k
    else fd.R r c
  ({ fd with R := R1 },
   fun r =>
     if r < fd.primal_size_ then
       -(∑ k in Finset.Ico active_set_size fd.primal_size_,
           fd.QLi_aka_J r k * R1 k active_set_size)
     else 0)

/-- `FactorizationData::computeInequalitySteps`: the new state (column
`active_set.size_` of `R` holds `d = ∓Jᵀ·ctrᵀ`), the primal step direction and the
new dual step direction (only the segment of the active inequalities is
written). -/
def FactorizationData.computeInequalitySteps {K : Type} [LinearOrderedField K]
    (fd : FactorizationData K) (dual_step_direction : QPVector K) (ctr : QPVector K)
    (ctr_type : ConstraintStatus) (active_set : ActiveSet) :
    FactorizationData K × QPVector K × QPVector K :=
  let R1 : QPMatrix K := fun r c =>
    if c = active_set.size_ ∧ r < fd.primal_size_ then
      if ctr_type = ConstraintStatus.ACTIVE_LOWER_BOUND then
        -(∑ k in Finset.range fd.primal_size_, fd.QLi_aka_J k r * ctr k)
      else
        ∑ k in Finset.range fd.primal_size_, fd.QLi_aka_J k r * ctr k
    else fd.R r c
  let sol := backSolve R1 (fun k => R1 k active_set.size_)
    (active_set.num_equalities_ + active_set.num_inequalities_) active_set.num_inequalities_
  ({ fd with R := R1 },
   fun r =>
     if r < fd.primal_size_ then
       -(∑ k in Finset.Ico active_set.size_ fd.primal_size_,
           fd.QLi_aka_J r k * R1 k active_set.size_)
     else 0,
   fun k =>
     if active_set.num_equalities_ ≤ k ∧
        k < active_set.num_equalities_ + active_set.num_inequalities_ then -(sol k)
     else dual_step_direction k)

/-- `FactorizationData::computeInequalityDualStep`: the new dual step direction
(only the segment of the active inequalities is written). -/
def FactorizationData.computeInequalityDualStep {K : Type} [LinearOrderedField K]
    (fd : FactorizationData K) (dual_step_direction : QPVector K) (ctr : QPVector K)
    (ctr_type : ConstraintStatus) (active_set : ActiveSet) : QPVector K :=
  let rhs : QPVector K := fun k =>
    if active_set.num_equalities_ ≤ k ∧
       k < active_set.num_equalities_ + active_set.num_inequalities_ then
      if ctr_type = ConstraintStatus.ACTIVE_LOWER_BOUND then
        ∑ i in Finset.range fd.primal_size_,
          fd.QLi_aka_J i (fd.primal_size_ - active_set.num_inequalities_
            + (k - active_set.num_equalities_)) * ctr i
      else
        -(∑ i in Finset.range fd.primal_size_,
          fd.QLi_aka_J i (fd.primal_size_ - active_set.num_inequalities_
            + (k - active_set.num_equalities_)) * ctr i)
    else dual_step_direction k
  let sol := backSolve fd.R rhs
    (active_set.num_equalities_ + active_set.num_inequalities_) active_set.num_inequalities_
  fun k =>
    if active_set.num_equalities_ ≤ k ∧
       k < active_set.num_equalities_ + active_set.num_inequalities_ then sol k
    else dual_step_direction k

/-! ## `solver.h` -/

/-- Modelled from the spec: the recognised values of `hessian_type_`
(`solver_parameters.h` is not part of the sources; spec 6.2);
`HESSIAN_UNDEFINED` stands for every unrecognised value. -/
inductive HessianType
  | HESSIAN_UNDEFINED
  | HESSIAN_LOWER_TRIANGULAR
  | HESSIAN_CHOLESKY_FACTOR
  deriving DecidableEq, Repr

/-- Modelled from the spec: `SolverParameters` (spec 6.2). -/
structure SolverParameters (K : Type) where
  hessian_type_ : HessianType
  tolerance_ : K
  max_iter_ : Int

/-- Modelled from the spec: the sizes that `InputParser::parseObjective` and
`parseGeneralConstraints` record (`input_parser.h` is not part of the sources):
`H` is `primal_size_ × primal_size_`, `h` has `h_size_` entries (0 or
`primal_size_`), `A` has `num_general_constraints_` rows. -/
structure InputParser where
  primal_size_ : Nat
  h_size_ : Nat
  num_simple_bounds_ : Nat
  num_general_constraints_ : Nat

/-- `Solver::ChosenConstraint`. -/
structure ChosenConstraint (K : Type) where
  violation_ : K
  dual_ : K
  index_ : Nat
  type_ : ConstraintStatus

/-- The constructor `ChosenConstraint()`. -/
def ChosenConstraint.init {K : Type} [LinearOrderedField K] : ChosenConstraint K :=
  { violation_ := 0, dual_ := 0, index_ := 0, type_ := ConstraintStatus.UNDEFINED }

/-- The members of `Solver` (with those of its base `InputParser`), together
with the in/out argument `primal` of `solve`. -/
structure Solver (K : Type) extends InputParser where
  primal : QPVector K
  machinery_initialized_ : Bool
  active_set_ : ActiveSet
  factorization_data_ : FactorizationData K
  dual_ : QPVector K
  primal_step_direction_ : QPVector K
  dual_step_direction_ : QPVector K
  general_constraints_status_ : Nat → ConstraintStatus

/-- How a call of `solve` ends: it returns a status, or it raises. -/
inductive Outcome (K : Type)
  | returned (status : ReturnStatus) (s : Solver K)
  | raised (e : QPError) (s : Solver K)

/-- One pass through a loop body: go on with the next iteration, or leave
`solve`. -/
inductive Step (σ : Type) (K : Type)
  | next (s : σ)
  | done (o : Outcome K)

/-- `Solver::initializeMachineryLazy(H)`. -/
def Solver.initializeMachineryLazy {K : Type} [LinearOrderedField K]
    (s : Solver K) (H : QPMatrix K) : Solver K :=
  if s.machinery_initialized_ = false then
    { s with
      active_set_ := ActiveSet.initialize s.primal_size_
      factorization_data_ := FactorizationData.initialize H s.primal_size_
      primal_step_direction_ := fun _ => 0
      machinery_initialized_ := true }
  else s

/-- Body of the loop of `chooseConstraint` (lines 432-466). -/
def Solver.chooseConstraintStep {K : Type} [LinearOrderedField K]
    (n : Nat) (primal : QPVector K) (A : QPMatrix K) (Alb Aub : QPVector K) (tolerance : K)
    (i : Nat) (st : ChosenConstraint K × (Nat → ConstraintStatus)) :
    ChosenConstraint K × (Nat → ConstraintStatus) :=
  if st.2 i = ConstraintStatus.INACTIVE ∨ st.2 i = ConstraintStatus.VIOLATED then
    let ctr_violation_i := dot n (A i) primal
    if Alb i - tolerance > ctr_violation_i then
      let status := Function.update st.2 i ConstraintStatus.VIOLATED
      let ctr_violation_i := ctr_violation_i - Alb i
      if |ctr_violation_i| > |st.1.violation_| then
        ({ st.1 with
           type_ := ConstraintStatus.ACTIVE_LOWER_BOUND
           violation_ := ctr_violation_i
           index_ := i }, status)
      else (st.1, status)
    else
      if Aub i + tolerance < ctr_violation_i then
        let status := Function.update st.2 i ConstraintStatus.VIOLATED
        let ctr_violation_i := ctr_violation_i - Aub i
        if |ctr_violation_i| > |st.1.violation_| then
          ({ st.1 with
             type_ := ConstraintStatus.ACTIVE_UPPER_BOUND
             violation_ := ctr_violation_i
             index_ := i }, status)
        else (st.1, status)
      else (st.1, Function.update st.2 i ConstraintStatus.INACTIVE)
  else st

/-- `Solver::chooseConstraint`: the chosen constraint and the solver with the
updated status vector. -/
def Solver.chooseConstraint {K : Type} [LinearOrderedField K]
    (s : Solver K) (primal : QPVector K) (A : QPMatrix K) (Alb Aub : QPVector K)
    (tolerance : K) : ChosenConstraint K × Solver K :=
  let r := forUp (Solver.chooseConstraintStep s.primal_size_ primal A Alb Aub tolerance)
    0 s.num_general_constraints_ (ChosenConstraint.init, s.general_constraints_status_)
  (r.1, { s with general_constraints_status_ := r.2 })

/-- The update `primal += step_length * primal_step_direction_` (lines 144 and 280). -/
def Solver.primalUpdate {K : Type} [LinearOrderedField K]
    (s : Solver K) (step_length : K) : Solver K :=
  { s with primal := fun k => s.primal k + step_length * s.primal_step_direction_ k }

/-- The assignment `general_constraints_status_[i] = status`. -/
def Solver.setStatus {K : Type} (s : Solver K) (i : Nat) (status : ConstraintStatus) : Solver K :=
  { s with general_constraints_status_ := Function.update s.general_constraints_status_ i status }

/-- The call `computeEqualityPrimalStep(primal_step_direction_, ctr, active_set_.size_)`
(lines 134-135). -/
def Solver.equalityDirection {K : Type} [LinearOrderedField K]
    (s : Solver K) (ctr : QPVector K) : Solver K :=
  { s with
    factorization_data_ :=
      (s.factorization_data_.computeEqualityPrimalStep ctr s.active_set_.size_).1
    primal_step_direction_ :=
      (s.factorization_data_.computeEqualityPrimalStep ctr s.active_set_.size_).2 }

/-- The primal step onto an equality followed by `update` (lines 144-146): the
new state and the flag that `update` returned. -/
def Solver.equalityTake {K : Type} [LinearOrderedField K] (sqrt : K → K)
    (s : Solver K) (step_length : K) (tolerance : K) : Solver K × Bool :=
  ({ s.primalUpdate step_length with
     factorization_data_ :=
       (s.factorization_data_.update sqrt s.active_set_.size_ tolerance).1 },
   (s.factorization_data_.update sqrt s.active_set_.size_ tolerance).2)

/-- The call `active_set_.addEquality(i)` (line 150). -/
def Solver.addEquality {K : Type} (s : Solver K) (i : Nat) : Solver K :=
  { s with active_set_ := s.active_set_.addEquality i }

/-- Body of the equality-activation loop of `solve` (lines 110-166) for
constraint `i`; the loop state is the solver and `num_general_equalities`.
`H` holds the Cholesky factor. -/
def Solver.equalityStep {K : Type} [LinearOrderedField K] (sqrt : K → K)
    (H : QPMatrix K) (A : QPMatrix K) (Alb Aub : QPVector K) (param : SolverParameters K)
    (i : Nat) (st : Solver K × Nat) : Step (Solver K × Nat) K :=
  if Alb i - param.tolerance_ > Aub i then
    Step.done (Outcome.raised QPError.INCONSISTENT_BOUNDS
      (st.1.setStatus i ConstraintStatus.INCONSISTENT))
  else if |Alb i - Aub i| > param.tolerance_ then
    Step.next (st.1.setStatus i ConstraintStatus.INACTIVE, st.2)
  else
    let num_general_equalities := st.2 + 1
    let violation := Alb i - dot st.1.primal_size_ (A i) st.1.primal
    let s := (st.1.setStatus i ConstraintStatus.EQUALITY).initializeMachineryLazy H
    if s.active_set_.hasEmptySpace = true then
      let s := s.equalityDirection (A i)
      let ctr_i_dot_primal_step_direction := dot s.primal_size_ (A i) s.primal_step_direction_
      if ctr_i_dot_primal_step_direction < -param.tolerance_ then
        let r := s.equalityTake sqrt (violation / ctr_i_dot_primal_step_direction)
          param.tolerance_
        if r.2 = false then
          Step.done (Outcome.raised QPError.FAILED_TO_ADD_EQUALITY r.1)
        else
          Step.next (r.1.addEquality i, num_general_equalities)
      else
        if |violation| > param.tolerance_ then
          Step.done (Outcome.returned ReturnStatus.INFEASIBLE_EQUALITY s)
        else Step.next (s, num_general_equalities)
    else
      if |violation| > param.tolerance_ then
        Step.done (Outcome.returned ReturnStatus.INFEASIBLE_EQUALITY s)
      else Step.next (s, num_general_equalities)

/-- The loop `for (i = 0; i < num_general_constraints_; ++i)` of `solve`, with
`count` iterations left, entered at `i`. -/
def Solver.equalityLoop {K : Type} [LinearOrderedField K] (sqrt : K → K)
    (H : QPMatrix K) (A : QPMatrix K) (Alb Aub : QPVector K) (param : SolverParameters K) :
    Nat → Nat → Solver K × Nat → Step (Solver K × Nat) K
  | 0, _, st => Step.next st
  | count + 1, i, st =>
    match Solver.equalityStep sqrt H A Alb Aub param i st with
    | Step.next st1 => Solver.equalityLoop sqrt H A Alb Aub param count (i + 1) st1
    | Step.done o => Step.done o

/-- Body of the dual blocking sweep (lines 233-241); the state is
`(dual_blocking_index, dual_step_length)`, `none` standing for `+∞`. -/
def Solver.dualBlockingStep {K : Type} [LinearOrderedField K]
    (tolerance : K) (dual dual_step_direction : QPVector K) (i : Nat)
    (st : Nat × Option K) : Nat × Option K :=
  if dual_step_direction i < -tolerance then
    let dual_step_length_i := -dual i / dual_step_direction i
    match st.2 with
    | none => (i, some dual_step_length_i)
    | some dual_step_length =>
      if dual_step_length_i < dual_step_length then (i, some dual_step_length_i) else st
  else st

/-- Deactivation of the blocking constraint (lines 303-309 and 341-347). -/
def Solver.deactivate {K : Type} [LinearOrderedField K] (sqrt : K → K)
    (s : Solver K) (dual_blocking_index : Nat) (tolerance : K) : Solver K :=
  { s with
    general_constraints_status_ :=
      Function.update s.general_constraints_status_
        (s.active_set_.getIndex dual_blocking_index) ConstraintStatus.INACTIVE
    dual_ := dropElementWithoutResize s.dual_ dual_blocking_index s.active_set_.size_
    factorization_data_ :=
      s.factorization_data_.downdate sqrt dual_blocking_index s.active_set_.size_ tolerance
    active_set_ := s.active_set_.removeInequality dual_blocking_index }

/-- Step directions (lines 207-226): primal and dual direction when the active
set has room, the dual direction only when it is full. -/
def Solver.computeStepDirections {K : Type} [LinearOrderedField K]
    (s : Solver K) (A : QPMatrix K) (chosen_ctr : ChosenConstraint K) : Solver K :=
  if s.active_set_.hasEmptySpace then
    let r := s.factorization_data_.computeInequalitySteps s.dual_step_direction_
      (A chosen_ctr.index_) chosen_ctr.type_ s.active_set_
    { s with
      factorization_data_ := r.1
      primal_step_direction_ := r.2.1
      dual_step_direction_ := r.2.2 }
  else
    { s with
      dual_step_direction_ :=
        s.factorization_data_.computeInequalityDualStep s.dual_step_direction_
          (A chosen_ctr.index_) chosen_ctr.type_ s.active_set_ }

/-- The dual blocking sweep (lines 229-242): `(dual_blocking_index,
dual_step_length)`, with `none` for `+∞`. -/
def Solver.dualBlocking {K : Type} [LinearOrderedField K]
    (s : Solver K) (tolerance : K) : Nat × Option K :=
  forUp (Solver.dualBlockingStep tolerance s.dual_ s.dual_step_direction_)
    s.active_set_.num_equalities_ (s.active_set_.size_ - s.active_set_.num_equalities_)
    (s.primal_size_, none)

/-- The update `dual_.segment(nE, nI) += step_length * dual_step_direction_.segment(nE, nI)`
(lines 282-284 and 336-338). -/
def Solver.dualUpdate {K : Type} [LinearOrderedField K]
    (s : Solver K) (step_length : K) : Solver K :=
  { s with
    dual_ := fun k =>
      if s.active_set_.num_equalities_ ≤ k ∧
         k < s.active_set_.num_equalities_ + s.active_set_.num_inequalities_ then
        s.dual_ k + step_length * s.dual_step_direction_ k
      else s.dual_ k }

/-- Activation of the chosen constraint (lines 315-317). -/
def Solver.activate {K : Type} [LinearOrderedField K]
    (s : Solver K) (chosen_ctr : ChosenConstraint K) : Solver K :=
  { s with
    general_constraints_status_ :=
      Function.update s.general_constraints_status_ chosen_ctr.index_ chosen_ctr.type_
    dual_ := Function.update s.dual_ s.active_set_.size_ chosen_ctr.dual_
    active_set_ := s.active_set_.addInequality chosen_ctr.index_ }

/-- The condition of `QPMAD_ASSERT` in lines 270-272: both step lengths are
non-negative (`none` stands for `+∞`). -/
def Solver.lengthsOk {K : Type} [LinearOrderedField K]
    (dual_step_length : Option K) (step_length : K) : Bool :=
  match dual_step_length with
  | none => decide (step_length ≥ 0)
  | some t => decide (step_length ≥ 0 ∧ t ≥ 0)

/-- The choice between the primal and the dual step length (lines 269-277): the
step length that is taken and the flag `partial_step`. -/
def Solver.truncateStep {K : Type} [LinearOrderedField K]
    (dual_step_length : Option K) (step_length : K) : K × Bool :=
  match dual_step_length with
  | none => (step_length, false)
  | some t => if t ≤ step_length then (t, true) else (step_length, false)

/-- The step in primal and dual space followed by `update` (lines 280-291): the
new state and the flag that `update` returned. -/
def Solver.takeStep {K : Type} [LinearOrderedField K] (sqrt : K → K)
    (s : Solver K) (step_length : K) (tolerance : K) : Solver K × Bool :=
  let s := (s.primalUpdate step_length).dualUpdate step_length
  let u := s.factorization_data_.update sqrt s.active_set_.size_ tolerance
  ({ s with factorization_data_ := u.1 }, u.2)

/-- Body of the main loop of `solve` (lines 197-349).  `asserts` says whether
`QPMAD_ASSERT` is compiled in (`common.h` is not part of the sources). `H` holds
the Cholesky factor. -/
def Solver.mainStep {K : Type} [LinearOrderedField K] (sqrt : K → K) (asserts : Bool)
    (H : QPMatrix K) (A : QPMatrix K) (Alb Aub : QPVector K) (param : SolverParameters K)
    (st : Solver K × ChosenConstraint K) : Step (Solver K × ChosenConstraint K) K :=
  let chosen_ctr := st.2
  if |chosen_ctr.violation_| < param.tolerance_ then
    Step.done (Outcome.returned ReturnStatus.OK st.1)
  else
    let s := (st.1.initializeMachineryLazy H).computeStepDirections A chosen_ctr
    let dual_blocking_index := (s.dualBlocking param.tolerance_).1
    let dual_step_length := (s.dualBlocking param.tolerance_).2
    let chosen_ctr_dot_primal_step_direction :=
      dot s.primal_size_ (A chosen_ctr.index_) s.primal_step_direction_
    if s.active_set_.hasEmptySpace = true
        ∧ |chosen_ctr_dot_primal_step_direction| > param.tolerance_ then
      let step_length := -chosen_ctr.violation_ / chosen_ctr_dot_primal_step_direction
      if asserts = true ∧ Solver.lengthsOk dual_step_length step_length = false then
        Step.done (Outcome.raised QPError.NEGATIVE_STEP_LENGTH s)
      else
        let partial_step := (Solver.truncateStep dual_step_length step_length).2
        let step_length := (Solver.truncateStep dual_step_length step_length).1
        let r := s.takeStep sqrt step_length param.tolerance_
        let chosen_ctr : ChosenConstraint K := { chosen_ctr with
          dual_ := chosen_ctr.dual_ + step_length
          violation_ := chosen_ctr.violation_ + step_length * chosen_ctr_dot_primal_step_direction }
        if r.2 = false then
          Step.done (Outcome.raised QPError.FAILED_TO_ADD_INEQUALITY r.1)
        else if partial_step = true ∧ |chosen_ctr.violation_| > param.tolerance_ then
          Step.next (Solver.deactivate sqrt r.1 dual_blocking_index param.tolerance_, chosen_ctr)
        else
          let s := r.1.activate chosen_ctr
          let c := s.chooseConstraint s.primal A Alb Aub param.tolerance_
          Step.next (c.2, c.1)
    else
      if dual_blocking_index = s.primal_size_ then
        Step.done (Outcome.returned ReturnStatus.INFEASIBLE_INEQUALITY s)
      else
        let t := dual_step_length.getD 0
        let chosen_ctr : ChosenConstraint K := { chosen_ctr with dual_ := chosen_ctr.dual_ + t }
        Step.next
          (Solver.deactivate sqrt (s.dualUpdate t) dual_blocking_index param.tolerance_, chosen_ctr)

/-- The loop `for (iter = 0; (iter < max_iter_) || (max_iter_ < 0); ++iter)` of
`solve`.  With `max_iter_ < 0` the loop is unbounded, so it is run on `fuel`:
`none` means that the fuel ran out before the loop was left. -/
def Solver.mainLoop {K : Type} [LinearOrderedField K] (sqrt : K → K) (asserts : Bool)
    (H : QPMatrix K) (A : QPMatrix K) (Alb Aub : QPVector K) (param : SolverParameters K) :
    Nat → Int → Solver K × ChosenConstraint K → Option (Outcome K)
  | 0, _, _ => none
  | fuel + 1, iter, st =>
    if iter < param.max_iter_ ∨ param.max_iter_ < 0 then
      match Solver.mainStep sqrt asserts H A Alb Aub param st with
      | Step.next st1 => Solver.mainLoop sqrt asserts H A Alb Aub param fuel (iter + 1) st1
      | Step.done o => some o
    else some (Outcome.returned ReturnStatus.MAXIMAL_NUMBER_OF_ITERATIONS st.1)

/-- The solver before a call of `solve`, after `parseObjective` and
`parseGeneralConstraints` recorded the sizes; the buffers are taken to be
zero. -/
def Solver.start {K : Type} [LinearOrderedField K] (sizes : InputParser) : Solver K :=
  { toInputParser := sizes
    primal := fun _ => 0
    machinery_initialized_ := false
    active_set_ := ActiveSet.initialize 0
    factorization_data_ := { QLi_aka_J := fun _ _ => 0, R := fun _ _ => 0, primal_size_ := 0 }
    dual_ := fun _ => 0
    primal_step_direction_ := fun _ => 0
    dual_step_direction_ := fun _ => 0
    general_constraints_status_ := fun _ => ConstraintStatus.UNDEFINED }

/-- The Hessian preparation of `solve` (lines 72-83): the Cholesky factor that
the rest of `solve` works with, or `none` for malformed parameters. -/
def Solver.prepareHessian {K : Type} [LinearOrderedField K] (sqrt : K → K)
    (n : Nat) (H : QPMatrix K) (param : SolverParameters K) : Option (QPMatrix K) :=
  match param.hessian_type_ with
  | HessianType.HESSIAN_LOWER_TRIANGULAR => some (CholeskyFactorization.compute sqrt n H)
  | HessianType.HESSIAN_CHOLESKY_FACTOR => some H
  | HessianType.HESSIAN_UNDEFINED => none

/-- The state in which `solve` reaches the check of the number of constraints
(lines 66-94): the machinery is marked uninitialised and `primal` holds the
unconstrained optimum, computed from the Cholesky factor `H`. -/
def Solver.entry {K : Type} [LinearOrderedField K] (sizes : InputParser) (H : QPMatrix K)
    (h : QPVector K) : Solver K :=
  { (Solver.start sizes : Solver K) with
    primal :=
      if sizes.h_size_ > 0 then CholeskyFactorization.solve sizes.primal_size_ H (fun k => -h k)
      else fun _ => 0 }

/-- The state and the chosen constraint with which `solve` enters the main
loop (lines 177-183), given the state `s` left by the equality-activation
loop. -/
def Solver.mainEntry {K : Type} [LinearOrderedField K] (s : Solver K) (A : QPMatrix K)
    (Alb Aub : QPVector K) (param : SolverParameters K) : Solver K × ChosenConstraint K :=
  let s : Solver K := { s with dual_ := fun _ => 0, dual_step_direction_ := fun _ => 0 }
  let r := s.chooseConstraint s.primal A Alb Aub param.tolerance_
  (r.2, r.1)

/-- `Solver::solve(primal, H, h, A, Alb, Aub, param)` (lines 56-369) after the
factor `H` has been prepared. -/
def Solver.solveWithFactor {K : Type} [LinearOrderedField K] (sqrt : K → K) (asserts : Bool)
    (sizes : InputParser) (H : QPMatrix K) (h : QPVector K) (A : QPMatrix K)
    (Alb Aub : QPVector K) (param : SolverParameters K) (fuel : Nat) : Option (Outcome K) :=
  let s : Solver K := Solver.entry sizes H h
  if 0 = s.num_simple_bounds_ + s.num_general_constraints_ then
    some (Outcome.returned ReturnStatus.OK s)
  else
    match Solver.equalityLoop sqrt H A Alb Aub param s.num_general_constraints_ 0 (s, 0) with
    | Step.done o => some o
    | Step.next st =>
      if st.2 = st.1.num_general_constraints_ ∧ 0 = st.1.num_simple_bounds_ then
        some (Outcome.returned ReturnStatus.OK st.1)
      else
        Solver.mainLoop sqrt asserts H A Alb Aub param fuel 0
          (Solver.mainEntry st.1 A Alb Aub param)

/-- `Solver::solve(primal, H, h, A, Alb, Aub, param)`.  `sizes` are the sizes of
the arguments, `fuel` bounds the number of main-loop iterations that are run. -/
def Solver.solve {K : Type} [LinearOrderedField K] (sqrt : K → K) (asserts : Bool)
    (sizes : InputParser) (H : QPMatrix K) (h : QPVector K) (A : QPMatrix K)
    (Alb Aub : QPVector K) (param : SolverParameters K) (fuel : Nat) : Option (Outcome K) :=
  match Solver.prepareHessian sqrt sizes.primal_size_ H param with
  | none => some (Outcome.raised QPError.MALFORMED_PARAMETERS (Solver.start sizes))
  | some L => Solver.solveWithFactor sqrt asserts sizes L h A Alb Aub param fuel

/-! ## Notions used in the statements -/

/-- The parameter `sqrt` is a square root on the non-negative elements. -/
def IsSqrt {K : Type} [LinearOrderedField K] (sqrt : K → K) : Prop :=
  ∀ x : K, 0 ≤ x → 0 ≤ sqrt x ∧ sqrt x * sqrt x = x

/-- The block of the first `rows` rows and `cols` columns of `M` is
upper-triangular. -/
def UpperTriangular {K : Type} [LinearOrderedField K] (M : QPMatrix K) (rows cols : Nat) : Prop :=
  ∀ r c, r < rows → c < cols → c < r → M r c = 0

/-- The bilinear form `uᵀ·H·v` of an `n × n` matrix. -/
def bil {K : Type} [LinearOrderedField K] (n : Nat) (H : QPMatrix K) (u v : QPVector K) : K :=
  ∑ a in Finset.range n, ∑ b in Finset.range n, u a * H a b * v b

/-- Entry `(i, j)` of `Jᵀ·H·J` for `n × n` matrices. -/
def gram {K : Type} [LinearOrderedField K] (n : Nat) (H J : QPMatrix K) (i j : Nat) : K :=
  ∑ a in Finset.range n, ∑ b in Finset.range n, J a i * H a b * J b j

/-- The identity `Jᵀ·H·J = I` for `n × n` matrices. -/
def HOrthonormal {K : Type} [LinearOrderedField K] (n : Nat) (H J : QPMatrix K) : Prop :=
  ∀ i j, i < n → j < n → gram n H J i j = if i = j then 1 else 0

/-- Entry `r` of `Jᵀ·a` for an `n × n` matrix `J`. -/
def colT {K : Type} [LinearOrderedField K] (n : Nat) (J : QPMatrix K) (a : QPVector K)
    (r : Nat) : K :=
  ∑ k in Finset.range n, J k r * a k

/-- Column `c` of `R`, for each `c < q`, holds `Jᵀ·(N c)`: the entries down to the
diagonal are those of `R`, the entries below the diagonal vanish. -/
def Tracks {K : Type} [LinearOrderedField K] (n : Nat) (J R : QPMatrix K)
    (N : Nat → QPVector K) (q : Nat) : Prop :=
  ∀ c, c < q → ∀ r, r < n → colT n J (N c) r = if r ≤ c then R r c else 0

/-- Where the loop of `downdate(j, ·)`, about to run iteration `i`, keeps the
old column `c`. -/
def downdatePos (j i c : Nat) : Nat := if j < c ∧ c < i then c - 1 else c

/-- Invariant of the loop of `downdate(j, q)` before iteration `i`. -/
def DowndateInv {K : Type} [LinearOrderedField K] (n : Nat) (J R : QPMatrix K)
    (N : Nat → QPVector K) (j q i : Nat) : Prop :=
  ∀ c, c < q → c ≠ j → ∀ r, r < n →
    colT n J (N c) r = if r ≤ downdatePos j i c then R r (downdatePos j i c) else 0

/-- The identity matrix. -/
def idMat {K : Type} [LinearOrderedField K] : QPMatrix K := fun a b => if a = b then 1 else 0


/-- Constraint `i` is looked at by `chooseConstraint` and its value
`A[i]·x` lies outside `[Alb[i] − tol, Aub[i] + tol]`. -/
def IsCandidate {K : Type} [LinearOrderedField K] (status : Nat → ConstraintStatus) (n : Nat)
    (x : QPVector K) (A : QPMatrix K) (Alb Aub : QPVector K) (tol : K) (i : Nat) : Prop :=
  (status i = ConstraintStatus.INACTIVE ∨ status i = ConstraintStatus.VIOLATED) ∧
  (Alb i - tol > dot n (A i) x ∨ Aub i + tol < dot n (A i) x)

/-- The violation of constraint `i` at `x`: `y − Alb[i]` below the lower bound,
`y − Aub[i]` otherwise. -/
def ctrViolation {K : Type} [LinearOrderedField K] (n : Nat)
    (x : QPVector K) (A : QPMatrix K) (Alb Aub : QPVector K) (tol : K) (i : Nat) : K :=
  if Alb i - tol > dot n (A i) x then dot n (A i) x - Alb i else dot n (A i) x - Aub i

/-- What `chooseConstraint` has found after looking at the constraints below `i`. -/
def ChosenUpTo {K : Type} [LinearOrderedField K] (status : Nat → ConstraintStatus) (n : Nat)
    (x : QPVector K) (A : QPMatrix K) (Alb Aub : QPVector K) (tol : K) (i : Nat)
    (ch : ChosenConstraint K) : Prop :=
  ch.dual_ = 0 ∧
  ((ch.violation_ = 0 ∧ ch.index_ = 0 ∧ ch.type_ = ConstraintStatus.UNDEFINED ∧
      ∀ k, k < i → ¬ IsCandidate status n x A Alb Aub tol k) ∨
   (ch.index_ < i ∧ IsCandidate status n x A Alb Aub tol ch.index_ ∧
      ch.violation_ = ctrViolation n x A Alb Aub tol ch.index_ ∧
      ((Alb ch.index_ - tol > dot n (A ch.index_) x ∧
          ch.type_ = ConstraintStatus.ACTIVE_LOWER_BOUND) ∨
       (¬ Alb ch.index_ - tol > dot n (A ch.index_) x ∧
          ch.type_ = ConstraintStatus.ACTIVE_UPPER_BOUND)) ∧
      (∀ k, k < i → IsCandidate status n x A Alb Aub tol k →
        |ctrViolation n x A Alb Aub tol k| ≤ |ch.violation_|) ∧
      (∀ k, k < ch.index_ → IsCandidate status n x A Alb Aub tol k →
        |ctrViolation n x A Alb Aub tol k| < |ch.violation_|)))


/-- The vector with the given entries (0 beyond them). -/
def vecOf {K : Type} [LinearOrderedField K] (l : List K) : QPVector K := fun i => l.getD i 0

/-- The matrix with the given rows (0 beyond them). -/
def matOf {K : Type} [LinearOrderedField K] (l : List (List K)) : QPMatrix K :=
  fun i j => (l.getD i []).getD j 0

/-- The call returned, and the status and final state pass the test `P`. -/
def returnedWith {K : Type} (o : Option (Outcome K)) (P : ReturnStatus → Solver K → Bool) : Bool :=
  match o with
  | some (Outcome.returned status s) => P status s
  | _ => false


/-- The vector that column `c` of `R` stands for: the row of the constraint at
position `c` of the active set, negated for a constraint active at its lower
bound. -/
def Solver.normal {K : Type} [LinearOrderedField K] (s : Solver K) (A : QPMatrix K) (c : Nat) :
    QPVector K :=
  fun k =>
    if s.general_constraints_status_ (s.active_set_.getIndex c)
        = ConstraintStatus.ACTIVE_LOWER_BOUND then
      -A (s.active_set_.getIndex c) k
    else A (s.active_set_.getIndex c) k

/-- The machinery is initialised and consistent: sizes agree, the columns of `R`
hold the images of the active normals under `Jᵀ`, no constraint is active
twice. -/
structure Solver.WF {K : Type} [LinearOrderedField K] (s : Solver K) (A : QPMatrix K) : Prop where
  init : s.machinery_initialized_ = true
  max_size : s.active_set_.max_size_ = s.primal_size_
  fd_size : s.factorization_data_.primal_size_ = s.primal_size_
  size_eq : s.active_set_.size_ = s.active_set_.num_equalities_ + s.active_set_.num_inequalities_
  size_le : s.active_set_.size_ ≤ s.primal_size_
  tracks : Tracks s.primal_size_ s.factorization_data_.QLi_aka_J s.factorization_data_.R
    (s.normal A) s.active_set_.size_
  inj : ∀ c c', c < s.active_set_.size_ → c' < s.active_set_.size_ →
    s.active_set_.getIndex c = s.active_set_.getIndex c' → c = c'



/-- Invariant of the equality-activation loop before constraint `i` is looked
at: only equalities are active, each activated equality holds exactly, the
constraints below `i` are classified, and `neq` counts the equalities. -/
structure Solver.EqInv {K : Type} [LinearOrderedField K] (s : Solver K) (A : QPMatrix K)
    (Alb Aub : QPVector K) (tol : K) (i neq : Nat) : Prop where
  wf : s.WF A
  no_ineq : s.active_set_.num_inequalities_ = 0
  active : ∀ c, c < s.active_set_.size_ →
    s.active_set_.getIndex c < i ∧
    s.general_constraints_status_ (s.active_set_.getIndex c) = ConstraintStatus.EQUALITY ∧
    dot s.primal_size_ (A (s.active_set_.getIndex c)) s.primal = Alb (s.active_set_.getIndex c)
  status : ∀ k, k < i →
    (s.general_constraints_status_ k = ConstraintStatus.EQUALITY ∧ |Alb k - Aub k| ≤ tol) ∨
    (s.general_constraints_status_ k = ConstraintStatus.INACTIVE ∧ Alb k + tol < Aub k)
  count : neq ≤ i ∧
    ((∃ k, k < i ∧ s.general_constraints_status_ k = ConstraintStatus.INACTIVE) → neq < i)



/-- Before the machinery is initialised the active set is the empty one of
`Solver.start`. -/
def Solver.RawEmpty {K : Type} (s : Solver K) : Prop :=
  s.machinery_initialized_ = false →
    s.active_set_.size_ = 0 ∧ s.active_set_.num_equalities_ = 0 ∧
    s.active_set_.num_inequalities_ = 0


/-- An example state of the factorization: `n = 2`, `J = I`,
`R = [[1, 5], [0, 3]]`. -/
def exampleFD {K : Type} [LinearOrderedField K] : FactorizationData K :=
  { QLi_aka_J := idMat, R := matOf [[1, 5], [0, 3]], primal_size_ := 2 }

/-- An example state of the factorization with an entry below the diagonal:
`n = 2`, `J = I`, `R = [[1, 5], [7, 3]]`. -/
def exampleFDLower {K : Type} [LinearOrderedField K] : FactorizationData K :=
  { QLi_aka_J := idMat, R := matOf [[1, 5], [7, 3]], primal_size_ := 2 }

/-- The state in which the equality-activation loop examines equality `i`. -/
def Solver.eqCandidate {K : Type} [LinearOrderedField K] (s : Solver K) (H : QPMatrix K)
    (i : Nat) : Solver K :=
  (s.setStatus i ConstraintStatus.EQUALITY).initializeMachineryLazy H

/-- The product `ρ = A[i]·p` of the row of equality `i` with its step direction. -/
def Solver.eqRho {K : Type} [LinearOrderedField K] (s : Solver K) (H A : QPMatrix K)
    (i : Nat) : K :=
  dot s.primal_size_ (A i)
    ((s.eqCandidate H i).equalityDirection (A i)).primal_step_direction_

/-- The state in which a linearly dependent equality leaves the solver. -/
def Solver.eqSkipped {K : Type} [LinearOrderedField K] (s : Solver K) (H A : QPMatrix K)
    (i : Nat) : Solver K :=
  if (s.eqCandidate H i).active_set_.hasEmptySpace = true then
    (s.eqCandidate H i).equalityDirection (A i)
  else s.eqCandidate H i


/-- The active set `b` keeps the entries of the active set `a`. -/
def ActiveSet.Keeps (a b : ActiveSet) : Prop :=
  a.size_ ≤ b.size_ ∧ ∀ c, c < a.size_ → b.getIndex c = a.getIndex c


/-- Constraint `i` holds at `x` up to the tolerance:
`Alb[i] − tol ≤ A[i]·x ≤ Aub[i] + tol`. -/
def Within {K : Type} [LinearOrderedField K] (n : Nat) (x : QPVector K) (A : QPMatrix K)
    (Alb Aub : QPVector K) (tol : K) (i : Nat) : Prop :=
  Alb i - tol ≤ dot n (A i) x ∧ dot n (A i) x ≤ Aub i + tol

/-- Invariant of the main loop on the solver state: the machinery is consistent,
the active equalities hold exactly and sit in the positions below
`num_equalities_`, the active inequalities hold at their bound up to the
tolerance, every constraint is classified, and a constraint with an active
status is in the active set. -/
structure Solver.MainInv {K : Type} [LinearOrderedField K] (s : Solver K) (A : QPMatrix K)
    (Alb Aub : QPVector K) (tol : K) : Prop where
  wf : s.WF A
  active : ∀ c, c < s.active_set_.size_ →
    s.active_set_.getIndex c < s.num_general_constraints_ ∧
    ((c < s.active_set_.num_equalities_ ∧
        s.general_constraints_status_ (s.active_set_.getIndex c) = ConstraintStatus.EQUALITY ∧
        dot s.primal_size_ (A (s.active_set_.getIndex c)) s.primal
          = Alb (s.active_set_.getIndex c)) ∨
     (s.active_set_.num_equalities_ ≤ c ∧
        s.general_constraints_status_ (s.active_set_.getIndex c)
          = ConstraintStatus.ACTIVE_LOWER_BOUND ∧
        |dot s.primal_size_ (A (s.active_set_.getIndex c)) s.primal
          - Alb (s.active_set_.getIndex c)| ≤ tol) ∨
     (s.active_set_.num_equalities_ ≤ c ∧
        s.general_constraints_status_ (s.active_set_.getIndex c)
          = ConstraintStatus.ACTIVE_UPPER_BOUND ∧
        |dot s.primal_size_ (A (s.active_set_.getIndex c)) s.primal
          - Aub (s.active_set_.getIndex c)| ≤ tol))
  status : ∀ i, i < s.num_general_constraints_ →
    (s.general_constraints_status_ i = ConstraintStatus.EQUALITY ∧ |Alb i - Aub i| ≤ tol) ∨
    ((s.general_constraints_status_ i = ConstraintStatus.INACTIVE ∨
      s.general_constraints_status_ i = ConstraintStatus.VIOLATED ∨
      s.general_constraints_status_ i = ConstraintStatus.ACTIVE_LOWER_BOUND ∨
      s.general_constraints_status_ i = ConstraintStatus.ACTIVE_UPPER_BOUND) ∧
     Alb i + tol < Aub i)
  located : ∀ i, i < s.num_general_constraints_ →
    (s.general_constraints_status_ i = ConstraintStatus.ACTIVE_LOWER_BOUND ∨
      s.general_constraints_status_ i = ConstraintStatus.ACTIVE_UPPER_BOUND) →
    ∃ c, c < s.active_set_.size_ ∧ s.active_set_.getIndex c = i

/-- The record `ch` holds a constraint that `chooseConstraint` marked as
violated, with the bound that it violates and its current violation. -/
def Solver.Pending {K : Type} [LinearOrderedField K] (s : Solver K) (A : QPMatrix K)
    (Alb Aub : QPVector K) (ch : ChosenConstraint K) : Prop :=
  ch.index_ < s.num_general_constraints_ ∧
  s.general_constraints_status_ ch.index_ = ConstraintStatus.VIOLATED ∧
  ((ch.type_ = ConstraintStatus.ACTIVE_LOWER_BOUND ∧
      ch.violation_ = dot s.primal_size_ (A ch.index_) s.primal - Alb ch.index_) ∨
   (ch.type_ = ConstraintStatus.ACTIVE_UPPER_BOUND ∧
      ch.violation_ = dot s.primal_size_ (A ch.index_) s.primal - Aub ch.index_))

/-- What the main loop knows about the chosen constraint at the head of an
iteration: either no constraint is violated, or the record holds a violated
constraint together with its current violation. -/
def Solver.Chosen {K : Type} [LinearOrderedField K] (s : Solver K) (A : QPMatrix K)
    (Alb Aub : QPVector K) (tol : K) (ch : ChosenConstraint K) : Prop :=
  (ch.violation_ = 0 ∧
    ∀ i, i < s.num_general_constraints_ →
      (s.general_constraints_status_ i = ConstraintStatus.INACTIVE ∨
        s.general_constraints_status_ i = ConstraintStatus.VIOLATED) →
      Within s.primal_size_ s.primal A Alb Aub tol i) ∨
  (tol < |ch.violation_| ∧ s.Pending A Alb Aub ch)

/-- The row of a constraint with the sign under which it enters `R`: negated for
a lower bound. -/
def signedRow {K : Type} [LinearOrderedField K] (a : QPVector K) (t : ConstraintStatus) :
    QPVector K :=
  fun k => if t = ConstraintStatus.ACTIVE_LOWER_BOUND then -a k else a k


/-- Invariant of the main loop at the head of an iteration, for the loop state
`(solver, chosen_ctr)`. -/
def Solver.MainState {K : Type} [LinearOrderedField K] (H A : QPMatrix K)
    (Alb Aub : QPVector K) (tol : K) (st : Solver K × ChosenConstraint K) : Prop :=
  (st.1.initializeMachineryLazy H).MainInv A Alb Aub tol ∧
  (st.1.initializeMachineryLazy H).Chosen A Alb Aub tol st.2 ∧
  st.1.RawEmpty

/-- The state of an iteration of the main loop after the step directions were
computed (lines 204-226). -/
def Solver.stepState {K : Type} [LinearOrderedField K] (s : Solver K) (H A : QPMatrix K)
    (ch : ChosenConstraint K) : Solver K :=
  (s.initializeMachineryLazy H).computeStepDirections A ch

/-- The product `chosen_ctr_dot_primal_step_direction` of line 255. -/
def Solver.stepCp {K : Type} [LinearOrderedField K] (s : Solver K) (H A : QPMatrix K)
    (ch : ChosenConstraint K) : K :=
  dot (s.stepState H A ch).primal_size_ (A ch.index_) (s.stepState H A ch).primal_step_direction_


/-- The loop state at the head of the `k`-th iteration after the one with
counter `iter` and state `st0`, if the main loop gets there: the `k` iterations
before it passed the loop condition and went on to the next iteration. -/
def Solver.statesFrom {K : Type} [LinearOrderedField K] (sqrt : K → K) (asserts : Bool)
    (H : QPMatrix K) (A : QPMatrix K) (Alb Aub : QPVector K) (param : SolverParameters K)
    (iter : Int) (st0 : Solver K × ChosenConstraint K) :
    Nat → Option (Solver K × ChosenConstraint K)
  | 0 => some st0
  | k + 1 =>
    match Solver.statesFrom sqrt asserts H A Alb Aub param iter st0 k with
    | some st =>
      if iter + k < param.max_iter_ ∨ param.max_iter_ < 0 then
        match Solver.mainStep sqrt asserts H A Alb Aub param st with
        | Step.next st1 => some st1
        | Step.done _ => none
      else none
    | none => none

/-- The state with which `solve` enters the main loop, if it gets there: there
are constraints, the equality-activation loop completes, and not all
constraints are equalities (lines 96-186). `H` holds the Cholesky factor. -/
def Solver.mainStart {K : Type} [LinearOrderedField K] (sqrt : K → K)
    (sizes : InputParser) (H : QPMatrix K) (h : QPVector K) (A : QPMatrix K)
    (Alb Aub : QPVector K) (param : SolverParameters K) :
    Option (Solver K × ChosenConstraint K) :=
  if 0 = sizes.num_simple_bounds_ + sizes.num_general_constraints_ then none
  else
    match Solver.equalityLoop sqrt H A Alb Aub param sizes.num_general_constraints_ 0
        (Solver.entry sizes H h, 0) with
    | Step.done _ => none
    | Step.next st =>
      if st.2 = st.1.num_general_constraints_ ∧ 0 = st.1.num_simple_bounds_ then none
      else some (Solver.mainEntry st.1 A Alb Aub param)

/-- The loop state at the head of iteration `k` of the main loop of `solve`, if
the call gets there. -/
def Solver.iterState {K : Type} [LinearOrderedField K] (sqrt : K → K) (asserts : Bool)
    (sizes : InputParser) (H : QPMatrix K) (h : QPVector K) (A : QPMatrix K)
    (Alb Aub : QPVector K) (param : SolverParameters K) (k : Nat) :
    Option (Solver K × ChosenConstraint K) :=
  match Solver.mainStart sqrt sizes H h A Alb Aub param with
  | some st0 => Solver.statesFrom sqrt asserts H A Alb Aub param 0 st0 k
  | none => none


/-- The loop state with which the main loop is entered on a problem with a
single constraint that is not an equality and lies below its lower bound at the
unconstrained minimum. -/
def singleStart {K : Type} [LinearOrderedField K] (n h_size : Nat) (L : QPMatrix K)
    (h : QPVector K) (A : QPMatrix K) (Alb : QPVector K) : Solver K × ChosenConstraint K :=
  ({ (Solver.entry ⟨n, h_size, 0, 1⟩ L h) with
      dual_ := fun _ => 0
      dual_step_direction_ := fun _ => 0
      general_constraints_status_ :=
        Function.update (Function.update
          (Solver.entry ⟨n, h_size, 0, 1⟩ L h).general_constraints_status_ 0
          ConstraintStatus.INACTIVE) 0 ConstraintStatus.VIOLATED },
   { violation_ := dot n (A 0) (Solver.entry ⟨n, h_size, 0, 1⟩ L h).primal - Alb 0,
     dual_ := 0, index_ := 0, type_ := ConstraintStatus.ACTIVE_LOWER_BOUND })

/-- The loop state after the first iteration on the single-constraint problem:
the full step was taken and the constraint is active at its lower bound. -/
def singleNext {K : Type} [LinearOrderedField K] (sqrt : K → K) (n h_size : Nat)
    (L : QPMatrix K) (h : QPVector K) (A : QPMatrix K) (Alb : QPVector K) (tol : K) :
    Solver K × ChosenConstraint K :=
  ((((singleStart n h_size L h A Alb).1.stepState L A
        (singleStart n h_size L h A Alb).2).takeStep sqrt
      (-(singleStart n h_size L h A Alb).2.violation_
        / (singleStart n h_size L h A Alb).1.stepCp L A (singleStart n h_size L h A Alb).2)
      tol).1.activate
    { (singleStart n h_size L h A Alb).2 with
      dual_ := (singleStart n h_size L h A Alb).2.dual_
        + -(singleStart n h_size L h A Alb).2.violation_
          / (singleStart n h_size L h A Alb).1.stepCp L A (singleStart n h_size L h A Alb).2
      violation_ := (singleStart n h_size L h A Alb).2.violation_
        + -(singleStart n h_size L h A Alb).2.violation_
          / (singleStart n h_size L h A Alb).1.stepCp L A (singleStart n h_size L h A Alb).2
          * (singleStart n h_size L h A Alb).1.stepCp L A (singleStart n h_size L h A Alb).2 },
   ChosenConstraint.init)


/-- The lower triangle of a matrix: the part of the Cholesky factor that the
triangular solves read. -/
def lowerPart {K : Type} [LinearOrderedField K] (L : QPMatrix K) : QPMatrix K :=
  fun r c => if c ≤ r then L r c else 0


/-- No constraint carries the status `INCONSISTENT`. -/
def Solver.NoInconsistent {K : Type} (s : Solver K) : Prop :=
  ∀ k, s.general_constraints_status_ k ≠ ConstraintStatus.INCONSISTENT

/-- The state of the solver with which a call of `solve` ends. -/
def Outcome.state {K : Type} : Outcome K → Solver K
  | Outcome.returned _ s => s
  | Outcome.raised _ s => s


/-- An example state of the factorization whose column 0 of `R` holds a candidate
vector: `n = 2`, `J = I`, `R = [[3, 0], [4, 0]]`. -/
def exampleFDCandidate {K : Type} [LinearOrderedField K] : FactorizationData K :=
  { QLi_aka_J := idMat, R := matOf [[3, 0], [4, 0]], primal_size_ := 2 }


/-- A check that the call raised, and that the error and the final state pass the
test `P`. -/
def raisedWith {K : Type} (o : Option (Outcome K)) (P : QPError → Solver K → Bool) : Bool :=
  match o with
  | some (Outcome.raised e s) => P e s
  | _ => false

/-- The objective `½·xᵀ·H·x + hᵀ·x` of the problem. -/
def objective {K : Type} [LinearOrderedField K] (n : Nat) (Hmat : QPMatrix K) (h x : QPVector K) :
    K :=
  1 / 2 * bil n Hmat x x + dot n h x

/-- An example state of the solver for `n = 2`: the machinery is initialised with
the factorization `exampleFD` (`J = I`) and an empty active set. -/
def exampleSolver {K : Type} [LinearOrderedField K] : Solver K :=
  { (Solver.start ⟨2, 2, 0, 1⟩ : Solver K) with
    machinery_initialized_ := true
    active_set_ := ActiveSet.initialize 2
    factorization_data_ := exampleFD }

/-- The multipliers are non-negative: the stored multiplier of every active
inequality and the multiplier of the chosen constraint, whose violation has the
sign of its bound (`≤ 0` below a lower bound, `≥ 0` above an upper bound). -/
def Solver.DualInv {K : Type} [LinearOrderedField K] (s : Solver K)
    (ch : ChosenConstraint K) : Prop :=
  (∀ i, s.active_set_.num_equalities_ ≤ i → i < s.active_set_.size_ → 0 ≤ s.dual_ i) ∧
  0 ≤ ch.dual_ ∧
  (ch.type_ = ConstraintStatus.ACTIVE_LOWER_BOUND → ch.violation_ ≤ 0) ∧
  (ch.type_ ≠ ConstraintStatus.ACTIVE_LOWER_BOUND → 0 ≤ ch.violation_)

/-- No component of the dual step direction at an active inequality lies in
`[−tol, 0)`: every negative component is seen by the dual blocking sweep. -/
def Solver.NoSmallDual {K : Type} [LinearOrderedField K] (s : Solver K) (tol : K) : Prop :=
  ∀ i, s.active_set_.num_equalities_ ≤ i → i < s.active_set_.size_ →
    s.dual_step_direction_ i < -tol ∨ 0 ≤ s.dual_step_direction_ i


/-- The leading `n × n` block of a dense matrix, as a matrix over `Fin n`. -/
def toMatrix {K : Type} [LinearOrderedField K] (n : Nat) (M : QPMatrix K) :
    Matrix (Fin n) (Fin n) K :=
  fun i j => M i j

/-- Entry `k` of `H·J·e` for `n × n` matrices `H`, `J` and a vector `e`. -/
def spread {K : Type} [LinearOrderedField K] (n : Nat) (Hmat J : QPMatrix K) (e : QPVector K)
    (k : Nat) : K :=
  ∑ a in Finset.range n, Hmat k a * ∑ b in Finset.range n, J a b * e b


/-- Stationarity of the Lagrangian at the state `s`, with a multiplier `u` of a
pending normal `v`: for some multipliers `lam` of the active equalities,
`H·x + h + Σ_{c < nE} lam[c]·N c + Σ_{nE ≤ c < q} μ[c]·N c + u·v = 0`, where `N c`
is the signed row of the constraint at position `c` of the active set. -/
def Solver.Stationary {K : Type} [LinearOrderedField K] (s : Solver K) (Hmat : QPMatrix K)
    (h : QPVector K) (A : QPMatrix K) (u : K) (v : QPVector K) : Prop :=
  ∃ lam : Nat → K, ∀ k, k < s.primal_size_ →
    ∑ c in Finset.range s.primal_size_, Hmat k c * s.primal c + h k
      + ∑ c in Finset.range s.active_set_.size_,
          (if c < s.active_set_.num_equalities_ then lam c else s.dual_ c) * s.normal A c k
      + u * v k = 0

/-- Invariant behind stationarity: `Jᵀ·H·J = I`, the diagonal of the active
columns of `R` is nonzero, and the state is stationary. -/
structure Solver.StatInv {K : Type} [LinearOrderedField K] (s : Solver K) (Hmat : QPMatrix K)
    (h : QPVector K) (A : QPMatrix K) (u : K) (v : QPVector K) : Prop where
  orth : HOrthonormal s.primal_size_ Hmat s.factorization_data_.QLi_aka_J
  diag : ∀ c, c < s.active_set_.size_ → s.factorization_data_.R c c ≠ 0
  stat : s.Stationary Hmat h A u v


/-- Invariant behind stationarity at the head of an iteration of the main loop,
for the loop state `(solver, chosen_ctr)`: the multiplier `chosen_ctr.dual_` of
the chosen constraint is the pending one, and it is zero when the iteration
returns `OK`. -/
def Solver.StatState {K : Type} [LinearOrderedField K] (Hmat L : QPMatrix K) (h : QPVector K)
    (A : QPMatrix K) (tol : K) (st : Solver K × ChosenConstraint K) : Prop :=
  (st.1.initializeMachineryLazy L).StatInv Hmat h A st.2.dual_
    (signedRow (A st.2.index_) st.2.type_) ∧
  (|st.2.violation_| < tol → st.2.dual_ = 0)


/-- Entry `k` of the residual `H·x + h + Σ_{c ∈ [nE, q)} s_c·μ[c]·A[idx_c]ᵀ`, with
`s_c = +1` for a constraint active at its upper bound, `−1` for one active at
its lower bound; a position whose constraint has any other status does not
contribute. -/
def Solver.residual {K : Type} [LinearOrderedField K] (s : Solver K) (Hmat : QPMatrix K)
    (h : QPVector K) (A : QPMatrix K) (k : Nat) : K :=
  ∑ c in Finset.range s.primal_size_, Hmat k c * s.primal c + h k
    + ∑ c in Finset.Ico s.active_set_.num_equalities_ s.active_set_.size_,
        (if s.general_constraints_status_ (s.active_set_.getIndex c)
            = ConstraintStatus.ACTIVE_UPPER_BOUND then
          s.dual_ c * A (s.active_set_.getIndex c) k
        else if s.general_constraints_status_ (s.active_set_.getIndex c)
            = ConstraintStatus.ACTIVE_LOWER_BOUND then
          -(s.dual_ c * A (s.active_set_.getIndex c) k)
        else 0)

/-- An example state for the scan of `chooseConstraint`: `n = 2`, four
constraints, the first three `INACTIVE` and the last an active `EQUALITY`. -/
def exampleScan {K : Type} [LinearOrderedField K] : Solver K :=
  { (Solver.start ⟨2, 2, 0, 4⟩ : Solver K) with
    general_constraints_status_ := fun i =>
      if i < 3 then ConstraintStatus.INACTIVE else ConstraintStatus.EQUALITY }

/-! ## Plane rotations and `update` -/

variable {K : Type} [LinearOrderedField K]



theorem computeAndApply_b (sqrt : K → K) (a b : K) :
    (GivensReflection.computeAndApply sqrt a b 0).2.2 = 0 := by
  unfold GivensReflection.computeAndApply
  split_ifs with h
  · simpa using h
  · rfl

theorem computeAndApply_a_sq (sqrt : K → K) (hs : IsSqrt sqrt) (a b : K) :
    (GivensReflection.computeAndApply sqrt a b 0).2.1 * (GivensReflection.computeAndApply sqrt a b 0).2.1
      = a * a + b * b := by
  unfold GivensReflection.computeAndApply
  split_ifs with h
  · simp [h]
  · exact (hs _ (add_nonneg (mul_self_nonneg a) (mul_self_nonneg b))).2

theorem updateStep_R_other (sqrt : K → K) (k i : Nat) (fd : FactorizationData K) (r c : Nat)
    (hc : c ≠ k) : (FactorizationData.updateStep sqrt k i fd).R r c = fd.R r c := by
  simp [FactorizationData.updateStep, hc]

theorem updateStep_primal_size (sqrt : K → K) (k i : Nat) (fd : FactorizationData K) :
    (FactorizationData.updateStep sqrt k i fd).primal_size_ = fd.primal_size_ := rfl

theorem updateLoop_primal_size (sqrt : K → K) (k i : Nat) (fd : FactorizationData K) :
    (FactorizationData.updateLoop sqrt k i fd).primal_size_ = fd.primal_size_ := by
  induction i generalizing fd with
  | zero => rfl
  | succ i ih =>
    unfold FactorizationData.updateLoop
    split_ifs
    · rw [ih, updateStep_primal_size]
    · rfl

theorem updateLoop_R_other (sqrt : K → K) (k i : Nat) (fd : FactorizationData K) (r c : Nat)
    (hc : c ≠ k) : (FactorizationData.updateLoop sqrt k i fd).R r c = fd.R r c := by
  induction i generalizing fd with
  | zero => rfl
  | succ i ih =>
    unfold FactorizationData.updateLoop
    split_ifs
    · rw [ih, updateStep_R_other _ _ _ _ _ _ hc]
    · rfl

/-- Rows outside `[k, i]` of column `k` are untouched by the loop entered at `i`. -/
theorem updateLoop_R_col_outside (sqrt : K → K) (k i : Nat) (fd : FactorizationData K) (r : Nat)
    (hr : r < k ∨ i < r) : (FactorizationData.updateLoop sqrt k i fd).R r k = fd.R r k := by
  induction i generalizing fd with
  | zero => rfl
  | succ i ih =>
    unfold FactorizationData.updateLoop
    split_ifs with h
    · rw [ih _ (by omega)]
      have h1 : r ≠ i + 1 - 1 := by omega
      have h2 : r ≠ i + 1 := by omega
      simp only [FactorizationData.updateStep, if_true, if_neg h1, if_neg h2]
    · rfl

theorem updateLoop_R_col (sqrt : K → K) (hs : IsSqrt sqrt) (k i : Nat) (fd : FactorizationData K)
    (hki : k ≤ i) :
    (∀ r, k < r → r ≤ i → (FactorizationData.updateLoop sqrt k i fd).R r k = 0) ∧
    (FactorizationData.updateLoop sqrt k i fd).R k k * (FactorizationData.updateLoop sqrt k i fd).R k k
      = ∑ r in Finset.Ico k (i + 1), fd.R r k * fd.R r k := by
  induction i generalizing fd with
  | zero =>
    have : k = 0 := by omega
    subst this
    refine ⟨fun r h1 h2 => by omega, ?_⟩
    simp [FactorizationData.updateLoop]
  | succ i ih =>
    unfold FactorizationData.updateLoop
    split_ifs with h
    · have hki' : k ≤ i := by omega
      obtain ⟨ih1, ih2⟩ := ih (FactorizationData.updateStep sqrt k (i + 1) fd) hki'
      refine ⟨fun r h1 h2 => ?_, ?_⟩
      · rcases Nat.lt_or_ge i r with h3 | h3
        · have : r = i + 1 := by omega
          subst this
          rw [updateLoop_R_col_outside _ _ _ _ _ (Or.inr (Nat.lt_succ_self i))]
          have h4 : i + 1 ≠ i + 1 - 1 := by omega
          simp only [FactorizationData.updateStep, if_true, if_neg h4]
          exact computeAndApply_b sqrt _ _
        · exact ih1 r h1 h3
      · rw [ih2, Finset.sum_Ico_succ_top (by omega : k ≤ i + 1)]
        rcases Nat.eq_or_lt_of_le hki' with h5 | h5
        · subst h5
          simp only [Nat.Ico_succ_singleton, Finset.sum_singleton]
          have h4 : k + 1 ≠ k + 1 - 1 := by omega
          simp only [FactorizationData.updateStep, if_true, if_neg h4, Nat.add_sub_cancel]
          exact computeAndApply_a_sq sqrt hs _ _
        · have hmem : i ∈ Finset.Ico k (i + 1) := Finset.mem_Ico.mpr ⟨hki', Nat.lt_succ_self i⟩
          rw [← Finset.add_sum_erase _ _ hmem, ← Finset.add_sum_erase (Finset.Ico k (i + 1)) _ hmem]
          have h4 : i + 1 ≠ i + 1 - 1 := by omega
          have e1 : (FactorizationData.updateStep sqrt k (i + 1) fd).R i k
              = (GivensReflection.computeAndApply sqrt (fd.R i k) (fd.R (i + 1) k) 0).2.1 := by
            simp only [FactorizationData.updateStep, if_true, Nat.add_sub_cancel]
          have e2 : ∀ r ∈ (Finset.Ico k (i + 1)).erase i,
              (FactorizationData.updateStep sqrt k (i + 1) fd).R r k
                * (FactorizationData.updateStep sqrt k (i + 1) fd).R r k = fd.R r k * fd.R r k := by
            intro r hr
            have hr1 := Finset.ne_of_mem_erase hr
            have hr2 := Finset.mem_Ico.mp (Finset.mem_of_mem_erase hr)
            have h6 : r ≠ i + 1 - 1 := by omega
            have h7 : r ≠ i + 1 := by omega
            simp only [FactorizationData.updateStep, if_true, if_neg h6, if_neg h7]
          rw [Finset.sum_congr rfl e2, e1, computeAndApply_a_sq sqrt hs]
          ring
    · have : k = i + 1 := by omega
      subst this
      refine ⟨fun r h1 h2 => by omega, ?_⟩
      simp


theorem isSqrt_real : IsSqrt Real.sqrt :=
  fun x hx => ⟨Real.sqrt_nonneg x, Real.mul_self_sqrt hx⟩

theorem abs_eq_sqrt_of_mul_self (sqrt : K → K) (hs : IsSqrt sqrt) (x S : K) (hS : 0 ≤ S)
    (h : x * x = S) : |x| = sqrt S := by
  have h1 := hs S hS
  have h2 : |x| * |x| = sqrt S * sqrt S := by rw [abs_mul_abs_self, h, h1.2]
  exact (mul_self_inj (abs_nonneg x) h1.1).mp h2


/-! ## The identity `Jᵀ·H·J = I` -/



theorem computeAndApply_unit (sqrt : K → K) (hs : IsSqrt sqrt) (a b : K) :
    (GivensReflection.computeAndApply sqrt a b 0).1.c * (GivensReflection.computeAndApply sqrt a b 0).1.c
      + (GivensReflection.computeAndApply sqrt a b 0).1.s * (GivensReflection.computeAndApply sqrt a b 0).1.s
      = 1 := by
  unfold GivensReflection.computeAndApply
  split_ifs with h
  · simp
  · have hpos : 0 < a * a + b * b := by
      have : 0 < b * b := mul_self_pos.mpr h
      have := mul_self_nonneg a
      linarith
    obtain ⟨h1, h2⟩ := hs _ hpos.le
    have hr : sqrt (a * a + b * b) ≠ 0 := by
      intro h0
      rw [h0] at h2
      simp at h2
      linarith
    simp only
    field_simp
    nlinarith [h2]

/-- The rotation maps `(a, b)` to the new `(a, b)`. -/
theorem computeAndApply_rotate (sqrt : K → K) (hs : IsSqrt sqrt) (a b : K) :
    (GivensReflection.computeAndApply sqrt a b 0).1.c * a
        - (GivensReflection.computeAndApply sqrt a b 0).1.s * b
      = (GivensReflection.computeAndApply sqrt a b 0).2.1 ∧
    (GivensReflection.computeAndApply sqrt a b 0).1.s * a
        + (GivensReflection.computeAndApply sqrt a b 0).1.c * b
      = (GivensReflection.computeAndApply sqrt a b 0).2.2 := by
  unfold GivensReflection.computeAndApply
  split_ifs with h
  · simp [h]
  · have hpos : 0 < a * a + b * b := by
      have : 0 < b * b := mul_self_pos.mpr h
      have := mul_self_nonneg a
      linarith
    obtain ⟨h1, h2⟩ := hs _ hpos.le
    have hr : sqrt (a * a + b * b) ≠ 0 := by
      intro h0
      rw [h0] at h2
      simp at h2
      linarith
    simp only
    constructor
    · field_simp
      linarith [h2]
    · field_simp
      ring

theorem bil_congr (n : Nat) (H : QPMatrix K) (u v u1 v1 : QPVector K)
    (hu : ∀ a, a < n → u a = u1 a) (hv : ∀ a, a < n → v a = v1 a) :
    bil n H u v = bil n H u1 v1 := by
  unfold bil
  refine Finset.sum_congr rfl (fun a ha => Finset.sum_congr rfl (fun b hb => ?_))
  rw [hu a (Finset.mem_range.mp ha), hv b (Finset.mem_range.mp hb)]

theorem bil_comb_left (n : Nat) (H : QPMatrix K) (x y : K) (u1 u2 v : QPVector K) :
    bil n H (fun a => x * u1 a + y * u2 a) v = x * bil n H u1 v + y * bil n H u2 v := by
  unfold bil
  simp only [Finset.mul_sum, ← Finset.sum_add_distrib]
  refine Finset.sum_congr rfl (fun a _ => Finset.sum_congr rfl (fun b _ => ?_))
  ring

theorem bil_comb_right (n : Nat) (H : QPMatrix K) (x y : K) (u v1 v2 : QPVector K) :
    bil n H u (fun a => x * v1 a + y * v2 a) = x * bil n H u v1 + y * bil n H u v2 := by
  unfold bil
  simp only [Finset.mul_sum, ← Finset.sum_add_distrib]
  refine Finset.sum_congr rfl (fun a _ => Finset.sum_congr rfl (fun b _ => ?_))
  ring

theorem gram_eq_bil (n : Nat) (H J : QPMatrix K) (i j : Nat) :
    gram n H J i j = bil n H (fun a => J a i) (fun a => J a j) := rfl

/-- Column `i` of a column-rotated matrix as a combination of old columns. -/
theorem applyColumnWise_col (g : GivensReflection K) (M : QPMatrix K) (n p q i a : Nat)
    (ha : a < n) :
    g.applyColumnWise M 0 n p q a i
      = (if i = p then g.c else if i = q then g.s else 0) * M a p
        + (if i = p then -g.s else if i = q then g.c else 0) * M a q
        + (if i = p ∨ i = q then 0 else 1) * M a i := by
  unfold GivensReflection.applyColumnWise
  have h0 : 0 ≤ a ∧ a < n := ⟨Nat.zero_le a, ha⟩
  rw [if_pos h0]
  by_cases h1 : i = p
  · simp [h1]; ring
  · by_cases h2 : i = q
    · subst h2
      simp [h1]
    · simp [h1, h2]

theorem hOrthonormal_applyColumnWise (n : Nat) (H J : QPMatrix K) (g : GivensReflection K)
    (hg : g.c * g.c + g.s * g.s = 1) (p q : Nat) (hp : p < n) (hq : q < n) (hpq : p ≠ q)
    (hJ : HOrthonormal n H J) : HOrthonormal n H (g.applyColumnWise J 0 n p q) := by
  intro i j hi hj
  rw [gram_eq_bil]
  rw [bil_congr n H _ _
    (fun a => ((if i = p then g.c else if i = q then g.s else 0) * J a p
        + (if i = p then -g.s else if i = q then g.c else 0) * J a q)
        + (if i = p ∨ i = q then 0 else 1) * J a i)
    (fun a => ((if j = p then g.c else if j = q then g.s else 0) * J a p
        + (if j = p then -g.s else if j = q then g.c else 0) * J a q)
        + (if j = p ∨ j = q then 0 else 1) * J a j)
    (fun a ha => applyColumnWise_col g J n p q i a ha)
    (fun a ha => applyColumnWise_col g J n p q j a ha)]
  have e1 : ∀ (x y z : K) (u1 u2 u3 v : QPVector K),
      bil n H (fun a => (x * u1 a + y * u2 a) + z * u3 a) v
        = x * bil n H u1 v + y * bil n H u2 v + z * bil n H u3 v := by
    intro x y z u1 u2 u3 v
    have := bil_comb_left n H 1 z (fun a => x * u1 a + y * u2 a) u3 v
    simp only [one_mul] at this
    rw [this, bil_comb_left]
  have e2 : ∀ (x y z : K) (u v1 v2 v3 : QPVector K),
      bil n H u (fun a => (x * v1 a + y * v2 a) + z * v3 a)
        = x * bil n H u v1 + y * bil n H u v2 + z * bil n H u v3 := by
    intro x y z u v1 v2 v3
    have := bil_comb_right n H 1 z u (fun a => x * v1 a + y * v2 a) v3
    simp only [one_mul] at this
    rw [this, bil_comb_right]
  rw [e1]
  simp only [e2]
  have gpp := hJ p p hp hp
  have gpq := hJ p q hp hq
  have gqp := hJ q p hq hp
  have gqq := hJ q q hq hq
  have gpj := hJ p j hp hj
  have gqj := hJ q j hq hj
  have gip := hJ i p hi hp
  have giq := hJ i q hi hq
  have gij := hJ i j hi hj
  rw [gram_eq_bil] at gpp gpq gqp gqq gpj gqj gip giq gij
  rw [gpp, gpq, gqp, gqq, gpj, gqj, gip, giq, gij]
  have hqp : q ≠ p := fun h => hpq h.symm
  by_cases h1 : i = p
  · by_cases h3 : j = p
    · subst h1; subst h3; simp [hpq, hqp]; linear_combination hg
    · by_cases h4 : j = q
      · subst h1; subst h4; simp [hpq, hqp]; ring
      · subst h1; simp [hpq, hqp, h3, h4, Ne.symm h3, Ne.symm h4]
  · by_cases h2 : i = q
    · by_cases h3 : j = p
      · subst h2; subst h3; simp [hpq, hqp]; ring
      · by_cases h4 : j = q
        · subst h2; subst h4; simp [hpq, hqp]; linear_combination hg
        · subst h2; simp [hpq, hqp, h3, h4, Ne.symm h3, Ne.symm h4]
    · by_cases h3 : j = p
      · subst h3; simp [hpq, hqp, h1, h2]
      · by_cases h4 : j = q
        · subst h4; simp [hpq, hqp, h1, h2]
        · simp [h1, h2, h3, h4]


theorem updateStep_J (sqrt : K → K) (k i : Nat) (fd : FactorizationData K) :
    (FactorizationData.updateStep sqrt k i fd).QLi_aka_J
      = (GivensReflection.computeAndApply sqrt (fd.R (i - 1) k) (fd.R i k) 0).1.applyColumnWise
          fd.QLi_aka_J 0 fd.primal_size_ (i - 1) i := rfl

theorem updateLoop_hOrthonormal (sqrt : K → K) (hs : IsSqrt sqrt) (H : QPMatrix K) (k i : Nat)
    (fd : FactorizationData K) (hi : i < fd.primal_size_)
    (hJ : HOrthonormal fd.primal_size_ H fd.QLi_aka_J) :
    HOrthonormal fd.primal_size_ H (FactorizationData.updateLoop sqrt k i fd).QLi_aka_J := by
  induction i generalizing fd with
  | zero => exact hJ
  | succ i ih =>
    unfold FactorizationData.updateLoop
    split_ifs with h
    · have := ih (FactorizationData.updateStep sqrt k (i + 1) fd) (by
        show i < fd.primal_size_
        omega) (by
        show HOrthonormal fd.primal_size_ H _
        rw [updateStep_J]
        exact hOrthonormal_applyColumnWise _ H _ _ (computeAndApply_unit sqrt hs _ _) _ _
          (by omega) hi (by omega) hJ)
      exact this
    · exact hJ

theorem downdateStep_J (sqrt : K → K) (q i : Nat) (fd : FactorizationData K) :
    (FactorizationData.downdateStep sqrt q i fd).QLi_aka_J
      = (GivensReflection.computeAndApply sqrt (fd.R (i - 1) i) (fd.R i i) 0).1.applyColumnWise
          fd.QLi_aka_J 0 fd.primal_size_ (i - 1) i := rfl

theorem downdateStep_primal_size (sqrt : K → K) (q i : Nat) (fd : FactorizationData K) :
    (FactorizationData.downdateStep sqrt q i fd).primal_size_ = fd.primal_size_ := rfl

theorem downdateLoop_hOrthonormal (sqrt : K → K) (hs : IsSqrt sqrt) (H : QPMatrix K) (q : Nat)
    (cnt i : Nat) (fd : FactorizationData K) (hi : 1 ≤ i) (hcnt : i + cnt ≤ fd.primal_size_)
    (hJ : HOrthonormal fd.primal_size_ H fd.QLi_aka_J) :
    HOrthonormal fd.primal_size_ H
      (forUp (FactorizationData.downdateStep sqrt q) i cnt fd).QLi_aka_J := by
  induction cnt generalizing i fd with
  | zero => exact hJ
  | succ cnt ih =>
    unfold forUp
    have := ih (i + 1) (FactorizationData.downdateStep sqrt q i fd) (by omega) (by
      show i + 1 + cnt ≤ fd.primal_size_
      omega) (by
      show HOrthonormal fd.primal_size_ H _
      rw [downdateStep_J]
      exact hOrthonormal_applyColumnWise _ H _ _ (computeAndApply_unit sqrt hs _ _) _ _
        (by omega) (by omega) (by omega) hJ)
    exact this


/-! ## Columns of `R` as images of vectors under `Jᵀ` -/



theorem colT_applyColumnWise (g : GivensReflection K) (J : QPMatrix K) (n p q : Nat)
    (a : QPVector K) (r : Nat) (hpq : p ≠ q) :
    colT n (g.applyColumnWise J 0 n p q) a r
      = if r = p then g.c * colT n J a p - g.s * colT n J a q
        else if r = q then g.s * colT n J a p + g.c * colT n J a q
        else colT n J a r := by
  unfold colT
  by_cases h1 : r = p
  · subst h1
    rw [if_pos rfl, Finset.mul_sum, Finset.mul_sum, ← Finset.sum_sub_distrib]
    refine Finset.sum_congr rfl (fun k hk => ?_)
    have h0 : 0 ≤ k ∧ k < n := ⟨Nat.zero_le k, Finset.mem_range.mp hk⟩
    simp only [GivensReflection.applyColumnWise, if_pos h0, if_true]
    ring
  · by_cases h2 : r = q
    · subst h2
      rw [if_neg h1, if_pos rfl, Finset.mul_sum, Finset.mul_sum, ← Finset.sum_add_distrib]
      refine Finset.sum_congr rfl (fun k hk => ?_)
      have h0 : 0 ≤ k ∧ k < n := ⟨Nat.zero_le k, Finset.mem_range.mp hk⟩
      simp only [GivensReflection.applyColumnWise, if_pos h0, if_neg h1, if_true]
      ring
    · rw [if_neg h1, if_neg h2]
      refine Finset.sum_congr rfl (fun k hk => ?_)
      have h0 : 0 ≤ k ∧ k < n := ⟨Nat.zero_le k, Finset.mem_range.mp hk⟩
      simp only [GivensReflection.applyColumnWise, if_pos h0, if_neg h1, if_neg h2]

/-- Invariant of the loop of `update(k)`: the old columns stay tracked and column
`k` holds all of `Jᵀ·v`. -/
theorem updateLoop_tracks (sqrt : K → K) (hs : IsSqrt sqrt) (k i : Nat)
    (fd : FactorizationData K) (N : Nat → QPVector K) (v : QPVector K)
    (hi : i < fd.primal_size_)
    (hT : Tracks fd.primal_size_ fd.QLi_aka_J fd.R N k)
    (hv : ∀ r, r < fd.primal_size_ → colT fd.primal_size_ fd.QLi_aka_J v r = fd.R r k) :
    Tracks fd.primal_size_ (FactorizationData.updateLoop sqrt k i fd).QLi_aka_J
        (FactorizationData.updateLoop sqrt k i fd).R N k ∧
    ∀ r, r < fd.primal_size_ →
      colT fd.primal_size_ (FactorizationData.updateLoop sqrt k i fd).QLi_aka_J v r
        = (FactorizationData.updateLoop sqrt k i fd).R r k := by
  induction i generalizing fd with
  | zero => exact ⟨hT, hv⟩
  | succ i ih =>
    unfold FactorizationData.updateLoop
    split_ifs with h
    · have hne : i + 1 - 1 ≠ i + 1 := by omega
      refine ih (FactorizationData.updateStep sqrt k (i + 1) fd) (by
        show i < fd.primal_size_
        omega) ?_ ?_
      · intro c hc r hr
        show colT fd.primal_size_ (FactorizationData.updateStep sqrt k (i + 1) fd).QLi_aka_J
          (N c) r = _
        rw [updateStep_J, colT_applyColumnWise _ _ _ _ _ _ _ hne,
          updateStep_R_other sqrt k (i + 1) fd r c (by omega)]
        have z1 : colT fd.primal_size_ fd.QLi_aka_J (N c) (i + 1 - 1) = 0 := by
          rw [hT c hc _ (by omega), if_neg (by omega)]
        have z2 : colT fd.primal_size_ fd.QLi_aka_J (N c) (i + 1) = 0 := by
          rw [hT c hc _ hi, if_neg (by omega)]
        rw [z1, z2]
        split_ifs with h1 h2 h3 h4 h5
        · omega
        · simp
        · omega
        · simp
        · have := hT c hc r hr
          rw [if_pos h5] at this
          exact this
        · have := hT c hc r hr
          rw [if_neg h5] at this
          exact this
      · intro r hr
        show colT fd.primal_size_ (FactorizationData.updateStep sqrt k (i + 1) fd).QLi_aka_J
          v r = _
        rw [updateStep_J, colT_applyColumnWise _ _ _ _ _ _ _ hne]
        rw [hv _ (by omega : i + 1 - 1 < fd.primal_size_), hv _ hi]
        obtain ⟨e1, e2⟩ := computeAndApply_rotate sqrt hs (fd.R (i + 1 - 1) k) (fd.R (i + 1) k)
        rw [e1, e2]
        simp only [FactorizationData.updateStep, if_true]
        split_ifs with h1 h2
        · rfl
        · rfl
        · exact hv r hr
    · exact ⟨hT, hv⟩

theorem downdateStep_R (sqrt : K → K) (q i : Nat) (fd : FactorizationData K) (r c : Nat) :
    (FactorizationData.downdateStep sqrt q i fd).R r c
      = if c = i - 1 ∧ r < i then
          (if r = i - 1 then (GivensReflection.computeAndApply sqrt (fd.R (i - 1) i) (fd.R i i) 0).2.1
           else fd.R r i)
        else if c = i then
          (if r = i - 1 then (GivensReflection.computeAndApply sqrt (fd.R (i - 1) i) (fd.R i i) 0).2.1
           else if r = i then (GivensReflection.computeAndApply sqrt (fd.R (i - 1) i) (fd.R i i) 0).2.2
           else fd.R r i)
        else if i + 1 ≤ c ∧ c < q then
          (if r = i - 1 then
             (GivensReflection.computeAndApply sqrt (fd.R (i - 1) i) (fd.R i i) 0).1.c * fd.R (i - 1) c
             - (GivensReflection.computeAndApply sqrt (fd.R (i - 1) i) (fd.R i i) 0).1.s * fd.R i c
           else if r = i then
             (GivensReflection.computeAndApply sqrt (fd.R (i - 1) i) (fd.R i i) 0).1.s * fd.R (i - 1) c
             + (GivensReflection.computeAndApply sqrt (fd.R (i - 1) i) (fd.R i i) 0).1.c * fd.R i c
           else fd.R r c)
        else fd.R r c := by
  simp only [FactorizationData.downdateStep, GivensReflection.applyRowWise]
  split_ifs <;> first | rfl | (exfalso; omega) | (subst_vars; rfl)

theorem downdateStep_inv (sqrt : K → K) (hs : IsSqrt sqrt) (j q i : Nat)
    (fd : FactorizationData K) (N : Nat → QPVector K)
    (hji : j < i) (hiq : i < q) (hq : q ≤ fd.primal_size_)
    (hI : DowndateInv fd.primal_size_ fd.QLi_aka_J fd.R N j q i) :
    DowndateInv fd.primal_size_ (FactorizationData.downdateStep sqrt q i fd).QLi_aka_J
      (FactorizationData.downdateStep sqrt q i fd).R N j q (i + 1) := by
  intro c hc hcj r hr
  have hne : i - 1 ≠ i := by omega
  rw [downdateStep_J, colT_applyColumnWise _ _ _ _ _ _ _ hne, downdateStep_R]
  have I1 := hI c hc hcj (i - 1) (by omega)
  have I2 := hI c hc hcj i (by omega)
  have I3 := hI c hc hcj r hr
  obtain ⟨e1, e2⟩ := computeAndApply_rotate sqrt hs (fd.R (i - 1) i) (fd.R i i)
  have e3 := computeAndApply_b sqrt (fd.R (i - 1) i) (fd.R i i)
  rcases Nat.lt_trichotomy c i with hci | hci | hci
  · -- the column is not touched, its tracked vector vanishes in rows `i-1`, `i`
    have hp : downdatePos j (i + 1) c = downdatePos j i c := by
      unfold downdatePos
      split_ifs <;> first | rfl | (exfalso; omega)
    have hpl : downdatePos j i c < i - 1 := by
      unfold downdatePos
      split_ifs with h <;> omega
    rw [hp]
    rw [if_neg (by omega : ¬ i - 1 ≤ downdatePos j i c)] at I1
    rw [if_neg (by omega : ¬ i ≤ downdatePos j i c)] at I2
    rw [I1, I2, I3]
    simp only [mul_zero, sub_zero, add_zero]
    split_ifs <;> first | rfl | (exfalso; omega)
  · have hp : downdatePos j (i + 1) c = i - 1 := by
      unfold downdatePos
      rw [if_pos ⟨by omega, by omega⟩, hci]
    have hp0 : downdatePos j i c = i := by
      unfold downdatePos
      rw [if_neg (by omega), hci]
    rw [hp]
    rw [hp0] at I1 I2 I3
    rw [if_pos (by omega : i - 1 ≤ i)] at I1
    rw [if_pos (le_refl i)] at I2
    rw [I1, I2, I3, e1, e2, e3]
    split_ifs <;> first | rfl | (exfalso; omega)
  · have hp : downdatePos j (i + 1) c = c := by
      unfold downdatePos
      rw [if_neg (by omega)]
    have hp0 : downdatePos j i c = c := by
      unfold downdatePos
      rw [if_neg (by omega)]
    rw [hp]
    rw [hp0] at I1 I2 I3
    rw [if_pos (by omega : i - 1 ≤ c)] at I1
    rw [if_pos (by omega : i ≤ c)] at I2
    rw [I1, I2, I3]
    split_ifs <;> first | rfl | (exfalso; omega)

theorem downdateLoop_inv (sqrt : K → K) (hs : IsSqrt sqrt) (j q : Nat) (N : Nat → QPVector K)
    (cnt i : Nat) (fd : FactorizationData K)
    (hji : j < i) (hcnt : i + cnt = q) (hq : q ≤ fd.primal_size_)
    (hI : DowndateInv fd.primal_size_ fd.QLi_aka_J fd.R N j q i) :
    DowndateInv fd.primal_size_
      (forUp (FactorizationData.downdateStep sqrt q) i cnt fd).QLi_aka_J
      (forUp (FactorizationData.downdateStep sqrt q) i cnt fd).R N j q q := by
  induction cnt generalizing i fd with
  | zero =>
    have : i = q := by omega
    subst this
    exact hI
  | succ cnt ih =>
    unfold forUp
    exact ih (i + 1) (FactorizationData.downdateStep sqrt q i fd) (by omega) (by omega) hq
      (downdateStep_inv sqrt hs j q i fd N hji (by omega) hq hI)

/-- After `downdate(j, q)` the columns left of `q - 1` hold the vectors of the old
columns other than `j`, in the old order. -/
theorem downdate_tracks (sqrt : K → K) (hs : IsSqrt sqrt) (j q : Nat) (N : Nat → QPVector K)
    (fd : FactorizationData K) (tol : K) (hjq : j < q) (hq : q ≤ fd.primal_size_)
    (hT : Tracks fd.primal_size_ fd.QLi_aka_J fd.R N q) :
    Tracks fd.primal_size_ (fd.downdate sqrt j q tol).QLi_aka_J (fd.downdate sqrt j q tol).R
      (dropElementWithoutResize N j q) (q - 1) := by
  have h0 : DowndateInv fd.primal_size_ fd.QLi_aka_J fd.R N j q (j + 1) := by
    intro c hc hcj r hr
    have hp : downdatePos j (j + 1) c = c := by
      unfold downdatePos
      rw [if_neg (by omega)]
    rw [hp]
    exact hT c hc r hr
  have h1 := downdateLoop_inv sqrt hs j q N (q - (j + 1)) (j + 1) fd (by omega) (by omega) hq h0
  intro c hc r hr
  unfold FactorizationData.downdate
  by_cases hcj : c < j
  · have := h1 c (by omega) (by omega) r hr
    have hp : downdatePos j q c = c := by
      unfold downdatePos
      rw [if_neg (by omega)]
    rw [hp] at this
    have hN : dropElementWithoutResize N j q c = N c := by
      unfold dropElementWithoutResize
      rw [if_neg (by omega)]
    rw [hN]
    exact this
  · have := h1 (c + 1) (by omega) (by omega) r hr
    have hp : downdatePos j q (c + 1) = c := by
      unfold downdatePos
      rw [if_pos ⟨by omega, by omega⟩]
      rfl
    rw [hp] at this
    have hN : dropElementWithoutResize N j q c = N (c + 1) := by
      unfold dropElementWithoutResize
      rw [if_pos ⟨by omega, by omega⟩]
    rw [hN]
    exact this


theorem downdateStep_R_below (sqrt : K → K) (q i : Nat) (fd : FactorizationData K) (r c : Nat)
    (h : c < r) : (FactorizationData.downdateStep sqrt q i fd).R r c = fd.R r c := by
  rw [downdateStep_R]
  split_ifs <;> first | rfl | (exfalso; omega) | (subst_vars; rfl)

theorem downdateStep_R_left (sqrt : K → K) (q i : Nat) (fd : FactorizationData K) (r c : Nat)
    (h : c + 1 < i) : (FactorizationData.downdateStep sqrt q i fd).R r c = fd.R r c := by
  rw [downdateStep_R]
  split_ifs <;> first | rfl | (exfalso; omega)

theorem downdateLoop_R_unchanged (sqrt : K → K) (q : Nat) (cnt i : Nat)
    (fd : FactorizationData K) (r c : Nat) (h : c < r ∨ c + 1 < i) :
    (forUp (FactorizationData.downdateStep sqrt q) i cnt fd).R r c = fd.R r c := by
  induction cnt generalizing i fd with
  | zero => rfl
  | succ cnt ih =>
    unfold forUp
    rw [ih (i + 1) _ (by omega)]
    rcases h with h | h
    · exact downdateStep_R_below sqrt q i fd r c h
    · exact downdateStep_R_left sqrt q i fd r c h

theorem downdateLoop_primal_size (sqrt : K → K) (q : Nat) (cnt i : Nat)
    (fd : FactorizationData K) :
    (forUp (FactorizationData.downdateStep sqrt q) i cnt fd).primal_size_ = fd.primal_size_ := by
  induction cnt generalizing i fd with
  | zero => rfl
  | succ cnt ih =>
    unfold forUp
    rw [ih (i + 1) _]
    rfl

/-- The run of the loop of `downdate` on `J = J0·M` is `J0` times the run on `M`,
with the same `R`. -/
theorem downdateLoop_factor (sqrt : K → K) (q : Nat) (J0 : QPMatrix K) (cnt i : Nat)
    (fdA fdB : FactorizationData K) (hi : 1 ≤ i) (hcnt : i + cnt ≤ fdA.primal_size_)
    (hn : fdA.primal_size_ = fdB.primal_size_) (hR : fdA.R = fdB.R)
    (hJ : ∀ r c, r < fdA.primal_size_ → c < fdA.primal_size_ →
      fdA.QLi_aka_J r c = ∑ k in Finset.range fdA.primal_size_, J0 r k * fdB.QLi_aka_J k c) :
    (forUp (FactorizationData.downdateStep sqrt q) i cnt fdA).R
      = (forUp (FactorizationData.downdateStep sqrt q) i cnt fdB).R ∧
    ∀ r c, r < fdA.primal_size_ → c < fdA.primal_size_ →
      (forUp (FactorizationData.downdateStep sqrt q) i cnt fdA).QLi_aka_J r c
        = ∑ k in Finset.range fdA.primal_size_,
            J0 r k * (forUp (FactorizationData.downdateStep sqrt q) i cnt fdB).QLi_aka_J k c := by
  induction cnt generalizing i fdA fdB with
  | zero => exact ⟨hR, hJ⟩
  | succ cnt ih =>
    unfold forUp
    have hRs : (FactorizationData.downdateStep sqrt q i fdA).R
        = (FactorizationData.downdateStep sqrt q i fdB).R := by
      funext r c
      rw [downdateStep_R, downdateStep_R, hR]
    refine ih (i + 1) (FactorizationData.downdateStep sqrt q i fdA)
      (FactorizationData.downdateStep sqrt q i fdB) (by omega) (by
        show i + 1 + cnt ≤ fdA.primal_size_
        omega) hn hRs ?_
    intro r c hr hc
    show (FactorizationData.downdateStep sqrt q i fdA).QLi_aka_J r c
      = ∑ k in Finset.range fdA.primal_size_,
          J0 r k * (FactorizationData.downdateStep sqrt q i fdB).QLi_aka_J k c
    have hr' : r < fdA.primal_size_ := hr
    rw [downdateStep_J, downdateStep_J, hR, ← hn]
    have hrow : 0 ≤ r ∧ r < fdA.primal_size_ := ⟨Nat.zero_le r, hr⟩
    have hsum : ∀ (f : Nat → K), (∑ k in Finset.range fdA.primal_size_,
        J0 r k * (GivensReflection.applyColumnWise
          (GivensReflection.computeAndApply sqrt (fdB.R (i - 1) i) (fdB.R i i) 0).1
          fdB.QLi_aka_J 0 fdA.primal_size_ (i - 1) i k c))
        = ∑ k in Finset.range fdA.primal_size_,
          J0 r k * (if c = i - 1 then
              (GivensReflection.computeAndApply sqrt (fdB.R (i - 1) i) (fdB.R i i) 0).1.c
                * fdB.QLi_aka_J k (i - 1)
              - (GivensReflection.computeAndApply sqrt (fdB.R (i - 1) i) (fdB.R i i) 0).1.s
                * fdB.QLi_aka_J k i
            else if c = i then
              (GivensReflection.computeAndApply sqrt (fdB.R (i - 1) i) (fdB.R i i) 0).1.s
                * fdB.QLi_aka_J k (i - 1)
              + (GivensReflection.computeAndApply sqrt (fdB.R (i - 1) i) (fdB.R i i) 0).1.c
                * fdB.QLi_aka_J k i
            else fdB.QLi_aka_J k c) := by
      intro _
      refine Finset.sum_congr rfl (fun k hk => ?_)
      have h0 : 0 ≤ k ∧ k < fdA.primal_size_ := ⟨Nat.zero_le k, Finset.mem_range.mp hk⟩
      simp only [GivensReflection.applyColumnWise, if_pos h0]
    rw [hsum (fun _ => 0)]
    simp only [GivensReflection.applyColumnWise, if_pos hrow]
    by_cases h1 : c = i - 1
    · simp only [if_pos h1]
      rw [hJ r (i - 1) hr (by omega), hJ r i hr (by omega)]
      simp only [Finset.mul_sum, ← Finset.sum_sub_distrib]
      refine Finset.sum_congr rfl (fun k _ => ?_)
      ring
    · simp only [if_neg h1]
      by_cases h2 : c = i
      · simp only [if_pos h2]
        rw [hJ r (i - 1) hr (by omega), hJ r i hr (by omega)]
        simp only [Finset.mul_sum, ← Finset.sum_add_distrib]
        refine Finset.sum_congr rfl (fun k _ => ?_)
        ring
      · simp only [if_neg h2]
        exact hJ r c hr hc

theorem hOrthonormal_idMat (n : Nat) : HOrthonormal n (idMat : QPMatrix K) idMat := by
  intro i j hi hj
  unfold gram idMat
  simp only [mul_ite, mul_one, mul_zero, ite_mul, one_mul, zero_mul]
  simp only [Finset.sum_ite_eq, Finset.sum_ite_eq', Finset.mem_range, hi, hj, if_true]
  split_ifs <;> first | rfl | (exfalso; omega)



/-! ## `chooseConstraint` -/



theorem forUp_induction {σ : Type} (body : Nat → σ → σ) (P : Nat → σ → Prop) (lo cnt : Nat)
    (s : σ) (h0 : P lo s)
    (hstep : ∀ i t, lo ≤ i → i < lo + cnt → P i t → P (i + 1) (body i t)) :
    P (lo + cnt) (forUp body lo cnt s) := by
  induction cnt generalizing lo s with
  | zero => exact h0
  | succ cnt ih =>
    unfold forUp
    have := ih (lo + 1) (body lo s) (hstep lo s (le_refl lo) (by omega) h0)
      (fun i t h1 h2 h3 => hstep i t (by omega) (by omega) h3)
    rw [show lo + (cnt + 1) = lo + 1 + cnt by omega]
    exact this

theorem ctrViolation_ne_zero (status : Nat → ConstraintStatus) (n : Nat)
    (x : QPVector K) (A : QPMatrix K) (Alb Aub : QPVector K) (tol : K) (htol : 0 ≤ tol) (i : Nat)
    (h : IsCandidate status n x A Alb Aub tol i) :
    (Alb i - tol > dot n (A i) x → ctrViolation n x A Alb Aub tol i < 0) ∧
    (¬ Alb i - tol > dot n (A i) x → 0 < ctrViolation n x A Alb Aub tol i) := by
  unfold ctrViolation
  constructor
  · intro h1
    rw [if_pos h1]
    linarith
  · intro h1
    rw [if_neg h1]
    rcases h.2 with h2 | h2
    · exact absurd h2 h1
    · linarith

theorem chooseConstraintStep_inv (status : Nat → ConstraintStatus) (n : Nat)
    (x : QPVector K) (A : QPMatrix K) (Alb Aub : QPVector K) (tol : K) (htol : 0 ≤ tol) (i : Nat)
    (st : ChosenConstraint K × (Nat → ConstraintStatus))
    (hst : ∀ k, i ≤ k → st.2 k = status k)
    (hch : ChosenUpTo status n x A Alb Aub tol i st.1) :
    (∀ k, i + 1 ≤ k → (Solver.chooseConstraintStep n x A Alb Aub tol i st).2 k = status k) ∧
    ChosenUpTo status n x A Alb Aub tol (i + 1)
      (Solver.chooseConstraintStep n x A Alb Aub tol i st).1 := by
  have hsi := hst i (le_refl i)
  obtain ⟨hd, hmain⟩ := hch
  have hupd : ∀ (v : ConstraintStatus) k, i + 1 ≤ k → Function.update st.2 i v k = status k := by
    intro v k hk
    rw [Function.update_noteq (by omega)]
    exact hst k (by omega)
  -- what happens when constraint `i` is not a candidate
  have hskip : ¬ IsCandidate status n x A Alb Aub tol i →
      ChosenUpTo status n x A Alb Aub tol (i + 1) st.1 := by
    intro hnc
    refine ⟨hd, ?_⟩
    rcases hmain with ⟨h1, h2, h3, h4⟩ | ⟨h1, h2, h3, h4, h5, h6⟩
    · left
      refine ⟨h1, h2, h3, fun k hk => ?_⟩
      rcases Nat.lt_or_ge k i with h | h
      · exact h4 k h
      · have : k = i := by omega
        subst this
        exact hnc
    · right
      refine ⟨by omega, h2, h3, h4, fun k hk hc => ?_, h6⟩
      rcases Nat.lt_or_ge k i with h | h
      · exact h5 k h hc
      · have : k = i := by omega
        subst this
        exact absurd hc hnc
  -- what happens when constraint `i` is a candidate
  have htake : ∀ (ty : ConstraintStatus), IsCandidate status n x A Alb Aub tol i →
      ((Alb i - tol > dot n (A i) x ∧ ty = ConstraintStatus.ACTIVE_LOWER_BOUND) ∨
        (¬ Alb i - tol > dot n (A i) x ∧ ty = ConstraintStatus.ACTIVE_UPPER_BOUND)) →
      |ctrViolation n x A Alb Aub tol i| > |st.1.violation_| →
      ChosenUpTo status n x A Alb Aub tol (i + 1)
        { st.1 with type_ := ty, violation_ := ctrViolation n x A Alb Aub tol i, index_ := i } := by
    intro ty hc hty hgt
    refine ⟨hd, Or.inr ⟨Nat.lt_succ_self i, hc, rfl, hty, fun k hk hck => ?_, fun k hk hck => ?_⟩⟩
    · rcases Nat.lt_or_ge k i with h | h
      · rcases hmain with ⟨h1, h2, h3, h4⟩ | ⟨h1, h2, h3, h4, h5, h6⟩
        · exact absurd hck (h4 k h)
        · exact le_trans (h5 k h hck) (le_of_lt hgt)
      · have : k = i := by omega
        subst this
        exact le_refl _
    · rcases hmain with ⟨h1, h2, h3, h4⟩ | ⟨h1, h2, h3, h4, h5, h6⟩
      · exact absurd hck (h4 k hk)
      · exact lt_of_le_of_lt (h5 k hk hck) hgt
  have hkeep : IsCandidate status n x A Alb Aub tol i →
      ¬ |ctrViolation n x A Alb Aub tol i| > |st.1.violation_| →
      ChosenUpTo status n x A Alb Aub tol (i + 1) st.1 := by
    intro hc hle
    refine ⟨hd, ?_⟩
    rcases hmain with ⟨h1, h2, h3, h4⟩ | ⟨h1, h2, h3, h4, h5, h6⟩
    · exfalso
      rw [h1, abs_zero] at hle
      have hv := ctrViolation_ne_zero status n x A Alb Aub tol htol i hc
      have : ctrViolation n x A Alb Aub tol i ≠ 0 := by
        by_cases h : Alb i - tol > dot n (A i) x
        · exact ne_of_lt (hv.1 h)
        · exact ne_of_gt (hv.2 h)
      exact hle (abs_pos.mpr this)
    · right
      refine ⟨by omega, h2, h3, h4, fun k hk hck => ?_, h6⟩
      rcases Nat.lt_or_ge k i with h | h
      · exact h5 k h hck
      · have : k = i := by omega
        subst this
        exact not_lt.mp hle
  unfold Solver.chooseConstraintStep
  by_cases hs : st.2 i = ConstraintStatus.INACTIVE ∨ st.2 i = ConstraintStatus.VIOLATED
  · rw [if_pos hs]
    have hs' : status i = ConstraintStatus.INACTIVE ∨ status i = ConstraintStatus.VIOLATED := by
      rw [← hsi]; exact hs
    dsimp only
    by_cases hl : Alb i - tol > dot n (A i) x
    · rw [if_pos hl]
      have hc : IsCandidate status n x A Alb Aub tol i := ⟨hs', Or.inl hl⟩
      have hv : ctrViolation n x A Alb Aub tol i = dot n (A i) x - Alb i := by
        unfold ctrViolation; rw [if_pos hl]
      rw [← hv]
      by_cases hg : |ctrViolation n x A Alb Aub tol i| > |st.1.violation_|
      · rw [if_pos hg]
        exact ⟨hupd _, htake _ hc (Or.inl ⟨hl, rfl⟩) hg⟩
      · rw [if_neg hg]
        exact ⟨hupd _, hkeep hc hg⟩
    · rw [if_neg hl]
      by_cases hu : Aub i + tol < dot n (A i) x
      · rw [if_pos hu]
        have hc : IsCandidate status n x A Alb Aub tol i := ⟨hs', Or.inr hu⟩
        have hv : ctrViolation n x A Alb Aub tol i = dot n (A i) x - Aub i := by
          unfold ctrViolation; rw [if_neg hl]
        rw [← hv]
        by_cases hg : |ctrViolation n x A Alb Aub tol i| > |st.1.violation_|
        · rw [if_pos hg]
          exact ⟨hupd _, htake _ hc (Or.inr ⟨hl, rfl⟩) hg⟩
        · rw [if_neg hg]
          exact ⟨hupd _, hkeep hc hg⟩
      · rw [if_neg hu]
        refine ⟨hupd _, hskip ?_⟩
        intro hc
        rcases hc.2 with h | h
        · exact hl h
        · exact hu h
  · rw [if_neg hs]
    refine ⟨fun k hk => hst k (by omega), hskip ?_⟩
    intro hc
    rw [hsi] at hs
    exact hs hc.1

theorem chooseConstraint_chosenUpTo (s : Solver K) (x : QPVector K) (A : QPMatrix K)
    (Alb Aub : QPVector K) (tol : K) (htol : 0 ≤ tol) :
    ChosenUpTo s.general_constraints_status_ s.primal_size_ x A Alb Aub tol
      s.num_general_constraints_ (s.chooseConstraint x A Alb Aub tol).1 := by
  have := forUp_induction
    (Solver.chooseConstraintStep s.primal_size_ x A Alb Aub tol)
    (fun i st => (∀ k, i ≤ k → st.2 k = s.general_constraints_status_ k) ∧
      ChosenUpTo s.general_constraints_status_ s.primal_size_ x A Alb Aub tol i st.1)
    0 s.num_general_constraints_ (ChosenConstraint.init, s.general_constraints_status_)
    ⟨fun k _ => rfl, rfl, Or.inl ⟨rfl, rfl, rfl, fun k hk => absurd hk (Nat.not_lt_zero k)⟩⟩
    (fun i t _ _ h => chooseConstraintStep_inv _ _ x A Alb Aub tol htol i t h.1 h.2)
  rw [Nat.zero_add] at this
  exact this.2



/-! ## Evaluating concrete runs -/


theorem returnedWith_iff {K : Type} (o : Option (Outcome K)) (P : ReturnStatus → Solver K → Bool) :
    returnedWith o P = true ↔ ∃ status s, o = some (Outcome.returned status s) ∧ P status s = true := by
  constructor
  · intro h
    match o, h with
    | some (Outcome.returned status s), h => exact ⟨status, s, rfl, h⟩
  · rintro ⟨status, s, rfl, h⟩
    exact h


/-! ## Step directions and the active normals -/


theorem dot_neg_sum (n q : Nat) (J : QPMatrix K) (a d : QPVector K) :
    dot n a (fun r => if r < n then -(∑ k in Finset.Ico q n, J r k * d k) else 0)
      = -(∑ k in Finset.Ico q n, colT n J a k * d k) := by
  unfold dot colT
  have h1 : ∀ r ∈ Finset.range n,
      a r * (if r < n then -(∑ k in Finset.Ico q n, J r k * d k) else 0)
        = -(∑ k in Finset.Ico q n, a r * (J r k * d k)) := by
    intro r hr
    rw [if_pos (Finset.mem_range.mp hr), mul_neg, Finset.mul_sum]
  rw [Finset.sum_congr rfl h1, Finset.sum_neg_distrib, Finset.sum_comm]
  congr 1
  refine Finset.sum_congr rfl (fun k _ => ?_)
  rw [Finset.sum_mul]
  refine Finset.sum_congr rfl (fun r _ => ?_)
  ring

theorem colT_neg (n : Nat) (J : QPMatrix K) (a : QPVector K) (r : Nat) :
    colT n J (fun k => -a k) r = -colT n J a r := by
  unfold colT
  rw [← Finset.sum_neg_distrib]
  refine Finset.sum_congr rfl (fun k _ => ?_)
  ring

/-- A step direction built from the columns `q, …, n-1` of `J` is orthogonal to
every vector tracked by a column left of `q`. -/
theorem dot_step_of_tracks (n q : Nat) (J R : QPMatrix K) (N : Nat → QPVector K)
    (d : QPVector K) (hT : Tracks n J R N q) (c : Nat) (hc : c < q) :
    dot n (N c) (fun r => if r < n then -(∑ k in Finset.Ico q n, J r k * d k) else 0) = 0 := by
  rw [dot_neg_sum, neg_eq_zero]
  refine Finset.sum_eq_zero (fun k hk => ?_)
  have hk' := Finset.mem_Ico.mp hk
  rw [hT c hc k hk'.2, if_neg (by omega), zero_mul]

theorem Solver.normal_dot (s : Solver K) (A : QPMatrix K) (c : Nat) (p : QPVector K) (n : Nat)
    (h : dot n (s.normal A c) p = 0) : dot n (A (s.active_set_.getIndex c)) p = 0 := by
  unfold Solver.normal at h
  by_cases hs : s.general_constraints_status_ (s.active_set_.getIndex c)
      = ConstraintStatus.ACTIVE_LOWER_BOUND
  · simp only [if_pos hs] at h
    unfold dot at h ⊢
    have : ∑ k in Finset.range n, -A (s.active_set_.getIndex c) k * p k
        = -(∑ k in Finset.range n, A (s.active_set_.getIndex c) k * p k) := by
      rw [← Finset.sum_neg_distrib]
      refine Finset.sum_congr rfl (fun k _ => ?_)
      ring
    rw [this, neg_eq_zero] at h
    exact h
  · simp only [if_neg hs] at h
    exact h

theorem dot_add_smul (n : Nat) (a x p : QPVector K) (t : K) :
    dot n a (fun k => x k + t * p k) = dot n a x + t * dot n a p := by
  unfold dot
  rw [Finset.mul_sum, ← Finset.sum_add_distrib]
  refine Finset.sum_congr rfl (fun k _ => ?_)
  ring


/-! ## The equality-activation phase -/


@[simp] theorem Solver.init_primal (s : Solver K) (H : QPMatrix K) :
    (s.initializeMachineryLazy H).primal = s.primal := by
  unfold Solver.initializeMachineryLazy; split_ifs <;> rfl

@[simp] theorem Solver.init_status (s : Solver K) (H : QPMatrix K) :
    (s.initializeMachineryLazy H).general_constraints_status_ = s.general_constraints_status_ := by
  unfold Solver.initializeMachineryLazy; split_ifs <;> rfl

@[simp] theorem Solver.init_sizes (s : Solver K) (H : QPMatrix K) :
    (s.initializeMachineryLazy H).toInputParser = s.toInputParser := by
  unfold Solver.initializeMachineryLazy; split_ifs <;> rfl

@[simp] theorem Solver.init_primal_size (s : Solver K) (H : QPMatrix K) :
    (s.initializeMachineryLazy H).primal_size_ = s.primal_size_ := by
  unfold Solver.initializeMachineryLazy; split_ifs <;> rfl

@[simp] theorem Solver.init_dual (s : Solver K) (H : QPMatrix K) :
    (s.initializeMachineryLazy H).dual_ = s.dual_ := by
  unfold Solver.initializeMachineryLazy; split_ifs <;> rfl

@[simp] theorem Solver.init_dual_step (s : Solver K) (H : QPMatrix K) :
    (s.initializeMachineryLazy H).dual_step_direction_ = s.dual_step_direction_ := by
  unfold Solver.initializeMachineryLazy; split_ifs <;> rfl

@[simp] theorem Solver.init_initialized (s : Solver K) (H : QPMatrix K) :
    (s.initializeMachineryLazy H).machinery_initialized_ = true := by
  unfold Solver.initializeMachineryLazy
  split_ifs with h
  · rfl
  · simpa using h

theorem Solver.init_of_initialized (s : Solver K) (H : QPMatrix K)
    (h : s.machinery_initialized_ = true) : s.initializeMachineryLazy H = s := by
  unfold Solver.initializeMachineryLazy
  rw [if_neg (by simp [h])]

@[simp] theorem Solver.init_idem (s : Solver K) (H : QPMatrix K) :
    (s.initializeMachineryLazy H).initializeMachineryLazy H = s.initializeMachineryLazy H :=
  Solver.init_of_initialized _ H (Solver.init_initialized s H)

theorem Solver.init_setStatus (s : Solver K) (H : QPMatrix K) (i : Nat) (v : ConstraintStatus) :
    (s.setStatus i v).initializeMachineryLazy H = (s.initializeMachineryLazy H).setStatus i v := by
  unfold Solver.initializeMachineryLazy Solver.setStatus
  split_ifs <;> rfl

/-- Changing the status of a constraint that is not active keeps the machinery
consistent. -/
theorem Solver.WF.setStatus {s : Solver K} {A : QPMatrix K} (h : s.WF A) (i : Nat)
    (v : ConstraintStatus)
    (hi : ∀ c, c < s.active_set_.size_ → s.active_set_.getIndex c ≠ i) :
    (s.setStatus i v).WF A := by
  refine ⟨h.init, h.max_size, h.fd_size, h.size_eq, h.size_le, ?_, h.inj⟩
  intro c hc r hr
  have := h.tracks c hc r hr
  have hn : Solver.normal (s.setStatus i v) A c = s.normal A c := by
    funext k
    unfold Solver.normal Solver.setStatus
    show (if Function.update s.general_constraints_status_ i v (s.active_set_.getIndex c)
        = ConstraintStatus.ACTIVE_LOWER_BOUND then _ else _) = _
    rw [Function.update_noteq (hi c hc)]
  show colT s.primal_size_ s.factorization_data_.QLi_aka_J _ r = _
  rw [hn]
  exact this

theorem Solver.EqInv.inactive {s : Solver K} {A : QPMatrix K} {Alb Aub : QPVector K} {tol : K}
    {i neq : Nat} (h : s.EqInv A Alb Aub tol i neq) (hb : Alb i + tol < Aub i) :
    (s.setStatus i ConstraintStatus.INACTIVE).EqInv A Alb Aub tol (i + 1) neq := by
  have hne : ∀ c, c < s.active_set_.size_ → s.active_set_.getIndex c ≠ i :=
    fun c hc => Nat.ne_of_lt (h.active c hc).1
  refine ⟨h.wf.setStatus i _ hne, h.no_ineq, ?_, ?_, ?_⟩
  · intro c hc
    obtain ⟨h1, h2, h3⟩ := h.active c hc
    refine ⟨Nat.lt_succ_of_lt h1, ?_, h3⟩
    show Function.update s.general_constraints_status_ i _ (s.active_set_.getIndex c) = _
    rw [Function.update_noteq (hne c hc)]
    exact h2
  · intro k hk
    show (Function.update s.general_constraints_status_ i _ k = _ ∧ _) ∨
      (Function.update s.general_constraints_status_ i _ k = _ ∧ _)
    rcases Nat.lt_or_ge k i with h1 | h1
    · rw [Function.update_noteq (Nat.ne_of_lt h1)]
      exact h.status k h1
    · have : k = i := by omega
      subst this
      rw [Function.update_same]
      exact Or.inr ⟨rfl, hb⟩
  · exact ⟨by have := h.count.1; omega, fun _ => by have := h.count.1; omega⟩

/-- Classifying constraint `i` as an equality, before anything is activated. -/
theorem Solver.EqInv.equality {s : Solver K} {A : QPMatrix K} {Alb Aub : QPVector K} {tol : K}
    {i neq : Nat} (h : s.EqInv A Alb Aub tol i neq) (hb : |Alb i - Aub i| ≤ tol) :
    (s.setStatus i ConstraintStatus.EQUALITY).EqInv A Alb Aub tol (i + 1) (neq + 1) := by
  have hne : ∀ c, c < s.active_set_.size_ → s.active_set_.getIndex c ≠ i :=
    fun c hc => Nat.ne_of_lt (h.active c hc).1
  refine ⟨h.wf.setStatus i _ hne, h.no_ineq, ?_, ?_, ?_⟩
  · intro c hc
    obtain ⟨h1, h2, h3⟩ := h.active c hc
    refine ⟨Nat.lt_succ_of_lt h1, ?_, h3⟩
    show Function.update s.general_constraints_status_ i _ (s.active_set_.getIndex c) = _
    rw [Function.update_noteq (hne c hc)]
    exact h2
  · intro k hk
    show (Function.update s.general_constraints_status_ i _ k = _ ∧ _) ∨
      (Function.update s.general_constraints_status_ i _ k = _ ∧ _)
    rcases Nat.lt_or_ge k i with h1 | h1
    · rw [Function.update_noteq (Nat.ne_of_lt h1)]
      exact h.status k h1
    · have : k = i := by omega
      subst this
      rw [Function.update_same]
      exact Or.inl ⟨rfl, hb⟩
  · refine ⟨by have := h.count.1; omega, ?_⟩
    rintro ⟨k, hk, hks⟩
    have hks' : Function.update s.general_constraints_status_ i ConstraintStatus.EQUALITY k
        = ConstraintStatus.INACTIVE := hks
    rcases Nat.lt_or_ge k i with h1 | h1
    · rw [Function.update_noteq (Nat.ne_of_lt h1)] at hks'
      have := h.count.2 ⟨k, h1, hks'⟩
      omega
    · have : k = i := by omega
      subst this
      rw [Function.update_same] at hks'
      exact absurd hks' (by decide)

/-- Extending the tracked columns by column `q`. -/
theorem Tracks.extend {n q : Nat} {J R : QPMatrix K} {N : Nat → QPVector K} (v : QPVector K)
    (hT : Tracks n J R N q) (hv : ∀ r, r < n → colT n J v r = R r q)
    (hz : ∀ r, q < r → r < n → R r q = 0) :
    Tracks n J R (Function.update N q v) (q + 1) := by
  intro c hc r hr
  rcases Nat.lt_or_ge c q with h | h
  · rw [Function.update_noteq (Nat.ne_of_lt h)]
    exact hT c h r hr
  · have : c = q := by omega
    subst this
    rw [Function.update_same, hv r hr]
    split_ifs with h1
    · rfl
    · exact hz r (by omega) hr

theorem Tracks.congr {n q : Nat} {J R R1 : QPMatrix K} {N N1 : Nat → QPVector K}
    (hT : Tracks n J R N q) (hR : ∀ r c, c < q → R1 r c = R r c) (hN : ∀ c, c < q → N1 c = N c) :
    Tracks n J R1 N1 q := by
  intro c hc r hr
  rw [hN c hc, hR r c hc]
  exact hT c hc r hr

/-- `update(q)` after column `q` of `R` was set to `Jᵀ·v` extends the tracked
columns by `v`. -/
theorem update_tracks (sqrt : K → K) (hs : IsSqrt sqrt) (fd : FactorizationData K)
    (N : Nat → QPVector K) (v : QPVector K) (q : Nat) (tol : K) (hq : q < fd.primal_size_)
    (hT : Tracks fd.primal_size_ fd.QLi_aka_J fd.R N q)
    (hv : ∀ r, r < fd.primal_size_ → colT fd.primal_size_ fd.QLi_aka_J v r = fd.R r q) :
    Tracks fd.primal_size_ (fd.update sqrt q tol).1.QLi_aka_J (fd.update sqrt q tol).1.R
      (Function.update N q v) (q + 1) := by
  have hfd : (fd.update sqrt q tol).1
      = FactorizationData.updateLoop sqrt q (fd.primal_size_ - 1) fd := by
    unfold FactorizationData.update
    dsimp only
    split_ifs <;> rfl
  rw [hfd]
  obtain ⟨h1, h2⟩ := updateLoop_tracks sqrt hs q (fd.primal_size_ - 1) fd N v (by omega) hT hv
  obtain ⟨h3, _⟩ := updateLoop_R_col sqrt hs q (fd.primal_size_ - 1) fd (by omega)
  exact Tracks.extend v h1 h2 (fun r hr1 hr2 => h3 r hr1 (by omega))

theorem update_primal_size (sqrt : K → K) (fd : FactorizationData K) (q : Nat) (tol : K) :
    (fd.update sqrt q tol).1.primal_size_ = fd.primal_size_ := by
  have hfd : (fd.update sqrt q tol).1
      = FactorizationData.updateLoop sqrt q (fd.primal_size_ - 1) fd := by
    unfold FactorizationData.update
    dsimp only
    split_ifs <;> rfl
  rw [hfd, updateLoop_primal_size]


theorem computeEqualityPrimalStep_J (fd : FactorizationData K) (a : QPVector K) (q : Nat) :
    (fd.computeEqualityPrimalStep a q).1.QLi_aka_J = fd.QLi_aka_J := rfl

theorem computeEqualityPrimalStep_size (fd : FactorizationData K) (a : QPVector K) (q : Nat) :
    (fd.computeEqualityPrimalStep a q).1.primal_size_ = fd.primal_size_ := rfl

theorem computeEqualityPrimalStep_R_col (fd : FactorizationData K) (a : QPVector K) (q r : Nat)
    (hr : r < fd.primal_size_) :
    (fd.computeEqualityPrimalStep a q).1.R r q = colT fd.primal_size_ fd.QLi_aka_J a r := by
  simp only [FactorizationData.computeEqualityPrimalStep, colT]
  rw [if_pos ⟨trivial, hr⟩]

theorem computeEqualityPrimalStep_R_other (fd : FactorizationData K) (a : QPVector K)
    (q r c : Nat) (hc : c ≠ q) : (fd.computeEqualityPrimalStep a q).1.R r c = fd.R r c := by
  simp only [FactorizationData.computeEqualityPrimalStep]
  rw [if_neg (fun h => hc h.1)]

theorem computeEqualityPrimalStep_p (fd : FactorizationData K) (a : QPVector K) (q : Nat) :
    (fd.computeEqualityPrimalStep a q).2
      = fun r => if r < fd.primal_size_ then
          -(∑ k in Finset.Ico q fd.primal_size_,
              fd.QLi_aka_J r k * (fd.computeEqualityPrimalStep a q).1.R k q)
        else 0 := rfl

/-- The product of a constraint row with the equality step direction is minus
the squared length of the tail of `d = Jᵀ·ctrᵀ`. -/
theorem computeEqualityPrimalStep_dot (fd : FactorizationData K) (a : QPVector K) (q : Nat) :
    dot fd.primal_size_ a (fd.computeEqualityPrimalStep a q).2
      = -(∑ k in Finset.Ico q fd.primal_size_,
            colT fd.primal_size_ fd.QLi_aka_J a k * colT fd.primal_size_ fd.QLi_aka_J a k) := by
  rw [computeEqualityPrimalStep_p, dot_neg_sum]
  congr 1
  refine Finset.sum_congr rfl (fun k hk => ?_)
  rw [computeEqualityPrimalStep_R_col fd a q k (Finset.mem_Ico.mp hk).2]




theorem Solver.eqCandidate_eq (s : Solver K) (H : QPMatrix K) (i : Nat) :
    s.eqCandidate H i = (s.initializeMachineryLazy H).setStatus i ConstraintStatus.EQUALITY :=
  Solver.init_setStatus s H i _

theorem Solver.eqCandidate_primal_size (s : Solver K) (H : QPMatrix K) (i : Nat) :
    (s.eqCandidate H i).primal_size_ = s.primal_size_ := by
  rw [Solver.eqCandidate_eq]
  exact Solver.init_primal_size s H

theorem Solver.eqCandidate_primal (s : Solver K) (H : QPMatrix K) (i : Nat) :
    (s.eqCandidate H i).primal = s.primal := by
  rw [Solver.eqCandidate_eq]
  exact Solver.init_primal s H

/-- The equality is inconsistent with its bounds: `solve` raises. -/
theorem equalityStep_inconsistent (sqrt : K → K) (H A : QPMatrix K) (Alb Aub : QPVector K)
    (param : SolverParameters K) (i : Nat) (st : Solver K × Nat)
    (h1 : Alb i - param.tolerance_ > Aub i) :
    Solver.equalityStep sqrt H A Alb Aub param i st
      = Step.done (Outcome.raised QPError.INCONSISTENT_BOUNDS
          (st.1.setStatus i ConstraintStatus.INCONSISTENT)) := by
  unfold Solver.equalityStep
  rw [if_pos h1]

/-- A constraint with bounds further apart than the tolerance is left inactive. -/
theorem equalityStep_inactive (sqrt : K → K) (H A : QPMatrix K) (Alb Aub : QPVector K)
    (param : SolverParameters K) (i : Nat) (st : Solver K × Nat)
    (h1 : ¬ Alb i - param.tolerance_ > Aub i) (h2 : |Alb i - Aub i| > param.tolerance_) :
    Solver.equalityStep sqrt H A Alb Aub param i st
      = Step.next (st.1.setStatus i ConstraintStatus.INACTIVE, st.2) := by
  unfold Solver.equalityStep
  rw [if_neg h1, if_pos h2]

/-- An equality that is activated (lines 140-152). -/
theorem equalityStep_activate (sqrt : K → K) (H A : QPMatrix K) (Alb Aub : QPVector K)
    (param : SolverParameters K) (i : Nat) (st : Solver K × Nat)
    (h1 : ¬ Alb i - param.tolerance_ > Aub i) (h2 : ¬ |Alb i - Aub i| > param.tolerance_)
    (h3 : (st.1.eqCandidate H i).active_set_.hasEmptySpace = true)
    (h4 : st.1.eqRho H A i < -param.tolerance_)
    (h5 : (((st.1.eqCandidate H i).equalityDirection (A i)).equalityTake sqrt
      ((Alb i - dot st.1.primal_size_ (A i) st.1.primal) / st.1.eqRho H A i)
      param.tolerance_).2 = true) :
    Solver.equalityStep sqrt H A Alb Aub param i st
      = Step.next
          (((((st.1.eqCandidate H i).equalityDirection (A i)).equalityTake sqrt
            ((Alb i - dot st.1.primal_size_ (A i) st.1.primal) / st.1.eqRho H A i)
            param.tolerance_).1).addEquality i, st.2 + 1) := by
  have hn : ((st.1.eqCandidate H i).equalityDirection (A i)).primal_size_ = st.1.primal_size_ :=
    Solver.eqCandidate_primal_size st.1 H i
  unfold Solver.equalityStep
  rw [if_neg h1, if_neg h2]
  dsimp only
  unfold Solver.eqRho Solver.eqCandidate at *
  rw [if_pos h3, hn, if_pos h4, if_neg (by rw [h5]; decide)]

/-- An equality that is activated but rejected by `update`. -/
theorem equalityStep_rejected (sqrt : K → K) (H A : QPMatrix K) (Alb Aub : QPVector K)
    (param : SolverParameters K) (i : Nat) (st : Solver K × Nat)
    (h1 : ¬ Alb i - param.tolerance_ > Aub i) (h2 : ¬ |Alb i - Aub i| > param.tolerance_)
    (h3 : (st.1.eqCandidate H i).active_set_.hasEmptySpace = true)
    (h4 : st.1.eqRho H A i < -param.tolerance_)
    (h5 : (((st.1.eqCandidate H i).equalityDirection (A i)).equalityTake sqrt
      ((Alb i - dot st.1.primal_size_ (A i) st.1.primal) / st.1.eqRho H A i)
      param.tolerance_).2 = false) :
    Solver.equalityStep sqrt H A Alb Aub param i st
      = Step.done (Outcome.raised QPError.FAILED_TO_ADD_EQUALITY
          (((st.1.eqCandidate H i).equalityDirection (A i)).equalityTake sqrt
            ((Alb i - dot st.1.primal_size_ (A i) st.1.primal) / st.1.eqRho H A i)
            param.tolerance_).1) := by
  have hn : ((st.1.eqCandidate H i).equalityDirection (A i)).primal_size_ = st.1.primal_size_ :=
    Solver.eqCandidate_primal_size st.1 H i
  unfold Solver.equalityStep
  rw [if_neg h1, if_neg h2]
  dsimp only
  unfold Solver.eqRho Solver.eqCandidate at *
  rw [if_pos h3, hn, if_pos h4, if_pos h5]

/-- An equality that is treated as linearly dependent (lines 157-165). -/
theorem equalityStep_dependent (sqrt : K → K) (H A : QPMatrix K) (Alb Aub : QPVector K)
    (param : SolverParameters K) (i : Nat) (st : Solver K × Nat)
    (h1 : ¬ Alb i - param.tolerance_ > Aub i) (h2 : ¬ |Alb i - Aub i| > param.tolerance_)
    (h3 : (st.1.eqCandidate H i).active_set_.hasEmptySpace = false ∨
      ¬ st.1.eqRho H A i < -param.tolerance_) :
    Solver.equalityStep sqrt H A Alb Aub param i st
      = if |Alb i - dot st.1.primal_size_ (A i) st.1.primal| > param.tolerance_ then
          Step.done (Outcome.returned ReturnStatus.INFEASIBLE_EQUALITY (st.1.eqSkipped H A i))
        else Step.next (st.1.eqSkipped H A i, st.2 + 1) := by
  have hn : ((st.1.eqCandidate H i).equalityDirection (A i)).primal_size_ = st.1.primal_size_ :=
    Solver.eqCandidate_primal_size st.1 H i
  unfold Solver.equalityStep
  rw [if_neg h1, if_neg h2]
  dsimp only
  unfold Solver.eqSkipped
  unfold Solver.eqRho Solver.eqCandidate at *
  by_cases h : ((st.1.setStatus i ConstraintStatus.EQUALITY).initializeMachineryLazy
      H).active_set_.hasEmptySpace = true
  · rw [if_pos h, if_pos h]
    rcases h3 with h3 | h3
    · rw [h] at h3
      exact absurd h3 (by decide)
    · rw [hn, if_neg h3]
  · rw [if_neg h, if_neg h]

/-- The state after an equality was activated (lines 142-150). -/
theorem Solver.EqInv.activate_aux (sqrt : K → K) (hs : IsSqrt sqrt) {s : Solver K} {A : QPMatrix K}
    {Alb Aub : QPVector K} {tol : K} {i neq : Nat} (htol : 0 ≤ tol)
    (h : s.EqInv A Alb Aub tol (i + 1) neq)
    (hlt : ∀ c, c < s.active_set_.size_ → s.active_set_.getIndex c < i)
    (hsi : s.general_constraints_status_ i = ConstraintStatus.EQUALITY)
    (hspace : s.active_set_.size_ < s.primal_size_)
    (hrho : dot s.primal_size_ (A i)
      (s.factorization_data_.computeEqualityPrimalStep (A i) s.active_set_.size_).2 < -tol) :
    Solver.EqInv
      { s with
        primal := fun k => s.primal k
          + (Alb i - dot s.primal_size_ (A i) s.primal)
            / dot s.primal_size_ (A i)
                (s.factorization_data_.computeEqualityPrimalStep (A i) s.active_set_.size_).2
            * (s.factorization_data_.computeEqualityPrimalStep (A i) s.active_set_.size_).2 k
        primal_step_direction_ :=
          (s.factorization_data_.computeEqualityPrimalStep (A i) s.active_set_.size_).2
        factorization_data_ :=
          ((s.factorization_data_.computeEqualityPrimalStep (A i) s.active_set_.size_).1.update
            sqrt s.active_set_.size_ tol).1
        active_set_ := s.active_set_.addEquality i }
      A Alb Aub tol (i + 1) neq := by
  have hn := h.wf.fd_size
  have hrho0 : dot s.primal_size_ (A i)
      (s.factorization_data_.computeEqualityPrimalStep (A i) s.active_set_.size_).2 ≠ 0 := by
    intro h0
    rw [h0] at hrho
    linarith
  -- the step direction is orthogonal to the active normals
  have horth : ∀ c, c < s.active_set_.size_ →
      dot s.primal_size_ (A (s.active_set_.getIndex c))
        (s.factorization_data_.computeEqualityPrimalStep (A i) s.active_set_.size_).2 = 0 := by
    intro c hc
    apply Solver.normal_dot
    rw [computeEqualityPrimalStep_p, hn]
    exact dot_step_of_tracks _ _ _ _ _ _ h.wf.tracks c hc
  have hidx : ∀ c, c < s.active_set_.size_ →
      (s.active_set_.addEquality i).getIndex c = s.active_set_.getIndex c := by
    intro c hc
    show Function.update s.active_set_.active_constraints_indices_ s.active_set_.size_ i c = _
    rw [Function.update_noteq (Nat.ne_of_lt hc)]
    rfl
  have hidq : (s.active_set_.addEquality i).getIndex s.active_set_.size_ = i := by
    show Function.update s.active_set_.active_constraints_indices_ s.active_set_.size_ i _ = _
    rw [Function.update_same]
  refine ⟨⟨h.wf.init, h.wf.max_size, ?_, ?_, ?_, ?_, ?_⟩, h.no_ineq, ?_, h.status, h.count⟩
  · show (FactorizationData.update sqrt _ _ _).1.primal_size_ = s.primal_size_
    rw [update_primal_size]
    exact hn
  · show s.active_set_.size_ + 1 = s.active_set_.num_equalities_ + 1 + s.active_set_.num_inequalities_
    have := h.wf.size_eq
    omega
  · show s.active_set_.size_ + 1 ≤ s.primal_size_
    omega
  · -- the columns of `R`
    show Tracks s.primal_size_ _ _ _ (s.active_set_.size_ + 1)
    have hT0 : Tracks
        (s.factorization_data_.computeEqualityPrimalStep (A i) s.active_set_.size_).1.primal_size_
        (s.factorization_data_.computeEqualityPrimalStep (A i) s.active_set_.size_).1.QLi_aka_J
        (s.factorization_data_.computeEqualityPrimalStep (A i) s.active_set_.size_).1.R
        (s.normal A) s.active_set_.size_ := by
      rw [computeEqualityPrimalStep_size, hn]
      exact h.wf.tracks.congr
        (fun r c hc => computeEqualityPrimalStep_R_other _ _ _ _ _ (Nat.ne_of_lt hc))
        (fun c _ => rfl)
    have hT1 := update_tracks sqrt hs
      (s.factorization_data_.computeEqualityPrimalStep (A i) s.active_set_.size_).1
      (s.normal A) (A i) s.active_set_.size_ tol
      (by rw [computeEqualityPrimalStep_size, hn]; exact hspace) hT0
      (fun r hr => (computeEqualityPrimalStep_R_col s.factorization_data_ (A i)
        s.active_set_.size_ r hr).symm)
    rw [computeEqualityPrimalStep_size, hn] at hT1
    refine hT1.congr (fun r c _ => rfl) ?_
    intro c hc
    funext k
    unfold Solver.normal
    rcases Nat.lt_or_ge c s.active_set_.size_ with h1 | h1
    · rw [Function.update_noteq (Nat.ne_of_lt h1)]
      show (if s.general_constraints_status_ ((s.active_set_.addEquality i).getIndex c) = _
          then -A ((s.active_set_.addEquality i).getIndex c) k
          else A ((s.active_set_.addEquality i).getIndex c) k) = _
      rw [hidx c h1]
    · have : c = s.active_set_.size_ := by omega
      subst this
      rw [Function.update_same]
      show (if s.general_constraints_status_ ((s.active_set_.addEquality i).getIndex _) = _
          then -A ((s.active_set_.addEquality i).getIndex _) k
          else A ((s.active_set_.addEquality i).getIndex _) k) = _
      rw [hidq, hsi, if_neg (by decide)]
  · -- no index twice
    intro c c' hc hc' hcc
    have hc1 : c < s.active_set_.size_ + 1 := hc
    have hc1' : c' < s.active_set_.size_ + 1 := hc'
    have hcc' : (s.active_set_.addEquality i).getIndex c
        = (s.active_set_.addEquality i).getIndex c' := hcc
    rcases Nat.lt_or_ge c s.active_set_.size_ with h1 | h1
    · rcases Nat.lt_or_ge c' s.active_set_.size_ with h2 | h2
      · rw [hidx c h1, hidx c' h2] at hcc'
        exact h.wf.inj c c' h1 h2 hcc'
      · have : c' = s.active_set_.size_ := by omega
        subst this
        rw [hidx c h1, hidq] at hcc'
        have := hlt c h1
        omega
    · have : c = s.active_set_.size_ := by omega
      subst this
      rcases Nat.lt_or_ge c' s.active_set_.size_ with h2 | h2
      · rw [hidx c' h2, hidq] at hcc'
        have := hlt c' h2
        omega
      · omega
  · -- the activated equalities hold
    intro c hc
    have hc1 : c < s.active_set_.size_ + 1 := hc
    show (s.active_set_.addEquality i).getIndex c < i + 1 ∧
      s.general_constraints_status_ ((s.active_set_.addEquality i).getIndex c)
        = ConstraintStatus.EQUALITY ∧
      dot s.primal_size_ (A ((s.active_set_.addEquality i).getIndex c)) _
        = Alb ((s.active_set_.addEquality i).getIndex c)
    rcases Nat.lt_or_ge c s.active_set_.size_ with h1 | h1
    · rw [hidx c h1]
      obtain ⟨a1, a2, a3⟩ := h.active c h1
      refine ⟨a1, a2, ?_⟩
      rw [dot_add_smul, horth c h1, mul_zero, add_zero]
      exact a3
    · have : c = s.active_set_.size_ := by omega
      subst this
      rw [hidq]
      refine ⟨Nat.lt_succ_self i, hsi, ?_⟩
      rw [dot_add_smul, div_mul_cancel₀ _ hrho0]
      ring



/-- The state after an equality was activated (lines 142-150). -/
theorem Solver.EqInv.activate (sqrt : K → K) (hs : IsSqrt sqrt) {s : Solver K} {A : QPMatrix K}
    {Alb Aub : QPVector K} {tol : K} {i neq : Nat} (htol : 0 ≤ tol)
    (h : s.EqInv A Alb Aub tol (i + 1) neq)
    (hlt : ∀ c, c < s.active_set_.size_ → s.active_set_.getIndex c < i)
    (hsi : s.general_constraints_status_ i = ConstraintStatus.EQUALITY)
    (hspace : s.active_set_.size_ < s.primal_size_)
    (hrho : dot s.primal_size_ (A i) (s.equalityDirection (A i)).primal_step_direction_ < -tol) :
    (((s.equalityDirection (A i)).equalityTake sqrt
        ((Alb i - dot s.primal_size_ (A i) s.primal)
          / dot s.primal_size_ (A i) (s.equalityDirection (A i)).primal_step_direction_)
        tol).1.addEquality i).EqInv A Alb Aub tol (i + 1) neq :=
  Solver.EqInv.activate_aux sqrt hs htol h hlt hsi hspace hrho

/-- Writing the candidate column and the step direction keeps the invariant. -/
theorem Solver.EqInv.scratch {s : Solver K} {A : QPMatrix K}
    {Alb Aub : QPVector K} {tol : K} {i neq : Nat} (h : s.EqInv A Alb Aub tol i neq)
    (a : QPVector K) : (s.equalityDirection a).EqInv A Alb Aub tol i neq := by
  refine ⟨⟨h.wf.init, h.wf.max_size, h.wf.fd_size, h.wf.size_eq, h.wf.size_le, ?_, h.wf.inj⟩,
    h.no_ineq, h.active, h.status, h.count⟩
  exact h.wf.tracks.congr
    (fun r c hc => computeEqualityPrimalStep_R_other _ _ _ _ _ (Nat.ne_of_lt hc))
    (fun c _ => rfl)

theorem Solver.EqInv.skipped {s : Solver K} {H A : QPMatrix K}
    {Alb Aub : QPVector K} {tol : K} {i neq : Nat}
    (h : (s.eqCandidate H i).EqInv A Alb Aub tol (i + 1) neq) :
    (s.eqSkipped H A i).EqInv A Alb Aub tol (i + 1) neq := by
  unfold Solver.eqSkipped
  split_ifs
  · exact h.scratch (A i)
  · exact h

theorem Solver.EqInv.candidate {s : Solver K} {H A : QPMatrix K}
    {Alb Aub : QPVector K} {tol : K} {i neq : Nat}
    (h : (s.initializeMachineryLazy H).EqInv A Alb Aub tol i neq) (hb : |Alb i - Aub i| ≤ tol) :
    (s.eqCandidate H i).EqInv A Alb Aub tol (i + 1) (neq + 1) := by
  rw [Solver.eqCandidate_eq]
  exact h.equality hb

theorem hasEmptySpace_iff (as : ActiveSet) : as.hasEmptySpace = true ↔ as.size_ < as.max_size_ := by
  unfold ActiveSet.hasEmptySpace
  exact decide_eq_true_iff

/-- One pass of the equality-activation loop keeps the invariant and the sizes. -/
theorem equalityStep_next (sqrt : K → K) (hs : IsSqrt sqrt) (H A : QPMatrix K)
    (Alb Aub : QPVector K) (param : SolverParameters K) (htol : 0 ≤ param.tolerance_)
    (i : Nat) (st st1 : Solver K × Nat)
    (hinv : (st.1.initializeMachineryLazy H).EqInv A Alb Aub param.tolerance_ i st.2)
    (hstep : Solver.equalityStep sqrt H A Alb Aub param i st = Step.next st1) :
    (st1.1.initializeMachineryLazy H).EqInv A Alb Aub param.tolerance_ (i + 1) st1.2 ∧
    st1.1.toInputParser = st.1.toInputParser := by
  by_cases h1 : Alb i - param.tolerance_ > Aub i
  · rw [equalityStep_inconsistent sqrt H A Alb Aub param i st h1] at hstep
    exact absurd hstep (by simp)
  by_cases h2 : |Alb i - Aub i| > param.tolerance_
  · rw [equalityStep_inactive sqrt H A Alb Aub param i st h1 h2] at hstep
    injection hstep with hstep
    subst hstep
    refine ⟨?_, rfl⟩
    show ((st.1.setStatus i ConstraintStatus.INACTIVE).initializeMachineryLazy H).EqInv
      A Alb Aub param.tolerance_ (i + 1) st.2
    rw [Solver.init_setStatus]
    refine hinv.inactive ?_
    have h3 : Aub i - Alb i > param.tolerance_ := by
      rcases lt_abs.mp h2 with h | h
      · linarith
      · linarith
    linarith
  have hb : |Alb i - Aub i| ≤ param.tolerance_ := not_lt.mp h2
  have hE := Solver.EqInv.candidate hinv hb
  have hsz : (st.1.eqCandidate H i).toInputParser = st.1.toInputParser := by
    rw [Solver.eqCandidate_eq]
    exact Solver.init_sizes st.1 H
  by_cases h3 : (st.1.eqCandidate H i).active_set_.hasEmptySpace = true ∧
      st.1.eqRho H A i < -param.tolerance_
  · obtain ⟨h3, h4⟩ := h3
    cases h5 : (((st.1.eqCandidate H i).equalityDirection (A i)).equalityTake sqrt
      ((Alb i - dot st.1.primal_size_ (A i) st.1.primal) / st.1.eqRho H A i)
      param.tolerance_).2 with
    | false =>
      rw [equalityStep_rejected sqrt H A Alb Aub param i st h1 h2 h3 h4 h5] at hstep
      exact absurd hstep (by simp)
    | true =>
      rw [equalityStep_activate sqrt H A Alb Aub param i st h1 h2 h3 h4 h5] at hstep
      injection hstep with hstep
      subst hstep
      refine ⟨?_, hsz⟩
      have hlt : ∀ c, c < (st.1.eqCandidate H i).active_set_.size_ →
          (st.1.eqCandidate H i).active_set_.getIndex c < i := by
        intro c hc
        rw [Solver.eqCandidate_eq] at hc ⊢
        exact (hinv.active c hc).1
      have hsi : (st.1.eqCandidate H i).general_constraints_status_ i
          = ConstraintStatus.EQUALITY := by
        rw [Solver.eqCandidate_eq]
        show Function.update _ i _ i = _
        rw [Function.update_same]
      have hspace : (st.1.eqCandidate H i).active_set_.size_
          < (st.1.eqCandidate H i).primal_size_ := by
        rw [← hE.wf.max_size]
        exact (hasEmptySpace_iff _).mp h3
      have hn := Solver.eqCandidate_primal_size st.1 H i
      have hp := Solver.eqCandidate_primal st.1 H i
      have hact := Solver.EqInv.activate sqrt hs htol hE hlt hsi hspace (by
        rw [hn]; exact h4)
      rw [hn, hp] at hact
      rw [Solver.init_of_initialized]
      · exact hact
      · exact hE.wf.init
  · have h3' : (st.1.eqCandidate H i).active_set_.hasEmptySpace = false ∨
        ¬ st.1.eqRho H A i < -param.tolerance_ := by
      by_cases h : (st.1.eqCandidate H i).active_set_.hasEmptySpace = true
      · exact Or.inr (fun h4 => h3 ⟨h, h4⟩)
      · exact Or.inl (by simpa using h)
    rw [equalityStep_dependent sqrt H A Alb Aub param i st h1 h2 h3'] at hstep
    split_ifs at hstep
    injection hstep with hstep
    subst hstep
    have hsk : (st.1.eqSkipped H A i).EqInv A Alb Aub param.tolerance_ (i + 1) (st.2 + 1) :=
      Solver.EqInv.skipped hE
    refine ⟨?_, ?_⟩
    · rw [Solver.init_of_initialized _ _ hsk.wf.init]
      exact hsk
    · unfold Solver.eqSkipped
      split_ifs
      · exact hsz
      · exact hsz


/-! ## The equality-activation loop -/


theorem Solver.entry_eqInv (sizes : InputParser) (H : QPMatrix K) (h : QPVector K)
    (A : QPMatrix K) (Alb Aub : QPVector K) (tol : K) :
    ((Solver.entry sizes H h).initializeMachineryLazy H).EqInv A Alb Aub tol 0 0 := by
  have e : (Solver.entry sizes H h).initializeMachineryLazy H
      = { (Solver.entry sizes H h) with
          active_set_ := ActiveSet.initialize sizes.primal_size_
          factorization_data_ := FactorizationData.initialize H sizes.primal_size_
          primal_step_direction_ := fun _ => 0
          machinery_initialized_ := true } := by
    unfold Solver.initializeMachineryLazy
    rw [if_pos (show (Solver.entry sizes H h).machinery_initialized_ = false from rfl)]
    rfl
  rw [e]
  refine ⟨⟨rfl, rfl, rfl, rfl, Nat.zero_le _, ?_, ?_⟩, rfl, ?_, ?_, ⟨le_refl 0, ?_⟩⟩
  · intro c hc
    exact absurd hc (Nat.not_lt_zero c)
  · intro c c' hc
    exact absurd hc (Nat.not_lt_zero c)
  · intro c hc
    exact absurd hc (Nat.not_lt_zero c)
  · intro k hk
    exact absurd hk (Nat.not_lt_zero k)
  · rintro ⟨k, hk, _⟩
    exact absurd hk (Nat.not_lt_zero k)

theorem equalityStep_rawEmpty (sqrt : K → K) (H A : QPMatrix K)
    (Alb Aub : QPVector K) (param : SolverParameters K)
    (i : Nat) (st st1 : Solver K × Nat) (hraw : st.1.RawEmpty)
    (hstep : Solver.equalityStep sqrt H A Alb Aub param i st = Step.next st1) :
    st1.1.RawEmpty := by
  have hinit : (st.1.eqCandidate H i).machinery_initialized_ = true :=
    Solver.init_initialized _ _
  have hdone : ∀ s : Solver K, s.machinery_initialized_ = true → s.RawEmpty := by
    intro s hs h0
    rw [hs] at h0
    exact absurd h0 (by decide)
  by_cases h1 : Alb i - param.tolerance_ > Aub i
  · rw [equalityStep_inconsistent sqrt H A Alb Aub param i st h1] at hstep
    exact absurd hstep (by simp)
  by_cases h2 : |Alb i - Aub i| > param.tolerance_
  · rw [equalityStep_inactive sqrt H A Alb Aub param i st h1 h2] at hstep
    injection hstep with hstep
    subst hstep
    exact hraw
  by_cases h3 : (st.1.eqCandidate H i).active_set_.hasEmptySpace = true ∧
      st.1.eqRho H A i < -param.tolerance_
  · obtain ⟨h3, h4⟩ := h3
    cases h5 : (((st.1.eqCandidate H i).equalityDirection (A i)).equalityTake sqrt
      ((Alb i - dot st.1.primal_size_ (A i) st.1.primal) / st.1.eqRho H A i)
      param.tolerance_).2 with
    | false =>
      rw [equalityStep_rejected sqrt H A Alb Aub param i st h1 h2 h3 h4 h5] at hstep
      exact absurd hstep (by simp)
    | true =>
      rw [equalityStep_activate sqrt H A Alb Aub param i st h1 h2 h3 h4 h5] at hstep
      injection hstep with hstep
      subst hstep
      exact hdone _ hinit
  · have h3' : (st.1.eqCandidate H i).active_set_.hasEmptySpace = false ∨
        ¬ st.1.eqRho H A i < -param.tolerance_ := by
      by_cases h : (st.1.eqCandidate H i).active_set_.hasEmptySpace = true
      · exact Or.inr (fun h4 => h3 ⟨h, h4⟩)
      · exact Or.inl (by simpa using h)
    rw [equalityStep_dependent sqrt H A Alb Aub param i st h1 h2 h3'] at hstep
    split_ifs at hstep
    injection hstep with hstep
    subst hstep
    refine hdone _ ?_
    unfold Solver.eqSkipped
    split_ifs
    · exact hinit
    · exact hinit

/-- The equality-activation loop keeps the invariant. -/
theorem equalityLoop_next (sqrt : K → K) (hs : IsSqrt sqrt) (H A : QPMatrix K)
    (Alb Aub : QPVector K) (param : SolverParameters K) (htol : 0 ≤ param.tolerance_)
    (count i : Nat) (st st1 : Solver K × Nat)
    (hinv : (st.1.initializeMachineryLazy H).EqInv A Alb Aub param.tolerance_ i st.2)
    (hraw : st.1.RawEmpty)
    (hloop : Solver.equalityLoop sqrt H A Alb Aub param count i st = Step.next st1) :
    (st1.1.initializeMachineryLazy H).EqInv A Alb Aub param.tolerance_ (i + count) st1.2 ∧
    st1.1.RawEmpty ∧ st1.1.toInputParser = st.1.toInputParser := by
  induction count generalizing i st with
  | zero =>
    unfold Solver.equalityLoop at hloop
    injection hloop with hloop
    subst hloop
    exact ⟨hinv, hraw, rfl⟩
  | succ count ih =>
    unfold Solver.equalityLoop at hloop
    cases hstep : Solver.equalityStep sqrt H A Alb Aub param i st with
    | next st2 =>
      rw [hstep] at hloop
      obtain ⟨h1, h2⟩ := equalityStep_next sqrt hs H A Alb Aub param htol i st st2 hinv hstep
      have h3 := equalityStep_rawEmpty sqrt H A Alb Aub param i st st2 hraw hstep
      obtain ⟨h4, h5, h6⟩ := ih (i + 1) st2 h1 h3 hloop
      refine ⟨?_, h5, h6.trans h2⟩
      rw [show i + (count + 1) = i + 1 + count by omega]
      exact h4
    | done o =>
      rw [hstep] at hloop
      exact absurd hloop (by simp)


/-! ## Small runs of the equality-activation phase -/


theorem IsSqrt.one {sqrt : K → K} (hs : IsSqrt sqrt) : sqrt 1 = 1 := by
  obtain ⟨h1, h2⟩ := hs 1 zero_le_one
  have : sqrt 1 * sqrt 1 = 1 * 1 := by rw [h2, one_mul]
  exact (mul_self_inj h1 zero_le_one).mp this

theorem IsSqrt.le_sqrt {sqrt : K → K} (hs : IsSqrt sqrt) {t x : K}
    (hx : t * t ≤ x) : t ≤ sqrt x := by
  have hx0 : 0 ≤ x := le_trans (mul_self_nonneg t) hx
  obtain ⟨h1, h2⟩ := hs x hx0
  by_contra hlt
  have hlt' : sqrt x < t := not_le.mp hlt
  have : sqrt x * sqrt x < t * t := mul_self_lt_mul_self h1 hlt'
  rw [h2] at this
  exact absurd hx (not_le.mpr this)

/-- The Cholesky factor of the `2 × 2` identity matrix is the identity matrix. -/
theorem cholesky_identity2 {sqrt : K → K} (hs : IsSqrt sqrt) :
    CholeskyFactorization.compute sqrt 2 (matOf [[1, 0], [0, 1]] : QPMatrix K)
      = matOf [[1, 0], [0, 1]] := by
  funext i c
  simp only [CholeskyFactorization.compute, forUp, CholeskyFactorization.column]
  rcases Nat.lt_or_ge i 2 with hi | hi
  · rcases Nat.lt_or_ge c 2 with hc | hc
    · interval_cases i <;> interval_cases c <;> simp [matOf, Finset.sum_range_succ, hs.one]
    · have h0 : c ≠ 0 := by omega
      have h1 : c ≠ 1 := by omega
      simp [matOf, h0, h1]
  · have h1 : ¬ i < 2 := by omega
    simp [matOf, h1]


theorem inversion_identity2 (i j : Nat) :
    TriangularInversion.compute 2 (matOf [[1, 0], [0, 1]] : QPMatrix K) i j
      = if i < 2 ∧ j < 2 ∧ i = j then 1 else 0 := by
  unfold TriangularInversion.compute
  rcases Nat.lt_or_ge i 2 with hi | hi
  · rcases Nat.lt_or_ge j 2 with hj | hj
    · interval_cases i <;> interval_cases j <;>
        simp [forwardSolve, matOf, Finset.sum_range_succ, Function.update]
    · simp [hj, Nat.not_lt.mpr hj]
  · simp [Nat.not_lt.mpr hi]

theorem cholesky_solve_identity2_zero (b : QPVector K) (hb : ∀ k, b k = 0) :
    CholeskyFactorization.solve 2 (matOf [[1, 0], [0, 1]] : QPMatrix K) b = fun _ => 0 := by
  funext k
  unfold CholeskyFactorization.solve
  simp [backSolve, forwardSolve, matOf, Finset.sum_range_succ, Function.update, hb]


theorem update_fst (sqrt : K → K) (fd : FactorizationData K) (k : Nat) (tol : K) :
    (fd.update sqrt k tol).1 = FactorizationData.updateLoop sqrt k (fd.primal_size_ - 1) fd := by
  unfold FactorizationData.update
  dsimp only
  split_ifs <;> rfl

/-- `update(k, tol)` succeeds exactly when the length of the part of column `k`
from the diagonal down is at least `tol`. -/
theorem update_snd (sqrt : K → K) (hs : IsSqrt sqrt) (fd : FactorizationData K) (k : Nat)
    (tol : K) (hk : k < fd.primal_size_) :
    (fd.update sqrt k tol).2 = true
      ↔ tol ≤ sqrt (∑ i in Finset.Ico k fd.primal_size_, fd.R i k * fd.R i k) := by
  obtain ⟨_, h2⟩ := updateLoop_R_col sqrt hs k (fd.primal_size_ - 1) fd (by omega)
  rw [Nat.sub_add_cancel (by omega : 1 ≤ fd.primal_size_)] at h2
  have h3 := abs_eq_sqrt_of_mul_self sqrt hs _ _
    (Finset.sum_nonneg (fun i _ => mul_self_nonneg (fd.R i k))) h2
  rw [← h3]
  unfold FactorizationData.update
  dsimp only
  split_ifs with h
  · simp only [Bool.false_eq_true, false_iff, not_le]
    exact h
  · simp only [true_iff]
    exact not_lt.mp h

/-- The state with which `solveWithFactor` answers when the equality-activation
loop ends with all constraints being equalities. -/
theorem solveWithFactor_all_equalities (sqrt : K → K) (asserts : Bool) (sizes : InputParser)
    (H : QPMatrix K) (h : QPVector K) (A : QPMatrix K) (Alb Aub : QPVector K)
    (param : SolverParameters K) (fuel : Nat) (st : Solver K × Nat)
    (hm : 0 < sizes.num_general_constraints_)
    (hloop : Solver.equalityLoop sqrt H A Alb Aub param sizes.num_general_constraints_ 0
      (Solver.entry sizes H h, 0) = Step.next st)
    (hall : st.2 = st.1.num_general_constraints_ ∧ 0 = st.1.num_simple_bounds_) :
    Solver.solveWithFactor sqrt asserts sizes H h A Alb Aub param fuel
      = some (Outcome.returned ReturnStatus.OK st.1) := by
  unfold Solver.solveWithFactor
  dsimp only
  have h0 : ¬ 0 = (Solver.entry sizes H h).num_simple_bounds_
      + (Solver.entry sizes H h).num_general_constraints_ := by
    show ¬ 0 = sizes.num_simple_bounds_ + sizes.num_general_constraints_
    omega
  rw [if_neg h0]
  have hloop' : Solver.equalityLoop sqrt H A Alb Aub param
      (Solver.entry sizes H h).num_general_constraints_ 0 (Solver.entry sizes H h, 0)
      = Step.next st := hloop
  rw [hloop']
  dsimp only
  rw [if_pos hall]

theorem vecOf_of_le (l : List K) (k : Nat) (h : l.length ≤ k) : vecOf l k = 0 := by
  unfold vecOf
  simp [List.getD, List.getElem?_eq_none h]

theorem Solver.entry_eqCandidate_fd (sizes : InputParser) (H : QPMatrix K) (h : QPVector K)
    (i : Nat) :
    ((Solver.entry sizes H h).eqCandidate H i).factorization_data_
      = FactorizationData.initialize H sizes.primal_size_ := rfl

theorem Solver.entry_eqCandidate_as (sizes : InputParser) (H : QPMatrix K) (h : QPVector K)
    (i : Nat) :
    ((Solver.entry sizes H h).eqCandidate H i).active_set_
      = ActiveSet.initialize sizes.primal_size_ := rfl

theorem Solver.equalityDirection_p (s : Solver K) (a : QPVector K) :
    (s.equalityDirection a).primal_step_direction_
      = (s.factorization_data_.computeEqualityPrimalStep a s.active_set_.size_).2 := rfl

theorem Solver.equalityDirection_fd (s : Solver K) (a : QPVector K) :
    (s.equalityDirection a).factorization_data_
      = (s.factorization_data_.computeEqualityPrimalStep a s.active_set_.size_).1 := rfl

theorem colT_identity2 (a : QPVector K) (r : Nat) :
    colT 2 (TriangularInversion.compute 2 (matOf [[1, 0], [0, 1]] : QPMatrix K)) a r
      = if r < 2 then a r else 0 := by
  unfold colT
  simp only [Finset.sum_range_succ, Finset.sum_range_zero, inversion_identity2]
  rcases Nat.lt_or_ge r 2 with hr | hr
  · interval_cases r <;> simp
  · have h0 : ¬ (0 = r) := by omega
    have h1 : ¬ (1 = r) := by omega
    simp [Nat.not_lt.mpr hr]

/-- A loop over one constraint is one step. -/
theorem equalityLoop_one (sqrt : K → K) (H A : QPMatrix K) (Alb Aub : QPVector K)
    (param : SolverParameters K) (i : Nat) (st st1 : Solver K × Nat)
    (h : Solver.equalityStep sqrt H A Alb Aub param i st = Step.next st1) :
    Solver.equalityLoop sqrt H A Alb Aub param 1 i st = Step.next st1 := by
  unfold Solver.equalityLoop
  rw [h]
  dsimp only
  unfold Solver.equalityLoop
  rfl

/-- The single equality `x₀ + x₁ = 1` over the identity factor is activated and
moves `x` from `0` to `(1/2, 1/2)`. -/
theorem scenarioB_loop (sqrt : K → K) (hs : IsSqrt sqrt) (param : SolverParameters K)
    (htol : 0 < param.tolerance_)
    (htol2 : param.tolerance_ * param.tolerance_ ≤ 2) :
    (Solver.entry ⟨2, 2, 0, 1⟩ (matOf [[1, 0], [0, 1]] : QPMatrix K)
      (vecOf [0, 0])).eqRho (matOf [[1, 0], [0, 1]]) (matOf [[1, 1]]) 0 = -2 ∧
    ∃ s : Solver K,
      Solver.equalityLoop sqrt (matOf [[1, 0], [0, 1]]) (matOf [[1, 1]]) (vecOf [1]) (vecOf [1])
        param 1 0 (Solver.entry ⟨2, 2, 0, 1⟩ (matOf [[1, 0], [0, 1]]) (vecOf [0, 0]), 0)
        = Step.next (s, 1) ∧
      s.toInputParser = ⟨2, 2, 0, 1⟩ ∧
      s.primal 0 = 1 / 2 ∧ s.primal 1 = 1 / 2 ∧
      s.active_set_.size_ = 1 ∧ s.active_set_.num_equalities_ = 1 ∧
      s.active_set_.num_inequalities_ = 0 ∧ s.active_set_.getIndex 0 = 0 ∧
      s.general_constraints_status_ 0 = ConstraintStatus.EQUALITY := by
  have hx0 : (Solver.entry ⟨2, 2, 0, 1⟩ (matOf [[1, 0], [0, 1]] : QPMatrix K)
      (vecOf [0, 0])).primal = fun _ => 0 := by
    show (if 2 > 0 then CholeskyFactorization.solve 2 (matOf [[1, 0], [0, 1]] : QPMatrix K)
      (fun k => -vecOf [0, 0] k) else fun _ => 0) = _
    rw [if_pos (by decide)]
    refine cholesky_solve_identity2_zero _ (fun k => ?_)
    rcases Nat.lt_or_ge k 2 with hk | hk
    · interval_cases k <;> simp [vecOf]
    · rw [vecOf_of_le _ _ hk, neg_zero]
  have hA : ∀ k, (matOf [[1, 1]] : QPMatrix K) 0 k = if k < 2 then 1 else 0 := by
    intro k
    rcases Nat.lt_or_ge k 2 with hk | hk
    · interval_cases k <;> simp [matOf]
    · rw [if_neg (Nat.not_lt.mpr hk)]
      exact vecOf_of_le [1, 1] k hk
  -- the candidate column `d = Jᵀ·a`
  have hd : ∀ k, k < 2 →
      (( FactorizationData.initialize (matOf [[1, 0], [0, 1]] : QPMatrix K) 2).computeEqualityPrimalStep
        ((matOf [[1, 1]] : QPMatrix K) 0) 0).1.R k 0 = 1 := by
    intro k hk
    rw [computeEqualityPrimalStep_R_col _ _ _ _ hk]
    show colT 2 (TriangularInversion.compute 2 _) _ k = 1
    rw [colT_identity2, if_pos hk, hA, if_pos hk]
  -- the step direction
  have hp : ∀ k, (((Solver.entry ⟨2, 2, 0, 1⟩ (matOf [[1, 0], [0, 1]] : QPMatrix K)
      (vecOf [0, 0])).eqCandidate (matOf [[1, 0], [0, 1]]) 0).equalityDirection
        ((matOf [[1, 1]] : QPMatrix K) 0)).primal_step_direction_ k
      = if k < 2 then -1 else 0 := by
    intro k
    rw [Solver.equalityDirection_p, Solver.entry_eqCandidate_fd, Solver.entry_eqCandidate_as,
      computeEqualityPrimalStep_p]
    show (if k < 2 then -(∑ j in Finset.Ico 0 2,
        TriangularInversion.compute 2 (matOf [[1, 0], [0, 1]] : QPMatrix K) k j * _) else 0) = _
    rcases Nat.lt_or_ge k 2 with hk | hk
    · rw [if_pos hk, if_pos hk]
      have : Finset.Ico 0 2 = Finset.range 2 := by ext; simp
      rw [this, Finset.sum_range_succ, Finset.sum_range_succ, Finset.sum_range_zero]
      dsimp only [ ActiveSet.initialize]
      rw [hd 0 (by decide), hd 1 (by decide), inversion_identity2, inversion_identity2]
      interval_cases k <;> simp
    · rw [if_neg (Nat.not_lt.mpr hk), if_neg (Nat.not_lt.mpr hk)]
  have hdot0 : dot (Solver.entry ⟨2, 2, 0, 1⟩ (matOf [[1, 0], [0, 1]] : QPMatrix K)
      (vecOf [0, 0])).primal_size_ ((matOf [[1, 1]] : QPMatrix K) 0)
      (Solver.entry ⟨2, 2, 0, 1⟩ (matOf [[1, 0], [0, 1]] : QPMatrix K) (vecOf [0, 0])).primal
      = 0 := by
    rw [hx0]
    simp [dot]
  have hrho : (Solver.entry ⟨2, 2, 0, 1⟩ (matOf [[1, 0], [0, 1]] : QPMatrix K)
      (vecOf [0, 0])).eqRho (matOf [[1, 0], [0, 1]]) (matOf [[1, 1]]) 0 = -2 := by
    unfold Solver.eqRho
    show dot 2 _ _ = _
    unfold dot
    rw [Finset.sum_range_succ, Finset.sum_range_succ, Finset.sum_range_zero, hp, hp, hA, hA]
    norm_num
  have hb : (vecOf [1] : QPVector K) 0 = 1 := rfl
  have h1 : ¬ (vecOf [1] : QPVector K) 0 - param.tolerance_ > (vecOf [1] : QPVector K) 0 := by
    rw [hb]
    intro h
    linarith
  have h2 : ¬ |(vecOf [1] : QPVector K) 0 - (vecOf [1] : QPVector K) 0| > param.tolerance_ := by
    rw [sub_self, abs_zero]
    exact not_lt.mpr htol.le
  have h3 : ((Solver.entry ⟨2, 2, 0, 1⟩ (matOf [[1, 0], [0, 1]] : QPMatrix K)
      (vecOf [0, 0])).eqCandidate (matOf [[1, 0], [0, 1]]) 0).active_set_.hasEmptySpace
      = true := by
    rw [Solver.entry_eqCandidate_as]
    rfl
  have h4 : (Solver.entry ⟨2, 2, 0, 1⟩ (matOf [[1, 0], [0, 1]] : QPMatrix K)
      (vecOf [0, 0])).eqRho (matOf [[1, 0], [0, 1]]) (matOf [[1, 1]]) 0
      < -param.tolerance_ := by
    rw [hrho]
    nlinarith
  have h5 : ((((Solver.entry ⟨2, 2, 0, 1⟩ (matOf [[1, 0], [0, 1]] : QPMatrix K)
      (vecOf [0, 0])).eqCandidate (matOf [[1, 0], [0, 1]]) 0).equalityDirection
        ((matOf [[1, 1]] : QPMatrix K) 0)).equalityTake sqrt
      (((vecOf [1] : QPVector K) 0 - dot (Solver.entry ⟨2, 2, 0, 1⟩
          (matOf [[1, 0], [0, 1]] : QPMatrix K) (vecOf [0, 0])).primal_size_
          ((matOf [[1, 1]] : QPMatrix K) 0)
          (Solver.entry ⟨2, 2, 0, 1⟩ (matOf [[1, 0], [0, 1]] : QPMatrix K) (vecOf [0, 0])).primal)
        / (Solver.entry ⟨2, 2, 0, 1⟩ (matOf [[1, 0], [0, 1]] : QPMatrix K)
            (vecOf [0, 0])).eqRho (matOf [[1, 0], [0, 1]]) (matOf [[1, 1]]) 0)
      param.tolerance_).2 = true := by
    show ((( FactorizationData.initialize (matOf [[1, 0], [0, 1]] : QPMatrix K)
      2).computeEqualityPrimalStep ((matOf [[1, 1]] : QPMatrix K) 0) 0).1.update sqrt 0
        param.tolerance_).2 = true
    rw [update_snd sqrt hs _ _ _ (by show 0 < 2; decide)]
    show param.tolerance_ ≤ sqrt (∑ i in Finset.Ico 0 2, _)
    have : Finset.Ico 0 2 = Finset.range 2 := by ext; simp
    rw [this, Finset.sum_range_succ, Finset.sum_range_succ, Finset.sum_range_zero,
      hd 0 (by decide), hd 1 (by decide)]
    refine hs.le_sqrt ?_
    linarith
  have hstep := equalityStep_activate sqrt (matOf [[1, 0], [0, 1]]) (matOf [[1, 1]])
    (vecOf [1]) (vecOf [1]) param 0
    (Solver.entry ⟨2, 2, 0, 1⟩ (matOf [[1, 0], [0, 1]] : QPMatrix K) (vecOf [0, 0]), 0)
    h1 h2 h3 h4 h5
  refine ⟨hrho, _, equalityLoop_one sqrt _ _ _ _ param 0 _ _ hstep, ?_, ?_, ?_, ?_, ?_, ?_, ?_, ?_⟩
  · rfl
  · show (Solver.entry ⟨2, 2, 0, 1⟩ (matOf [[1, 0], [0, 1]] : QPMatrix K) (vecOf [0, 0])).primal 0
      + _ * (((Solver.entry ⟨2, 2, 0, 1⟩ (matOf [[1, 0], [0, 1]] : QPMatrix K)
      (vecOf [0, 0])).eqCandidate (matOf [[1, 0], [0, 1]]) 0).equalityDirection
        ((matOf [[1, 1]] : QPMatrix K) 0)).primal_step_direction_ 0 = _
    rw [hp, hrho]
    dsimp only
    rw [hdot0, hx0, hb]
    norm_num
  · show (Solver.entry ⟨2, 2, 0, 1⟩ (matOf [[1, 0], [0, 1]] : QPMatrix K) (vecOf [0, 0])).primal 1
      + _ * (((Solver.entry ⟨2, 2, 0, 1⟩ (matOf [[1, 0], [0, 1]] : QPMatrix K)
      (vecOf [0, 0])).eqCandidate (matOf [[1, 0], [0, 1]]) 0).equalityDirection
        ((matOf [[1, 1]] : QPMatrix K) 0)).primal_step_direction_ 1 = _
    rw [hp, hrho]
    dsimp only
    rw [hdot0, hx0, hb]
    norm_num
  · rfl
  · rfl
  · rfl
  · rfl
  · rfl


/-! ## Activated equalities stay exact -/


theorem ActiveSet.Keeps.refl (a : ActiveSet) : a.Keeps a :=
  ⟨le_refl _, fun _ _ => rfl⟩

theorem ActiveSet.Keeps.trans {a b c : ActiveSet} (h1 : a.Keeps b) (h2 : b.Keeps c) :
    a.Keeps c :=
  ⟨le_trans h1.1 h2.1, fun k hk => by
    rw [h2.2 k (lt_of_lt_of_le hk h1.1), h1.2 k hk]⟩

theorem ActiveSet.Keeps.addEquality (a : ActiveSet) (i : Nat) : a.Keeps (a.addEquality i) := by
  refine ⟨Nat.le_succ _, fun c hc => ?_⟩
  show Function.update a.active_constraints_indices_ a.size_ i c = _
  rw [Function.update_noteq (Nat.ne_of_lt hc)]
  rfl

theorem ActiveSet.getIndex_addEquality (a : ActiveSet) (i : Nat) :
    (a.addEquality i).getIndex a.size_ = i := by
  show Function.update a.active_constraints_indices_ a.size_ i a.size_ = _
  rw [Function.update_same]

theorem ActiveSet.Keeps.of_initialized {a : ActiveSet} {s : Solver K} (H : QPMatrix K)
    (hs : s.machinery_initialized_ = true) (h : a.Keeps s.active_set_) :
    a.Keeps (s.initializeMachineryLazy H).active_set_ := by
  rw [Solver.init_of_initialized s H hs]
  exact h

/-- A step of the equality-activation loop keeps the entries of the active set. -/
theorem equalityStep_keeps (sqrt : K → K) (H A : QPMatrix K)
    (Alb Aub : QPVector K) (param : SolverParameters K)
    (i : Nat) (st st1 : Solver K × Nat)
    (hstep : Solver.equalityStep sqrt H A Alb Aub param i st = Step.next st1) :
    (st.1.initializeMachineryLazy H).active_set_.Keeps
      (st1.1.initializeMachineryLazy H).active_set_ := by
  have hinit : (st.1.eqCandidate H i).machinery_initialized_ = true :=
    Solver.init_initialized _ _
  have hcand : (st.1.eqCandidate H i).active_set_
      = (st.1.initializeMachineryLazy H).active_set_ := by
    rw [Solver.eqCandidate_eq]
    rfl
  by_cases h1 : Alb i - param.tolerance_ > Aub i
  · rw [equalityStep_inconsistent sqrt H A Alb Aub param i st h1] at hstep
    exact absurd hstep (by simp)
  by_cases h2 : |Alb i - Aub i| > param.tolerance_
  · rw [equalityStep_inactive sqrt H A Alb Aub param i st h1 h2] at hstep
    injection hstep with hstep
    subst hstep
    show ActiveSet.Keeps _
      ((st.1.setStatus i ConstraintStatus.INACTIVE).initializeMachineryLazy H).active_set_
    rw [Solver.init_setStatus]
    exact ActiveSet.Keeps.refl _
  by_cases h3 : (st.1.eqCandidate H i).active_set_.hasEmptySpace = true ∧
      st.1.eqRho H A i < -param.tolerance_
  · obtain ⟨h3, h4⟩ := h3
    cases h5 : (((st.1.eqCandidate H i).equalityDirection (A i)).equalityTake sqrt
      ((Alb i - dot st.1.primal_size_ (A i) st.1.primal) / st.1.eqRho H A i)
      param.tolerance_).2 with
    | false =>
      rw [equalityStep_rejected sqrt H A Alb Aub param i st h1 h2 h3 h4 h5] at hstep
      exact absurd hstep (by simp)
    | true =>
      rw [equalityStep_activate sqrt H A Alb Aub param i st h1 h2 h3 h4 h5] at hstep
      injection hstep with hstep
      subst hstep
      apply ActiveSet.Keeps.of_initialized
      · exact hinit
      · show ActiveSet.Keeps _ ((st.1.eqCandidate H i).active_set_.addEquality i)
        rw [hcand]
        exact ActiveSet.Keeps.addEquality _ i
  · have h3' : (st.1.eqCandidate H i).active_set_.hasEmptySpace = false ∨
        ¬ st.1.eqRho H A i < -param.tolerance_ := by
      by_cases h : (st.1.eqCandidate H i).active_set_.hasEmptySpace = true
      · exact Or.inr (fun h4 => h3 ⟨h, h4⟩)
      · exact Or.inl (by simpa using h)
    rw [equalityStep_dependent sqrt H A Alb Aub param i st h1 h2 h3'] at hstep
    split_ifs at hstep
    injection hstep with hstep
    subst hstep
    have hsk : (st.1.eqSkipped H A i).machinery_initialized_ = true := by
      unfold Solver.eqSkipped
      split_ifs
      · exact hinit
      · exact hinit
    have hska : (st.1.eqSkipped H A i).active_set_ = (st.1.eqCandidate H i).active_set_ := by
      unfold Solver.eqSkipped
      split_ifs
      · rfl
      · rfl
    apply ActiveSet.Keeps.of_initialized
    · exact hsk
    · show ActiveSet.Keeps _ (st.1.eqSkipped H A i).active_set_
      rw [hska, hcand]
      exact ActiveSet.Keeps.refl _

/-- The equality-activation loop keeps the entries of the active set. -/
theorem equalityLoop_keeps (sqrt : K → K) (H A : QPMatrix K)
    (Alb Aub : QPVector K) (param : SolverParameters K)
    (count i : Nat) (st st1 : Solver K × Nat)
    (hloop : Solver.equalityLoop sqrt H A Alb Aub param count i st = Step.next st1) :
    (st.1.initializeMachineryLazy H).active_set_.Keeps
      (st1.1.initializeMachineryLazy H).active_set_ := by
  induction count generalizing i st with
  | zero =>
    unfold Solver.equalityLoop at hloop
    injection hloop with hloop
    subst hloop
    exact ActiveSet.Keeps.refl _
  | succ count ih =>
    unfold Solver.equalityLoop at hloop
    cases hstep : Solver.equalityStep sqrt H A Alb Aub param i st with
    | next st2 =>
      rw [hstep] at hloop
      exact (equalityStep_keeps sqrt H A Alb Aub param i st st2 hstep).trans
        (ih (i + 1) st2 hloop)
    | done o =>
      rw [hstep] at hloop
      exact absurd hloop (by simp)

theorem Solver.entry_rawEmpty (sizes : InputParser) (H : QPMatrix K) (h : QPVector K) :
    (Solver.entry sizes H h).RawEmpty :=
  fun _ => ⟨rfl, rfl, rfl⟩

/-- An equality that was activated holds exactly when the equality-activation
phase is over. -/
theorem activated_equality_holds (sqrt : K → K) (hs : IsSqrt sqrt) (sizes : InputParser)
    (H : QPMatrix K) (h : QPVector K) (A : QPMatrix K) (Alb Aub : QPVector K)
    (param : SolverParameters K) (htol : 0 ≤ param.tolerance_)
    (i count : Nat) (st st1 : Solver K × Nat)
    (hpre : Solver.equalityLoop sqrt H A Alb Aub param i 0 (Solver.entry sizes H h, 0)
      = Step.next st)
    (h2 : |Alb i - Aub i| ≤ param.tolerance_)
    (h3 : (st.1.eqCandidate H i).active_set_.hasEmptySpace = true)
    (h4 : st.1.eqRho H A i < -param.tolerance_)
    (hpost : Solver.equalityLoop sqrt H A Alb Aub param (count + 1) i st = Step.next st1) :
    dot sizes.primal_size_ (A i) st1.1.primal = Alb i := by
  obtain ⟨hinv, hraw, hsz⟩ := equalityLoop_next sqrt hs H A Alb Aub param htol i 0
    (Solver.entry sizes H h, 0) st (Solver.entry_eqInv sizes H h A Alb Aub _)
    (Solver.entry_rawEmpty sizes H h) hpre
  rw [Nat.zero_add] at hinv
  have h1 : ¬ Alb i - param.tolerance_ > Aub i := by
    intro hc
    have := le_abs_self (Alb i - Aub i)
    linarith
  have h2' : ¬ |Alb i - Aub i| > param.tolerance_ := not_lt.mpr h2
  have hinit : (st.1.eqCandidate H i).machinery_initialized_ = true :=
    Solver.init_initialized _ _
  unfold Solver.equalityLoop at hpost
  cases hstep : Solver.equalityStep sqrt H A Alb Aub param i st with
  | done o =>
    rw [hstep] at hpost
    exact absurd hpost (by simp)
  | next st2 =>
    rw [hstep] at hpost
    dsimp only at hpost
    obtain ⟨hinv2, hsz2⟩ := equalityStep_next sqrt hs H A Alb Aub param htol i st st2 hinv hstep
    have hraw2 := equalityStep_rawEmpty sqrt H A Alb Aub param i st st2 hraw hstep
    obtain ⟨hinv1, _, hsz1⟩ := equalityLoop_next sqrt hs H A Alb Aub param htol count (i + 1)
      st2 st1 hinv2 hraw2 hpost
    have hkeep := equalityLoop_keeps sqrt H A Alb Aub param count (i + 1) st2 st1 hpost
    cases h5 : (((st.1.eqCandidate H i).equalityDirection (A i)).equalityTake sqrt
      ((Alb i - dot st.1.primal_size_ (A i) st.1.primal) / st.1.eqRho H A i)
      param.tolerance_).2 with
    | false =>
      rw [equalityStep_rejected sqrt H A Alb Aub param i st h1 h2' h3 h4 h5] at hstep
      exact absurd hstep (by simp)
    | true =>
      rw [equalityStep_activate sqrt H A Alb Aub param i st h1 h2' h3 h4 h5] at hstep
      injection hstep with hstep
      have hst2init : st2.1.machinery_initialized_ = true := by
        rw [← hstep]
        exact hinit
      have hst2as : st2.1.active_set_ = (st.1.eqCandidate H i).active_set_.addEquality i := by
        rw [← hstep]
        rfl
      rw [Solver.init_of_initialized st2.1 H hst2init, hst2as] at hkeep
      have hidx : (st1.1.initializeMachineryLazy H).active_set_.getIndex
          (st.1.eqCandidate H i).active_set_.size_ = i := by
        rw [hkeep.2 _ (show (st.1.eqCandidate H i).active_set_.size_
          < (st.1.eqCandidate H i).active_set_.size_ + 1 from Nat.lt_succ_self _)]
        exact ActiveSet.getIndex_addEquality _ i
      have hlt : (st.1.eqCandidate H i).active_set_.size_
          < (st1.1.initializeMachineryLazy H).active_set_.size_ :=
        lt_of_lt_of_le (Nat.lt_succ_self _) hkeep.1
      have hact := (hinv1.active _ hlt).2.2
      rw [hidx, Solver.init_primal, Solver.init_primal_size] at hact
      have hn : st1.1.primal_size_ = sizes.primal_size_ :=
        congrArg InputParser.primal_size_ ((hsz1.trans hsz2).trans hsz)
      rw [← hn]
      exact hact


/-! ## The single-equality problem -/


/-- The single-equality problem `n = 2`, `H = I`, `h = 0`, `x₀ + x₁ = 1`: `solve`
answers `OK` with `x = (1/2, 1/2)` and the equality active. -/
theorem scenarioB_solve (sqrt : K → K) (hs : IsSqrt sqrt) (param : SolverParameters K)
    (htol : 0 < param.tolerance_) (htol2 : param.tolerance_ * param.tolerance_ ≤ 2)
    (htype : param.hessian_type_ ≠ HessianType.HESSIAN_UNDEFINED) (asserts : Bool)
    (fuel : Nat) :
    ∃ s : Solver K,
      Solver.solve sqrt asserts ⟨2, 2, 0, 1⟩ (matOf [[1, 0], [0, 1]]) (vecOf [0, 0])
        (matOf [[1, 1]]) (vecOf [1]) (vecOf [1]) param fuel
        = some (Outcome.returned ReturnStatus.OK s) ∧
      s.primal 0 = 1 / 2 ∧ s.primal 1 = 1 / 2 ∧
      s.active_set_.size_ = 1 ∧ s.active_set_.num_equalities_ = 1 ∧
      s.active_set_.num_inequalities_ = 0 ∧ s.active_set_.getIndex 0 = 0 ∧
      s.general_constraints_status_ 0 = ConstraintStatus.EQUALITY := by
  obtain ⟨_, s, hloop, hsz, h0, h1, h2, h3, h4, h5, h6⟩ := scenarioB_loop sqrt hs param htol htol2
  have hfac : Solver.solveWithFactor sqrt asserts ⟨2, 2, 0, 1⟩ (matOf [[1, 0], [0, 1]])
      (vecOf [0, 0]) (matOf [[1, 1]]) (vecOf [1]) (vecOf [1]) param fuel
      = some (Outcome.returned ReturnStatus.OK s) := by
    refine solveWithFactor_all_equalities sqrt asserts ⟨2, 2, 0, 1⟩ _ _ _ _ _ param fuel (s, 1)
      (by decide) hloop ?_
    show 1 = s.toInputParser.num_general_constraints_ ∧ 0 = s.toInputParser.num_simple_bounds_
    rw [hsz]
    exact ⟨rfl, rfl⟩
  refine ⟨s, ?_, h0, h1, h2, h3, h4, h5, h6⟩
  unfold Solver.solve Solver.prepareHessian
  cases ht : param.hessian_type_ with
  | HESSIAN_UNDEFINED => exact absurd ht htype
  | HESSIAN_LOWER_TRIANGULAR =>
    dsimp only
    rw [cholesky_identity2 hs]
    exact hfac
  | HESSIAN_CHOLESKY_FACTOR =>
    exact hfac


/-! ## Linearly dependent equalities -/


/-- The product `ρ` is minus the squared length of the tail of `Jᵀ·A[i]ᵀ`. -/
theorem Solver.eqRho_eq (s : Solver K) (H A : QPMatrix K) (i : Nat)
    (hfd : (s.initializeMachineryLazy H).factorization_data_.primal_size_ = s.primal_size_) :
    s.eqRho H A i
      = -(∑ k in Finset.Ico (s.initializeMachineryLazy H).active_set_.size_ s.primal_size_,
            colT s.primal_size_ (s.initializeMachineryLazy H).factorization_data_.QLi_aka_J
              (A i) k
            * colT s.primal_size_ (s.initializeMachineryLazy H).factorization_data_.QLi_aka_J
              (A i) k) := by
  unfold Solver.eqRho
  rw [Solver.equalityDirection_p, Solver.eqCandidate_eq]
  show dot s.primal_size_ (A i)
    ((s.initializeMachineryLazy H).factorization_data_.computeEqualityPrimalStep (A i)
      (s.initializeMachineryLazy H).active_set_.size_).2 = _
  rw [← hfd]
  exact computeEqualityPrimalStep_dot _ _ _

/-- The row of an equality that is already active gives `ρ = 0`. -/
theorem Solver.eqRho_active (s : Solver K) (H A : QPMatrix K) (Alb Aub : QPVector K) (tol : K)
    (i j neq c : Nat) (hinv : (s.initializeMachineryLazy H).EqInv A Alb Aub tol j neq)
    (hc : c < (s.initializeMachineryLazy H).active_set_.size_)
    (hrow : A i = A ((s.initializeMachineryLazy H).active_set_.getIndex c)) :
    s.eqRho H A i = 0 := by
  unfold Solver.eqRho
  rw [Solver.equalityDirection_p, Solver.eqCandidate_eq]
  show dot s.primal_size_ (A i)
    ((s.initializeMachineryLazy H).factorization_data_.computeEqualityPrimalStep (A i)
      (s.initializeMachineryLazy H).active_set_.size_).2 = _
  rw [computeEqualityPrimalStep_p, hinv.wf.fd_size, Solver.init_primal_size]
  have hT := hinv.wf.tracks
  rw [Solver.init_primal_size] at hT
  have h0 := dot_step_of_tracks s.primal_size_ _ _ _ _
    (fun k => ((s.initializeMachineryLazy H).factorization_data_.computeEqualityPrimalStep
      (A i) (s.initializeMachineryLazy H).active_set_.size_).1.R k
        (s.initializeMachineryLazy H).active_set_.size_) hT c hc
  have h1 := Solver.normal_dot _ A c _ _ h0
  rw [← hrow] at h1
  exact h1

/-- With a tolerance `tol ≤ 1`, `update` accepts every equality with `ρ < −tol`. -/
theorem equalityTake_accepts (sqrt : K → K) (hs : IsSqrt sqrt) (s : Solver K)
    (H A : QPMatrix K) (Alb Aub : QPVector K) (tol : K) (i j neq : Nat) (t : K)
    (htol : 0 ≤ tol) (htol1 : tol ≤ 1)
    (hinv : (s.initializeMachineryLazy H).EqInv A Alb Aub tol j neq)
    (h3 : (s.eqCandidate H i).active_set_.hasEmptySpace = true)
    (h4 : s.eqRho H A i < -tol) :
    (((s.eqCandidate H i).equalityDirection (A i)).equalityTake sqrt t tol).2 = true := by
  have hfd := hinv.wf.fd_size
  rw [Solver.init_primal_size] at hfd
  have hmax := hinv.wf.max_size
  rw [Solver.init_primal_size] at hmax
  rw [Solver.eqRho_eq s H A i hfd] at h4
  rw [Solver.eqCandidate_eq] at h3 ⊢
  have hq : (s.initializeMachineryLazy H).active_set_.size_ < s.primal_size_ := by
    rw [← hmax]
    exact (hasEmptySpace_iff _).mp h3
  show (((s.initializeMachineryLazy H).factorization_data_.computeEqualityPrimalStep (A i)
    (s.initializeMachineryLazy H).active_set_.size_).1.update sqrt
      (s.initializeMachineryLazy H).active_set_.size_ tol).2 = true
  rw [update_snd sqrt hs _ _ _ (by rw [computeEqualityPrimalStep_size, hfd]; exact hq)]
  rw [computeEqualityPrimalStep_size, hfd]
  refine hs.le_sqrt ?_
  have e : ∑ k in Finset.Ico (s.initializeMachineryLazy H).active_set_.size_ s.primal_size_,
      ((s.initializeMachineryLazy H).factorization_data_.computeEqualityPrimalStep (A i)
        (s.initializeMachineryLazy H).active_set_.size_).1.R k
          (s.initializeMachineryLazy H).active_set_.size_
      * ((s.initializeMachineryLazy H).factorization_data_.computeEqualityPrimalStep (A i)
        (s.initializeMachineryLazy H).active_set_.size_).1.R k
          (s.initializeMachineryLazy H).active_set_.size_
      = ∑ k in Finset.Ico (s.initializeMachineryLazy H).active_set_.size_ s.primal_size_,
          colT s.primal_size_ (s.initializeMachineryLazy H).factorization_data_.QLi_aka_J
            (A i) k
          * colT s.primal_size_ (s.initializeMachineryLazy H).factorization_data_.QLi_aka_J
            (A i) k := by
    refine Finset.sum_congr rfl (fun k hk => ?_)
    rw [computeEqualityPrimalStep_R_col _ _ _ k (by rw [hfd]; exact (Finset.mem_Ico.mp hk).2),
      hfd]
  rw [e]
  nlinarith

theorem equalityLoop_done_first (sqrt : K → K) (H A : QPMatrix K) (Alb Aub : QPVector K)
    (param : SolverParameters K) (count i : Nat) (st : Solver K × Nat) (o : Outcome K)
    (h : Solver.equalityStep sqrt H A Alb Aub param i st = Step.done o) :
    Solver.equalityLoop sqrt H A Alb Aub param (count + 1) i st = Step.done o := by
  unfold Solver.equalityLoop
  rw [h]

theorem equalityLoop_cons (sqrt : K → K) (H A : QPMatrix K) (Alb Aub : QPVector K)
    (param : SolverParameters K) (count i : Nat) (st st1 : Solver K × Nat)
    (h : Solver.equalityStep sqrt H A Alb Aub param i st = Step.next st1) :
    Solver.equalityLoop sqrt H A Alb Aub param (count + 1) i st
      = Solver.equalityLoop sqrt H A Alb Aub param count (i + 1) st1 := by
  conv_lhs => unfold Solver.equalityLoop
  rw [h]

theorem Solver.eqSkipped_initialized (s : Solver K) (H A : QPMatrix K) (i : Nat) :
    (s.eqSkipped H A i).machinery_initialized_ = true := by
  unfold Solver.eqSkipped
  split_ifs
  · exact Solver.init_initialized _ _
  · exact Solver.init_initialized _ _

theorem Solver.eqSkipped_active_set (s : Solver K) (H A : QPMatrix K) (i : Nat) :
    (s.eqSkipped H A i).active_set_ = (s.initializeMachineryLazy H).active_set_ := by
  unfold Solver.eqSkipped
  split_ifs
  · show (s.eqCandidate H i).active_set_ = _
    rw [Solver.eqCandidate_eq]
    rfl
  · rw [Solver.eqCandidate_eq]
    rfl

theorem Solver.eqSkipped_J (s : Solver K) (H A : QPMatrix K) (i : Nat) :
    (s.eqSkipped H A i).factorization_data_.QLi_aka_J
      = (s.initializeMachineryLazy H).factorization_data_.QLi_aka_J := by
  unfold Solver.eqSkipped
  split_ifs
  · show (s.eqCandidate H i).factorization_data_.QLi_aka_J = _
    rw [Solver.eqCandidate_eq]
    rfl
  · rw [Solver.eqCandidate_eq]
    rfl

theorem Solver.eqSkipped_primal (s : Solver K) (H A : QPMatrix K) (i : Nat) :
    (s.eqSkipped H A i).primal = s.primal := by
  unfold Solver.eqSkipped
  split_ifs
  · exact Solver.eqCandidate_primal s H i
  · exact Solver.eqCandidate_primal s H i

theorem Solver.eqSkipped_primal_size (s : Solver K) (H A : QPMatrix K) (i : Nat) :
    (s.eqSkipped H A i).primal_size_ = s.primal_size_ := by
  unfold Solver.eqSkipped
  split_ifs
  · exact Solver.eqCandidate_primal_size s H i
  · exact Solver.eqCandidate_primal_size s H i

/-- Two consecutive equalities with the same row whose right-hand sides differ by
more than `2·tol`: the equality-activation phase returns `INFEASIBLE_EQUALITY`
at the first or at the second of them. -/
theorem duplicate_equality_infeasible (sqrt : K → K) (hs : IsSqrt sqrt) (H A : QPMatrix K)
    (Alb Aub : QPVector K) (param : SolverParameters K) (htol : 0 < param.tolerance_)
    (htol1 : param.tolerance_ ≤ 1) (j count : Nat) (st : Solver K × Nat)
    (hinv : (st.1.initializeMachineryLazy H).EqInv A Alb Aub param.tolerance_ j st.2)
    (hb0 : |Alb j - Aub j| ≤ param.tolerance_)
    (hb1 : |Alb (j + 1) - Aub (j + 1)| ≤ param.tolerance_)
    (hrow : A (j + 1) = A j) (hgap : 2 * param.tolerance_ < |Alb (j + 1) - Alb j|) :
    ∃ s, Solver.equalityLoop sqrt H A Alb Aub param (count + 2) j st
      = Step.done (Outcome.returned ReturnStatus.INFEASIBLE_EQUALITY s) := by
  have h1 : ¬ Alb j - param.tolerance_ > Aub j := by
    intro hc
    have := le_abs_self (Alb j - Aub j)
    linarith
  have h2 : ¬ |Alb j - Aub j| > param.tolerance_ := not_lt.mpr hb0
  have h1' : ¬ Alb (j + 1) - param.tolerance_ > Aub (j + 1) := by
    intro hc
    have := le_abs_self (Alb (j + 1) - Aub (j + 1))
    linarith
  have h2' : ¬ |Alb (j + 1) - Aub (j + 1)| > param.tolerance_ := not_lt.mpr hb1
  have hcand : (st.1.eqCandidate H j).active_set_
      = (st.1.initializeMachineryLazy H).active_set_ := by
    rw [Solver.eqCandidate_eq]
    rfl
  by_cases hact : (st.1.eqCandidate H j).active_set_.hasEmptySpace = true ∧
      st.1.eqRho H A j < -param.tolerance_
  · obtain ⟨h3, h4⟩ := hact
    have h5 := equalityTake_accepts sqrt hs st.1 H A Alb Aub param.tolerance_ j j st.2
      ((Alb j - dot st.1.primal_size_ (A j) st.1.primal) / st.1.eqRho H A j)
      htol.le htol1 hinv h3 h4
    have e0 := equalityStep_activate sqrt H A Alb Aub param j st h1 h2 h3 h4 h5
    cases hstep : Solver.equalityStep sqrt H A Alb Aub param j st with
    | done o =>
      rw [e0] at hstep
      exact absurd hstep (by simp)
    | next st2 =>
      rw [hstep] at e0
      injection e0 with e0
      obtain ⟨hinv2, _⟩ := equalityStep_next sqrt hs H A Alb Aub param htol.le j st st2 hinv hstep
      have hinit2 : st2.1.machinery_initialized_ = true := by
        rw [e0]
        exact Solver.init_initialized (st.1.setStatus j ConstraintStatus.EQUALITY) H
      have has2 : st2.1.active_set_
          = (st.1.eqCandidate H j).active_set_.addEquality j := by
        rw [e0]
        rfl
      have hi2 := Solver.init_of_initialized st2.1 H hinit2
      have hc : (st.1.eqCandidate H j).active_set_.size_
          < (st2.1.initializeMachineryLazy H).active_set_.size_ := by
        rw [hi2, has2]
        exact Nat.lt_succ_self _
      have hidx : (st2.1.initializeMachineryLazy H).active_set_.getIndex
          (st.1.eqCandidate H j).active_set_.size_ = j := by
        rw [hi2, has2]
        exact ActiveSet.getIndex_addEquality _ j
      have hrho : st2.1.eqRho H A (j + 1) = 0 :=
        Solver.eqRho_active st2.1 H A Alb Aub param.tolerance_ (j + 1) (j + 1) st2.2
          (st.1.eqCandidate H j).active_set_.size_ hinv2 hc (by rw [hidx]; exact hrow)
      have hx := (hinv2.active _ hc).2.2
      rw [hidx, Solver.init_primal, Solver.init_primal_size] at hx
      have e1 := equalityStep_dependent sqrt H A Alb Aub param (j + 1) st2 h1' h2'
        (Or.inr (by rw [hrho]; linarith))
      rw [hrow, hx, if_pos (by linarith)] at e1
      exact ⟨_, (equalityLoop_cons sqrt H A Alb Aub param (count + 1) j st st2 hstep).trans
        (equalityLoop_done_first sqrt H A Alb Aub param count (j + 1) st2 _ e1)⟩
  · have h3' : (st.1.eqCandidate H j).active_set_.hasEmptySpace = false ∨
        ¬ st.1.eqRho H A j < -param.tolerance_ := by
      by_cases h : (st.1.eqCandidate H j).active_set_.hasEmptySpace = true
      · exact Or.inr (fun h4 => hact ⟨h, h4⟩)
      · exact Or.inl (by simpa using h)
    have e0 := equalityStep_dependent sqrt H A Alb Aub param j st h1 h2 h3'
    by_cases hv : |Alb j - dot st.1.primal_size_ (A j) st.1.primal| > param.tolerance_
    · rw [if_pos hv] at e0
      exact ⟨_, equalityLoop_done_first sqrt H A Alb Aub param (count + 1) j st _ e0⟩
    · rw [if_neg hv] at e0
      obtain ⟨hinv2, _⟩ := equalityStep_next sqrt hs H A Alb Aub param htol.le j st _ hinv e0
      have hi2 := Solver.init_of_initialized _ H (Solver.eqSkipped_initialized st.1 H A j)
      have hfd := hinv.wf.fd_size
      rw [Solver.init_primal_size] at hfd
      have hfd2 := hinv2.wf.fd_size
      rw [Solver.init_primal_size] at hfd2
      have h3'' : ((st.1.eqSkipped H A j).eqCandidate H (j + 1)).active_set_.hasEmptySpace
            = false ∨
          ¬ (st.1.eqSkipped H A j).eqRho H A (j + 1) < -param.tolerance_ := by
        rcases h3' with h | h
        · left
          rw [Solver.eqCandidate_eq]
          show ((st.1.eqSkipped H A j).initializeMachineryLazy H).active_set_.hasEmptySpace
            = false
          rw [hi2, Solver.eqSkipped_active_set, ← hcand]
          exact h
        · right
          rw [Solver.eqRho_eq _ H A (j + 1) hfd2, hi2, Solver.eqSkipped_active_set,
            Solver.eqSkipped_J, Solver.eqSkipped_primal_size, hrow]
          rw [Solver.eqRho_eq _ H A j hfd] at h
          exact h
      have e1 := equalityStep_dependent sqrt H A Alb Aub param (j + 1)
        (st.1.eqSkipped H A j, st.2 + 1) h1' h2' h3''
      have hv1 : |Alb (j + 1) - dot st.1.primal_size_ (A j) st.1.primal|
          > param.tolerance_ := by
        have t1 := abs_sub_le (Alb (j + 1)) (dot st.1.primal_size_ (A j) st.1.primal) (Alb j)
        have t2 := abs_sub_comm (dot st.1.primal_size_ (A j) st.1.primal) (Alb j)
        have t3 := not_lt.mp hv
        linarith
      dsimp only at e1
      rw [Solver.eqSkipped_primal_size, Solver.eqSkipped_primal, hrow, if_pos hv1] at e1
      exact ⟨_, (equalityLoop_cons sqrt H A Alb Aub param (count + 1) j st _ e0).trans
        (equalityLoop_done_first sqrt H A Alb Aub param count (j + 1) _ _ e1)⟩


/-! ## Infeasible equalities -/


theorem equalityLoop_append (sqrt : K → K) (H A : QPMatrix K) (Alb Aub : QPVector K)
    (param : SolverParameters K) (a b i : Nat) (st : Solver K × Nat) :
    Solver.equalityLoop sqrt H A Alb Aub param (a + b) i st
      = match Solver.equalityLoop sqrt H A Alb Aub param a i st with
        | Step.next st1 => Solver.equalityLoop sqrt H A Alb Aub param b (i + a) st1
        | Step.done o => Step.done o := by
  induction a generalizing i st with
  | zero =>
    rw [Nat.zero_add, show Solver.equalityLoop sqrt H A Alb Aub param 0 i st = Step.next st by
      unfold Solver.equalityLoop; rfl]
    dsimp only
    rw [Nat.add_zero]
  | succ a ih =>
    rw [Nat.succ_add]
    cases hstep : Solver.equalityStep sqrt H A Alb Aub param i st with
    | next st2 =>
      rw [equalityLoop_cons sqrt H A Alb Aub param (a + b) i st st2 hstep,
        equalityLoop_cons sqrt H A Alb Aub param a i st st2 hstep, ih (i + 1) st2,
        show i + 1 + a = i + (a + 1) by omega]
    | done o =>
      rw [equalityLoop_done_first sqrt H A Alb Aub param (a + b) i st o hstep,
        equalityLoop_done_first sqrt H A Alb Aub param a i st o hstep]

/-- The equality-activation loop ends the call when it returns or raises. -/
theorem solveWithFactor_done (sqrt : K → K) (asserts : Bool) (sizes : InputParser)
    (H : QPMatrix K) (h : QPVector K) (A : QPMatrix K) (Alb Aub : QPVector K)
    (param : SolverParameters K) (fuel : Nat) (o : Outcome K)
    (hm : 0 < sizes.num_general_constraints_)
    (hloop : Solver.equalityLoop sqrt H A Alb Aub param sizes.num_general_constraints_ 0
      (Solver.entry sizes H h, 0) = Step.done o) :
    Solver.solveWithFactor sqrt asserts sizes H h A Alb Aub param fuel = some o := by
  unfold Solver.solveWithFactor
  dsimp only
  have h0 : ¬ 0 = (Solver.entry sizes H h).num_simple_bounds_
      + (Solver.entry sizes H h).num_general_constraints_ := by
    show ¬ 0 = sizes.num_simple_bounds_ + sizes.num_general_constraints_
    omega
  rw [if_neg h0]
  have hloop' : Solver.equalityLoop sqrt H A Alb Aub param
      (Solver.entry sizes H h).num_general_constraints_ 0 (Solver.entry sizes H h, 0)
      = Step.done o := hloop
  rw [hloop']

/-- The equality-activation loop ends the call when one of its steps returns or
raises. -/
theorem solveWithFactor_step_done (sqrt : K → K) (asserts : Bool) (sizes : InputParser)
    (H : QPMatrix K) (h : QPVector K) (A : QPMatrix K) (Alb Aub : QPVector K)
    (param : SolverParameters K) (fuel : Nat) (i : Nat) (st : Solver K × Nat) (o : Outcome K)
    (hi : i < sizes.num_general_constraints_)
    (hpre : Solver.equalityLoop sqrt H A Alb Aub param i 0 (Solver.entry sizes H h, 0)
      = Step.next st)
    (hstep : Solver.equalityStep sqrt H A Alb Aub param i st = Step.done o) :
    Solver.solveWithFactor sqrt asserts sizes H h A Alb Aub param fuel = some o := by
  refine solveWithFactor_done sqrt asserts sizes H h A Alb Aub param fuel o (by omega) ?_
  obtain ⟨count, hc⟩ : ∃ count, sizes.num_general_constraints_ = i + (count + 1) :=
    ⟨sizes.num_general_constraints_ - i - 1, by omega⟩
  rw [hc, equalityLoop_append, hpre]
  dsimp only
  rw [Nat.zero_add]
  exact equalityLoop_done_first sqrt H A Alb Aub param count _ st o hstep

/-- A zero row gives `ρ = 0`. -/
theorem Solver.eqRho_zero_row (s : Solver K) (H A : QPMatrix K) (i : Nat)
    (hfd : (s.initializeMachineryLazy H).factorization_data_.primal_size_ = s.primal_size_)
    (h0 : ∀ k, A i k = 0) : s.eqRho H A i = 0 := by
  rw [Solver.eqRho_eq s H A i hfd, neg_eq_zero]
  refine Finset.sum_eq_zero (fun k _ => ?_)
  have : colT s.primal_size_ (s.initializeMachineryLazy H).factorization_data_.QLi_aka_J
      (A i) k = 0 := by
    unfold colT
    refine Finset.sum_eq_zero (fun r _ => ?_)
    rw [h0, mul_zero]
  rw [this, mul_zero]

/-- Two equalities with the row `(1, 0)` and the right-hand sides `1` and `2`:
`solve` returns `INFEASIBLE_EQUALITY` whatever the objective is, provided
`2·tol < 1`. -/
theorem scenarioD_solve (sqrt : K → K) (hs : IsSqrt sqrt) (param : SolverParameters K)
    (htol : 0 < param.tolerance_) (htol2 : 2 * param.tolerance_ < 1)
    (htype : param.hessian_type_ ≠ HessianType.HESSIAN_UNDEFINED)
    (H : QPMatrix K) (h : QPVector K) (h_size : Nat) (asserts : Bool) (fuel : Nat) :
    ∃ s : Solver K,
      Solver.solve sqrt asserts ⟨2, h_size, 0, 2⟩ H h (matOf [[1, 0], [1, 0]])
        (vecOf [1, 2]) (vecOf [1, 2]) param fuel
        = some (Outcome.returned ReturnStatus.INFEASIBLE_EQUALITY s) := by
  have key : ∀ L : QPMatrix K, ∃ s : Solver K,
      Solver.solveWithFactor sqrt asserts ⟨2, h_size, 0, 2⟩ L h (matOf [[1, 0], [1, 0]])
        (vecOf [1, 2]) (vecOf [1, 2]) param fuel
        = some (Outcome.returned ReturnStatus.INFEASIBLE_EQUALITY s) := by
    intro L
    obtain ⟨s, hloop⟩ := duplicate_equality_infeasible sqrt hs L (matOf [[1, 0], [1, 0]])
      (vecOf [1, 2]) (vecOf [1, 2]) param htol (by linarith) 0 0
      (Solver.entry ⟨2, h_size, 0, 2⟩ L h, 0)
      (Solver.entry_eqInv ⟨2, h_size, 0, 2⟩ L h _ _ _ _)
      (by rw [sub_self, abs_zero]; exact htol.le)
      (by rw [sub_self, abs_zero]; exact htol.le)
      rfl
      (by
        show 2 * param.tolerance_ < |(2 : K) - 1|
        rw [show (2 : K) - 1 = 1 by norm_num, abs_one]
        exact htol2)
    exact ⟨s, solveWithFactor_done sqrt asserts ⟨2, h_size, 0, 2⟩ L h _ _ _ param fuel _
      (Nat.succ_pos 1) hloop⟩
  unfold Solver.solve Solver.prepareHessian
  cases ht : param.hessian_type_ with
  | HESSIAN_UNDEFINED => exact absurd ht htype
  | HESSIAN_LOWER_TRIANGULAR => exact key _
  | HESSIAN_CHOLESKY_FACTOR => exact key _


/-! ## Invariant of the main loop -/


/-- The consistency of the machinery only depends on the sizes, the active set,
the statuses, `J` and the leading columns of `R`. -/
theorem Solver.WF.congr_wf {s s2 : Solver K} {A : QPMatrix K} (h : s.WF A)
    (e1 : s2.toInputParser = s.toInputParser)
    (e2 : s2.machinery_initialized_ = s.machinery_initialized_)
    (e3 : s2.active_set_ = s.active_set_)
    (e4 : s2.general_constraints_status_ = s.general_constraints_status_)
    (e5 : s2.factorization_data_.primal_size_ = s.factorization_data_.primal_size_)
    (e6 : s2.factorization_data_.QLi_aka_J = s.factorization_data_.QLi_aka_J)
    (e7 : ∀ r c, c < s.active_set_.size_ →
      s2.factorization_data_.R r c = s.factorization_data_.R r c) : s2.WF A := by
  have en : s2.primal_size_ = s.primal_size_ := congrArg InputParser.primal_size_ e1
  have eN : s2.normal A = s.normal A := by
    funext c k
    unfold Solver.normal
    rw [e3, e4]
  refine ⟨e2.trans h.init, ?_, ?_, ?_, ?_, ?_, ?_⟩
  · rw [e3, en]
    exact h.max_size
  · rw [e5, en]
    exact h.fd_size
  · rw [e3]
    exact h.size_eq
  · rw [e3, en]
    exact h.size_le
  · rw [e3, en, e6, eN]
    exact h.tracks.congr e7 (fun _ _ => rfl)
  · rw [e3]
    exact h.inj

theorem Solver.MainInv.congr_inv {s s2 : Solver K} {A : QPMatrix K} {Alb Aub : QPVector K}
    {tol : K} (h : s.MainInv A Alb Aub tol)
    (e1 : s2.toInputParser = s.toInputParser)
    (e2 : s2.machinery_initialized_ = s.machinery_initialized_)
    (e3 : s2.active_set_ = s.active_set_)
    (e4 : s2.general_constraints_status_ = s.general_constraints_status_)
    (e5 : s2.factorization_data_.primal_size_ = s.factorization_data_.primal_size_)
    (e6 : s2.factorization_data_.QLi_aka_J = s.factorization_data_.QLi_aka_J)
    (e7 : ∀ r c, c < s.active_set_.size_ →
      s2.factorization_data_.R r c = s.factorization_data_.R r c)
    (e8 : s2.primal = s.primal) : s2.MainInv A Alb Aub tol := by
  have en : s2.primal_size_ = s.primal_size_ := congrArg InputParser.primal_size_ e1
  have em : s2.num_general_constraints_ = s.num_general_constraints_ :=
    congrArg InputParser.num_general_constraints_ e1
  refine ⟨h.wf.congr_wf e1 e2 e3 e4 e5 e6 e7, ?_, ?_, ?_⟩
  · rw [e3, e4, e8, en, em]
    exact h.active
  · rw [e4, em]
    exact h.status
  · rw [e3, e4, em]
    exact h.located

theorem Solver.Chosen.congr_chosen {s s2 : Solver K} {A : QPMatrix K} {Alb Aub : QPVector K}
    {tol : K} {ch : ChosenConstraint K} (h : s.Chosen A Alb Aub tol ch)
    (e1 : s2.toInputParser = s.toInputParser)
    (e4 : s2.general_constraints_status_ = s.general_constraints_status_)
    (e8 : s2.primal = s.primal) : s2.Chosen A Alb Aub tol ch := by
  have en : s2.primal_size_ = s.primal_size_ := congrArg InputParser.primal_size_ e1
  have em : s2.num_general_constraints_ = s.num_general_constraints_ :=
    congrArg InputParser.num_general_constraints_ e1
  unfold Solver.Chosen Solver.Pending
  rw [e4, e8, en, em]
  exact h

theorem computeInequalitySteps_J (fd : FactorizationData K) (dd a : QPVector K)
    (t : ConstraintStatus) (as : ActiveSet) :
    (fd.computeInequalitySteps dd a t as).1.QLi_aka_J = fd.QLi_aka_J := rfl

theorem computeInequalitySteps_size (fd : FactorizationData K) (dd a : QPVector K)
    (t : ConstraintStatus) (as : ActiveSet) :
    (fd.computeInequalitySteps dd a t as).1.primal_size_ = fd.primal_size_ := rfl

theorem computeInequalitySteps_R_other (fd : FactorizationData K) (dd a : QPVector K)
    (t : ConstraintStatus) (as : ActiveSet) (r c : Nat) (hc : c ≠ as.size_) :
    (fd.computeInequalitySteps dd a t as).1.R r c = fd.R r c := by
  simp only [FactorizationData.computeInequalitySteps]
  rw [if_neg (fun h => hc h.1)]

theorem computeInequalitySteps_R_col (fd : FactorizationData K) (dd a : QPVector K)
    (t : ConstraintStatus) (as : ActiveSet) (r : Nat) (hr : r < fd.primal_size_) :
    (fd.computeInequalitySteps dd a t as).1.R r as.size_
      = colT fd.primal_size_ fd.QLi_aka_J (signedRow a t) r := by
  simp only [FactorizationData.computeInequalitySteps, colT, signedRow]
  rw [if_pos ⟨trivial, hr⟩]
  split_ifs
  · rw [← Finset.sum_neg_distrib]
    refine Finset.sum_congr rfl (fun k _ => ?_)
    ring
  · rfl

theorem computeInequalitySteps_p (fd : FactorizationData K) (dd a : QPVector K)
    (t : ConstraintStatus) (as : ActiveSet) :
    (fd.computeInequalitySteps dd a t as).2.1
      = fun r => if r < fd.primal_size_ then
          -(∑ k in Finset.Ico as.size_ fd.primal_size_,
              fd.QLi_aka_J r k * (fd.computeInequalitySteps dd a t as).1.R k as.size_)
        else 0 := rfl

/-- Computing the step directions keeps the invariant. -/
theorem Solver.MainInv.stepDirections {s : Solver K} {A : QPMatrix K} {Alb Aub : QPVector K}
    {tol : K} (h : s.MainInv A Alb Aub tol) (ch : ChosenConstraint K) :
    (s.computeStepDirections A ch).MainInv A Alb Aub tol := by
  unfold Solver.computeStepDirections
  split_ifs
  · exact h.congr_inv rfl rfl rfl rfl rfl rfl
      (fun r c hc => computeInequalitySteps_R_other s.factorization_data_
        s.dual_step_direction_ (A ch.index_) ch.type_ s.active_set_ r c (Nat.ne_of_lt hc)) rfl
  · exact h.congr_inv rfl rfl rfl rfl rfl rfl (fun _ _ _ => rfl) rfl

theorem Solver.Chosen.stepDirections_chosen {s : Solver K} {A : QPMatrix K} {Alb Aub : QPVector K}
    {tol : K} {ch : ChosenConstraint K} (h : s.Chosen A Alb Aub tol ch)
    (ch1 : ChosenConstraint K) : (s.computeStepDirections A ch1).Chosen A Alb Aub tol ch := by
  unfold Solver.computeStepDirections
  split_ifs
  · exact h.congr_chosen rfl rfl rfl
  · exact h.congr_chosen rfl rfl rfl

theorem Solver.computeStepDirections_active_set (s : Solver K) (A : QPMatrix K)
    (ch : ChosenConstraint K) : (s.computeStepDirections A ch).active_set_ = s.active_set_ := by
  unfold Solver.computeStepDirections
  split_ifs <;> rfl

theorem Solver.computeStepDirections_primal (s : Solver K) (A : QPMatrix K)
    (ch : ChosenConstraint K) : (s.computeStepDirections A ch).primal = s.primal := by
  unfold Solver.computeStepDirections
  split_ifs <;> rfl

theorem Solver.computeStepDirections_sizes (s : Solver K) (A : QPMatrix K)
    (ch : ChosenConstraint K) :
    (s.computeStepDirections A ch).toInputParser = s.toInputParser := by
  unfold Solver.computeStepDirections
  split_ifs <;> rfl

theorem Solver.computeStepDirections_status (s : Solver K) (A : QPMatrix K)
    (ch : ChosenConstraint K) :
    (s.computeStepDirections A ch).general_constraints_status_
      = s.general_constraints_status_ := by
  unfold Solver.computeStepDirections
  split_ifs <;> rfl

/-- With room in the active set the primal step direction is orthogonal to the
rows of the active constraints. -/
theorem Solver.computeStepDirections_orth {s : Solver K} {A : QPMatrix K} (h : s.WF A)
    (ch : ChosenConstraint K) (hspace : s.active_set_.hasEmptySpace = true) (c : Nat)
    (hc : c < s.active_set_.size_) :
    dot s.primal_size_ (A (s.active_set_.getIndex c))
      (s.computeStepDirections A ch).primal_step_direction_ = 0 := by
  unfold Solver.computeStepDirections
  rw [if_pos hspace]
  show dot s.primal_size_ _ (s.factorization_data_.computeInequalitySteps
    s.dual_step_direction_ (A ch.index_) ch.type_ s.active_set_).2.1 = 0
  apply Solver.normal_dot
  rw [computeInequalitySteps_p, h.fd_size]
  exact dot_step_of_tracks _ _ _ _ _ _ h.tracks c hc

/-- The dual blocking sweep returns either `(n, +∞)` or a position among the
active inequalities together with a finite step length. -/
theorem Solver.dualBlocking_range (s : Solver K) (tol : K)
    (hle : s.active_set_.num_equalities_ ≤ s.active_set_.size_) :
    ((s.dualBlocking tol).1 = s.primal_size_ ∧ (s.dualBlocking tol).2 = none) ∨
    (s.active_set_.num_equalities_ ≤ (s.dualBlocking tol).1 ∧
      (s.dualBlocking tol).1 < s.active_set_.size_ ∧ ∃ t, (s.dualBlocking tol).2 = some t) := by
  have := forUp_induction (Solver.dualBlockingStep tol s.dual_ s.dual_step_direction_)
    (fun i st => (st.1 = s.primal_size_ ∧ st.2 = none) ∨
      (s.active_set_.num_equalities_ ≤ st.1 ∧ st.1 < i ∧ ∃ t, st.2 = some t))
    s.active_set_.num_equalities_ (s.active_set_.size_ - s.active_set_.num_equalities_)
    (s.primal_size_, none) (Or.inl ⟨rfl, rfl⟩) (by
      intro i st h1 h2 h3
      unfold Solver.dualBlockingStep
      split_ifs with hd
      · rcases h3 with ⟨_, h4⟩ | ⟨h4, h5, t, h6⟩
        · rw [h4]
          exact Or.inr ⟨h1, Nat.lt_succ_self i, _, rfl⟩
        · rw [h6]
          dsimp only
          split_ifs
          · exact Or.inr ⟨h1, Nat.lt_succ_self i, _, rfl⟩
          · exact Or.inr ⟨h4, by omega, t, h6⟩
      · rcases h3 with h3 | ⟨h4, h5, h6⟩
        · exact Or.inl h3
        · exact Or.inr ⟨h4, by omega, h6⟩)
  rw [Nat.add_sub_cancel' hle] at this
  exact this

theorem downdate_primal_size (sqrt : K → K) (fd : FactorizationData K) (j q : Nat) (tol : K) :
    (fd.downdate sqrt j q tol).primal_size_ = fd.primal_size_ := by
  unfold FactorizationData.downdate
  exact downdateLoop_primal_size sqrt q _ _ fd

theorem dropElementWithoutResize_lt {α : Type} (v : Nat → α) (j q c : Nat) (hc : c < j) :
    dropElementWithoutResize v j q c = v c := by
  unfold dropElementWithoutResize
  rw [if_neg (by omega)]

theorem dropElementWithoutResize_ge {α : Type} (v : Nat → α) (j q c : Nat) (hc : j ≤ c)
    (hq : c + 1 < q) : dropElementWithoutResize v j q c = v (c + 1) := by
  unfold dropElementWithoutResize
  rw [if_pos ⟨hc, hq⟩]

/-- Deactivating an active inequality keeps the invariant. -/
theorem Solver.MainInv.deactivate (sqrt : K → K) (hs : IsSqrt sqrt) {s : Solver K}
    {A : QPMatrix K} {Alb Aub : QPVector K} {tol : K} (h : s.MainInv A Alb Aub tol) (j : Nat)
    (hj1 : s.active_set_.num_equalities_ ≤ j) (hj2 : j < s.active_set_.size_) :
    (Solver.deactivate sqrt s j tol).MainInv A Alb Aub tol := by
  have hsize := h.wf.size_eq
  -- the new indices
  have hidx : ∀ c, c + 1 < s.active_set_.size_ →
      ∃ c', c' < s.active_set_.size_ ∧ c' ≠ j ∧ (c < j → c' = c) ∧ (j ≤ c → c' = c + 1) ∧
        (s.active_set_.removeInequality j).getIndex c = s.active_set_.getIndex c' := by
    intro c hc
    rcases Nat.lt_or_ge c j with h1 | h1
    · exact ⟨c, by omega, by omega, fun _ => rfl, fun h2 => by omega,
        dropElementWithoutResize_lt _ j _ c h1⟩
    · exact ⟨c + 1, hc, by omega, fun h2 => by omega, fun _ => rfl,
        dropElementWithoutResize_ge _ j _ c h1 hc⟩
  have hne : ∀ c', c' < s.active_set_.size_ → c' ≠ j →
      s.active_set_.getIndex c' ≠ s.active_set_.getIndex j :=
    fun c' hc' hcj he => hcj (h.wf.inj c' j hc' hj2 he)
  have hst : ∀ i, i ≠ s.active_set_.getIndex j →
      (Solver.deactivate sqrt s j tol).general_constraints_status_ i
        = s.general_constraints_status_ i := by
    intro i hi
    show Function.update _ _ _ i = _
    rw [Function.update_noteq hi]
  have hstj : (Solver.deactivate sqrt s j tol).general_constraints_status_
      (s.active_set_.getIndex j) = ConstraintStatus.INACTIVE := by
    show Function.update _ _ _ _ = _
    rw [Function.update_same]
  have hjst : s.general_constraints_status_ (s.active_set_.getIndex j)
        = ConstraintStatus.ACTIVE_LOWER_BOUND ∨
      s.general_constraints_status_ (s.active_set_.getIndex j)
        = ConstraintStatus.ACTIVE_UPPER_BOUND := by
    rcases (h.active j hj2).2 with ⟨a1, _, _⟩ | ⟨_, a2, _⟩ | ⟨_, a2, _⟩
    · omega
    · exact Or.inl a2
    · exact Or.inr a2
  refine ⟨⟨h.wf.init, h.wf.max_size, ?_, ?_, ?_, ?_, ?_⟩, ?_, ?_, ?_⟩
  · show (s.factorization_data_.downdate sqrt j s.active_set_.size_ tol).primal_size_
      = s.primal_size_
    rw [downdate_primal_size]
    exact h.wf.fd_size
  · show s.active_set_.size_ - 1
      = s.active_set_.num_equalities_ + (s.active_set_.num_inequalities_ - 1)
    omega
  · show s.active_set_.size_ - 1 ≤ s.primal_size_
    have := h.wf.size_le
    omega
  · show Tracks s.primal_size_
      (s.factorization_data_.downdate sqrt j s.active_set_.size_ tol).QLi_aka_J
      (s.factorization_data_.downdate sqrt j s.active_set_.size_ tol).R _
      (s.active_set_.size_ - 1)
    have hT := downdate_tracks sqrt hs j s.active_set_.size_ (s.normal A)
      s.factorization_data_ tol hj2 (by rw [h.wf.fd_size]; exact h.wf.size_le)
      (by rw [h.wf.fd_size]; exact h.wf.tracks)
    rw [h.wf.fd_size] at hT
    refine hT.congr (fun _ _ _ => rfl) ?_
    intro c hc
    obtain ⟨c', hc', hcj, e1, e2, e3⟩ := hidx c (by omega)
    have hN : dropElementWithoutResize (s.normal A) j s.active_set_.size_ c = s.normal A c' := by
      rcases Nat.lt_or_ge c j with h1 | h1
      · rw [dropElementWithoutResize_lt _ j _ c h1, e1 h1]
      · rw [dropElementWithoutResize_ge _ j _ c h1 (by omega), e2 h1]
    rw [hN]
    funext k
    unfold Solver.normal
    show (if (Solver.deactivate sqrt s j tol).general_constraints_status_
        ((s.active_set_.removeInequality j).getIndex c) = _ then
        -A ((s.active_set_.removeInequality j).getIndex c) k
      else A ((s.active_set_.removeInequality j).getIndex c) k) = _
    rw [e3, hst _ (hne c' hc' hcj)]
  · intro c d hc hd hcd
    have hc1 : c + 1 < s.active_set_.size_ := by
      have : c < s.active_set_.size_ - 1 := hc
      omega
    have hd1 : d + 1 < s.active_set_.size_ := by
      have : d < s.active_set_.size_ - 1 := hd
      omega
    obtain ⟨c', hc', _, e1, e2, e3⟩ := hidx c hc1
    obtain ⟨d', hd', _, f1, f2, f3⟩ := hidx d hd1
    have hcd' : (s.active_set_.removeInequality j).getIndex c
        = (s.active_set_.removeInequality j).getIndex d := hcd
    rw [e3, f3] at hcd'
    have := h.wf.inj c' d' hc' hd' hcd'
    rcases Nat.lt_or_ge c j with h1 | h1 <;> rcases Nat.lt_or_ge d j with h2 | h2
    · have := e1 h1
      have := f1 h2
      omega
    · have := e1 h1
      have := f2 h2
      omega
    · have := e2 h1
      have := f1 h2
      omega
    · have := e2 h1
      have := f2 h2
      omega
  · intro c hc
    have hc1 : c + 1 < s.active_set_.size_ := by
      have : c < s.active_set_.size_ - 1 := hc
      omega
    obtain ⟨c', hc', hcj, e1, e2, e3⟩ := hidx c hc1
    show (s.active_set_.removeInequality j).getIndex c < s.num_general_constraints_ ∧
      ((c < s.active_set_.num_equalities_ ∧
        (Solver.deactivate sqrt s j tol).general_constraints_status_
          ((s.active_set_.removeInequality j).getIndex c) = ConstraintStatus.EQUALITY ∧
        dot s.primal_size_ (A ((s.active_set_.removeInequality j).getIndex c)) s.primal
          = Alb ((s.active_set_.removeInequality j).getIndex c)) ∨
      (s.active_set_.num_equalities_ ≤ c ∧
        (Solver.deactivate sqrt s j tol).general_constraints_status_
          ((s.active_set_.removeInequality j).getIndex c)
            = ConstraintStatus.ACTIVE_LOWER_BOUND ∧
        |dot s.primal_size_ (A ((s.active_set_.removeInequality j).getIndex c)) s.primal
          - Alb ((s.active_set_.removeInequality j).getIndex c)| ≤ tol) ∨
      (s.active_set_.num_equalities_ ≤ c ∧
        (Solver.deactivate sqrt s j tol).general_constraints_status_
          ((s.active_set_.removeInequality j).getIndex c)
            = ConstraintStatus.ACTIVE_UPPER_BOUND ∧
        |dot s.primal_size_ (A ((s.active_set_.removeInequality j).getIndex c)) s.primal
          - Aub ((s.active_set_.removeInequality j).getIndex c)| ≤ tol))
    rw [e3, hst _ (hne c' hc' hcj)]
    obtain ⟨a0, a⟩ := h.active c' hc'
    refine ⟨a0, ?_⟩
    rcases a with ⟨a1, a2, a3⟩ | ⟨a1, a2, a3⟩ | ⟨a1, a2, a3⟩
    · refine Or.inl ⟨?_, a2, a3⟩
      rcases Nat.lt_or_ge c j with h1 | h1
      · have := e1 h1
        omega
      · have := e2 h1
        omega
    · refine Or.inr (Or.inl ⟨?_, a2, a3⟩)
      rcases Nat.lt_or_ge c j with h1 | h1
      · have := e1 h1
        omega
      · omega
    · refine Or.inr (Or.inr ⟨?_, a2, a3⟩)
      rcases Nat.lt_or_ge c j with h1 | h1
      · have := e1 h1
        omega
      · omega
  · intro i hi
    have hi' : i < s.num_general_constraints_ := hi
    by_cases hij : i = s.active_set_.getIndex j
    · subst hij
      rw [hstj]
      rcases h.status _ hi' with ⟨b1, _⟩ | ⟨_, b2⟩
      · rcases hjst with a | a
        · rw [a] at b1
          exact absurd b1 (by decide)
        · rw [a] at b1
          exact absurd b1 (by decide)
      · exact Or.inr ⟨Or.inl rfl, b2⟩
    · rw [hst i hij]
      exact h.status i hi'
  · intro i hi hact
    have hi' : i < s.num_general_constraints_ := hi
    by_cases hij : i = s.active_set_.getIndex j
    · subst hij
      rw [hstj] at hact
      rcases hact with a | a
      · exact absurd a (by decide)
      · exact absurd a (by decide)
    · rw [hst i hij] at hact
      obtain ⟨c, hc, hci⟩ := h.located i hi' hact
      have hcj : c ≠ j := by
        intro e
        rw [e] at hci
        exact hij hci.symm
      rcases Nat.lt_or_ge c j with h1 | h1
      · refine ⟨c, ?_, ?_⟩
        · show c < s.active_set_.size_ - 1
          omega
        · show dropElementWithoutResize _ j _ c = i
          rw [dropElementWithoutResize_lt _ j _ c h1]
          exact hci
      · refine ⟨c - 1, ?_, ?_⟩
        · show c - 1 < s.active_set_.size_ - 1
          omega
        · show dropElementWithoutResize _ j _ (c - 1) = i
          rw [dropElementWithoutResize_ge _ j _ (c - 1) (by omega) (by omega),
            show c - 1 + 1 = c by omega]
          exact hci

theorem Solver.Pending.congr_pending {s s2 : Solver K} {A : QPMatrix K} {Alb Aub : QPVector K}
    {ch : ChosenConstraint K} (h : s.Pending A Alb Aub ch)
    (e1 : s2.toInputParser = s.toInputParser)
    (e4 : s2.general_constraints_status_ = s.general_constraints_status_)
    (e8 : s2.primal = s.primal) : s2.Pending A Alb Aub ch := by
  have en : s2.primal_size_ = s.primal_size_ := congrArg InputParser.primal_size_ e1
  have em : s2.num_general_constraints_ = s.num_general_constraints_ :=
    congrArg InputParser.num_general_constraints_ e1
  unfold Solver.Pending
  rw [e4, e8, en, em]
  exact h

/-- Deactivating an active inequality keeps the record of the chosen constraint
valid. -/
theorem Solver.Pending.deactivate_pending (sqrt : K → K) {s : Solver K}
    {A : QPMatrix K} {Alb Aub : QPVector K} {tol : K} {ch : ChosenConstraint K}
    (h : s.MainInv A Alb Aub tol) (hp : s.Pending A Alb Aub ch) (j : Nat)
    (hj2 : j < s.active_set_.size_) :
    (Solver.deactivate sqrt s j tol).Pending A Alb Aub ch := by
  obtain ⟨p1, p2, p3⟩ := hp
  refine ⟨p1, ?_, p3⟩
  show Function.update s.general_constraints_status_ (s.active_set_.getIndex j)
    ConstraintStatus.INACTIVE ch.index_ = _
  rw [Function.update_noteq]
  · exact p2
  · intro e
    rw [e] at p2
    rcases (h.active j hj2).2 with ⟨_, a2, _⟩ | ⟨_, a2, _⟩ | ⟨_, a2, _⟩ <;>
      · rw [a2] at p2
        exact absurd p2 (by decide)

/-! ## Steps of the main loop -/


theorem Solver.computeStepDirections_fd (s : Solver K) (A : QPMatrix K)
    (ch : ChosenConstraint K) (hspace : s.active_set_.hasEmptySpace = true) :
    (s.computeStepDirections A ch).factorization_data_
      = (s.factorization_data_.computeInequalitySteps s.dual_step_direction_
          (A ch.index_) ch.type_ s.active_set_).1 := by
  unfold Solver.computeStepDirections
  rw [if_pos hspace]

theorem Solver.computeStepDirections_p (s : Solver K) (A : QPMatrix K)
    (ch : ChosenConstraint K) (hspace : s.active_set_.hasEmptySpace = true) :
    (s.computeStepDirections A ch).primal_step_direction_
      = (s.factorization_data_.computeInequalitySteps s.dual_step_direction_
          (A ch.index_) ch.type_ s.active_set_).2.1 := by
  unfold Solver.computeStepDirections
  rw [if_pos hspace]

theorem Tracks.restrict {n q : Nat} {J R : QPMatrix K} {N : Nat → QPVector K} {v : QPVector K}
    (hT : Tracks n J R (Function.update N q v) (q + 1)) : Tracks n J R N q := by
  intro c hc r hr
  have := hT c (by omega) r hr
  rw [Function.update_noteq (Nat.ne_of_lt hc)] at this
  exact this

/-- After the step of lines 280-291 (with room in the active set) the first
`q + 1` columns of `R` hold the active normals and the normal of the chosen
constraint. -/
theorem Solver.takeStep_tracks (sqrt : K → K) (hs : IsSqrt sqrt) {s : Solver K}
    {A : QPMatrix K} (h : s.WF A) (ch : ChosenConstraint K)
    (hspace : s.active_set_.hasEmptySpace = true) (t tol : K) :
    Tracks s.primal_size_
      ((s.computeStepDirections A ch).takeStep sqrt t tol).1.factorization_data_.QLi_aka_J
      ((s.computeStepDirections A ch).takeStep sqrt t tol).1.factorization_data_.R
      (Function.update (s.normal A) s.active_set_.size_ (signedRow (A ch.index_) ch.type_))
      (s.active_set_.size_ + 1) := by
  have hq : s.active_set_.size_ < s.primal_size_ := by
    rw [← h.max_size]
    exact (hasEmptySpace_iff _).mp hspace
  show Tracks s.primal_size_
    ((s.computeStepDirections A ch).factorization_data_.update sqrt
      (s.computeStepDirections A ch).active_set_.size_ tol).1.QLi_aka_J
    ((s.computeStepDirections A ch).factorization_data_.update sqrt
      (s.computeStepDirections A ch).active_set_.size_ tol).1.R _ _
  rw [Solver.computeStepDirections_fd s A ch hspace, Solver.computeStepDirections_active_set]
  have hT0 : Tracks
      (s.factorization_data_.computeInequalitySteps s.dual_step_direction_
          (A ch.index_) ch.type_ s.active_set_).1.primal_size_
      (s.factorization_data_.computeInequalitySteps s.dual_step_direction_
          (A ch.index_) ch.type_ s.active_set_).1.QLi_aka_J
      (s.factorization_data_.computeInequalitySteps s.dual_step_direction_
          (A ch.index_) ch.type_ s.active_set_).1.R
      (s.normal A) s.active_set_.size_ := by
    rw [computeInequalitySteps_size, h.fd_size]
    exact h.tracks.congr
      (fun r c hc => computeInequalitySteps_R_other _ _ _ _ _ _ _ (Nat.ne_of_lt hc))
      (fun c _ => rfl)
  have hT1 := update_tracks sqrt hs
    (s.factorization_data_.computeInequalitySteps s.dual_step_direction_
      (A ch.index_) ch.type_ s.active_set_).1
    (s.normal A) (signedRow (A ch.index_) ch.type_) s.active_set_.size_ tol
    (by rw [computeInequalitySteps_size, h.fd_size]; exact hq) hT0
    (fun r hr => (computeInequalitySteps_R_col s.factorization_data_ _ _ _ _ r hr).symm)
  rw [computeInequalitySteps_size, h.fd_size] at hT1
  exact hT1

/-- The step of lines 280-291 keeps the invariant: the primal step direction is
orthogonal to the rows of the active constraints. -/
theorem Solver.MainInv.takeStep (sqrt : K → K) (hs : IsSqrt sqrt) {s : Solver K}
    {A : QPMatrix K} {Alb Aub : QPVector K} {tol : K} (h : s.MainInv A Alb Aub tol)
    (ch : ChosenConstraint K) (hspace : s.active_set_.hasEmptySpace = true) (t : K) :
    ((s.computeStepDirections A ch).takeStep sqrt t tol).1.MainInv A Alb Aub tol := by
  have hT := (Solver.takeStep_tracks sqrt hs h.wf ch hspace t tol).restrict
  have eas := Solver.computeStepDirections_active_set s A ch
  have est := Solver.computeStepDirections_status s A ch
  have esz := Solver.computeStepDirections_sizes s A ch
  have epr := Solver.computeStepDirections_primal s A ch
  have h1 := h.stepDirections ch
  have hx : ∀ c, c < s.active_set_.size_ →
      dot s.primal_size_ (A (s.active_set_.getIndex c))
        ((s.computeStepDirections A ch).takeStep sqrt t tol).1.primal
      = dot s.primal_size_ (A (s.active_set_.getIndex c)) s.primal := by
    intro c hc
    show dot s.primal_size_ _ (fun k => (s.computeStepDirections A ch).primal k
      + t * (s.computeStepDirections A ch).primal_step_direction_ k) = _
    rw [dot_add_smul, Solver.computeStepDirections_orth h.wf ch hspace c hc, mul_zero,
      add_zero, epr]
  have en : ((s.computeStepDirections A ch).takeStep sqrt t tol).1.primal_size_
      = s.primal_size_ := congrArg InputParser.primal_size_ esz
  have em : ((s.computeStepDirections A ch).takeStep sqrt t tol).1.num_general_constraints_
      = s.num_general_constraints_ := congrArg InputParser.num_general_constraints_ esz
  have eas' : ((s.computeStepDirections A ch).takeStep sqrt t tol).1.active_set_
      = s.active_set_ := eas
  have est' : ((s.computeStepDirections A ch).takeStep sqrt t tol).1.general_constraints_status_
      = s.general_constraints_status_ := est
  have eN : ((s.computeStepDirections A ch).takeStep sqrt t tol).1.normal A = s.normal A := by
    funext c k
    unfold Solver.normal
    rw [eas', est']
  refine ⟨⟨h1.wf.init, ?_, ?_, ?_, ?_, ?_, ?_⟩, ?_, ?_, ?_⟩
  · rw [eas', en]
    exact h.wf.max_size
  · show ((s.computeStepDirections A ch).factorization_data_.update sqrt _ tol).1.primal_size_
      = _
    rw [update_primal_size, en]
    exact h1.wf.fd_size.trans (congrArg InputParser.primal_size_ esz)
  · rw [eas']
    exact h.wf.size_eq
  · rw [eas', en]
    exact h.wf.size_le
  · rw [eas', en, eN]
    exact hT
  · rw [eas']
    exact h.wf.inj
  · rw [eas', est', en, em]
    intro c hc
    rw [hx c hc]
    exact h.active c hc
  · rw [est', em]
    exact h.status
  · rw [eas', est', em]
    exact h.located

/-- The step of lines 280-291 keeps the record of the chosen constraint valid
when its violation is updated as in line 286. -/
theorem Solver.Pending.takeStep_pending (sqrt : K → K) {s : Solver K}
    {A : QPMatrix K} {Alb Aub : QPVector K} {ch : ChosenConstraint K}
    (hp : s.Pending A Alb Aub ch) (t tol d : K) :
    ((s.computeStepDirections A ch).takeStep sqrt t tol).1.Pending A Alb Aub
      { ch with
        dual_ := d
        violation_ := ch.violation_ + t * dot (s.computeStepDirections A ch).primal_size_
          (A ch.index_) (s.computeStepDirections A ch).primal_step_direction_ } := by
  obtain ⟨p1, p2, p3⟩ := hp
  have est := Solver.computeStepDirections_status s A ch
  have esz := Solver.computeStepDirections_sizes s A ch
  have epr := Solver.computeStepDirections_primal s A ch
  have en : (s.computeStepDirections A ch).primal_size_ = s.primal_size_ :=
    congrArg InputParser.primal_size_ esz
  have em : (s.computeStepDirections A ch).num_general_constraints_
      = s.num_general_constraints_ := congrArg InputParser.num_general_constraints_ esz
  have hx : dot (s.computeStepDirections A ch).primal_size_ (A ch.index_)
        ((s.computeStepDirections A ch).takeStep sqrt t tol).1.primal
      = dot s.primal_size_ (A ch.index_) s.primal
        + t * dot (s.computeStepDirections A ch).primal_size_ (A ch.index_)
            (s.computeStepDirections A ch).primal_step_direction_ := by
    show dot _ _ (fun k => (s.computeStepDirections A ch).primal k
      + t * (s.computeStepDirections A ch).primal_step_direction_ k) = _
    rw [dot_add_smul, epr, en]
  refine ⟨?_, ?_, ?_⟩
  · show ch.index_ < (s.computeStepDirections A ch).num_general_constraints_
    rw [em]
    exact p1
  · show (s.computeStepDirections A ch).general_constraints_status_ ch.index_ = _
    rw [est]
    exact p2
  · show (ch.type_ = _ ∧ ch.violation_ + _ = dot (s.computeStepDirections A ch).primal_size_
        (A ch.index_) ((s.computeStepDirections A ch).takeStep sqrt t tol).1.primal - _) ∨
      (ch.type_ = _ ∧ ch.violation_ + _ = dot (s.computeStepDirections A ch).primal_size_
        (A ch.index_) ((s.computeStepDirections A ch).takeStep sqrt t tol).1.primal - _)
    rw [hx]
    rcases p3 with ⟨a, b⟩ | ⟨a, b⟩
    · refine Or.inl ⟨a, ?_⟩
      rw [b]
      ring
    · refine Or.inr ⟨a, ?_⟩
      rw [b]
      ring

/-- Activating the chosen constraint (lines 315-317) keeps the invariant when
its violation is within the tolerance and column `q` of `R` holds its normal. -/
theorem Solver.MainInv.activate_inv {r : Solver K} {A : QPMatrix K} {Alb Aub : QPVector K}
    {tol : K} (h : r.MainInv A Alb Aub tol) (ch : ChosenConstraint K)
    (hq : r.active_set_.size_ < r.primal_size_)
    (hT : Tracks r.primal_size_ r.factorization_data_.QLi_aka_J r.factorization_data_.R
      (Function.update (r.normal A) r.active_set_.size_ (signedRow (A ch.index_) ch.type_))
      (r.active_set_.size_ + 1))
    (hp : r.Pending A Alb Aub ch) (hsmall : |ch.violation_| ≤ tol) :
    (r.activate ch).MainInv A Alb Aub tol := by
  obtain ⟨p1, p2, p3⟩ := hp
  have hidx : ∀ c, c < r.active_set_.size_ →
      (r.active_set_.addInequality ch.index_).getIndex c = r.active_set_.getIndex c := by
    intro c hc
    show Function.update r.active_set_.active_constraints_indices_ r.active_set_.size_ _ c = _
    rw [Function.update_noteq (Nat.ne_of_lt hc)]
    rfl
  have hidq : (r.active_set_.addInequality ch.index_).getIndex r.active_set_.size_
      = ch.index_ := by
    show Function.update r.active_set_.active_constraints_indices_ r.active_set_.size_ _ _ = _
    rw [Function.update_same]
  have hne : ∀ c, c < r.active_set_.size_ → r.active_set_.getIndex c ≠ ch.index_ := by
    intro c hc e
    rw [← e] at p2
    rcases (h.active c hc).2 with ⟨_, a2, _⟩ | ⟨_, a2, _⟩ | ⟨_, a2, _⟩ <;>
      · rw [a2] at p2
        exact absurd p2 (by decide)
  have hst : ∀ i, i ≠ ch.index_ →
      (r.activate ch).general_constraints_status_ i = r.general_constraints_status_ i := by
    intro i hi
    show Function.update _ _ _ i = _
    rw [Function.update_noteq hi]
  have hstq : (r.activate ch).general_constraints_status_ ch.index_ = ch.type_ := by
    show Function.update _ _ _ _ = _
    rw [Function.update_same]
  have htype : ch.type_ = ConstraintStatus.ACTIVE_LOWER_BOUND ∨
      ch.type_ = ConstraintStatus.ACTIVE_UPPER_BOUND := by
    rcases p3 with ⟨a, _⟩ | ⟨a, _⟩
    · exact Or.inl a
    · exact Or.inr a
  have hsize := h.wf.size_eq
  refine ⟨⟨h.wf.init, h.wf.max_size, h.wf.fd_size, ?_, ?_, ?_, ?_⟩, ?_, ?_, ?_⟩
  · show r.active_set_.size_ + 1
      = r.active_set_.num_equalities_ + (r.active_set_.num_inequalities_ + 1)
    omega
  · show r.active_set_.size_ + 1 ≤ r.primal_size_
    omega
  · show Tracks r.primal_size_ r.factorization_data_.QLi_aka_J r.factorization_data_.R _
      (r.active_set_.size_ + 1)
    refine hT.congr (fun _ _ _ => rfl) ?_
    intro c hc
    funext k
    unfold Solver.normal
    show (if (r.activate ch).general_constraints_status_
        ((r.active_set_.addInequality ch.index_).getIndex c) = _ then
        -A ((r.active_set_.addInequality ch.index_).getIndex c) k
      else A ((r.active_set_.addInequality ch.index_).getIndex c) k) = _
    rcases Nat.lt_or_ge c r.active_set_.size_ with h1 | h1
    · rw [Function.update_noteq (Nat.ne_of_lt h1), hidx c h1, hst _ (hne c h1)]
    · have : c = r.active_set_.size_ := by omega
      subst this
      rw [Function.update_same, hidq, hstq]
      rfl
  · intro c d hc hd hcd
    have hc1 : c < r.active_set_.size_ + 1 := hc
    have hd1 : d < r.active_set_.size_ + 1 := hd
    have hcd' : (r.active_set_.addInequality ch.index_).getIndex c
        = (r.active_set_.addInequality ch.index_).getIndex d := hcd
    rcases Nat.lt_or_ge c r.active_set_.size_ with h1 | h1
    · rcases Nat.lt_or_ge d r.active_set_.size_ with h2 | h2
      · rw [hidx c h1, hidx d h2] at hcd'
        exact h.wf.inj c d h1 h2 hcd'
      · have : d = r.active_set_.size_ := by omega
        subst this
        rw [hidx c h1, hidq] at hcd'
        exact absurd hcd' (hne c h1)
    · have : c = r.active_set_.size_ := by omega
      subst this
      rcases Nat.lt_or_ge d r.active_set_.size_ with h2 | h2
      · rw [hidx d h2, hidq] at hcd'
        exact absurd hcd'.symm (hne d h2)
      · omega
  · intro c hc
    have hc1 : c < r.active_set_.size_ + 1 := hc
    show (r.active_set_.addInequality ch.index_).getIndex c < r.num_general_constraints_ ∧
      ((c < r.active_set_.num_equalities_ ∧
        (r.activate ch).general_constraints_status_
          ((r.active_set_.addInequality ch.index_).getIndex c) = ConstraintStatus.EQUALITY ∧
        dot r.primal_size_ (A ((r.active_set_.addInequality ch.index_).getIndex c)) r.primal
          = Alb ((r.active_set_.addInequality ch.index_).getIndex c)) ∨
      (r.active_set_.num_equalities_ ≤ c ∧
        (r.activate ch).general_constraints_status_
          ((r.active_set_.addInequality ch.index_).getIndex c)
            = ConstraintStatus.ACTIVE_LOWER_BOUND ∧
        |dot r.primal_size_ (A ((r.active_set_.addInequality ch.index_).getIndex c)) r.primal
          - Alb ((r.active_set_.addInequality ch.index_).getIndex c)| ≤ tol) ∨
      (r.active_set_.num_equalities_ ≤ c ∧
        (r.activate ch).general_constraints_status_
          ((r.active_set_.addInequality ch.index_).getIndex c)
            = ConstraintStatus.ACTIVE_UPPER_BOUND ∧
        |dot r.primal_size_ (A ((r.active_set_.addInequality ch.index_).getIndex c)) r.primal
          - Aub ((r.active_set_.addInequality ch.index_).getIndex c)| ≤ tol))
    rcases Nat.lt_or_ge c r.active_set_.size_ with h1 | h1
    · rw [hidx c h1, hst _ (hne c h1)]
      exact h.active c h1
    · have : c = r.active_set_.size_ := by omega
      subst this
      rw [hidq, hstq]
      refine ⟨p1, ?_⟩
      rcases p3 with ⟨a, b⟩ | ⟨a, b⟩
      · refine Or.inr (Or.inl ⟨by omega, a, ?_⟩)
        rw [← b]
        exact hsmall
      · refine Or.inr (Or.inr ⟨by omega, a, ?_⟩)
        rw [← b]
        exact hsmall
  · intro i hi
    have hi' : i < r.num_general_constraints_ := hi
    by_cases hic : i = ch.index_
    · subst hic
      rw [hstq]
      rcases h.status _ hi' with ⟨b1, _⟩ | ⟨_, b2⟩
      · rw [p2] at b1
        exact absurd b1 (by decide)
      · refine Or.inr ⟨?_, b2⟩
        rcases htype with a | a
        · exact Or.inr (Or.inr (Or.inl a))
        · exact Or.inr (Or.inr (Or.inr a))
    · rw [hst i hic]
      exact h.status i hi'
  · intro i hi hact
    have hi' : i < r.num_general_constraints_ := hi
    by_cases hic : i = ch.index_
    · exact ⟨r.active_set_.size_, Nat.lt_succ_self _, hic ▸ hidq⟩
    · rw [hst i hic] at hact
      obtain ⟨c, hc, hci⟩ := h.located i hi' hact
      exact ⟨c, Nat.lt_succ_of_lt hc, (hidx c hc).trans hci⟩

/-! ## The status vector after chooseConstraint -/


/-- What one step of the scan of `chooseConstraint` does to the status vector. -/
theorem chooseConstraintStep_status (n : Nat) (x : QPVector K) (A : QPMatrix K)
    (Alb Aub : QPVector K) (tol : K) (i : Nat)
    (st : ChosenConstraint K × (Nat → ConstraintStatus)) :
    (∀ k, k ≠ i → (Solver.chooseConstraintStep n x A Alb Aub tol i st).2 k = st.2 k) ∧
    (¬ (st.2 i = ConstraintStatus.INACTIVE ∨ st.2 i = ConstraintStatus.VIOLATED) →
      (Solver.chooseConstraintStep n x A Alb Aub tol i st).2 i = st.2 i) ∧
    ((st.2 i = ConstraintStatus.INACTIVE ∨ st.2 i = ConstraintStatus.VIOLATED) →
      ((Solver.chooseConstraintStep n x A Alb Aub tol i st).2 i = ConstraintStatus.VIOLATED ∧
        (Alb i - tol > dot n (A i) x ∨ Aub i + tol < dot n (A i) x)) ∨
      ((Solver.chooseConstraintStep n x A Alb Aub tol i st).2 i = ConstraintStatus.INACTIVE ∧
        Within n x A Alb Aub tol i)) := by
  unfold Solver.chooseConstraintStep
  by_cases hc : st.2 i = ConstraintStatus.INACTIVE ∨ st.2 i = ConstraintStatus.VIOLATED
  · rw [if_pos hc]
    dsimp only
    by_cases h1 : Alb i - tol > dot n (A i) x
    · rw [if_pos h1]
      refine ⟨fun k hk => ?_, fun h => absurd hc h, fun _ => Or.inl ⟨?_, Or.inl h1⟩⟩
      · split_ifs <;> exact Function.update_noteq hk _ _
      · split_ifs <;> exact Function.update_same _ _ _
    · rw [if_neg h1]
      by_cases h2 : Aub i + tol < dot n (A i) x
      · rw [if_pos h2]
        refine ⟨fun k hk => ?_, fun h => absurd hc h, fun _ => Or.inl ⟨?_, Or.inr h2⟩⟩
        · split_ifs <;> exact Function.update_noteq hk _ _
        · split_ifs <;> exact Function.update_same _ _ _
      · rw [if_neg h2]
        refine ⟨fun k hk => Function.update_noteq hk _ _, fun h => absurd hc h,
          fun _ => Or.inr ⟨Function.update_same _ _ _, not_lt.mp h1, not_lt.mp h2⟩⟩
  · rw [if_neg hc]
    exact ⟨fun _ _ => rfl, fun _ => rfl, fun h => absurd h hc⟩

/-- What `chooseConstraint` does to the status vector: the constraints that are
looked at become `VIOLATED` or `INACTIVE` according to their value, the others
keep their status. -/
theorem chooseConstraint_status (s : Solver K) (x : QPVector K) (A : QPMatrix K)
    (Alb Aub : QPVector K) (tol : K) (k : Nat) :
    ((¬ (s.general_constraints_status_ k = ConstraintStatus.INACTIVE ∨
          s.general_constraints_status_ k = ConstraintStatus.VIOLATED) ∨
        s.num_general_constraints_ ≤ k) →
      (s.chooseConstraint x A Alb Aub tol).2.general_constraints_status_ k
        = s.general_constraints_status_ k) ∧
    (k < s.num_general_constraints_ →
      (s.general_constraints_status_ k = ConstraintStatus.INACTIVE ∨
        s.general_constraints_status_ k = ConstraintStatus.VIOLATED) →
      ((s.chooseConstraint x A Alb Aub tol).2.general_constraints_status_ k
          = ConstraintStatus.VIOLATED ∧
        (Alb k - tol > dot s.primal_size_ (A k) x ∨ Aub k + tol < dot s.primal_size_ (A k) x)) ∨
      ((s.chooseConstraint x A Alb Aub tol).2.general_constraints_status_ k
          = ConstraintStatus.INACTIVE ∧
        Within s.primal_size_ x A Alb Aub tol k)) := by
  have := forUp_induction
    (Solver.chooseConstraintStep s.primal_size_ x A Alb Aub tol)
    (fun i st => (∀ k, i ≤ k → st.2 k = s.general_constraints_status_ k) ∧
      (∀ k, k < i →
        (¬ (s.general_constraints_status_ k = ConstraintStatus.INACTIVE ∨
            s.general_constraints_status_ k = ConstraintStatus.VIOLATED) →
          st.2 k = s.general_constraints_status_ k) ∧
        ((s.general_constraints_status_ k = ConstraintStatus.INACTIVE ∨
            s.general_constraints_status_ k = ConstraintStatus.VIOLATED) →
          (st.2 k = ConstraintStatus.VIOLATED ∧
            (Alb k - tol > dot s.primal_size_ (A k) x ∨
              Aub k + tol < dot s.primal_size_ (A k) x)) ∨
          (st.2 k = ConstraintStatus.INACTIVE ∧ Within s.primal_size_ x A Alb Aub tol k))))
    0 s.num_general_constraints_ (ChosenConstraint.init, s.general_constraints_status_)
    ⟨fun k _ => rfl, fun k hk => absurd hk (Nat.not_lt_zero k)⟩
    (by
      intro i st _ _ ⟨h1, h2⟩
      obtain ⟨g1, g2, g3⟩ := chooseConstraintStep_status s.primal_size_ x A Alb Aub tol i st
      have hi := h1 i (le_refl i)
      refine ⟨fun k hk => ?_, fun k hk => ?_⟩
      · rw [g1 k (by omega)]
        exact h1 k (by omega)
      · rcases Nat.lt_or_ge k i with h | h
        · rw [g1 k (by omega)]
          exact h2 k h
        · have : k = i := by omega
          subst this
          rw [hi] at g2 g3
          exact ⟨g2, g3⟩)
  rw [Nat.zero_add] at this
  obtain ⟨h1, h2⟩ := this
  refine ⟨fun hk => ?_, fun hk hc => (h2 k hk).2 hc⟩
  rcases hk with hk | hk
  · rcases Nat.lt_or_ge k s.num_general_constraints_ with h | h
    · exact (h2 k h).1 hk
    · exact h1 k h
  · exact h1 k hk

/-- The scan of `chooseConstraint` keeps the invariant and leaves a valid record
of the chosen constraint. -/
theorem Solver.MainInv.chooseConstraint {s : Solver K} {A : QPMatrix K}
    {Alb Aub : QPVector K} {tol : K} (htol : 0 ≤ tol) (h : s.MainInv A Alb Aub tol) :
    (s.chooseConstraint s.primal A Alb Aub tol).2.MainInv A Alb Aub tol ∧
    (s.chooseConstraint s.primal A Alb Aub tol).2.Chosen A Alb Aub tol
      (s.chooseConstraint s.primal A Alb Aub tol).1 := by
  have hst := chooseConstraint_status s s.primal A Alb Aub tol
  have hact : ∀ c, c < s.active_set_.size_ →
      (s.chooseConstraint s.primal A Alb Aub tol).2.general_constraints_status_
        (s.active_set_.getIndex c) = s.general_constraints_status_ (s.active_set_.getIndex c) := by
    intro c hc
    refine (hst _).1 (Or.inl ?_)
    rcases (h.active c hc).2 with ⟨_, a2, _⟩ | ⟨_, a2, _⟩ | ⟨_, a2, _⟩ <;>
      · rw [a2]
        decide
  have hcand : ∀ i, i < s.num_general_constraints_ →
      ((s.chooseConstraint s.primal A Alb Aub tol).2.general_constraints_status_ i
          = ConstraintStatus.INACTIVE ∨
        (s.chooseConstraint s.primal A Alb Aub tol).2.general_constraints_status_ i
          = ConstraintStatus.VIOLATED) →
      (s.general_constraints_status_ i = ConstraintStatus.INACTIVE ∨
        s.general_constraints_status_ i = ConstraintStatus.VIOLATED) := by
    intro i _ hi
    by_contra hn
    rw [(hst i).1 (Or.inl hn)] at hi
    exact hn hi
  refine ⟨⟨⟨h.wf.init, h.wf.max_size, h.wf.fd_size, h.wf.size_eq, h.wf.size_le, ?_, h.wf.inj⟩,
    ?_, ?_, ?_⟩, ?_⟩
  · refine h.wf.tracks.congr (fun _ _ _ => rfl) ?_
    intro c hc
    funext k
    unfold Solver.normal
    show (if (s.chooseConstraint s.primal A Alb Aub tol).2.general_constraints_status_
        (s.active_set_.getIndex c) = _ then _ else _) = _
    rw [hact c hc]
    rfl
  · intro c hc
    show s.active_set_.getIndex c < s.num_general_constraints_ ∧
      ((c < s.active_set_.num_equalities_ ∧
        (s.chooseConstraint s.primal A Alb Aub tol).2.general_constraints_status_
          (s.active_set_.getIndex c) = ConstraintStatus.EQUALITY ∧
        dot s.primal_size_ (A (s.active_set_.getIndex c)) s.primal
          = Alb (s.active_set_.getIndex c)) ∨
      (s.active_set_.num_equalities_ ≤ c ∧
        (s.chooseConstraint s.primal A Alb Aub tol).2.general_constraints_status_
          (s.active_set_.getIndex c) = ConstraintStatus.ACTIVE_LOWER_BOUND ∧
        |dot s.primal_size_ (A (s.active_set_.getIndex c)) s.primal
          - Alb (s.active_set_.getIndex c)| ≤ tol) ∨
      (s.active_set_.num_equalities_ ≤ c ∧
        (s.chooseConstraint s.primal A Alb Aub tol).2.general_constraints_status_
          (s.active_set_.getIndex c) = ConstraintStatus.ACTIVE_UPPER_BOUND ∧
        |dot s.primal_size_ (A (s.active_set_.getIndex c)) s.primal
          - Aub (s.active_set_.getIndex c)| ≤ tol))
    rw [hact c hc]
    exact h.active c hc
  · intro i hi
    have hi' : i < s.num_general_constraints_ := hi
    by_cases hc : s.general_constraints_status_ i = ConstraintStatus.INACTIVE ∨
        s.general_constraints_status_ i = ConstraintStatus.VIOLATED
    · have hb : Alb i + tol < Aub i := by
        rcases h.status i hi' with ⟨b1, _⟩ | ⟨_, b2⟩
        · rcases hc with a | a <;>
            · rw [a] at b1
              exact absurd b1 (by decide)
        · exact b2
      rcases (hst i).2 hi' hc with ⟨a, _⟩ | ⟨a, _⟩
      · exact Or.inr ⟨Or.inr (Or.inl a), hb⟩
      · exact Or.inr ⟨Or.inl a, hb⟩
    · show ((s.chooseConstraint s.primal A Alb Aub tol).2.general_constraints_status_ i = _ ∧ _) ∨
        (((s.chooseConstraint s.primal A Alb Aub tol).2.general_constraints_status_ i = _ ∨
          (s.chooseConstraint s.primal A Alb Aub tol).2.general_constraints_status_ i = _ ∨
          (s.chooseConstraint s.primal A Alb Aub tol).2.general_constraints_status_ i = _ ∨
          (s.chooseConstraint s.primal A Alb Aub tol).2.general_constraints_status_ i = _) ∧ _)
      rw [(hst i).1 (Or.inl hc)]
      exact h.status i hi'
  · intro i hi hact2
    have hi' : i < s.num_general_constraints_ := hi
    have hc : ¬ (s.general_constraints_status_ i = ConstraintStatus.INACTIVE ∨
        s.general_constraints_status_ i = ConstraintStatus.VIOLATED) := by
      intro hc
      rcases (hst i).2 hi' hc with ⟨a, _⟩ | ⟨a, _⟩ <;>
        · rw [a] at hact2
          rcases hact2 with b | b <;> exact absurd b (by decide)
    rw [(hst i).1 (Or.inl hc)] at hact2
    exact h.located i hi' hact2
  · obtain ⟨_, hch⟩ := chooseConstraint_chosenUpTo s s.primal A Alb Aub tol htol
    rcases hch with ⟨c1, _, _, c4⟩ | ⟨c1, c2, c3, c4, _, _⟩
    · refine Or.inl ⟨c1, fun i hi hi2 => ?_⟩
      have hi' : i < s.num_general_constraints_ := hi
      have hc := hcand i hi' hi2
      have hnc := c4 i hi'
      unfold IsCandidate at hnc
      have hout : ¬ (Alb i - tol > dot s.primal_size_ (A i) s.primal ∨
          Aub i + tol < dot s.primal_size_ (A i) s.primal) := fun ho => hnc ⟨hc, ho⟩
      exact ⟨not_lt.mp (fun ho => hout (Or.inl ho)), not_lt.mp (fun ho => hout (Or.inr ho))⟩
    · have hv : (s.chooseConstraint s.primal A Alb Aub tol).2.general_constraints_status_
          (s.chooseConstraint s.primal A Alb Aub tol).1.index_ = ConstraintStatus.VIOLATED := by
        rcases (hst _).2 c1 c2.1 with ⟨a, _⟩ | ⟨_, a1, a2⟩
        · exact a
        · rcases c2.2 with o | o
          · exact absurd a1 (not_le.mpr o)
          · exact absurd a2 (not_le.mpr o)
      unfold ctrViolation at c3
      rcases c4 with ⟨d1, d2⟩ | ⟨d1, d2⟩
      · rw [if_pos d1] at c3
        refine Or.inr ⟨?_, c1, hv, Or.inl ⟨d2, c3⟩⟩
        rw [c3]
        have : dot s.primal_size_ (A (s.chooseConstraint s.primal A Alb Aub tol).1.index_)
            s.primal - Alb (s.chooseConstraint s.primal A Alb Aub tol).1.index_ < -tol := by
          linarith
        rw [abs_of_neg (by linarith)]
        linarith
      · rw [if_neg d1] at c3
        have ho : Aub (s.chooseConstraint s.primal A Alb Aub tol).1.index_ + tol
            < dot s.primal_size_ (A (s.chooseConstraint s.primal A Alb Aub tol).1.index_)
              s.primal := by
          rcases c2.2 with o | o
          · exact absurd o d1
          · exact o
        refine Or.inr ⟨?_, c1, hv, Or.inr ⟨d2, c3⟩⟩
        rw [c3]
        exact lt_of_lt_of_le (by linarith) (le_abs_self _)

/-! ## An iteration of the main loop -/


theorem truncateStep_cases (d : Option K) (sl : K) :
    (d = none ∧ Solver.truncateStep d sl = (sl, false)) ∨
    (∃ t, d = some t ∧ t ≤ sl ∧ Solver.truncateStep d sl = (t, true)) ∨
    (∃ t, d = some t ∧ sl < t ∧ Solver.truncateStep d sl = (sl, false)) := by
  cases d with
  | none => exact Or.inl ⟨rfl, rfl⟩
  | some t =>
    by_cases h : t ≤ sl
    · refine Or.inr (Or.inl ⟨t, rfl, h, ?_⟩)
      show (if t ≤ sl then (t, true) else (sl, false)) = _
      rw [if_pos h]
    · refine Or.inr (Or.inr ⟨t, rfl, not_le.mp h, ?_⟩)
      show (if t ≤ sl then (t, true) else (sl, false)) = _
      rw [if_neg h]

/-- The three ways in which an iteration of the main loop goes on to the next
one: a partial step that drops the blocking constraint, a step that activates
the chosen constraint, a step in the dual space that drops the blocking
constraint. -/
theorem mainStep_cases (sqrt : K → K) (asserts : Bool)
    (H A : QPMatrix K) (Alb Aub : QPVector K) (param : SolverParameters K)
    (htol : 0 ≤ param.tolerance_) (st st1 : Solver K × ChosenConstraint K)
    (hstep : Solver.mainStep sqrt asserts H A Alb Aub param st = Step.next st1) :
    ¬ |st.2.violation_| < param.tolerance_ ∧
    (((st.1.stepState H A st.2).active_set_.hasEmptySpace = true ∧
        |st.1.stepCp H A st.2| > param.tolerance_ ∧
        ∃ t, ((st.1.stepState H A st.2).dualBlocking param.tolerance_).2 = some t ∧
          t ≤ -st.2.violation_ / st.1.stepCp H A st.2 ∧
          |st.2.violation_ + t * st.1.stepCp H A st.2| > param.tolerance_ ∧
          st1 = (Solver.deactivate sqrt
              ((st.1.stepState H A st.2).takeStep sqrt t param.tolerance_).1
              ((st.1.stepState H A st.2).dualBlocking param.tolerance_).1 param.tolerance_,
            { st.2 with
              dual_ := st.2.dual_ + t
              violation_ := st.2.violation_ + t * st.1.stepCp H A st.2 })) ∨
     ((st.1.stepState H A st.2).active_set_.hasEmptySpace = true ∧
        |st.1.stepCp H A st.2| > param.tolerance_ ∧
        ∃ t, |st.2.violation_ + t * st.1.stepCp H A st.2| ≤ param.tolerance_ ∧
          ((st.1.stepState H A st.2).takeStep sqrt t param.tolerance_).2 = true ∧
          ((((st.1.stepState H A st.2).dualBlocking param.tolerance_).2 = some t ∧
              t ≤ -st.2.violation_ / st.1.stepCp H A st.2) ∨
            (t = -st.2.violation_ / st.1.stepCp H A st.2 ∧
              (((st.1.stepState H A st.2).dualBlocking param.tolerance_).2 = none ∨
               ∃ t', ((st.1.stepState H A st.2).dualBlocking param.tolerance_).2 = some t' ∧
                 -st.2.violation_ / st.1.stepCp H A st.2 < t'))) ∧
          st1 = (((((st.1.stepState H A st.2).takeStep sqrt t param.tolerance_).1.activate
                { st.2 with
                  dual_ := st.2.dual_ + t
                  violation_ := st.2.violation_ + t * st.1.stepCp H A st.2 }).chooseConstraint
                (((st.1.stepState H A st.2).takeStep sqrt t param.tolerance_).1.activate
                  { st.2 with
                    dual_ := st.2.dual_ + t
                    violation_ := st.2.violation_ + t * st.1.stepCp H A st.2 }).primal
                A Alb Aub param.tolerance_).2,
            ((((st.1.stepState H A st.2).takeStep sqrt t param.tolerance_).1.activate
                { st.2 with
                  dual_ := st.2.dual_ + t
                  violation_ := st.2.violation_ + t * st.1.stepCp H A st.2 }).chooseConstraint
                (((st.1.stepState H A st.2).takeStep sqrt t param.tolerance_).1.activate
                  { st.2 with
                    dual_ := st.2.dual_ + t
                    violation_ := st.2.violation_ + t * st.1.stepCp H A st.2 }).primal
                A Alb Aub param.tolerance_).1)) ∨
     (¬ ((st.1.stepState H A st.2).active_set_.hasEmptySpace = true ∧
          |st.1.stepCp H A st.2| > param.tolerance_) ∧
        ((st.1.stepState H A st.2).dualBlocking param.tolerance_).1
          ≠ (st.1.stepState H A st.2).primal_size_ ∧
        st1 = (Solver.deactivate sqrt
            ((st.1.stepState H A st.2).dualUpdate
              (((st.1.stepState H A st.2).dualBlocking param.tolerance_).2.getD 0))
            ((st.1.stepState H A st.2).dualBlocking param.tolerance_).1 param.tolerance_,
          { st.2 with
            dual_ := st.2.dual_
              + ((st.1.stepState H A st.2).dualBlocking param.tolerance_).2.getD 0 }))) := by
  unfold Solver.stepCp Solver.stepState
  unfold Solver.mainStep at hstep
  dsimp only at hstep
  split at hstep
  · exact absurd hstep (by simp)
  rename_i h0
  refine ⟨h0, ?_⟩
  split at hstep
  · rename_i hA
    have hcp : dot ((st.1.initializeMachineryLazy H).computeStepDirections A st.2).primal_size_
        (A st.2.index_)
        ((st.1.initializeMachineryLazy H).computeStepDirections A st.2).primal_step_direction_
        ≠ 0 := by
      intro e
      rw [e, abs_zero] at hA
      exact absurd hA.2 (not_lt.mpr htol)
    split at hstep
    · exact absurd hstep (by simp)
    split at hstep
    · exact absurd hstep (by simp)
    rename_i hass hflag
    have hflag' := Bool.eq_true_of_not_eq_false hflag
    split at hstep
    · rename_i hpart
      injection hstep with hstep
      rcases truncateStep_cases
        (((st.1.initializeMachineryLazy H).computeStepDirections A st.2).dualBlocking
          param.tolerance_).2
        (-st.2.violation_ / dot
          ((st.1.initializeMachineryLazy H).computeStepDirections A st.2).primal_size_
          (A st.2.index_)
          ((st.1.initializeMachineryLazy H).computeStepDirections A st.2).primal_step_direction_)
        with ⟨_, e⟩ | ⟨t, e1, e2, e⟩ | ⟨t, _, _, e⟩
      · rw [e] at hpart
        exact absurd hpart.1 (by simp)
      · rw [e] at hpart hstep
        exact Or.inl ⟨hA.1, hA.2, t, e1, e2, hpart.2, hstep.symm⟩
      · rw [e] at hpart
        exact absurd hpart.1 (by simp)
    · rename_i hpart
      injection hstep with hstep
      refine Or.inr (Or.inl ⟨hA.1, hA.2, ?_⟩)
      rcases truncateStep_cases
        (((st.1.initializeMachineryLazy H).computeStepDirections A st.2).dualBlocking
          param.tolerance_).2
        (-st.2.violation_ / dot
          ((st.1.initializeMachineryLazy H).computeStepDirections A st.2).primal_size_
          (A st.2.index_)
          ((st.1.initializeMachineryLazy H).computeStepDirections A st.2).primal_step_direction_)
        with ⟨e1, e⟩ | ⟨t, e1, e2, e⟩ | ⟨t, e1, e2, e⟩
      · rw [e] at hpart hstep hflag'
        refine ⟨_, ?_, hflag', Or.inr ⟨rfl, Or.inl e1⟩, hstep.symm⟩
        rw [div_mul_cancel₀ _ hcp, add_neg_cancel, abs_zero]
        exact htol
      · rw [e] at hpart hstep hflag'
        refine ⟨t, ?_, hflag', Or.inl ⟨e1, e2⟩, hstep.symm⟩
        exact not_lt.mp (fun hv => hpart ⟨rfl, hv⟩)
      · rw [e] at hpart hstep hflag'
        refine ⟨_, ?_, hflag', Or.inr ⟨rfl, Or.inr ⟨t, e1, e2⟩⟩, hstep.symm⟩
        rw [div_mul_cancel₀ _ hcp, add_neg_cancel, abs_zero]
        exact htol
  · rename_i hA
    split at hstep
    · exact absurd hstep (by simp)
    rename_i hj
    injection hstep with hstep
    exact Or.inr (Or.inr ⟨hA, hj, hstep.symm⟩)

theorem Solver.RawEmpty.of_machinery {K : Type} {s : Solver K} (h : s.machinery_initialized_ = true) :
    s.RawEmpty := by
  intro h0
  rw [h] at h0
  exact absurd h0 (by decide)

theorem Solver.Pending.setDual {s : Solver K} {A : QPMatrix K} {Alb Aub : QPVector K}
    {ch : ChosenConstraint K} (h : s.Pending A Alb Aub ch) (d : K) :
    s.Pending A Alb Aub { ch with dual_ := d } := h

/-- An iteration of the main loop that goes on to the next one keeps the
invariant. -/
theorem mainStep_next (sqrt : K → K) (hs : IsSqrt sqrt) (asserts : Bool)
    (H A : QPMatrix K) (Alb Aub : QPVector K) (param : SolverParameters K)
    (htol : 0 < param.tolerance_) (st st1 : Solver K × ChosenConstraint K)
    (hinv : Solver.MainState H A Alb Aub param.tolerance_ st)
    (hstep : Solver.mainStep sqrt asserts H A Alb Aub param st = Step.next st1) :
    Solver.MainState H A Alb Aub param.tolerance_ st1 ∧
    st1.1.toInputParser = st.1.toInputParser := by
  obtain ⟨hI, hC, _⟩ := hinv
  obtain ⟨h0, hcases⟩ := mainStep_cases sqrt asserts H A Alb Aub param htol.le st st1 hstep
  have hgt : param.tolerance_ < |st.2.violation_| ∧
      (st.1.initializeMachineryLazy H).Pending A Alb Aub st.2 := by
    rcases hC with ⟨c1, _⟩ | c
    · rw [c1, abs_zero] at h0
      exact absurd htol h0
    · exact c
  obtain ⟨_, hp⟩ := hgt
  have hS : (st.1.stepState H A st.2).MainInv A Alb Aub param.tolerance_ :=
    hI.stepDirections st.2
  have eas : (st.1.stepState H A st.2).active_set_
      = (st.1.initializeMachineryLazy H).active_set_ :=
    Solver.computeStepDirections_active_set _ A st.2
  have esz : (st.1.stepState H A st.2).toInputParser = st.1.toInputParser :=
    (Solver.computeStepDirections_sizes _ A st.2).trans (Solver.init_sizes st.1 H)
  have hle : (st.1.stepState H A st.2).active_set_.num_equalities_
      ≤ (st.1.stepState H A st.2).active_set_.size_ := by
    have := hS.wf.size_eq
    omega
  have hfin : ∀ s2 : Solver K, s2.MainInv A Alb Aub param.tolerance_ →
      ∀ ch2, s2.Chosen A Alb Aub param.tolerance_ ch2 →
      Solver.MainState H A Alb Aub param.tolerance_ (s2, ch2) := by
    intro s2 h2 ch2 hc2
    unfold Solver.MainState
    rw [Solver.init_of_initialized s2 H h2.wf.init]
    exact ⟨h2, hc2, Solver.RawEmpty.of_machinery h2.wf.init⟩
  rcases hcases with ⟨hsp, _, t, e1, _, e3, e4⟩ | ⟨hsp, _, t, e1, _, _, e4⟩ | ⟨_, e1, e2⟩
  · -- partial step
    rw [eas] at hsp
    have hT := hI.takeStep sqrt hs st.2 hsp t
    have hj : (st.1.stepState H A st.2).active_set_.num_equalities_
          ≤ ((st.1.stepState H A st.2).dualBlocking param.tolerance_).1 ∧
        ((st.1.stepState H A st.2).dualBlocking param.tolerance_).1
          < (st.1.stepState H A st.2).active_set_.size_ := by
      rcases Solver.dualBlocking_range (st.1.stepState H A st.2) param.tolerance_ hle with
        ⟨_, a⟩ | ⟨a1, a2, _⟩
      · rw [a] at e1
        exact absurd e1 (by simp)
      · exact ⟨a1, a2⟩
    have hD := hT.deactivate sqrt hs
      ((st.1.stepState H A st.2).dualBlocking param.tolerance_).1 hj.1 hj.2
    have hP := ((hp.takeStep_pending sqrt t param.tolerance_ (st.2.dual_ + t)).deactivate_pending sqrt hT
      ((st.1.stepState H A st.2).dualBlocking param.tolerance_).1 hj.2)
    rw [e4]
    exact ⟨hfin _ hD _ (Or.inr ⟨e3, hP⟩), esz⟩
  · -- the chosen constraint is activated
    rw [eas] at hsp
    have hT := hI.takeStep sqrt hs st.2 hsp t
    have hq : (st.1.initializeMachineryLazy H).active_set_.size_
        < (st.1.initializeMachineryLazy H).primal_size_ := by
      rw [← hI.wf.max_size]
      exact (hasEmptySpace_iff _).mp hsp
    have hTr := Solver.takeStep_tracks sqrt hs hI.wf st.2 hsp t param.tolerance_
    have en : (((st.1.initializeMachineryLazy H).computeStepDirections A st.2).takeStep sqrt t
        param.tolerance_).1.primal_size_
        = (st.1.initializeMachineryLazy H).primal_size_ :=
      congrArg InputParser.primal_size_ (Solver.computeStepDirections_sizes _ A st.2)
    have eas' : (((st.1.initializeMachineryLazy H).computeStepDirections A st.2).takeStep sqrt t
        param.tolerance_).1.active_set_
        = (st.1.initializeMachineryLazy H).active_set_ := eas
    have est' : (((st.1.initializeMachineryLazy H).computeStepDirections A st.2).takeStep sqrt t
        param.tolerance_).1.general_constraints_status_
        = (st.1.initializeMachineryLazy H).general_constraints_status_ :=
      Solver.computeStepDirections_status _ A st.2
    have eN : (((st.1.initializeMachineryLazy H).computeStepDirections A st.2).takeStep sqrt t
        param.tolerance_).1.normal A
        = (st.1.initializeMachineryLazy H).normal A := by
      funext c k
      unfold Solver.normal
      rw [eas', est']
    have hAct := Solver.MainInv.activate_inv hT
      { st.2 with
        dual_ := st.2.dual_ + t
        violation_ := st.2.violation_ + t * st.1.stepCp H A st.2 }
      (by rw [eas', en]; exact hq)
      (by rw [eas', en, eN]; exact hTr)
      (hp.takeStep_pending sqrt t param.tolerance_ (st.2.dual_ + t)) e1
    obtain ⟨hM, hCh⟩ := hAct.chooseConstraint htol.le
    rw [e4]
    exact ⟨hfin _ hM _ hCh, esz⟩
  · -- step in the dual space
    have hj : (st.1.stepState H A st.2).active_set_.num_equalities_
          ≤ ((st.1.stepState H A st.2).dualBlocking param.tolerance_).1 ∧
        ((st.1.stepState H A st.2).dualBlocking param.tolerance_).1
          < (st.1.stepState H A st.2).active_set_.size_ := by
      rcases Solver.dualBlocking_range (st.1.stepState H A st.2) param.tolerance_ hle with
        ⟨a, _⟩ | ⟨a1, a2, _⟩
      · exact absurd a e1
      · exact ⟨a1, a2⟩
    have hU : ((st.1.stepState H A st.2).dualUpdate
        (((st.1.stepState H A st.2).dualBlocking param.tolerance_).2.getD 0)).MainInv
        A Alb Aub param.tolerance_ :=
      hS.congr_inv rfl rfl rfl rfl rfl rfl (fun _ _ _ => rfl) rfl
    have hD := hU.deactivate sqrt hs
      ((st.1.stepState H A st.2).dualBlocking param.tolerance_).1 hj.1 hj.2
    have hpS : (st.1.stepState H A st.2).Pending A Alb Aub st.2 :=
      hp.congr_pending (Solver.computeStepDirections_sizes _ A st.2)
        (Solver.computeStepDirections_status _ A st.2)
        (Solver.computeStepDirections_primal _ A st.2)
    have hpU : ((st.1.stepState H A st.2).dualUpdate
        (((st.1.stepState H A st.2).dualBlocking param.tolerance_).2.getD 0)).Pending
        A Alb Aub st.2 := hpS.congr_pending rfl rfl rfl
    have hP := (hpU.setDual (st.2.dual_
      + ((st.1.stepState H A st.2).dualBlocking param.tolerance_).2.getD 0)).deactivate_pending sqrt hU
      ((st.1.stepState H A st.2).dualBlocking param.tolerance_).1 hj.2
    rw [e2]
    refine ⟨hfin _ hD _ (Or.inr ⟨?_, hP⟩), esz⟩
    rcases hC with ⟨c1, _⟩ | c
    · rw [c1, abs_zero] at h0
      exact absurd htol h0
    · exact c.1

/-! ## The main loop and feasibility at `OK` -/


/-- An iteration of the main loop returns `OK` only through the test of line
197, with the solver state as it is. -/
theorem mainStep_ok (sqrt : K → K) (asserts : Bool)
    (H A : QPMatrix K) (Alb Aub : QPVector K) (param : SolverParameters K)
    (st : Solver K × ChosenConstraint K) (s : Solver K)
    (hstep : Solver.mainStep sqrt asserts H A Alb Aub param st
      = Step.done (Outcome.returned ReturnStatus.OK s)) :
    |st.2.violation_| < param.tolerance_ ∧ s = st.1 := by
  unfold Solver.mainStep at hstep
  dsimp only at hstep
  split at hstep
  · rename_i h0
    injection hstep with hstep
    injection hstep with _ hstep
    exact ⟨h0, hstep.symm⟩
  split at hstep
  · split at hstep
    · injection hstep with hstep
      exact absurd hstep (by simp)
    split at hstep
    · injection hstep with hstep
      exact absurd hstep (by simp)
    split at hstep
    · exact absurd hstep (by simp)
    · exact absurd hstep (by simp)
  · split at hstep
    · injection hstep with hstep
      injection hstep with hstep
      exact absurd hstep (by decide)
    · exact absurd hstep (by simp)

/-- When the main loop returns `OK` it does so from a loop state that satisfies
the invariant and whose chosen violation is below the tolerance. -/
theorem mainLoop_ok (sqrt : K → K) (hs : IsSqrt sqrt) (asserts : Bool)
    (H A : QPMatrix K) (Alb Aub : QPVector K) (param : SolverParameters K)
    (htol : 0 < param.tolerance_) (fuel : Nat) (iter : Int)
    (st : Solver K × ChosenConstraint K) (s : Solver K)
    (hinv : Solver.MainState H A Alb Aub param.tolerance_ st)
    (hret : Solver.mainLoop sqrt asserts H A Alb Aub param fuel iter st
      = some (Outcome.returned ReturnStatus.OK s)) :
    ∃ st1 : Solver K × ChosenConstraint K,
      Solver.MainState H A Alb Aub param.tolerance_ st1 ∧ st1.1 = s ∧
      |st1.2.violation_| < param.tolerance_ ∧ st1.1.toInputParser = st.1.toInputParser := by
  induction fuel generalizing iter st with
  | zero =>
    unfold Solver.mainLoop at hret
    exact absurd hret (by simp)
  | succ fuel ih =>
    unfold Solver.mainLoop at hret
    split at hret
    · cases hstep : Solver.mainStep sqrt asserts H A Alb Aub param st with
      | next st2 =>
        rw [hstep] at hret
        obtain ⟨h2, e2⟩ := mainStep_next sqrt hs asserts H A Alb Aub param htol st st2 hinv hstep
        obtain ⟨st1, a1, a2, a3, a4⟩ := ih (iter + 1) st2 h2 hret
        exact ⟨st1, a1, a2, a3, a4.trans e2⟩
      | done o =>
        rw [hstep] at hret
        injection hret with hret
        rw [hret] at hstep
        obtain ⟨b1, b2⟩ := mainStep_ok sqrt asserts H A Alb Aub param st s hstep
        exact ⟨st, hinv, b2.symm, b1, rfl⟩
    · injection hret with hret
      injection hret with hret
      exact absurd hret (by decide)

/-- At a loop state in which the main loop returns `OK`, every constraint that is
not an equality, and every equality of the active set, holds up to the
tolerance. -/
theorem Solver.MainState.feasible {H A : QPMatrix K} {Alb Aub : QPVector K} {tol : K}
    {st : Solver K × ChosenConstraint K} (htol : 0 < tol)
    (h : Solver.MainState H A Alb Aub tol st) (hv : |st.2.violation_| < tol) (i : Nat)
    (hi : i < st.1.num_general_constraints_)
    (hact : st.1.general_constraints_status_ i ≠ ConstraintStatus.EQUALITY ∨
      ∃ c, c < st.1.active_set_.size_ ∧ st.1.active_set_.getIndex c = i) :
    Within st.1.primal_size_ st.1.primal A Alb Aub tol i := by
  obtain ⟨hI, hC, hraw⟩ := h
  have hnone : ∀ k, k < st.1.num_general_constraints_ →
      (st.1.general_constraints_status_ k = ConstraintStatus.INACTIVE ∨
        st.1.general_constraints_status_ k = ConstraintStatus.VIOLATED) →
      Within st.1.primal_size_ st.1.primal A Alb Aub tol k := by
    rcases hC with ⟨_, c2⟩ | ⟨c1, _⟩
    · rw [Solver.init_status, Solver.init_primal, Solver.init_primal_size,
        Solver.init_sizes] at c2
      exact c2
    · exact absurd hv (not_lt.mpr c1.le)
  have hact' : st.1.general_constraints_status_ i ≠ ConstraintStatus.EQUALITY ∨
      ∃ c, c < (st.1.initializeMachineryLazy H).active_set_.size_ ∧
        (st.1.initializeMachineryLazy H).active_set_.getIndex c = i := by
    rcases hact with a | ⟨c, c1, c2⟩
    · exact Or.inl a
    · right
      cases hm : st.1.machinery_initialized_ with
      | false =>
        rw [(hraw hm).1] at c1
        exact absurd c1 (Nat.not_lt_zero c)
      | true =>
        rw [Solver.init_of_initialized st.1 H hm]
        exact ⟨c, c1, c2⟩
  have hpos : ∀ c, c < (st.1.initializeMachineryLazy H).active_set_.size_ →
      (st.1.initializeMachineryLazy H).active_set_.getIndex c = i →
      (st.1.general_constraints_status_ i = ConstraintStatus.EQUALITY ∧
          |Alb i - Aub i| ≤ tol) ∨
        (st.1.general_constraints_status_ i ≠ ConstraintStatus.EQUALITY ∧
          Alb i + tol < Aub i) →
      Within st.1.primal_size_ st.1.primal A Alb Aub tol i := by
    intro c hc hci hb
    have := (hI.active c hc).2
    rw [hci, Solver.init_status, Solver.init_primal, Solver.init_primal_size] at this
    unfold Within
    rcases this with ⟨_, a2, a3⟩ | ⟨_, a2, a3⟩ | ⟨_, a2, a3⟩
    · rw [a3]
      rcases hb with ⟨_, hb⟩ | ⟨_, hb⟩
      · have := le_abs_self (Alb i - Aub i)
        exact ⟨by linarith, by linarith⟩
      · exact ⟨by linarith, by linarith⟩
    · have a4 := abs_le.mp a3
      rcases hb with ⟨hb, _⟩ | ⟨_, hb⟩
      · rw [a2] at hb
        exact absurd hb (by decide)
      · exact ⟨by linarith, by linarith⟩
    · have a4 := abs_le.mp a3
      rcases hb with ⟨hb, _⟩ | ⟨_, hb⟩
      · rw [a2] at hb
        exact absurd hb (by decide)
      · exact ⟨by linarith, by linarith⟩
  have hst := hI.status i (by rw [Solver.init_sizes]; exact hi)
  rw [Solver.init_status] at hst
  rcases hst with ⟨b1, b2⟩ | ⟨b1, b2⟩
  · rcases hact' with a | ⟨c, c1, c2⟩
    · exact absurd b1 a
    · exact hpos c c1 c2 (Or.inl ⟨b1, b2⟩)
  · rcases b1 with b | b | b | b
    · exact hnone i hi (Or.inl b)
    · exact hnone i hi (Or.inr b)
    · obtain ⟨c, c1, c2⟩ := hI.located i (by rw [Solver.init_sizes]; exact hi)
        (by rw [Solver.init_status]; exact Or.inl b)
      exact hpos c c1 c2 (Or.inr ⟨by rw [b]; decide, b2⟩)
    · obtain ⟨c, c1, c2⟩ := hI.located i (by rw [Solver.init_sizes]; exact hi)
        (by rw [Solver.init_status]; exact Or.inr b)
      exact hpos c c1 c2 (Or.inr ⟨by rw [b]; decide, b2⟩)

/-- At the end of the equality-activation loop the invariant of the main loop
holds. -/
theorem Solver.EqInv.toMainInv {s : Solver K} {A : QPMatrix K} {Alb Aub : QPVector K}
    {tol : K} {neq : Nat} (h : s.EqInv A Alb Aub tol s.num_general_constraints_ neq) :
    s.MainInv A Alb Aub tol := by
  have hsz := h.wf.size_eq
  have hni := h.no_ineq
  refine ⟨h.wf, ?_, ?_, ?_⟩
  · intro c hc
    obtain ⟨a1, a2, a3⟩ := h.active c hc
    exact ⟨a1, Or.inl ⟨by omega, a2, a3⟩⟩
  · intro i hi
    rcases h.status i hi with ⟨b1, b2⟩ | ⟨b1, b2⟩
    · exact Or.inl ⟨b1, b2⟩
    · exact Or.inr ⟨Or.inl b1, b2⟩
  · intro i hi hact
    rcases h.status i hi with ⟨b1, _⟩ | ⟨b1, _⟩ <;>
      · rw [b1] at hact
        rcases hact with a | a <;> exact absurd a (by decide)

theorem Solver.init_chooseConstraint (s : Solver K) (H : QPMatrix K) (x : QPVector K)
    (A : QPMatrix K) (Alb Aub : QPVector K) (tol : K) :
    (s.chooseConstraint x A Alb Aub tol).2.initializeMachineryLazy H
      = ((s.initializeMachineryLazy H).chooseConstraint x A Alb Aub tol).2 ∧
    (s.chooseConstraint x A Alb Aub tol).1
      = ((s.initializeMachineryLazy H).chooseConstraint x A Alb Aub tol).1 := by
  unfold Solver.initializeMachineryLazy
  by_cases hm : s.machinery_initialized_ = false
  · rw [if_pos hm, if_pos (show (s.chooseConstraint x A Alb Aub tol).2.machinery_initialized_
      = false from hm)]
    exact ⟨rfl, rfl⟩
  · rw [if_neg hm, if_neg (show ¬ (s.chooseConstraint x A Alb Aub tol).2.machinery_initialized_
      = false from hm)]
    exact ⟨rfl, rfl⟩

theorem Solver.init_setDuals (s : Solver K) (H : QPMatrix K) (d e : QPVector K) :
    ({ s with dual_ := d, dual_step_direction_ := e } : Solver K).initializeMachineryLazy H
      = { s.initializeMachineryLazy H with dual_ := d, dual_step_direction_ := e } := by
  unfold Solver.initializeMachineryLazy
  by_cases hm : s.machinery_initialized_ = false
  · rw [if_pos hm, if_pos (show ({ s with dual_ := d, dual_step_direction_ := e } :
      Solver K).machinery_initialized_ = false from hm)]
  · rw [if_neg hm, if_neg (show ¬ ({ s with dual_ := d, dual_step_direction_ := e } :
      Solver K).machinery_initialized_ = false from hm)]

/-- The state with which `solve` enters the main loop satisfies its invariant. -/
theorem mainEntry_mainState {s : Solver K} {H A : QPMatrix K} {Alb Aub : QPVector K}
    (param : SolverParameters K) {neq : Nat} (htol : 0 ≤ param.tolerance_)
    (h : (s.initializeMachineryLazy H).EqInv A Alb Aub param.tolerance_
      s.num_general_constraints_ neq)
    (hraw : s.RawEmpty) :
    Solver.MainState H A Alb Aub param.tolerance_ (Solver.mainEntry s A Alb Aub param) ∧
    (Solver.mainEntry s A Alb Aub param).1.toInputParser = s.toInputParser := by
  have hM0 : (s.initializeMachineryLazy H).MainInv A Alb Aub param.tolerance_ := by
    apply Solver.EqInv.toMainInv
    rw [Solver.init_sizes]
    exact h
  have hM1 : (({ s with dual_ := fun _ => 0, dual_step_direction_ := fun _ => 0 } :
      Solver K).initializeMachineryLazy H).MainInv A Alb Aub param.tolerance_ := by
    rw [Solver.init_setDuals]
    exact hM0.congr_inv rfl rfl rfl rfl rfl rfl (fun _ _ _ => rfl) rfl
  obtain ⟨hM, hC⟩ := hM1.chooseConstraint htol
  obtain ⟨e1, e2⟩ := Solver.init_chooseConstraint
    ({ s with dual_ := fun _ => 0, dual_step_direction_ := fun _ => 0 } : Solver K) H
    s.primal A Alb Aub param.tolerance_
  have ep : (({ s with dual_ := fun _ => 0, dual_step_direction_ := fun _ => 0 } :
      Solver K).initializeMachineryLazy H).primal = s.primal := Solver.init_primal _ H
  rw [ep] at hM hC
  refine ⟨⟨?_, ?_, ?_⟩, rfl⟩
  · show ((({ s with dual_ := fun _ => 0, dual_step_direction_ := fun _ => 0 } :
      Solver K).chooseConstraint s.primal A Alb Aub param.tolerance_).2.initializeMachineryLazy
        H).MainInv A Alb Aub param.tolerance_
    rw [e1]
    exact hM
  · show ((({ s with dual_ := fun _ => 0, dual_step_direction_ := fun _ => 0 } :
      Solver K).chooseConstraint s.primal A Alb Aub param.tolerance_).2.initializeMachineryLazy
        H).Chosen A Alb Aub param.tolerance_
        (({ s with dual_ := fun _ => 0, dual_step_direction_ := fun _ => 0 } :
          Solver K).chooseConstraint s.primal A Alb Aub param.tolerance_).1
    rw [e1, e2]
    exact hC
  · exact hraw

/-- A step of the equality-activation loop never returns `OK`. -/
theorem equalityStep_not_ok (sqrt : K → K) (H A : QPMatrix K) (Alb Aub : QPVector K)
    (param : SolverParameters K) (i : Nat) (st : Solver K × Nat) (s : Solver K) :
    Solver.equalityStep sqrt H A Alb Aub param i st
      ≠ Step.done (Outcome.returned ReturnStatus.OK s) := by
  intro h
  unfold Solver.equalityStep at h
  dsimp only at h
  repeat' split at h
  all_goals exact absurd h (by simp)

/-- The equality-activation loop never returns `OK`. -/
theorem equalityLoop_not_ok (sqrt : K → K) (H A : QPMatrix K) (Alb Aub : QPVector K)
    (param : SolverParameters K) (count i : Nat) (st : Solver K × Nat) (s : Solver K) :
    Solver.equalityLoop sqrt H A Alb Aub param count i st
      ≠ Step.done (Outcome.returned ReturnStatus.OK s) := by
  induction count generalizing i st with
  | zero =>
    unfold Solver.equalityLoop
    simp
  | succ count ih =>
    cases hstep : Solver.equalityStep sqrt H A Alb Aub param i st with
    | next st2 =>
      rw [equalityLoop_cons sqrt H A Alb Aub param count i st st2 hstep]
      exact ih (i + 1) st2
    | done o =>
      rw [equalityLoop_done_first sqrt H A Alb Aub param count i st o hstep]
      intro e
      rw [e] at hstep
      exact equalityStep_not_ok sqrt H A Alb Aub param i st s hstep

/-- How `solve` comes to return `OK`: there is no constraint at all, or the
equality-activation loop ends with all constraints being equalities, or the
main loop returns `OK`. -/
theorem solveWithFactor_ok (sqrt : K → K) (asserts : Bool) (sizes : InputParser)
    (H : QPMatrix K) (h : QPVector K) (A : QPMatrix K) (Alb Aub : QPVector K)
    (param : SolverParameters K) (fuel : Nat) (s : Solver K)
    (hret : Solver.solveWithFactor sqrt asserts sizes H h A Alb Aub param fuel
      = some (Outcome.returned ReturnStatus.OK s)) :
    (sizes.num_general_constraints_ = 0 ∧ s = Solver.entry sizes H h) ∨
    ∃ st : Solver K × Nat,
      Solver.equalityLoop sqrt H A Alb Aub param sizes.num_general_constraints_ 0
        (Solver.entry sizes H h, 0) = Step.next st ∧
      ((st.2 = st.1.num_general_constraints_ ∧ s = st.1) ∨
        Solver.mainLoop sqrt asserts H A Alb Aub param fuel 0
          (Solver.mainEntry st.1 A Alb Aub param)
          = some (Outcome.returned ReturnStatus.OK s)) := by
  unfold Solver.solveWithFactor at hret
  dsimp only at hret
  split at hret
  · rename_i h0
    injection hret with hret
    injection hret with _ hret
    have h0' : 0 = sizes.num_simple_bounds_ + sizes.num_general_constraints_ := h0
    exact Or.inl ⟨by omega, hret.symm⟩
  · right
    cases hloop : Solver.equalityLoop sqrt H A Alb Aub param sizes.num_general_constraints_ 0
      (Solver.entry sizes H h, 0) with
    | done o =>
      have hloop' : Solver.equalityLoop sqrt H A Alb Aub param
          (Solver.entry sizes H h).num_general_constraints_ 0 (Solver.entry sizes H h, 0)
          = Step.done o := hloop
      rw [hloop'] at hret
      dsimp only at hret
      injection hret with hret
      rw [hret] at hloop
      exact absurd hloop (equalityLoop_not_ok sqrt H A Alb Aub param _ 0 _ s)
    | next st =>
      have hloop' : Solver.equalityLoop sqrt H A Alb Aub param
          (Solver.entry sizes H h).num_general_constraints_ 0 (Solver.entry sizes H h, 0)
          = Step.next st := hloop
      rw [hloop'] at hret
      dsimp only at hret
      refine ⟨st, rfl, ?_⟩
      split at hret
      · rename_i hall
        injection hret with hret
        injection hret with _ hret
        exact Or.inl ⟨hall.1, hret.symm⟩
      · exact Or.inr hret

/-- Feasibility at `OK` for a prepared factor. -/
theorem solveWithFactor_feasible (sqrt : K → K) (hs : IsSqrt sqrt) (asserts : Bool)
    (sizes : InputParser) (H : QPMatrix K) (h : QPVector K) (A : QPMatrix K)
    (Alb Aub : QPVector K) (param : SolverParameters K) (fuel : Nat)
    (htol : 0 < param.tolerance_) (s : Solver K)
    (hret : Solver.solveWithFactor sqrt asserts sizes H h A Alb Aub param fuel
      = some (Outcome.returned ReturnStatus.OK s))
    (i : Nat) (hi : i < sizes.num_general_constraints_)
    (hact : s.general_constraints_status_ i ≠ ConstraintStatus.EQUALITY ∨
      ∃ c, c < s.active_set_.size_ ∧ s.active_set_.getIndex c = i) :
    Within sizes.primal_size_ s.primal A Alb Aub param.tolerance_ i := by
  rcases solveWithFactor_ok sqrt asserts sizes H h A Alb Aub param fuel s hret with
    ⟨h0, _⟩ | ⟨st, hloop, hcase⟩
  · omega
  obtain ⟨hE, hraw, hsz⟩ := equalityLoop_next sqrt hs H A Alb Aub param htol.le
    sizes.num_general_constraints_ 0 (Solver.entry sizes H h, 0) st
    (Solver.entry_eqInv sizes H h A Alb Aub _) (Solver.entry_rawEmpty sizes H h) hloop
  rw [Nat.zero_add] at hE
  have hsz' : st.1.toInputParser = sizes := hsz
  have hm : st.1.num_general_constraints_ = sizes.num_general_constraints_ :=
    congrArg InputParser.num_general_constraints_ hsz'
  rcases hcase with ⟨hall, hs1⟩ | hmain
  · -- all constraints are equalities
    subst hs1
    have hMS : Solver.MainState H A Alb Aub param.tolerance_
        (st.1, (ChosenConstraint.init : ChosenConstraint K)) := by
      refine ⟨?_, Or.inl ⟨rfl, ?_⟩, hraw⟩
      · show (st.1.initializeMachineryLazy H).MainInv A Alb Aub param.tolerance_
        apply Solver.EqInv.toMainInv
        rw [Solver.init_sizes, hm]
        exact hE
      · intro k hk hst
        dsimp only at hk hst
        rw [Solver.init_sizes, hm] at hk
        rw [Solver.init_status] at hst
        exfalso
        rcases hE.status k hk with ⟨b1, _⟩ | ⟨b1, _⟩
        · rw [Solver.init_status] at b1
          rw [b1] at hst
          rcases hst with a | a <;> exact absurd a (by decide)
        · have := hE.count.2 ⟨k, hk, b1⟩
          omega
    have := hMS.feasible htol (by show |(0 : K)| < _; rw [abs_zero]; exact htol) i
      (by rw [hm]; exact hi) hact
    rw [show st.1.primal_size_ = sizes.primal_size_ from
      congrArg InputParser.primal_size_ hsz'] at this
    exact this
  · obtain ⟨hMS, hsz2⟩ := mainEntry_mainState param htol.le
      (show (st.1.initializeMachineryLazy H).EqInv A Alb Aub param.tolerance_
        st.1.num_general_constraints_ st.2 by rw [hm]; exact hE) hraw
    obtain ⟨st1, a1, a2, a3, a4⟩ := mainLoop_ok sqrt hs asserts H A Alb Aub param htol fuel 0
      _ s hMS hmain
    subst a2
    have hsz3 : st1.1.toInputParser = sizes := (a4.trans hsz2).trans hsz'
    have := a1.feasible htol a3 i
      (by rw [congrArg InputParser.num_general_constraints_ hsz3]; exact hi) hact
    rw [congrArg InputParser.primal_size_ hsz3] at this
    exact this

/-! ## The loop states that the main loop reaches -/


theorem statesFrom_succ (sqrt : K → K) (asserts : Bool)
    (H A : QPMatrix K) (Alb Aub : QPVector K) (param : SolverParameters K)
    (iter : Int) (st0 st1 : Solver K × ChosenConstraint K) (k : Nat)
    (h : Solver.statesFrom sqrt asserts H A Alb Aub param iter st0 (k + 1) = some st1) :
    ∃ st, Solver.statesFrom sqrt asserts H A Alb Aub param iter st0 k = some st ∧
      (iter + k < param.max_iter_ ∨ param.max_iter_ < 0) ∧
      Solver.mainStep sqrt asserts H A Alb Aub param st = Step.next st1 := by
  unfold Solver.statesFrom at h
  cases hk : Solver.statesFrom sqrt asserts H A Alb Aub param iter st0 k with
  | none =>
    rw [hk] at h
    exact absurd h (by simp)
  | some st =>
    rw [hk] at h
    dsimp only at h
    split at h
    · rename_i hc
      cases hstep : Solver.mainStep sqrt asserts H A Alb Aub param st with
      | next st2 =>
        rw [hstep] at h
        injection h with h
        exact ⟨st, rfl, hc, h ▸ hstep⟩
      | done o =>
        rw [hstep] at h
        exact absurd h (by simp)
    · exact absurd h (by simp)

/-- Every loop state that the main loop reaches from a state satisfying the
invariant satisfies the invariant. -/
theorem statesFrom_mainState (sqrt : K → K) (hs : IsSqrt sqrt) (asserts : Bool)
    (H A : QPMatrix K) (Alb Aub : QPVector K) (param : SolverParameters K)
    (htol : 0 < param.tolerance_) (iter : Int) (st0 st : Solver K × ChosenConstraint K)
    (k : Nat) (h0 : Solver.MainState H A Alb Aub param.tolerance_ st0)
    (hk : Solver.statesFrom sqrt asserts H A Alb Aub param iter st0 k = some st) :
    Solver.MainState H A Alb Aub param.tolerance_ st ∧
    st.1.toInputParser = st0.1.toInputParser := by
  induction k generalizing st with
  | zero =>
    unfold Solver.statesFrom at hk
    injection hk with hk
    subst hk
    exact ⟨h0, rfl⟩
  | succ k ih =>
    obtain ⟨st', h1, _, h3⟩ := statesFrom_succ sqrt asserts H A Alb Aub param iter st0 st k hk
    obtain ⟨a1, a2⟩ := ih st' h1
    obtain ⟨b1, b2⟩ := mainStep_next sqrt hs asserts H A Alb Aub param htol st' st a1 h3
    exact ⟨b1, b2.trans a2⟩

/-- The state with which `solve` enters the main loop satisfies the invariant. -/
theorem mainStart_mainState (sqrt : K → K) (hs : IsSqrt sqrt)
    (sizes : InputParser) (H : QPMatrix K) (h : QPVector K) (A : QPMatrix K)
    (Alb Aub : QPVector K) (param : SolverParameters K)
    (htol : 0 < param.tolerance_) (st0 : Solver K × ChosenConstraint K)
    (h0 : Solver.mainStart sqrt sizes H h A Alb Aub param = some st0) :
    Solver.MainState H A Alb Aub param.tolerance_ st0 ∧ st0.1.toInputParser = sizes := by
  unfold Solver.mainStart at h0
  split at h0
  · exact absurd h0 (by simp)
  cases hloop : Solver.equalityLoop sqrt H A Alb Aub param sizes.num_general_constraints_ 0
    (Solver.entry sizes H h, 0) with
  | done o =>
    rw [hloop] at h0
    exact absurd h0 (by simp)
  | next st =>
    rw [hloop] at h0
    dsimp only at h0
    split at h0
    · exact absurd h0 (by simp)
    injection h0 with h0
    obtain ⟨hE, hraw, hsz⟩ := equalityLoop_next sqrt hs H A Alb Aub param htol.le
      sizes.num_general_constraints_ 0 (Solver.entry sizes H h, 0) st
      (Solver.entry_eqInv sizes H h A Alb Aub _) (Solver.entry_rawEmpty sizes H h) hloop
    rw [Nat.zero_add] at hE
    have hsz' : st.1.toInputParser = sizes := hsz
    have hm : st.1.num_general_constraints_ = sizes.num_general_constraints_ :=
      congrArg InputParser.num_general_constraints_ hsz'
    obtain ⟨hMS, hsz2⟩ := mainEntry_mainState param htol.le
      (show (st.1.initializeMachineryLazy H).EqInv A Alb Aub param.tolerance_
        st.1.num_general_constraints_ st.2 by rw [hm]; exact hE) hraw
    rw [← h0]
    exact ⟨hMS, hsz2.trans hsz'⟩

/-- Every loop state that the main loop of `solve` reaches satisfies the
invariant. -/
theorem iterState_mainState (sqrt : K → K) (hs : IsSqrt sqrt) (asserts : Bool)
    (sizes : InputParser) (H : QPMatrix K) (h : QPVector K) (A : QPMatrix K)
    (Alb Aub : QPVector K) (param : SolverParameters K)
    (htol : 0 < param.tolerance_) (k : Nat) (st : Solver K × ChosenConstraint K)
    (hk : Solver.iterState sqrt asserts sizes H h A Alb Aub param k = some st) :
    Solver.MainState H A Alb Aub param.tolerance_ st ∧ st.1.toInputParser = sizes := by
  unfold Solver.iterState at hk
  cases h0 : Solver.mainStart sqrt sizes H h A Alb Aub param with
  | none =>
    rw [h0] at hk
    exact absurd hk (by simp)
  | some st0 =>
    rw [h0] at hk
    obtain ⟨a1, a2⟩ := mainStart_mainState sqrt hs sizes H h A Alb Aub param htol st0 h0
    obtain ⟨b1, b2⟩ := statesFrom_mainState sqrt hs asserts H A Alb Aub param htol 0 st0 st k
      a1 hk
    exact ⟨b1, b2.trans a2⟩

/-- The states of the main loop, unfolded at the first iteration. -/
theorem statesFrom_front (sqrt : K → K) (asserts : Bool)
    (H A : QPMatrix K) (Alb Aub : QPVector K) (param : SolverParameters K)
    (iter : Int) (st0 : Solver K × ChosenConstraint K) (k : Nat) :
    Solver.statesFrom sqrt asserts H A Alb Aub param iter st0 (k + 1)
      = if iter < param.max_iter_ ∨ param.max_iter_ < 0 then
          match Solver.mainStep sqrt asserts H A Alb Aub param st0 with
          | Step.next st1 => Solver.statesFrom sqrt asserts H A Alb Aub param (iter + 1) st1 k
          | Step.done _ => none
        else none := by
  induction k with
  | zero =>
    show (match Solver.statesFrom sqrt asserts H A Alb Aub param iter st0 0 with
      | some st =>
        if iter + (0 : Nat) < param.max_iter_ ∨ param.max_iter_ < 0 then
          match Solver.mainStep sqrt asserts H A Alb Aub param st with
          | Step.next st1 => some st1
          | Step.done _ => none
        else none
      | none => none) = _
    rw [show Solver.statesFrom sqrt asserts H A Alb Aub param iter st0 0 = some st0 from rfl]
    dsimp only
    rw [show iter + ((0 : Nat) : Int) = iter by simp]
    split
    · cases Solver.mainStep sqrt asserts H A Alb Aub param st0 <;> rfl
    · rfl
  | succ k ih =>
    conv_lhs => unfold Solver.statesFrom
    rw [ih]
    by_cases hc : iter < param.max_iter_ ∨ param.max_iter_ < 0
    · rw [if_pos hc, if_pos hc]
      cases Solver.mainStep sqrt asserts H A Alb Aub param st0 with
      | next st1 =>
        dsimp only
        conv_rhs => unfold Solver.statesFrom
        rw [show iter + 1 + (k : Int) = iter + ((k + 1 : Nat) : Int) by push_cast; ring]
      | done o => rfl
    · rw [if_neg hc, if_neg hc]

/-- The main loop ends with the outcome `o` exactly when one of its iterations,
reached within the fuel, ends with `o`, or fails the loop condition (and `o` is
`MAXIMAL_NUMBER_OF_ITERATIONS`). -/
theorem mainLoop_some_iff (sqrt : K → K) (asserts : Bool)
    (H A : QPMatrix K) (Alb Aub : QPVector K) (param : SolverParameters K)
    (fuel : Nat) (iter : Int) (st0 : Solver K × ChosenConstraint K) (o : Outcome K) :
    Solver.mainLoop sqrt asserts H A Alb Aub param fuel iter st0 = some o ↔
    ∃ k st, k < fuel ∧
      Solver.statesFrom sqrt asserts H A Alb Aub param iter st0 k = some st ∧
      (((iter + k < param.max_iter_ ∨ param.max_iter_ < 0) ∧
          Solver.mainStep sqrt asserts H A Alb Aub param st = Step.done o) ∨
       (¬ (iter + k < param.max_iter_ ∨ param.max_iter_ < 0) ∧
          o = Outcome.returned ReturnStatus.MAXIMAL_NUMBER_OF_ITERATIONS st.1)) := by
  induction fuel generalizing iter st0 with
  | zero =>
    unfold Solver.mainLoop
    constructor
    · intro h
      exact absurd h (by simp)
    · rintro ⟨k, _, hk, _⟩
      exact absurd hk (Nat.not_lt_zero k)
  | succ fuel ih =>
    unfold Solver.mainLoop
    by_cases hc : iter < param.max_iter_ ∨ param.max_iter_ < 0
    · rw [if_pos hc]
      cases hstep : Solver.mainStep sqrt asserts H A Alb Aub param st0 with
      | next st1 =>
        dsimp only
        rw [ih (iter + 1) st1]
        constructor
        · rintro ⟨k, st, h1, h2, h3⟩
          refine ⟨k + 1, st, by omega, ?_, ?_⟩
          · rw [statesFrom_front, if_pos hc, hstep]
            exact h2
          · rw [show iter + ((k + 1 : Nat) : Int) = iter + 1 + (k : Int) by push_cast; ring]
            exact h3
        · rintro ⟨k, st, h1, h2, h3⟩
          cases k with
          | zero =>
            have : st = st0 := by
              have h2' : some st0 = some st := h2
              injection h2' with h2'
              exact h2'.symm
            subst this
            rw [show iter + ((0 : Nat) : Int) = iter by simp] at h3
            rcases h3 with ⟨_, h4⟩ | ⟨h4, _⟩
            · rw [hstep] at h4
              exact absurd h4 (by simp)
            · exact absurd hc h4
          | succ k =>
            rw [statesFrom_front, if_pos hc, hstep] at h2
            refine ⟨k, st, by omega, h2, ?_⟩
            rw [show iter + ((k + 1 : Nat) : Int) = iter + 1 + (k : Int) by push_cast; ring] at h3
            exact h3
      | done o1 =>
        dsimp only
        constructor
        · intro h
          injection h with h
          subst h
          refine ⟨0, st0, Nat.succ_pos _, rfl, Or.inl ⟨?_, hstep⟩⟩
          rw [show iter + ((0 : Nat) : Int) = iter by simp]
          exact hc
        · rintro ⟨k, st, h1, h2, h3⟩
          cases k with
          | zero =>
            have : st = st0 := by
              have h2' : some st0 = some st := h2
              injection h2' with h2'
              exact h2'.symm
            subst this
            rw [show iter + ((0 : Nat) : Int) = iter by simp] at h3
            rcases h3 with ⟨_, h4⟩ | ⟨h4, _⟩
            · rw [hstep] at h4
              injection h4 with h4
              rw [h4]
            · exact absurd hc h4
          | succ k =>
            rw [statesFrom_front, if_pos hc, hstep] at h2
            exact absurd h2 (by simp)
    · rw [if_neg hc]
      constructor
      · intro h
        injection h with h
        refine ⟨0, st0, Nat.succ_pos _, rfl, Or.inr ⟨?_, h.symm⟩⟩
        rw [show iter + ((0 : Nat) : Int) = iter by simp]
        exact hc
      · rintro ⟨k, st, h1, h2, h3⟩
        cases k with
        | zero =>
          have : st = st0 := by
            have h2' : some st0 = some st := h2
            injection h2' with h2'
            exact h2'.symm
          subst this
          rw [show iter + ((0 : Nat) : Int) = iter by simp] at h3
          rcases h3 with ⟨h4, _⟩ | ⟨_, h4⟩
          · exact absurd h4 hc
          · rw [h4]
        | succ k =>
          rw [statesFrom_front, if_neg hc] at h2
          exact absurd h2 (by simp)

/-- Once `solve` has entered the main loop its result is that of the main loop. -/
theorem solveWithFactor_mainStart (sqrt : K → K) (asserts : Bool) (sizes : InputParser)
    (H : QPMatrix K) (h : QPVector K) (A : QPMatrix K) (Alb Aub : QPVector K)
    (param : SolverParameters K) (fuel : Nat) (st0 : Solver K × ChosenConstraint K)
    (h0 : Solver.mainStart sqrt sizes H h A Alb Aub param = some st0) :
    Solver.solveWithFactor sqrt asserts sizes H h A Alb Aub param fuel
      = Solver.mainLoop sqrt asserts H A Alb Aub param fuel 0 st0 := by
  unfold Solver.mainStart at h0
  unfold Solver.solveWithFactor
  dsimp only
  split at h0
  · exact absurd h0 (by simp)
  rename_i hc
  rw [if_neg (show ¬ 0 = (Solver.entry sizes H h).num_simple_bounds_
    + (Solver.entry sizes H h).num_general_constraints_ from hc)]
  show (match Solver.equalityLoop sqrt H A Alb Aub param sizes.num_general_constraints_ 0
      (Solver.entry sizes H h, 0) with
    | Step.done o => some o
    | Step.next st =>
      if st.2 = st.1.num_general_constraints_ ∧ 0 = st.1.num_simple_bounds_ then
        some (Outcome.returned ReturnStatus.OK st.1)
      else Solver.mainLoop sqrt asserts H A Alb Aub param fuel 0
        (Solver.mainEntry st.1 A Alb Aub param)) = _
  cases hloop : Solver.equalityLoop sqrt H A Alb Aub param sizes.num_general_constraints_ 0
    (Solver.entry sizes H h, 0) with
  | done o =>
    rw [hloop] at h0
    exact absurd h0 (by simp)
  | next st =>
    rw [hloop] at h0
    dsimp only at h0 ⊢
    split at h0
    · exact absurd h0 (by simp)
    rename_i hall
    rw [if_neg hall]
    injection h0 with h0
    rw [h0]

/-! ## The active set along the main loop -/


/-- What an iteration of the main loop does to the active set: it removes the
blocking position, which lies among the active inequalities, or it appends the
chosen constraint. -/
theorem mainStep_active_set (sqrt : K → K) (asserts : Bool)
    (H A : QPMatrix K) (Alb Aub : QPVector K) (param : SolverParameters K)
    (htol : 0 < param.tolerance_) (st st1 : Solver K × ChosenConstraint K)
    (hinv : Solver.MainState H A Alb Aub param.tolerance_ st)
    (hstep : Solver.mainStep sqrt asserts H A Alb Aub param st = Step.next st1) :
    (∃ r : Solver K,
      st1.1 = Solver.deactivate sqrt r
        ((st.1.stepState H A st.2).dualBlocking param.tolerance_).1 param.tolerance_ ∧
      r.active_set_ = (st.1.initializeMachineryLazy H).active_set_ ∧
      (st.1.initializeMachineryLazy H).active_set_.num_equalities_
        ≤ ((st.1.stepState H A st.2).dualBlocking param.tolerance_).1 ∧
      ((st.1.stepState H A st.2).dualBlocking param.tolerance_).1
        < (st.1.initializeMachineryLazy H).active_set_.size_) ∨
    (∃ (r : Solver K) (ch : ChosenConstraint K),
      st1.1 = ((r.activate ch).chooseConstraint (r.activate ch).primal A Alb Aub
        param.tolerance_).2 ∧
      r.active_set_ = (st.1.initializeMachineryLazy H).active_set_ ∧
      ch.index_ = st.2.index_) := by
  obtain ⟨hI, _, _⟩ := hinv
  obtain ⟨_, hcases⟩ := mainStep_cases sqrt asserts H A Alb Aub param htol.le st st1 hstep
  have hS : (st.1.stepState H A st.2).MainInv A Alb Aub param.tolerance_ :=
    hI.stepDirections st.2
  have eas : (st.1.stepState H A st.2).active_set_
      = (st.1.initializeMachineryLazy H).active_set_ :=
    Solver.computeStepDirections_active_set _ A st.2
  have hle : (st.1.stepState H A st.2).active_set_.num_equalities_
      ≤ (st.1.stepState H A st.2).active_set_.size_ := by
    have := hS.wf.size_eq
    omega
  have hrange := Solver.dualBlocking_range (st.1.stepState H A st.2) param.tolerance_ hle
  rw [eas] at hrange
  rcases hcases with ⟨_, _, t, e1, _, _, e4⟩ | ⟨_, _, t, _, _, _, e4⟩ | ⟨_, e1, e2⟩
  · left
    rcases hrange with ⟨_, a⟩ | ⟨a1, a2, _⟩
    · rw [a] at e1
      exact absurd e1 (by simp)
    · exact ⟨_, congrArg Prod.fst e4, eas, a1, a2⟩
  · right
    exact ⟨_, _, congrArg Prod.fst e4, eas, rfl⟩
  · left
    rcases hrange with ⟨a, _⟩ | ⟨a1, a2, _⟩
    · exact absurd a e1
    · exact ⟨_, congrArg Prod.fst e2, eas, a1, a2⟩

/-- An iteration of the main loop keeps the number of active equalities. -/
theorem mainStep_num_equalities (sqrt : K → K) (hs : IsSqrt sqrt) (asserts : Bool)
    (H A : QPMatrix K) (Alb Aub : QPVector K) (param : SolverParameters K)
    (htol : 0 < param.tolerance_) (st st1 : Solver K × ChosenConstraint K)
    (hinv : Solver.MainState H A Alb Aub param.tolerance_ st)
    (hstep : Solver.mainStep sqrt asserts H A Alb Aub param st = Step.next st1) :
    (st1.1.initializeMachineryLazy H).active_set_.num_equalities_
      = (st.1.initializeMachineryLazy H).active_set_.num_equalities_ := by
  obtain ⟨h1, _⟩ := mainStep_next sqrt hs asserts H A Alb Aub param htol st st1 hinv hstep
  have hinit : st1.1.machinery_initialized_ = true := by
    obtain ⟨_, hcases⟩ := mainStep_cases sqrt asserts H A Alb Aub param htol.le st st1 hstep
    have hS := (hinv.1.stepDirections st.2).wf.init
    rcases hcases with ⟨_, _, t, _, _, _, e4⟩ | ⟨_, _, t, _, _, _, e4⟩ | ⟨_, _, e2⟩
    · rw [e4]
      exact hS
    · rw [e4]
      exact hS
    · rw [e2]
      exact hS
  rw [Solver.init_of_initialized st1.1 H hinit]
  rcases mainStep_active_set sqrt asserts H A Alb Aub param htol st st1 hinv hstep with
    ⟨r, e, e2, _⟩ | ⟨r, ch, e, e2, _⟩
  · rw [e, ← e2]
    rfl
  · rw [e, ← e2]
    rfl

/-- The loop state of iteration `k + 1` comes from that of iteration `k` by an
iteration that goes on. -/
theorem iterState_succ (sqrt : K → K) (asserts : Bool)
    (sizes : InputParser) (L : QPMatrix K) (h : QPVector K) (A : QPMatrix K)
    (Alb Aub : QPVector K) (param : SolverParameters K) (k : Nat)
    (st1 : Solver K × ChosenConstraint K)
    (hk1 : Solver.iterState sqrt asserts sizes L h A Alb Aub param (k + 1) = some st1) :
    ∃ st, Solver.iterState sqrt asserts sizes L h A Alb Aub param k = some st ∧
      ((k : Int) < param.max_iter_ ∨ param.max_iter_ < 0) ∧
      Solver.mainStep sqrt asserts L A Alb Aub param st = Step.next st1 := by
  unfold Solver.iterState at hk1 ⊢
  cases hst : Solver.mainStart sqrt sizes L h A Alb Aub param with
  | none =>
    rw [hst] at hk1
    exact absurd hk1 (by simp)
  | some s0 =>
    rw [hst] at hk1
    dsimp only at hk1 ⊢
    obtain ⟨st, a1, a2, a3⟩ := statesFrom_succ sqrt asserts L A Alb Aub param 0 s0 st1 k hk1
    rw [zero_add] at a2
    exact ⟨st, a1, a2, a3⟩

/-! ## Equations for the iterations of the main loop -/


theorem colT_signedRow (n : Nat) (J : QPMatrix K) (a : QPVector K) (t : ConstraintStatus)
    (r : Nat) :
    colT n J (signedRow a t) r
      = if t = ConstraintStatus.ACTIVE_LOWER_BOUND then -colT n J a r else colT n J a r := by
  unfold signedRow
  split_ifs with h
  · exact colT_neg n J a r
  · rfl

/-- The product of the constraint row with the primal step direction of
`computeInequalitySteps`: plus the squared length of the tail of `Jᵀ·ctrᵀ` for a
lower bound, minus it otherwise. -/
theorem computeInequalitySteps_dot (fd : FactorizationData K) (dd a : QPVector K)
    (t : ConstraintStatus) (as : ActiveSet) :
    dot fd.primal_size_ a (fd.computeInequalitySteps dd a t as).2.1
      = if t = ConstraintStatus.ACTIVE_LOWER_BOUND then
          ∑ k in Finset.Ico as.size_ fd.primal_size_,
            colT fd.primal_size_ fd.QLi_aka_J a k * colT fd.primal_size_ fd.QLi_aka_J a k
        else
          -(∑ k in Finset.Ico as.size_ fd.primal_size_,
            colT fd.primal_size_ fd.QLi_aka_J a k * colT fd.primal_size_ fd.QLi_aka_J a k) := by
  rw [computeInequalitySteps_p, dot_neg_sum]
  have e : ∀ k ∈ Finset.Ico as.size_ fd.primal_size_,
      colT fd.primal_size_ fd.QLi_aka_J a k * (fd.computeInequalitySteps dd a t as).1.R k as.size_
        = if t = ConstraintStatus.ACTIVE_LOWER_BOUND then
            -(colT fd.primal_size_ fd.QLi_aka_J a k * colT fd.primal_size_ fd.QLi_aka_J a k)
          else colT fd.primal_size_ fd.QLi_aka_J a k * colT fd.primal_size_ fd.QLi_aka_J a k := by
    intro k hk
    rw [computeInequalitySteps_R_col fd dd a t as k (Finset.mem_Ico.mp hk).2, colT_signedRow]
    split_ifs
    · ring
    · rfl
  rw [Finset.sum_congr rfl e]
  split_ifs
  · rw [Finset.sum_neg_distrib, neg_neg]
  · rfl

/-- The iteration returns `OK` (line 197). -/
theorem mainStep_ok_eq (sqrt : K → K) (asserts : Bool)
    (H A : QPMatrix K) (Alb Aub : QPVector K) (param : SolverParameters K)
    (st : Solver K × ChosenConstraint K) (h0 : |st.2.violation_| < param.tolerance_) :
    Solver.mainStep sqrt asserts H A Alb Aub param st
      = Step.done (Outcome.returned ReturnStatus.OK st.1) := by
  unfold Solver.mainStep
  dsimp only
  rw [if_pos h0]

/-- The iteration takes a full step and activates the chosen constraint. -/
theorem mainStep_full_eq (sqrt : K → K) (asserts : Bool)
    (H A : QPMatrix K) (Alb Aub : QPVector K) (param : SolverParameters K)
    (st : Solver K × ChosenConstraint K) (h0 : ¬ |st.2.violation_| < param.tolerance_)
    (h1 : (st.1.stepState H A st.2).active_set_.hasEmptySpace = true)
    (h2 : |st.1.stepCp H A st.2| > param.tolerance_)
    (h3 : 0 ≤ -st.2.violation_ / st.1.stepCp H A st.2)
    (h4 : ((st.1.stepState H A st.2).dualBlocking param.tolerance_).2 = none)
    (h5 : ((st.1.stepState H A st.2).takeStep sqrt (-st.2.violation_ / st.1.stepCp H A st.2)
      param.tolerance_).2 = true) :
    Solver.mainStep sqrt asserts H A Alb Aub param st
      = Step.next
          (((((st.1.stepState H A st.2).takeStep sqrt (-st.2.violation_ / st.1.stepCp H A st.2)
                param.tolerance_).1.activate
              { st.2 with
                dual_ := st.2.dual_ + -st.2.violation_ / st.1.stepCp H A st.2
                violation_ := st.2.violation_
                  + -st.2.violation_ / st.1.stepCp H A st.2 * st.1.stepCp H A st.2 }).chooseConstraint
              (((st.1.stepState H A st.2).takeStep sqrt
                (-st.2.violation_ / st.1.stepCp H A st.2) param.tolerance_).1.activate
                { st.2 with
                  dual_ := st.2.dual_ + -st.2.violation_ / st.1.stepCp H A st.2
                  violation_ := st.2.violation_
                    + -st.2.violation_ / st.1.stepCp H A st.2 * st.1.stepCp H A st.2 }).primal
              A Alb Aub param.tolerance_).2,
           ((((st.1.stepState H A st.2).takeStep sqrt (-st.2.violation_ / st.1.stepCp H A st.2)
                param.tolerance_).1.activate
              { st.2 with
                dual_ := st.2.dual_ + -st.2.violation_ / st.1.stepCp H A st.2
                violation_ := st.2.violation_
                  + -st.2.violation_ / st.1.stepCp H A st.2 * st.1.stepCp H A st.2 }).chooseConstraint
              (((st.1.stepState H A st.2).takeStep sqrt
                (-st.2.violation_ / st.1.stepCp H A st.2) param.tolerance_).1.activate
                { st.2 with
                  dual_ := st.2.dual_ + -st.2.violation_ / st.1.stepCp H A st.2
                  violation_ := st.2.violation_
                    + -st.2.violation_ / st.1.stepCp H A st.2 * st.1.stepCp H A st.2 }).primal
              A Alb Aub param.tolerance_).1) := by
  unfold Solver.stepCp Solver.stepState at *
  unfold Solver.mainStep
  dsimp only
  rw [if_neg h0, if_pos ⟨h1, h2⟩, h4]
  have hl : Solver.lengthsOk (none : Option K) (-st.2.violation_ / dot
      ((st.1.initializeMachineryLazy H).computeStepDirections A st.2).primal_size_
      (A st.2.index_)
      ((st.1.initializeMachineryLazy H).computeStepDirections A st.2).primal_step_direction_)
      = true := by
    show decide (_ ≥ (0 : K)) = true
    exact decide_eq_true h3
  rw [hl]
  rw [if_neg (by simp)]
  show (if (Solver.takeStep sqrt _ _ _).2 = false then _ else _) = _
  rw [show Solver.truncateStep (none : Option K) (-st.2.violation_ / dot
      ((st.1.initializeMachineryLazy H).computeStepDirections A st.2).primal_size_
      (A st.2.index_)
      ((st.1.initializeMachineryLazy H).computeStepDirections A st.2).primal_step_direction_)
      = (-st.2.violation_ / dot
      ((st.1.initializeMachineryLazy H).computeStepDirections A st.2).primal_size_
      (A st.2.index_)
      ((st.1.initializeMachineryLazy H).computeStepDirections A st.2).primal_step_direction_,
        false) from rfl]
  dsimp only
  rw [h5]
  rw [if_neg (by simp), if_neg (by simp)]

/-! ## The problem with a single inequality constraint -/


/-- With a single constraint, `chooseConstraint` is one step of its scan. -/
theorem chooseConstraint_single (s : Solver K) (x : QPVector K) (A : QPMatrix K)
    (Alb Aub : QPVector K) (tol : K) (hm : s.num_general_constraints_ = 1) :
    s.chooseConstraint x A Alb Aub tol
      = ((Solver.chooseConstraintStep s.primal_size_ x A Alb Aub tol 0
            (ChosenConstraint.init, s.general_constraints_status_)).1,
         { s with general_constraints_status_ :=
            (Solver.chooseConstraintStep s.primal_size_ x A Alb Aub tol 0
              (ChosenConstraint.init, s.general_constraints_status_)).2 }) := by
  unfold Solver.chooseConstraint
  rw [hm]
  rfl

/-- The scan step for a constraint that lies below its lower bound and is the
first violated one. -/
theorem chooseConstraintStep_lower (n : Nat) (x : QPVector K) (A : QPMatrix K)
    (Alb Aub : QPVector K) (tol : K) (htol : 0 ≤ tol) (i : Nat) (status : Nat → ConstraintStatus)
    (hst : status i = ConstraintStatus.INACTIVE ∨ status i = ConstraintStatus.VIOLATED)
    (hlow : Alb i - tol > dot n (A i) x) :
    Solver.chooseConstraintStep n x A Alb Aub tol i (ChosenConstraint.init, status)
      = ({ violation_ := dot n (A i) x - Alb i, dual_ := 0, index_ := i,
           type_ := ConstraintStatus.ACTIVE_LOWER_BOUND },
         Function.update status i ConstraintStatus.VIOLATED) := by
  unfold Solver.chooseConstraintStep
  dsimp only
  rw [if_pos hst, if_pos hlow, if_pos]
  · rfl
  · show |dot n (A i) x - Alb i| > |(0 : K)|
    rw [abs_zero]
    exact abs_pos.mpr (by linarith)

/-- The scan step for a constraint that is not looked at. -/
theorem chooseConstraintStep_skip (n : Nat) (x : QPVector K) (A : QPMatrix K)
    (Alb Aub : QPVector K) (tol : K) (i : Nat)
    (st : ChosenConstraint K × (Nat → ConstraintStatus))
    (hst : ¬ (st.2 i = ConstraintStatus.INACTIVE ∨ st.2 i = ConstraintStatus.VIOLATED)) :
    Solver.chooseConstraintStep n x A Alb Aub tol i st = st := by
  unfold Solver.chooseConstraintStep
  rw [if_neg hst]

/-- The scan step for a constraint that is looked at and holds up to the
tolerance. -/
theorem chooseConstraintStep_within (n : Nat) (x : QPVector K) (A : QPMatrix K)
    (Alb Aub : QPVector K) (tol : K) (i : Nat)
    (st : ChosenConstraint K × (Nat → ConstraintStatus))
    (hst : st.2 i = ConstraintStatus.INACTIVE ∨ st.2 i = ConstraintStatus.VIOLATED)
    (hw : Within n x A Alb Aub tol i) :
    Solver.chooseConstraintStep n x A Alb Aub tol i st
      = (st.1, Function.update st.2 i ConstraintStatus.INACTIVE) := by
  unfold Solver.chooseConstraintStep
  dsimp only
  rw [if_pos hst, if_neg (not_lt.mpr hw.1), if_neg (not_lt.mpr hw.2)]

/-- The equality-activation loop on a single constraint whose bounds are further
apart than the tolerance leaves it inactive. -/
theorem single_inactive_loop (sqrt : K → K) (n h_size : Nat) (L : QPMatrix K) (h : QPVector K)
    (A : QPMatrix K) (Alb Aub : QPVector K) (param : SolverParameters K)
    (htol : 0 ≤ param.tolerance_) (hne : Alb 0 + param.tolerance_ < Aub 0) :
    Solver.equalityLoop sqrt L A Alb Aub param 1 0 (Solver.entry ⟨n, h_size, 0, 1⟩ L h, 0)
      = Step.next ((Solver.entry ⟨n, h_size, 0, 1⟩ L h).setStatus 0 ConstraintStatus.INACTIVE,
          0) := by
  refine equalityLoop_one sqrt L A Alb Aub param 0 _ _
    (equalityStep_inactive sqrt L A Alb Aub param 0 _ ?_ ?_)
  · intro hc
    linarith
  · have : Alb 0 - Aub 0 < 0 := by linarith
    rw [abs_of_neg this]
    linarith

/-- With a single constraint that is not an equality, `solve` enters the main
loop. -/
theorem single_mainStart (sqrt : K → K) (n h_size : Nat) (L : QPMatrix K) (h : QPVector K)
    (A : QPMatrix K) (Alb Aub : QPVector K) (param : SolverParameters K)
    (htol : 0 ≤ param.tolerance_) (hne : Alb 0 + param.tolerance_ < Aub 0) :
    Solver.mainStart sqrt ⟨n, h_size, 0, 1⟩ L h A Alb Aub param
      = some (Solver.mainEntry
          ((Solver.entry ⟨n, h_size, 0, 1⟩ L h).setStatus 0 ConstraintStatus.INACTIVE)
          A Alb Aub param) := by
  unfold Solver.mainStart
  rw [if_neg (show ¬ (0 : Nat) = 0 + 1 by omega)]
  have hl : Solver.equalityLoop sqrt L A Alb Aub param
      (⟨n, h_size, 0, 1⟩ : InputParser).num_general_constraints_ 0
      (Solver.entry ⟨n, h_size, 0, 1⟩ L h, 0)
      = Step.next ((Solver.entry ⟨n, h_size, 0, 1⟩ L h).setStatus 0 ConstraintStatus.INACTIVE,
          0) := single_inactive_loop sqrt n h_size L h A Alb Aub param htol hne
  rw [hl]
  dsimp only
  rw [if_neg]
  intro hc
  exact absurd hc.1 (show ¬ (0 : Nat) = 1 by omega)

/-- The state with which the main loop is entered when the single constraint
lies below its lower bound. -/
theorem single_mainEntry (n h_size : Nat) (L : QPMatrix K) (h : QPVector K)
    (A : QPMatrix K) (Alb Aub : QPVector K) (param : SolverParameters K)
    (htol : 0 ≤ param.tolerance_)
    (hviol : Alb 0 - param.tolerance_
      > dot n (A 0) (Solver.entry ⟨n, h_size, 0, 1⟩ L h).primal) :
    Solver.mainEntry
        ((Solver.entry ⟨n, h_size, 0, 1⟩ L h).setStatus 0 ConstraintStatus.INACTIVE)
        A Alb Aub param
      = singleStart n h_size L h A Alb := by
  unfold singleStart
  have e := chooseConstraintStep_lower n (Solver.entry ⟨n, h_size, 0, 1⟩ L h).primal A Alb Aub
    param.tolerance_ htol 0
    (Function.update (Solver.entry ⟨n, h_size, 0, 1⟩ L h).general_constraints_status_ 0
      ConstraintStatus.INACTIVE)
    (Or.inl (Function.update_same _ _ _)) hviol
  have e2 := chooseConstraint_single
    ({ (Solver.entry ⟨n, h_size, 0, 1⟩ L h).setStatus 0 ConstraintStatus.INACTIVE with
        dual_ := fun _ => 0, dual_step_direction_ := fun _ => 0 } : Solver K)
    (Solver.entry ⟨n, h_size, 0, 1⟩ L h).primal A Alb Aub param.tolerance_ rfl
  refine Prod.ext ?_ ?_
  · show (Solver.chooseConstraint
      ({ (Solver.entry ⟨n, h_size, 0, 1⟩ L h).setStatus 0 ConstraintStatus.INACTIVE with
        dual_ := fun _ => 0, dual_step_direction_ := fun _ => 0 } : Solver K)
      (Solver.entry ⟨n, h_size, 0, 1⟩ L h).primal A Alb Aub param.tolerance_).2 = _
    rw [e2]
    show ({ (Solver.entry ⟨n, h_size, 0, 1⟩ L h) with
        dual_ := fun _ => 0
        dual_step_direction_ := fun _ => 0
        general_constraints_status_ :=
          (Solver.chooseConstraintStep n (Solver.entry ⟨n, h_size, 0, 1⟩ L h).primal A Alb Aub
            param.tolerance_ 0 (ChosenConstraint.init,
              Function.update (Solver.entry ⟨n, h_size, 0, 1⟩ L h).general_constraints_status_ 0
                ConstraintStatus.INACTIVE)).2 } : Solver K) = _
    rw [e]
  · show (Solver.chooseConstraint
      ({ (Solver.entry ⟨n, h_size, 0, 1⟩ L h).setStatus 0 ConstraintStatus.INACTIVE with
        dual_ := fun _ => 0, dual_step_direction_ := fun _ => 0 } : Solver K)
      (Solver.entry ⟨n, h_size, 0, 1⟩ L h).primal A Alb Aub param.tolerance_).1 = _
    rw [e2]
    exact congrArg Prod.fst e

theorem singleStart_init (n h_size : Nat) (L : QPMatrix K) (h : QPVector K)
    (A : QPMatrix K) (Alb : QPVector K) :
    (singleStart n h_size L h A Alb).1.initializeMachineryLazy L
      = { (singleStart n h_size L h A Alb).1 with
          active_set_ := ActiveSet.initialize n
          factorization_data_ := FactorizationData.initialize L n
          primal_step_direction_ := fun _ => 0
          machinery_initialized_ := true } := by
  unfold Solver.initializeMachineryLazy
  rw [if_pos (show (singleStart n h_size L h A Alb).1.machinery_initialized_ = false from rfl)]
  rfl

theorem singleStart_active_set (n h_size : Nat) (L : QPMatrix K) (h : QPVector K)
    (A : QPMatrix K) (Alb : QPVector K) :
    ((singleStart n h_size L h A Alb).1.stepState L A
      (singleStart n h_size L h A Alb).2).active_set_ = ActiveSet.initialize n := by
  unfold Solver.stepState
  rw [Solver.computeStepDirections_active_set, singleStart_init]

theorem singleStart_space (n h_size : Nat) (L : QPMatrix K) (h : QPVector K)
    (A : QPMatrix K) (Alb : QPVector K) (hn : 0 < n) :
    ((singleStart n h_size L h A Alb).1.initializeMachineryLazy L).active_set_.hasEmptySpace
      = true := by
  rw [singleStart_init]
  show decide (0 < n) = true
  exact decide_eq_true hn

/-- In the first iteration the product `A[chosen]·p` is `a·J·Jᵀ·aᵀ`. -/
theorem singleStart_cp (n h_size : Nat) (L : QPMatrix K) (h : QPVector K)
    (A : QPMatrix K) (Alb : QPVector K) (hn : 0 < n) :
    (singleStart n h_size L h A Alb).1.stepCp L A (singleStart n h_size L h A Alb).2
      = ∑ k in Finset.range n, colT n (TriangularInversion.compute n L) (A 0) k
          * colT n (TriangularInversion.compute n L) (A 0) k := by
  unfold Solver.stepCp Solver.stepState
  rw [Solver.computeStepDirections_p _ A _ (singleStart_space n h_size L h A Alb hn),
    congrArg InputParser.primal_size_ (Solver.computeStepDirections_sizes _ A _),
    singleStart_init]
  have e := computeInequalitySteps_dot ( FactorizationData.initialize L n)
    (fun _ => (0 : K)) (A 0) ConstraintStatus.ACTIVE_LOWER_BOUND ( ActiveSet.initialize n)
  rw [if_pos rfl] at e
  have hI : Finset.Ico ( ActiveSet.initialize n).size_ n = Finset.range n := by
    ext k
    simp [ ActiveSet.initialize]
  rw [show ( FactorizationData.initialize L n).primal_size_ = n from rfl, hI] at e
  exact e

theorem singleStart_dualBlocking (n h_size : Nat) (L : QPMatrix K) (h : QPVector K)
    (A : QPMatrix K) (Alb : QPVector K) (tol : K) :
    (((singleStart n h_size L h A Alb).1.stepState L A
      (singleStart n h_size L h A Alb).2).dualBlocking tol).2 = none := by
  unfold Solver.dualBlocking
  rw [singleStart_active_set]
  rfl

/-- In the first iteration `update` accepts the constraint when
`tol ≤ 1` and `a·J·Jᵀ·aᵀ > tol`. -/
theorem singleStart_flag (sqrt : K → K) (hs : IsSqrt sqrt) (n h_size : Nat) (L : QPMatrix K)
    (h : QPVector K) (A : QPMatrix K) (Alb : QPVector K) (tol t : K) (hn : 0 < n)
    (htol : 0 ≤ tol) (htol1 : tol ≤ 1)
    (hcurv : tol < ∑ k in Finset.range n, colT n (TriangularInversion.compute n L) (A 0) k
      * colT n (TriangularInversion.compute n L) (A 0) k) :
    (((singleStart n h_size L h A Alb).1.stepState L A
      (singleStart n h_size L h A Alb).2).takeStep sqrt t tol).2 = true := by
  show (((singleStart n h_size L h A Alb).1.stepState L A
      (singleStart n h_size L h A Alb).2).factorization_data_.update sqrt
    ((singleStart n h_size L h A Alb).1.stepState L A
      (singleStart n h_size L h A Alb).2).active_set_.size_ tol).2 = true
  rw [singleStart_active_set]
  unfold Solver.stepState
  rw [Solver.computeStepDirections_fd _ A _ (singleStart_space n h_size L h A Alb hn),
    singleStart_init]
  show ((( FactorizationData.initialize L n).computeInequalitySteps (fun _ => (0 : K)) (A 0)
    ConstraintStatus.ACTIVE_LOWER_BOUND ( ActiveSet.initialize n)).1.update sqrt 0 tol).2 = true
  rw [update_snd sqrt hs _ _ _ (show 0 < n from hn)]
  show tol ≤ sqrt (∑ i in Finset.Ico 0 n, _)
  refine hs.le_sqrt ?_
  have hI : Finset.Ico 0 n = Finset.range n := by
    ext k
    simp
  rw [hI]
  have e : ∀ k ∈ Finset.range n,
      (( FactorizationData.initialize L n).computeInequalitySteps (fun _ => (0 : K)) (A 0)
        ConstraintStatus.ACTIVE_LOWER_BOUND ( ActiveSet.initialize n)).1.R k 0
      * (( FactorizationData.initialize L n).computeInequalitySteps (fun _ => (0 : K)) (A 0)
        ConstraintStatus.ACTIVE_LOWER_BOUND ( ActiveSet.initialize n)).1.R k 0
      = colT n (TriangularInversion.compute n L) (A 0) k
        * colT n (TriangularInversion.compute n L) (A 0) k := by
    intro k hk
    have := computeInequalitySteps_R_col ( FactorizationData.initialize L n) (fun _ => (0 : K))
      (A 0) ConstraintStatus.ACTIVE_LOWER_BOUND ( ActiveSet.initialize n) k
      (Finset.mem_range.mp hk)
    rw [colT_signedRow, if_pos rfl] at this
    have this' : (( FactorizationData.initialize L n).computeInequalitySteps (fun _ => (0 : K))
        (A 0) ConstraintStatus.ACTIVE_LOWER_BOUND ( ActiveSet.initialize n)).1.R k 0
        = -colT n (TriangularInversion.compute n L) (A 0) k := this
    rw [this']
    ring
  rw [Finset.sum_congr rfl e]
  nlinarith

theorem singleNext_active_set (sqrt : K → K) (n h_size : Nat) (L : QPMatrix K)
    (h : QPVector K) (A : QPMatrix K) (Alb : QPVector K) (tol : K) :
    (singleNext sqrt n h_size L h A Alb tol).1.active_set_
      = ( ActiveSet.initialize n).addInequality 0 := by
  show (((singleStart n h_size L h A Alb).1.stepState L A
    (singleStart n h_size L h A Alb).2).active_set_).addInequality 0 = _
  rw [singleStart_active_set]

theorem singleNext_status (sqrt : K → K) (n h_size : Nat) (L : QPMatrix K)
    (h : QPVector K) (A : QPMatrix K) (Alb : QPVector K) (tol : K) :
    (singleNext sqrt n h_size L h A Alb tol).1.general_constraints_status_ 0
      = ConstraintStatus.ACTIVE_LOWER_BOUND := by
  show Function.update (β := fun _ => ConstraintStatus)
    (((singleStart n h_size L h A Alb).1.stepState L A
      (singleStart n h_size L h A Alb).2).general_constraints_status_) 0
    ConstraintStatus.ACTIVE_LOWER_BOUND 0 = _
  rw [Function.update_same]

theorem singleNext_sizes (sqrt : K → K) (n h_size : Nat) (L : QPMatrix K)
    (h : QPVector K) (A : QPMatrix K) (Alb : QPVector K) (tol : K) :
    (singleNext sqrt n h_size L h A Alb tol).1.toInputParser = ⟨n, h_size, 0, 1⟩ := by
  show ((singleStart n h_size L h A Alb).1.stepState L A
    (singleStart n h_size L h A Alb).2).toInputParser = _
  unfold Solver.stepState
  rw [Solver.computeStepDirections_sizes, Solver.init_sizes]
  rfl

theorem singleNext_dual (sqrt : K → K) (n h_size : Nat) (L : QPMatrix K)
    (h : QPVector K) (A : QPMatrix K) (Alb : QPVector K) (tol : K) :
    (singleNext sqrt n h_size L h A Alb tol).1.dual_ 0
      = -(singleStart n h_size L h A Alb).2.violation_
        / (singleStart n h_size L h A Alb).1.stepCp L A (singleStart n h_size L h A Alb).2 := by
  show Function.update _ ((singleStart n h_size L h A Alb).1.stepState L A
    (singleStart n h_size L h A Alb).2).active_set_.size_ _ 0 = _
  rw [singleStart_active_set]
  show Function.update _ 0 _ 0 = _
  rw [Function.update_same]
  show (0 : K) + _ = _
  rw [zero_add]

/-- After the first iteration the constraint holds with equality at its lower
bound. -/
theorem singleNext_primal (sqrt : K → K) (n h_size : Nat) (L : QPMatrix K)
    (h : QPVector K) (A : QPMatrix K) (Alb : QPVector K) (tol : K)
    (hcp : (singleStart n h_size L h A Alb).1.stepCp L A (singleStart n h_size L h A Alb).2
      ≠ 0) :
    dot n (A 0) (singleNext sqrt n h_size L h A Alb tol).1.primal = Alb 0 := by
  have en : ((singleStart n h_size L h A Alb).1.stepState L A
      (singleStart n h_size L h A Alb).2).primal_size_ = n := by
    unfold Solver.stepState
    rw [congrArg InputParser.primal_size_ (Solver.computeStepDirections_sizes _ A _),
      Solver.init_primal_size]
    rfl
  have ep : ((singleStart n h_size L h A Alb).1.stepState L A
      (singleStart n h_size L h A Alb).2).primal
      = (Solver.entry ⟨n, h_size, 0, 1⟩ L h).primal := by
    unfold Solver.stepState
    rw [Solver.computeStepDirections_primal, Solver.init_primal]
    rfl
  show dot n (A 0) (fun k => ((singleStart n h_size L h A Alb).1.stepState L A
      (singleStart n h_size L h A Alb).2).primal k
    + -(singleStart n h_size L h A Alb).2.violation_
        / (singleStart n h_size L h A Alb).1.stepCp L A (singleStart n h_size L h A Alb).2
      * ((singleStart n h_size L h A Alb).1.stepState L A
          (singleStart n h_size L h A Alb).2).primal_step_direction_ k) = _
  rw [dot_add_smul, ep]
  have ecp : dot n (A 0) ((singleStart n h_size L h A Alb).1.stepState L A
      (singleStart n h_size L h A Alb).2).primal_step_direction_
      = (singleStart n h_size L h A Alb).1.stepCp L A (singleStart n h_size L h A Alb).2 := by
    unfold Solver.stepCp
    rw [en]
    rfl
  rw [ecp, div_mul_cancel₀ _ hcp]
  show _ + -(dot n (A 0) (Solver.entry ⟨n, h_size, 0, 1⟩ L h).primal - Alb 0) = _
  ring

/-- The first iteration of the main loop on the single-constraint problem takes
the full step and activates the constraint. -/
theorem single_mainStep (sqrt : K → K) (hs : IsSqrt sqrt) (asserts : Bool) (n h_size : Nat)
    (L : QPMatrix K) (h : QPVector K) (A : QPMatrix K) (Alb Aub : QPVector K)
    (param : SolverParameters K) (hn : 0 < n)
    (htol : 0 < param.tolerance_) (htol1 : param.tolerance_ ≤ 1)
    (hviol : Alb 0 - param.tolerance_
      > dot n (A 0) (Solver.entry ⟨n, h_size, 0, 1⟩ L h).primal)
    (hcurv : param.tolerance_
      < ∑ k in Finset.range n, colT n (TriangularInversion.compute n L) (A 0) k
        * colT n (TriangularInversion.compute n L) (A 0) k) :
    Solver.mainStep sqrt asserts L A Alb Aub param (singleStart n h_size L h A Alb)
      = Step.next (singleNext sqrt n h_size L h A Alb param.tolerance_) := by
  have hcp := singleStart_cp n h_size L h A Alb hn
  have hv : (singleStart n h_size L h A Alb).2.violation_ < -param.tolerance_ := by
    show dot n (A 0) (Solver.entry ⟨n, h_size, 0, 1⟩ L h).primal - Alb 0 < _
    linarith
  have hv0 : (singleStart n h_size L h A Alb).2.violation_ < 0 := by linarith
  have hcp0 : 0 < (singleStart n h_size L h A Alb).1.stepCp L A
      (singleStart n h_size L h A Alb).2 := by
    rw [hcp]
    linarith
  have e := mainStep_full_eq sqrt asserts L A Alb Aub param (singleStart n h_size L h A Alb)
    (by
      rw [abs_of_neg hv0]
      intro hc
      linarith)
    (by
      unfold Solver.stepState
      rw [Solver.computeStepDirections_active_set]
      exact singleStart_space n h_size L h A Alb hn)
    (by
      rw [abs_of_pos hcp0, hcp]
      exact hcurv)
    (div_nonneg (by linarith) hcp0.le)
    (singleStart_dualBlocking n h_size L h A Alb param.tolerance_)
    (singleStart_flag sqrt hs n h_size L h A Alb param.tolerance_ _ hn htol.le htol1 hcurv)
  rw [e]
  have hm : (singleNext sqrt n h_size L h A Alb param.tolerance_).1.num_general_constraints_
      = 1 := congrArg InputParser.num_general_constraints_
        (singleNext_sizes sqrt n h_size L h A Alb param.tolerance_)
  have e2 := chooseConstraint_single (singleNext sqrt n h_size L h A Alb param.tolerance_).1
    (singleNext sqrt n h_size L h A Alb param.tolerance_).1.primal A Alb Aub
    param.tolerance_ hm
  rw [chooseConstraintStep_skip _ _ _ _ _ _ _ _ (by
    show ¬ ((singleNext sqrt n h_size L h A Alb param.tolerance_).1.general_constraints_status_ 0
        = _ ∨
      (singleNext sqrt n h_size L h A Alb param.tolerance_).1.general_constraints_status_ 0 = _)
    rw [singleNext_status]
    decide)] at e2
  exact congrArg Step.next (Prod.ext (congrArg Prod.snd e2) (congrArg Prod.fst e2))

/-- The loop states of the first two iterations on the single-constraint
problem. -/
theorem single_iterStates (sqrt : K → K) (hs : IsSqrt sqrt) (asserts : Bool) (n h_size : Nat)
    (L : QPMatrix K) (h : QPVector K) (A : QPMatrix K) (Alb Aub : QPVector K)
    (param : SolverParameters K) (hn : 0 < n)
    (htol : 0 < param.tolerance_) (htol1 : param.tolerance_ ≤ 1)
    (hiter : param.max_iter_ < 0 ∨ 2 ≤ param.max_iter_)
    (hne : Alb 0 + param.tolerance_ < Aub 0)
    (hviol : Alb 0 - param.tolerance_
      > dot n (A 0) (Solver.entry ⟨n, h_size, 0, 1⟩ L h).primal)
    (hcurv : param.tolerance_
      < ∑ k in Finset.range n, colT n (TriangularInversion.compute n L) (A 0) k
        * colT n (TriangularInversion.compute n L) (A 0) k) :
    Solver.mainStart sqrt ⟨n, h_size, 0, 1⟩ L h A Alb Aub param
      = some (singleStart n h_size L h A Alb) ∧
    Solver.iterState sqrt asserts ⟨n, h_size, 0, 1⟩ L h A Alb Aub param 0
      = some (singleStart n h_size L h A Alb) ∧
    Solver.iterState sqrt asserts ⟨n, h_size, 0, 1⟩ L h A Alb Aub param 1
      = some (singleNext sqrt n h_size L h A Alb param.tolerance_) := by
  have h0 : Solver.mainStart sqrt ⟨n, h_size, 0, 1⟩ L h A Alb Aub param
      = some (singleStart n h_size L h A Alb) := by
    rw [single_mainStart sqrt n h_size L h A Alb Aub param htol.le hne,
      single_mainEntry n h_size L h A Alb Aub param htol.le hviol]
  have hc0 : (0 : Int) < param.max_iter_ ∨ param.max_iter_ < 0 := by
    rcases hiter with a | a
    · exact Or.inr a
    · exact Or.inl (by omega)
  refine ⟨h0, ?_, ?_⟩
  · unfold Solver.iterState
    rw [h0]
    rfl
  · unfold Solver.iterState
    rw [h0]
    dsimp only
    rw [statesFrom_front, if_pos hc0,
      single_mainStep sqrt hs asserts n h_size L h A Alb Aub param hn htol htol1 hviol hcurv]
    rfl

/-- The run of `solve` on the single-constraint problem: `OK` after two
iterations, with the state left by the first. -/
theorem single_solveWithFactor (sqrt : K → K) (hs : IsSqrt sqrt) (asserts : Bool)
    (n h_size : Nat) (L : QPMatrix K) (h : QPVector K) (A : QPMatrix K) (Alb Aub : QPVector K)
    (param : SolverParameters K) (fuel : Nat) (hn : 0 < n) (hfuel : 2 ≤ fuel)
    (htol : 0 < param.tolerance_) (htol1 : param.tolerance_ ≤ 1)
    (hiter : param.max_iter_ < 0 ∨ 2 ≤ param.max_iter_)
    (hne : Alb 0 + param.tolerance_ < Aub 0)
    (hviol : Alb 0 - param.tolerance_
      > dot n (A 0) (Solver.entry ⟨n, h_size, 0, 1⟩ L h).primal)
    (hcurv : param.tolerance_
      < ∑ k in Finset.range n, colT n (TriangularInversion.compute n L) (A 0) k
        * colT n (TriangularInversion.compute n L) (A 0) k) :
    Solver.solveWithFactor sqrt asserts ⟨n, h_size, 0, 1⟩ L h A Alb Aub param fuel
      = some (Outcome.returned ReturnStatus.OK
          (singleNext sqrt n h_size L h A Alb param.tolerance_).1) := by
  obtain ⟨h0, _, _⟩ := single_iterStates sqrt hs asserts n h_size L h A Alb Aub param hn htol
    htol1 hiter hne hviol hcurv
  rw [solveWithFactor_mainStart sqrt asserts _ L h A Alb Aub param fuel _ h0, mainLoop_some_iff]
  have hc0 : (0 : Int) < param.max_iter_ ∨ param.max_iter_ < 0 := by
    rcases hiter with a | a
    · exact Or.inr a
    · exact Or.inl (by omega)
  have hc1 : (0 : Int) + ((1 : Nat) : Int) < param.max_iter_ ∨ param.max_iter_ < 0 := by
    rcases hiter with a | a
    · exact Or.inr a
    · exact Or.inl (by omega)
  refine ⟨1, singleNext sqrt n h_size L h A Alb param.tolerance_, by omega, ?_,
    Or.inl ⟨hc1, ?_⟩⟩
  · rw [statesFrom_front, if_pos hc0,
      single_mainStep sqrt hs asserts n h_size L h A Alb Aub param hn htol htol1 hviol hcurv]
    rfl
  · exact mainStep_ok_eq sqrt asserts L A Alb Aub param _ (by
      show |(0 : K)| < _
      rw [abs_zero]
      exact htol)

/-! ## Triangular solves -/


theorem forwardSolve_lt (L : QPMatrix K) (b : QPVector K) (m k : Nat) (hk : k < m) :
    forwardSolve L b (m + 1) k = forwardSolve L b m k := by
  show Function.update (forwardSolve L b m) m _ k = _
  rw [Function.update_noteq (Nat.ne_of_lt hk)]

theorem forwardSolve_stable (L : QPMatrix K) (b : QPVector K) (m m1 k : Nat) (hk : k < m)
    (hm : m ≤ m1) : forwardSolve L b m1 k = forwardSolve L b m k := by
  induction m1 with
  | zero =>
    have : m = 0 := by omega
    subst this
    rfl
  | succ m1 ih =>
    rcases Nat.lt_or_ge m1 m with h1 | h1
    · have : m = m1 + 1 := by omega
      subst this
      rfl
    · rw [forwardSolve_lt L b m1 k (by omega)]
      exact ih h1

theorem forwardSolve_at (L : QPMatrix K) (b : QPVector K) (m : Nat) :
    forwardSolve L b (m + 1) m
      = (b m - ∑ k in Finset.range m, L m k * forwardSolve L b m k) / L m m := by
  show Function.update (forwardSolve L b m) m _ m = _
  rw [Function.update_same]

/-- Forward substitution solves the rows of the lower triangle. -/
theorem forwardSolve_spec (L : QPMatrix K) (b : QPVector K) (n i : Nat) (hi : i < n)
    (hd : L i i ≠ 0) :
    ∑ k in Finset.range (i + 1), L i k * forwardSolve L b n k = b i := by
  rw [Finset.sum_range_succ, forwardSolve_stable L b (i + 1) n i (Nat.lt_succ_self i) hi,
    forwardSolve_at]
  have e : ∀ k ∈ Finset.range i, L i k * forwardSolve L b n k
      = L i k * forwardSolve L b i k := by
    intro k hk
    rw [forwardSolve_stable L b i n k (Finset.mem_range.mp hk) (by omega)]
  rw [Finset.sum_congr rfl e]
  field_simp

/-- For a lower-triangular `L` forward substitution solves `L·x = b`. -/
theorem forwardSolve_lower (L : QPMatrix K) (b : QPVector K) (n i : Nat) (hi : i < n)
    (htri : ∀ r c, r < c → c < n → L r c = 0) (hd : L i i ≠ 0) :
    ∑ k in Finset.range n, L i k * forwardSolve L b n k = b i := by
  rw [← forwardSolve_spec L b n i hi hd]
  have hsub : Finset.range (i + 1) ⊆ Finset.range n := by
    intro k hk
    rw [Finset.mem_range] at hk ⊢
    omega
  symm
  refine Finset.sum_subset hsub (fun k hk hk' => ?_)
  rw [Finset.mem_range] at hk hk'
  rw [htri i k (by omega) hk, zero_mul]

/-- The factor `J` of `initialize` satisfies `L·Jᵀ = I`. -/
theorem inversion_spec (n : Nat) (L : QPMatrix K) (r i : Nat) (hr : r < n) (hi : i < n)
    (htri : ∀ r c, r < c → c < n → L r c = 0) (hd : ∀ k, k < n → L k k ≠ 0) :
    ∑ c in Finset.range n, L r c * TriangularInversion.compute n L i c
      = if r = i then 1 else 0 := by
  have e : ∀ c ∈ Finset.range n, L r c * TriangularInversion.compute n L i c
      = L r c * forwardSolve L (fun k => if k = i then 1 else 0) n c := by
    intro c hc
    unfold TriangularInversion.compute
    rw [if_pos ⟨hi, Finset.mem_range.mp hc⟩]
  rw [Finset.sum_congr rfl e, forwardSolve_lower L _ n r hr htri (hd r hr)]

/-- A lower-triangular matrix with non-zero diagonal has a trivial kernel. -/
theorem lower_injective (n : Nat) (L : QPMatrix K) (v : QPVector K)
    (htri : ∀ r c, r < c → c < n → L r c = 0) (hd : ∀ k, k < n → L k k ≠ 0)
    (h0 : ∀ r, r < n → ∑ c in Finset.range n, L r c * v c = 0) :
    ∀ c, c < n → v c = 0 := by
  intro c
  induction c using Nat.strong_induction_on with
  | _ c ih =>
    intro hc
    have h1 := h0 c hc
    have hsub : Finset.range (c + 1) ⊆ Finset.range n := by
      intro k hk
      rw [Finset.mem_range] at hk ⊢
      omega
    rw [← Finset.sum_subset hsub (fun k hk hk' => by
      rw [Finset.mem_range] at hk hk'
      rw [htri c k (by omega) hk, zero_mul])] at h1
    rw [Finset.sum_range_succ, Finset.sum_eq_zero (fun k hk => by
      rw [ih k (Finset.mem_range.mp hk) (by have := Finset.mem_range.mp hk; omega),
        mul_zero]), zero_add] at h1
    rcases mul_eq_zero.mp h1 with a | a
    · exact absurd a (hd c hc)
    · exact a

/-- An upper-triangular matrix with non-zero diagonal has a trivial kernel
(stated for the transpose of a lower-triangular `L`). -/
theorem upper_injective (n : Nat) (L : QPMatrix K) (v : QPVector K)
    (htri : ∀ r c, r < c → c < n → L r c = 0) (hd : ∀ k, k < n → L k k ≠ 0)
    (h0 : ∀ k, k < n → ∑ r in Finset.range n, L r k * v r = 0) :
    ∀ c, c < n → v c = 0 := by
  have key : ∀ j, j ≤ n → ∀ c, n - j ≤ c → c < n → v c = 0 := by
    intro j
    induction j with
    | zero =>
      intro _ c h1 h2
      omega
    | succ j ih =>
      intro hj c h1 h2
      rcases Nat.lt_or_ge (n - (j + 1)) c with h3 | h3
      · exact ih (by omega) c (by omega) h2
      · have hc : c = n - (j + 1) := by omega
        have h4 := h0 c h2
        have hz : ∀ r ∈ Finset.range n, r ≠ c → L r c * v r = 0 := by
          intro r hr hrc
          rw [Finset.mem_range] at hr
          rcases Nat.lt_or_ge r c with h5 | h5
          · rw [htri r c h5 h2, zero_mul]
          · rw [ih (by omega) r (by omega) hr, mul_zero]
        rw [Finset.sum_eq_single c (fun r hr hrc => hz r hr hrc)
          (fun hn => absurd (Finset.mem_range.mpr h2) hn)] at h4
        rcases mul_eq_zero.mp h4 with a | a
        · exact absurd a (hd c h2)
        · exact a
  intro c hc
  exact key n (le_refl n) c (by omega) hc

theorem backSolve_other (U : QPMatrix K) (b : QPVector K) (hi c k : Nat)
    (hk : k ≠ hi - (c + 1)) : backSolve U b hi (c + 1) k = backSolve U b hi c k := by
  show Function.update (backSolve U b hi c) (hi - (c + 1)) _ k = _
  rw [Function.update_noteq hk]

theorem backSolve_at (U : QPMatrix K) (b : QPVector K) (hi c : Nat) :
    backSolve U b hi (c + 1) (hi - (c + 1))
      = (b (hi - (c + 1)) - ∑ k in Finset.Ico (hi - (c + 1) + 1) hi,
          U (hi - (c + 1)) k * backSolve U b hi c k) / U (hi - (c + 1)) (hi - (c + 1)) := by
  show Function.update (backSolve U b hi c) (hi - (c + 1)) _ _ = _
  rw [Function.update_same]

theorem backSolve_stable (U : QPMatrix K) (b : QPVector K) (hi c c1 k : Nat)
    (hc : c ≤ c1) (hc1 : c1 ≤ hi) (hk : hi - c ≤ k) :
    backSolve U b hi c1 k = backSolve U b hi c k := by
  induction c1 with
  | zero =>
    have : c = 0 := by omega
    subst this
    rfl
  | succ c1 ih =>
    rcases Nat.lt_or_ge c1 c with h1 | h1
    · have : c = c1 + 1 := by omega
      subst this
      rfl
    · rw [backSolve_other U b hi c1 k (by omega)]
      exact ih h1 (by omega)

/-- Outside the block that is solved the result of back substitution is zero. -/
theorem backSolve_outside (U : QPMatrix K) (b : QPVector K) (hi c k : Nat) (hc : c ≤ hi)
    (hk : k < hi - c ∨ hi ≤ k) : backSolve U b hi c k = 0 := by
  induction c with
  | zero => rfl
  | succ c ih =>
    rw [backSolve_other U b hi c k (by omega)]
    exact ih (by omega) (by omega)

/-- Back substitution solves the rows of the upper triangle of the block. -/
theorem backSolve_spec (U : QPMatrix K) (b : QPVector K) (hi c i : Nat) (hc : c ≤ hi)
    (h1 : hi - c ≤ i) (h2 : i < hi) (hd : U i i ≠ 0) :
    ∑ k in Finset.Ico i hi, U i k * backSolve U b hi c k = b i := by
  have hidx : hi - (hi - i - 1 + 1) = i := by omega
  have e0 : backSolve U b hi c i
      = (b i - ∑ k in Finset.Ico (i + 1) hi, U i k * backSolve U b hi (hi - i - 1) k)
        / U i i := by
    rw [backSolve_stable U b hi (hi - i - 1 + 1) c i (by omega) hc (by omega)]
    have := backSolve_at U b hi (hi - i - 1)
    rw [hidx] at this
    exact this
  have e1 : ∀ k ∈ Finset.Ico (i + 1) hi, U i k * backSolve U b hi c k
      = U i k * backSolve U b hi (hi - i - 1) k := by
    intro k hk
    rw [backSolve_stable U b hi (hi - i - 1) c k (by omega) hc
      (by have := (Finset.mem_Ico.mp hk).1; omega)]
  rw [Finset.sum_eq_sum_Ico_succ_bot h2, e0, Finset.sum_congr rfl e1]
  field_simp

/-- The solve against the factor, `L·Lᵀ·x = b`. -/
theorem cholesky_solve_spec (n : Nat) (L Hmat : QPMatrix K) (b : QPVector K)
    (htri : ∀ r c, r < c → c < n → L r c = 0) (hd : ∀ k, k < n → L k k ≠ 0)
    (hH : ∀ r c, r < n → c < n → Hmat r c = ∑ k in Finset.range n, L r k * L c k)
    (r : Nat) (hr : r < n) :
    ∑ c in Finset.range n, Hmat r c * CholeskyFactorization.solve n L b c = b r := by
  have hback : ∀ i, i < n →
      ∑ k in Finset.range n, L k i * CholeskyFactorization.solve n L b k
        = forwardSolve L b n i := by
    intro i hi
    have := backSolve_spec (fun i k => L k i) (forwardSolve L b n) n n i (le_refl n)
      (by omega) hi (hd i hi)
    rw [← this]
    have hsub : Finset.Ico i n ⊆ Finset.range n := by
      intro k hk
      rw [Finset.mem_Ico] at hk
      rw [Finset.mem_range]
      exact hk.2
    symm
    refine Finset.sum_subset hsub (fun k hk hk' => ?_)
    rw [Finset.mem_range] at hk
    rw [Finset.mem_Ico] at hk'
    show L k i * _ = 0
    rw [htri k i (by omega) hi, zero_mul]
  have e : ∀ c ∈ Finset.range n, Hmat r c * CholeskyFactorization.solve n L b c
      = ∑ k in Finset.range n, L r k * (L c k * CholeskyFactorization.solve n L b c) := by
    intro c hc
    rw [hH r c hr (Finset.mem_range.mp hc), Finset.sum_mul]
    refine Finset.sum_congr rfl (fun k _ => ?_)
    ring
  rw [Finset.sum_congr rfl e, Finset.sum_comm]
  have e2 : ∀ k ∈ Finset.range n,
      ∑ c in Finset.range n, L r k * (L c k * CholeskyFactorization.solve n L b c)
        = L r k * forwardSolve L b n k := by
    intro k hk
    rw [← Finset.mul_sum, hback k (Finset.mem_range.mp hk)]
  rw [Finset.sum_congr rfl e2]
  exact forwardSolve_lower L b n r hr htri (hd r hr)

/-- The system `L·Lᵀ·x = b` has at most one solution. -/
theorem factor_unique (n : Nat) (L Hmat : QPMatrix K) (b x x1 : QPVector K)
    (htri : ∀ r c, r < c → c < n → L r c = 0) (hd : ∀ k, k < n → L k k ≠ 0)
    (hH : ∀ r c, r < n → c < n → Hmat r c = ∑ k in Finset.range n, L r k * L c k)
    (hx : ∀ r, r < n → ∑ c in Finset.range n, Hmat r c * x c = b r)
    (hx1 : ∀ r, r < n → ∑ c in Finset.range n, Hmat r c * x1 c = b r) :
    ∀ c, c < n → x c = x1 c := by
  have h1 : ∀ r, r < n → ∑ k in Finset.range n,
      L r k * (∑ c in Finset.range n, L c k * (x c - x1 c)) = 0 := by
    intro r hr
    have e : ∀ k ∈ Finset.range n, L r k * (∑ c in Finset.range n, L c k * (x c - x1 c))
        = ∑ c in Finset.range n, L r k * L c k * (x c - x1 c) := by
      intro k _
      rw [Finset.mul_sum]
      refine Finset.sum_congr rfl (fun c _ => ?_)
      ring
    rw [Finset.sum_congr rfl e, Finset.sum_comm]
    have e2 : ∀ c ∈ Finset.range n, ∑ k in Finset.range n, L r k * L c k * (x c - x1 c)
        = Hmat r c * x c - Hmat r c * x1 c := by
      intro c hc
      rw [← Finset.sum_mul, ← hH r c hr (Finset.mem_range.mp hc)]
      ring
    rw [Finset.sum_congr rfl e2, Finset.sum_sub_distrib, hx r hr, hx1 r hr, sub_self]
  have h2 := lower_injective n L _ htri hd h1
  have h3 := upper_injective n L (fun c => x c - x1 c) htri hd h2
  intro c hc
  have := h3 c hc
  exact sub_eq_zero.mp this

/-- The quantity `a·H⁻¹·aᵀ`: for `H = L·Lᵀ` and `H·w = aᵀ`, the squared length of
`Jᵀ·aᵀ` is `a·w`. -/
theorem curvature_eq (n : Nat) (L Hmat : QPMatrix K) (a w : QPVector K)
    (htri : ∀ r c, r < c → c < n → L r c = 0) (hd : ∀ k, k < n → L k k ≠ 0)
    (hH : ∀ r c, r < n → c < n → Hmat r c = ∑ k in Finset.range n, L r k * L c k)
    (hw : ∀ r, r < n → ∑ c in Finset.range n, Hmat r c * w c = a r) :
    ∑ k in Finset.range n, colT n (TriangularInversion.compute n L) a k
        * colT n (TriangularInversion.compute n L) a k
      = dot n a w := by
  -- `L·u = a` for `u = Jᵀ·aᵀ`
  have hu : ∀ r, r < n → ∑ k in Finset.range n,
      L r k * colT n (TriangularInversion.compute n L) a k = a r := by
    intro r hr
    have e : ∀ k ∈ Finset.range n, L r k * colT n (TriangularInversion.compute n L) a k
        = ∑ i in Finset.range n, a i * (L r k * TriangularInversion.compute n L i k) := by
      intro k _
      unfold colT
      rw [Finset.mul_sum]
      refine Finset.sum_congr rfl (fun i _ => ?_)
      ring
    rw [Finset.sum_congr rfl e, Finset.sum_comm]
    have e2 : ∀ i ∈ Finset.range n,
        ∑ k in Finset.range n, a i * (L r k * TriangularInversion.compute n L i k)
          = a i * (if r = i then 1 else 0) := by
      intro i hi
      rw [← Finset.mul_sum, inversion_spec n L r i hr (Finset.mem_range.mp hi) htri hd]
    rw [Finset.sum_congr rfl e2, Finset.sum_eq_single r]
    · rw [if_pos rfl, mul_one]
    · intro i _ hir
      rw [if_neg (fun e => hir e.symm), mul_zero]
    · intro hn
      exact absurd (Finset.mem_range.mpr hr) hn
  -- `L·v = a` for `v = Lᵀ·w`
  have hv : ∀ r, r < n → ∑ k in Finset.range n,
      L r k * (∑ c in Finset.range n, L c k * w c) = a r := by
    intro r hr
    rw [← hw r hr]
    have e : ∀ k ∈ Finset.range n, L r k * (∑ c in Finset.range n, L c k * w c)
        = ∑ c in Finset.range n, L r k * L c k * w c := by
      intro k _
      rw [Finset.mul_sum]
      refine Finset.sum_congr rfl (fun c _ => ?_)
      ring
    rw [Finset.sum_congr rfl e, Finset.sum_comm]
    refine Finset.sum_congr rfl (fun c hc => ?_)
    rw [← Finset.sum_mul, ← hH r c hr (Finset.mem_range.mp hc)]
  have huv : ∀ k, k < n → colT n (TriangularInversion.compute n L) a k
      = ∑ c in Finset.range n, L c k * w c := by
    have h0 := lower_injective n L
      (fun k => colT n (TriangularInversion.compute n L) a k
        - ∑ c in Finset.range n, L c k * w c) htri hd (by
        intro r hr
        have e : ∀ c ∈ Finset.range n, L r c * (colT n (TriangularInversion.compute n L) a c
            - ∑ c1 in Finset.range n, L c1 c * w c1)
            = L r c * colT n (TriangularInversion.compute n L) a c
              - L r c * (∑ c1 in Finset.range n, L c1 c * w c1) := by
          intro c _
          ring
        rw [Finset.sum_congr rfl e, Finset.sum_sub_distrib, hu r hr, hv r hr, sub_self])
    intro k hk
    exact sub_eq_zero.mp (h0 k hk)
  unfold dot
  have e3 : ∀ r ∈ Finset.range n, a r * w r
      = ∑ k in Finset.range n, (∑ c in Finset.range n, L c k * w c) * (L r k * w r) := by
    intro r hr
    rw [← hv r (Finset.mem_range.mp hr), Finset.sum_mul]
    refine Finset.sum_congr rfl (fun k _ => ?_)
    ring
  rw [Finset.sum_congr rfl e3, Finset.sum_comm]
  refine Finset.sum_congr rfl (fun k hk => ?_)
  rw [← Finset.mul_sum, huv k (Finset.mem_range.mp hk)]

/-! ## The single active bound -/


theorem forwardSolve_congr (L L1 : QPMatrix K) (b : QPVector K)
    (hL : ∀ r c, c ≤ r → L r c = L1 r c) (m : Nat) :
    forwardSolve L b m = forwardSolve L1 b m := by
  induction m with
  | zero => rfl
  | succ m ih =>
    show Function.update (forwardSolve L b m) m _ = Function.update (forwardSolve L1 b m) m _
    have e : ∑ k in Finset.range m, L m k * forwardSolve L1 b m k
        = ∑ k in Finset.range m, L1 m k * forwardSolve L1 b m k := by
      refine Finset.sum_congr rfl (fun k hk => ?_)
      rw [hL m k (Nat.le_of_lt (Finset.mem_range.mp hk))]
    rw [ih, hL m m (le_refl m)]
    rw [e]

theorem backSolve_congr (U U1 : QPMatrix K) (b : QPVector K) (hi : Nat)
    (hU : ∀ r c, r ≤ c → U r c = U1 r c) (c : Nat) :
    backSolve U b hi c = backSolve U1 b hi c := by
  induction c with
  | zero => rfl
  | succ c ih =>
    show Function.update (backSolve U b hi c) _ _ = Function.update (backSolve U1 b hi c) _ _
    have e : ∑ k in Finset.Ico (hi - (c + 1) + 1) hi, U (hi - (c + 1)) k * backSolve U1 b hi c k
        = ∑ k in Finset.Ico (hi - (c + 1) + 1) hi,
            U1 (hi - (c + 1)) k * backSolve U1 b hi c k := by
      refine Finset.sum_congr rfl (fun k hk => ?_)
      rw [hU _ k (by have := (Finset.mem_Ico.mp hk).1; omega)]
    rw [ih, hU _ _ (le_refl (hi - (c + 1)))]
    rw [e]

theorem lowerPart_lower (L : QPMatrix K) (r c : Nat) (h : c ≤ r) : L r c = lowerPart L r c := by
  unfold lowerPart
  rw [if_pos h]

theorem lowerPart_upper (L : QPMatrix K) (r c : Nat) (h : r < c) : lowerPart L r c = 0 := by
  unfold lowerPart
  rw [if_neg (by omega)]

/-- The triangular inverse depends on the lower triangle of the factor only. -/
theorem inversion_lowerPart (n : Nat) (L : QPMatrix K) :
    TriangularInversion.compute n L = TriangularInversion.compute n (lowerPart L) := by
  funext i j
  unfold TriangularInversion.compute
  rw [forwardSolve_congr L (lowerPart L) _ (lowerPart_lower L) n]

/-- The solve against the factor depends on its lower triangle only. -/
theorem cholesky_solve_lowerPart (n : Nat) (L : QPMatrix K) (b : QPVector K) :
    CholeskyFactorization.solve n L b = CholeskyFactorization.solve n (lowerPart L) b := by
  unfold CholeskyFactorization.solve
  rw [forwardSolve_congr L (lowerPart L) b (lowerPart_lower L) n]
  exact backSolve_congr _ _ _ n (fun r c h => lowerPart_lower L c r h) n

theorem dot_congr (n : Nat) (a x y : QPVector K) (h : ∀ k, k < n → x k = y k) :
    dot n a x = dot n a y := by
  unfold dot
  refine Finset.sum_congr rfl (fun k hk => ?_)
  rw [h k (Finset.mem_range.mp hk)]

/-- The starting point of `solve` is the unconstrained minimum: it agrees with
every solution of `H·x = −h` when `H = L·Lᵀ`. -/
theorem entry_primal_eq (n : Nat) (L Hmat : QPMatrix K) (h x0 : QPVector K)
    (sizes : InputParser) (hsz : sizes.primal_size_ = n) (hh : 0 < sizes.h_size_)
    (hd : ∀ k, k < n → L k k ≠ 0)
    (hH : ∀ r c, r < n → c < n →
      Hmat r c = ∑ k in Finset.range n, lowerPart L r k * lowerPart L c k)
    (hx0 : ∀ r, r < n → ∑ c in Finset.range n, Hmat r c * x0 c = -h r) :
    ∀ c, c < n → (Solver.entry sizes L h).primal c = x0 c := by
  have e : (Solver.entry sizes L h).primal
      = CholeskyFactorization.solve n (lowerPart L) (fun k => -h k) := by
    show (if sizes.h_size_ > 0 then
      CholeskyFactorization.solve sizes.primal_size_ L (fun k => -h k) else fun _ => 0) = _
    rw [if_pos hh, hsz, cholesky_solve_lowerPart]
  rw [e]
  have htri : ∀ r c, r < c → c < n → lowerPart L r c = 0 :=
    fun r c h _ => lowerPart_upper L r c h
  have hd1 : ∀ k, k < n → lowerPart L k k ≠ 0 := by
    intro k hk
    rw [← lowerPart_lower L k k (le_refl k)]
    exact hd k hk
  exact factor_unique n (lowerPart L) Hmat (fun k => -h k) _ x0 htri hd1 hH
    (fun r hr => cholesky_solve_spec n (lowerPart L) Hmat (fun k => -h k) htri hd1 hH r hr) hx0

/-- The curvature `a·H⁻¹·aᵀ` as the solver computes it from the factor. -/
theorem curvature_factor (n : Nat) (L Hmat : QPMatrix K) (a w : QPVector K)
    (hd : ∀ k, k < n → L k k ≠ 0)
    (hH : ∀ r c, r < n → c < n →
      Hmat r c = ∑ k in Finset.range n, lowerPart L r k * lowerPart L c k)
    (hw : ∀ r, r < n → ∑ c in Finset.range n, Hmat r c * w c = a r) :
    ∑ k in Finset.range n, colT n (TriangularInversion.compute n L) a k
        * colT n (TriangularInversion.compute n L) a k
      = dot n a w := by
  rw [inversion_lowerPart]
  have htri : ∀ r c, r < c → c < n → lowerPart L r c = 0 :=
    fun r c h _ => lowerPart_upper L r c h
  have hd1 : ∀ k, k < n → lowerPart L k k ≠ 0 := by
    intro k hk
    rw [← lowerPart_lower L k k (le_refl k)]
    exact hd k hk
  exact curvature_eq n (lowerPart L) Hmat a w htri hd1 hH hw

/-! ## The active-bound scenario -/


/-- The first two loop states of the active-bound scenario (`n = 1`, factor
`[[1]]`, `h = [0]`, the constraint `1 ≤ x ≤ 100`, tolerance `1/2`). -/
theorem activeBound_iterStates :
    Solver.iterState Real.sqrt true ⟨1, 1, 0, 1⟩ (matOf [[1]]) (vecOf [0]) (matOf [[1]])
        (vecOf [1]) (vecOf [100]) ⟨HessianType.HESSIAN_CHOLESKY_FACTOR, 1 / 2, -1⟩ 0
      = some (singleStart 1 1 (matOf [[1]]) (vecOf [0]) (matOf [[1]]) (vecOf [1])) ∧
    Solver.iterState Real.sqrt true ⟨1, 1, 0, 1⟩ (matOf [[1]]) (vecOf [0]) (matOf [[1]])
        (vecOf [1]) (vecOf [100]) ⟨HessianType.HESSIAN_CHOLESKY_FACTOR, 1 / 2, -1⟩ 1
      = some (singleNext Real.sqrt 1 1 (matOf [[1]]) (vecOf [0]) (matOf [[1]]) (vecOf [1])
          (1 / 2)) := by
  have hd : ∀ k, k < 1 → (matOf [[1]] : QPMatrix ℝ) k k ≠ 0 := by
    intro k hk
    have : k = 0 := by omega
    subst this
    simp [matOf]
  have hH : ∀ r c, r < 1 → c < 1 → (matOf [[1]] : QPMatrix ℝ) r c
      = ∑ k in Finset.range 1, lowerPart (matOf [[1]] : QPMatrix ℝ) r k
          * lowerPart (matOf [[1]] : QPMatrix ℝ) c k := by
    intro r c hr hc
    have : r = 0 := by omega
    subst this
    have : c = 0 := by omega
    subst this
    simp [lowerPart, matOf]
  have ex : dot 1 ((matOf [[1]] : QPMatrix ℝ) 0)
      (Solver.entry ⟨1, 1, 0, 1⟩ (matOf [[1]]) (vecOf [0])).primal
      = dot 1 ((matOf [[1]] : QPMatrix ℝ) 0) (vecOf [0]) :=
    dot_congr 1 _ _ _ (entry_primal_eq 1 (matOf [[1]]) (matOf [[1]]) (vecOf [0]) (vecOf [0])
      ⟨1, 1, 0, 1⟩ rfl (by decide) hd hH (by
        intro r hr
        have : r = 0 := by omega
        subst this
        simp [matOf, vecOf]))
  have ec := curvature_factor 1 (matOf [[1]] : QPMatrix ℝ) (matOf [[1]])
    ((matOf [[1]] : QPMatrix ℝ) 0) (vecOf [1]) hd hH (by
      intro r hr
      have : r = 0 := by omega
      subst this
      simp [matOf, vecOf])
  exact (single_iterStates Real.sqrt isSqrt_real true 1 1 (matOf [[1]]) (vecOf [0])
    (matOf [[1]]) (vecOf [1]) (vecOf [100]) ⟨HessianType.HESSIAN_CHOLESKY_FACTOR, 1 / 2, -1⟩
    (by decide) (show (0 : ℝ) < 1 / 2 by norm_num) (show (1 / 2 : ℝ) ≤ 1 by norm_num)
    (Or.inl (by decide))
    (by
      show (vecOf [1] : QPVector ℝ) 0 + 1 / 2 < (vecOf [100] : QPVector ℝ) 0
      simp [vecOf]
      norm_num)
    (by
      rw [ex]
      show (vecOf [1] : QPVector ℝ) 0 - 1 / 2 > dot 1 ((matOf [[1]] : QPMatrix ℝ) 0) (vecOf [0])
      simp [vecOf, matOf, dot]
      norm_num)
    (by
      rw [ec]
      show (1 / 2 : ℝ) < dot 1 ((matOf [[1]] : QPMatrix ℝ) 0) (vecOf [1])
      simp [vecOf, matOf, dot]
      norm_num)).2

/-! ## A feasible start -/


/-- The equality-activation loop over constraints whose bounds are all further
apart than the tolerance only marks them inactive. -/
theorem inactive_loop (sqrt : K → K) (H A : QPMatrix K) (Alb Aub : QPVector K)
    (param : SolverParameters K) (htol : 0 ≤ param.tolerance_) (count i : Nat)
    (st : Solver K × Nat)
    (hne : ∀ j, i ≤ j → j < i + count → Alb j + param.tolerance_ < Aub j) :
    ∃ s1 : Solver K,
      Solver.equalityLoop sqrt H A Alb Aub param count i st = Step.next (s1, st.2) ∧
      s1.toInputParser = st.1.toInputParser ∧ s1.primal = st.1.primal ∧
      s1.machinery_initialized_ = st.1.machinery_initialized_ ∧
      s1.active_set_ = st.1.active_set_ ∧
      (∀ j, i ≤ j → j < i + count →
        s1.general_constraints_status_ j = ConstraintStatus.INACTIVE) ∧
      (∀ j, j < i → s1.general_constraints_status_ j = st.1.general_constraints_status_ j) := by
  induction count generalizing i st with
  | zero =>
    refine ⟨st.1, ?_, rfl, rfl, rfl, rfl, ?_, fun _ _ => rfl⟩
    · unfold Solver.equalityLoop
      rfl
    · intro j h1 h2
      omega
  | succ count ih =>
    have hi := hne i (le_refl i) (by omega)
    have hstep := equalityStep_inactive sqrt H A Alb Aub param i st
      (by
        intro hc
        linarith)
      (by
        have : Alb i - Aub i < 0 := by linarith
        rw [abs_of_neg this]
        linarith)
    obtain ⟨s1, e1, e2, e3, e4, e5, e6, e7⟩ := ih (i + 1)
      (st.1.setStatus i ConstraintStatus.INACTIVE, st.2)
      (fun j h1 h2 => hne j (by omega) (by omega))
    refine ⟨s1, ?_, e2, e3, e4, e5, ?_, ?_⟩
    · rw [equalityLoop_cons sqrt H A Alb Aub param count i st _ hstep]
      exact e1
    · intro j h1 h2
      rcases Nat.eq_or_lt_of_le h1 with h | h
      · subst h
        rw [e7 i (Nat.lt_succ_self i)]
        show Function.update st.1.general_constraints_status_ i ConstraintStatus.INACTIVE i = _
        rw [Function.update_same]
      · exact e6 j h (by omega)
    · intro j hj
      rw [e7 j (by omega)]
      show Function.update st.1.general_constraints_status_ i ConstraintStatus.INACTIVE j = _
      rw [Function.update_noteq (by omega)]

/-- The scan of `chooseConstraint` over inactive constraints that all hold up to
the tolerance keeps the chosen constraint it started with. -/
theorem chooseConstraint_scan_within (n : Nat) (x : QPVector K) (A : QPMatrix K)
    (Alb Aub : QPVector K) (tol : K) (count i : Nat)
    (st : ChosenConstraint K × (Nat → ConstraintStatus))
    (hst : ∀ j, i ≤ j → j < i + count → st.2 j = ConstraintStatus.INACTIVE)
    (hw : ∀ j, i ≤ j → j < i + count → Within n x A Alb Aub tol j) :
    (forUp (Solver.chooseConstraintStep n x A Alb Aub tol) i count st).1 = st.1 ∧
    (∀ j, i ≤ j → j < i + count →
      (forUp (Solver.chooseConstraintStep n x A Alb Aub tol) i count st).2 j
        = ConstraintStatus.INACTIVE) ∧
    ∀ j, j < i →
      (forUp (Solver.chooseConstraintStep n x A Alb Aub tol) i count st).2 j = st.2 j := by
  induction count generalizing i st with
  | zero =>
    refine ⟨rfl, ?_, fun _ _ => rfl⟩
    intro j h1 h2
    omega
  | succ count ih =>
    have hstep := chooseConstraintStep_within n x A Alb Aub tol i st
      (Or.inl (hst i (le_refl i) (by omega))) (hw i (le_refl i) (by omega))
    show (forUp (Solver.chooseConstraintStep n x A Alb Aub tol) (i + 1) count
        (Solver.chooseConstraintStep n x A Alb Aub tol i st)).1 = st.1 ∧
      (∀ j, i ≤ j → j < i + (count + 1) →
        (forUp (Solver.chooseConstraintStep n x A Alb Aub tol) (i + 1) count
          (Solver.chooseConstraintStep n x A Alb Aub tol i st)).2 j
            = ConstraintStatus.INACTIVE) ∧
      ∀ j, j < i →
        (forUp (Solver.chooseConstraintStep n x A Alb Aub tol) (i + 1) count
          (Solver.chooseConstraintStep n x A Alb Aub tol i st)).2 j = st.2 j
    rw [hstep]
    have h2 := ih (i + 1) (st.1, Function.update st.2 i ConstraintStatus.INACTIVE)
      (fun j h1 h2 => by
        show Function.update st.2 i ConstraintStatus.INACTIVE j = _
        rw [Function.update_noteq (by omega)]
        exact hst j (by omega) (by omega))
      (fun j h1 h2 => hw j (by omega) (by omega))
    refine ⟨h2.1, ?_, ?_⟩
    · intro j h3 h4
      rcases Nat.eq_or_lt_of_le h3 with h | h
      · subst h
        rw [h2.2.2 i (Nat.lt_succ_self i)]
        show Function.update st.2 i ConstraintStatus.INACTIVE i = _
        rw [Function.update_same]
      · exact h2.2.1 j h (by omega)
    · intro j hj
      rw [h2.2.2 j (by omega)]
      show Function.update st.2 i ConstraintStatus.INACTIVE j = _
      rw [Function.update_noteq (by omega)]

/-- A start that is feasible up to the tolerance: when no general constraint is
an equality and the unconstrained minimum `x₀` satisfies every constraint up to
the tolerance, `solve` returns `OK` in the first iteration of the main loop, with
`x = x₀`, no constraint activated and every constraint marked inactive. -/
theorem feasible_start_ok (sqrt : K → K) (asserts : Bool) (sizes : InputParser)
    (L : QPMatrix K) (h : QPVector K) (A : QPMatrix K) (Alb Aub : QPVector K)
    (param : SolverParameters K) (fuel : Nat) (htol : 0 < param.tolerance_)
    (hmax : param.max_iter_ ≠ 0) (hfuel : 0 < fuel)
    (hm : 0 < sizes.num_general_constraints_)
    (hne : ∀ j, j < sizes.num_general_constraints_ → Alb j + param.tolerance_ < Aub j)
    (hw : ∀ j, j < sizes.num_general_constraints_ →
      Within sizes.primal_size_ (Solver.entry sizes L h).primal A Alb Aub param.tolerance_ j) :
    ∃ s : Solver K,
      Solver.solveWithFactor sqrt asserts sizes L h A Alb Aub param fuel
        = some (Outcome.returned ReturnStatus.OK s) ∧
      s.primal = (Solver.entry sizes L h).primal ∧
      s.machinery_initialized_ = false ∧ s.active_set_.size_ = 0 ∧
      ∀ j, j < sizes.num_general_constraints_ →
        s.general_constraints_status_ j = ConstraintStatus.INACTIVE := by
  obtain ⟨s1, e1, e2, e3, e4, e5, e6, _⟩ := inactive_loop sqrt L A Alb Aub param htol.le
    sizes.num_general_constraints_ 0 (Solver.entry sizes L h, 0)
    (fun j _ h2 => hne j (by omega))
  have hscan := chooseConstraint_scan_within sizes.primal_size_ s1.primal A Alb Aub
    param.tolerance_ sizes.num_general_constraints_ 0
    (ChosenConstraint.init, s1.general_constraints_status_)
    (fun j h1 h2 => e6 j h1 h2)
    (fun j _ h2 => by
      rw [e3]
      exact hw j (by omega))
  have hsz1 : s1.primal_size_ = sizes.primal_size_ := congrArg InputParser.primal_size_ e2
  have hsz2 : s1.num_general_constraints_ = sizes.num_general_constraints_ :=
    congrArg InputParser.num_general_constraints_ e2
  have hentry : Solver.mainEntry s1 A Alb Aub param
      = ({ s1 with
            dual_ := fun _ => 0
            dual_step_direction_ := fun _ => 0
            general_constraints_status_ :=
              (forUp (Solver.chooseConstraintStep sizes.primal_size_ s1.primal A Alb Aub
                param.tolerance_) 0 sizes.num_general_constraints_
                (ChosenConstraint.init, s1.general_constraints_status_)).2 },
          (forUp (Solver.chooseConstraintStep sizes.primal_size_ s1.primal A Alb Aub
            param.tolerance_) 0 sizes.num_general_constraints_
            (ChosenConstraint.init, s1.general_constraints_status_)).1) := by
    unfold Solver.mainEntry Solver.chooseConstraint
    dsimp only
    rw [hsz1, hsz2]
  refine ⟨(Solver.mainEntry s1 A Alb Aub param).1, ?_, ?_, ?_, ?_, ?_⟩
  · unfold Solver.solveWithFactor
    dsimp only
    rw [if_neg (show ¬ 0 = (Solver.entry sizes L h).num_simple_bounds_
      + (Solver.entry sizes L h).num_general_constraints_ by
        show ¬ 0 = sizes.num_simple_bounds_ + sizes.num_general_constraints_
        omega)]
    rw [show (Solver.entry sizes L h).num_general_constraints_
      = sizes.num_general_constraints_ from rfl, e1]
    dsimp only
    rw [if_neg (by
      intro hc
      rw [hsz2] at hc
      omega)]
    obtain ⟨f, rfl⟩ : ∃ f, fuel = f + 1 := ⟨fuel - 1, by omega⟩
    unfold Solver.mainLoop
    rw [if_pos (by
      rcases lt_or_gt_of_ne hmax with hc | hc
      · exact Or.inr hc
      · exact Or.inl hc)]
    rw [mainStep_ok_eq sqrt asserts L A Alb Aub param _ (by
      rw [hentry]
      show |(forUp (Solver.chooseConstraintStep sizes.primal_size_ s1.primal A Alb Aub
        param.tolerance_) 0 sizes.num_general_constraints_
        (ChosenConstraint.init, s1.general_constraints_status_)).1.violation_| < _
      rw [hscan.1]
      show |(0 : K)| < _
      rw [abs_zero]
      exact htol)]
  · rw [hentry]
    exact e3
  · rw [hentry]
    exact e4
  · rw [hentry]
    show s1.active_set_.size_ = 0
    rw [e5]
    rfl
  · intro j hj
    rw [hentry]
    exact hscan.2.1 j (Nat.zero_le j) (by omega)

/-! ## The status INCONSISTENT -/


theorem update_ne_inconsistent (f : Nat → ConstraintStatus) (i : Nat) (v : ConstraintStatus)
    (hf : ∀ k, f k ≠ ConstraintStatus.INCONSISTENT) (hv : v ≠ ConstraintStatus.INCONSISTENT) :
    ∀ k, Function.update f i v k ≠ ConstraintStatus.INCONSISTENT := by
  intro k
  by_cases hk : k = i
  · subst hk
    rw [Function.update_same]
    exact hv
  · rw [Function.update_noteq hk]
    exact hf k

/-- The constraint chosen by `chooseConstraint` has the type of a lower or an
upper bound, or the type `UNDEFINED` of the initial record. -/
theorem chooseConstraint_type (s : Solver K) (x : QPVector K) (A : QPMatrix K)
    (Alb Aub : QPVector K) (tol : K) :
    (s.chooseConstraint x A Alb Aub tol).1.type_ ≠ ConstraintStatus.INCONSISTENT := by
  have := forUp_induction (Solver.chooseConstraintStep s.primal_size_ x A Alb Aub tol)
    (fun _ st => st.1.type_ ≠ ConstraintStatus.INCONSISTENT) 0 s.num_general_constraints_
    (ChosenConstraint.init, s.general_constraints_status_)
    (by
      show ConstraintStatus.UNDEFINED ≠ ConstraintStatus.INCONSISTENT
      decide)
    (by
      intro i t _ _ ht
      unfold Solver.chooseConstraintStep
      dsimp only
      split_ifs
      · show ConstraintStatus.ACTIVE_LOWER_BOUND ≠ ConstraintStatus.INCONSISTENT
        decide
      · exact ht
      · show ConstraintStatus.ACTIVE_UPPER_BOUND ≠ ConstraintStatus.INCONSISTENT
        decide
      · exact ht
      · exact ht
      · exact ht)
  exact this

theorem chooseConstraint_noInconsistent (s : Solver K) (x : QPVector K) (A : QPMatrix K)
    (Alb Aub : QPVector K) (tol : K) (h : s.NoInconsistent) :
    (s.chooseConstraint x A Alb Aub tol).2.NoInconsistent := by
  intro k
  obtain ⟨h1, h2⟩ := chooseConstraint_status s x A Alb Aub tol k
  by_cases hc : (¬ (s.general_constraints_status_ k = ConstraintStatus.INACTIVE ∨
          s.general_constraints_status_ k = ConstraintStatus.VIOLATED) ∨
        s.num_general_constraints_ ≤ k)
  · rw [h1 hc]
    exact h k
  · have hc1 : s.general_constraints_status_ k = ConstraintStatus.INACTIVE ∨
        s.general_constraints_status_ k = ConstraintStatus.VIOLATED := by
      by_contra hn
      exact hc (Or.inl hn)
    have hc2 : k < s.num_general_constraints_ := by
      by_contra hn
      exact hc (Or.inr (by omega))
    rcases h2 hc2 hc1 with ⟨e, _⟩ | ⟨e, _⟩ <;> rw [e] <;> decide

/-- One pass of the equality-activation loop: `INCONSISTENT` is assigned only
when the pass raises for a constraint with `Alb[i] − tol > Aub[i]`. -/
theorem equalityStep_noInconsistent (sqrt : K → K) (H A : QPMatrix K) (Alb Aub : QPVector K)
    (param : SolverParameters K) (i : Nat) (st : Solver K × Nat) (h : st.1.NoInconsistent) :
    (∀ st1, Solver.equalityStep sqrt H A Alb Aub param i st = Step.next st1 →
      st1.1.NoInconsistent) ∧
    (∀ o, Solver.equalityStep sqrt H A Alb Aub param i st = Step.done o →
      (o = Outcome.raised QPError.INCONSISTENT_BOUNDS
            (st.1.setStatus i ConstraintStatus.INCONSISTENT) ∧
        Alb i - param.tolerance_ > Aub i) ∨
      o.state.NoInconsistent) := by
  have hE : ∀ k, Function.update st.1.general_constraints_status_ i ConstraintStatus.EQUALITY k
      ≠ ConstraintStatus.INCONSISTENT :=
    update_ne_inconsistent _ _ _ h (by decide)
  have hI : ∀ k, Function.update st.1.general_constraints_status_ i ConstraintStatus.INACTIVE k
      ≠ ConstraintStatus.INCONSISTENT :=
    update_ne_inconsistent _ _ _ h (by decide)
  have hcand : ((st.1.setStatus i ConstraintStatus.EQUALITY).initializeMachineryLazy
      H).general_constraints_status_
      = Function.update st.1.general_constraints_status_ i ConstraintStatus.EQUALITY := by
    rw [Solver.init_status]
    rfl
  unfold Solver.equalityStep
  dsimp only
  split_ifs with h1 h2 h3 h4 h5 h6 h7
  · refine ⟨fun st1 e => absurd e (by simp), fun o e => Or.inl ⟨?_, h1⟩⟩
    injection e with e
    exact e.symm
  · refine ⟨fun st1 e => ?_, fun o e => absurd e (by simp)⟩
    injection e with e
    subst e
    exact hI
  · refine ⟨fun st1 e => absurd e (by simp), fun o e => Or.inr ?_⟩
    injection e with e
    subst e
    intro k
    show ((st.1.setStatus i ConstraintStatus.EQUALITY).initializeMachineryLazy
      H).general_constraints_status_ k ≠ _
    rw [hcand]
    exact hE k
  · refine ⟨fun st1 e => ?_, fun o e => absurd e (by simp)⟩
    injection e with e
    subst e
    intro k
    show ((st.1.setStatus i ConstraintStatus.EQUALITY).initializeMachineryLazy
      H).general_constraints_status_ k ≠ _
    rw [hcand]
    exact hE k
  · refine ⟨fun st1 e => absurd e (by simp), fun o e => Or.inr ?_⟩
    injection e with e
    subst e
    intro k
    show ((st.1.setStatus i ConstraintStatus.EQUALITY).initializeMachineryLazy
      H).general_constraints_status_ k ≠ _
    rw [hcand]
    exact hE k
  · refine ⟨fun st1 e => ?_, fun o e => absurd e (by simp)⟩
    injection e with e
    subst e
    intro k
    show ((st.1.setStatus i ConstraintStatus.EQUALITY).initializeMachineryLazy
      H).general_constraints_status_ k ≠ _
    rw [hcand]
    exact hE k
  · refine ⟨fun st1 e => absurd e (by simp), fun o e => Or.inr ?_⟩
    injection e with e
    subst e
    intro k
    show ((st.1.setStatus i ConstraintStatus.EQUALITY).initializeMachineryLazy
      H).general_constraints_status_ k ≠ _
    rw [hcand]
    exact hE k
  · refine ⟨fun st1 e => ?_, fun o e => absurd e (by simp)⟩
    injection e with e
    subst e
    intro k
    show ((st.1.setStatus i ConstraintStatus.EQUALITY).initializeMachineryLazy
      H).general_constraints_status_ k ≠ _
    rw [hcand]
    exact hE k

/-- The equality-activation loop: `INCONSISTENT` is assigned only when the loop
raises for a constraint with `Alb[j] − tol > Aub[j]`. -/
theorem equalityLoop_noInconsistent (sqrt : K → K) (H A : QPMatrix K) (Alb Aub : QPVector K)
    (param : SolverParameters K) (count i : Nat) (st : Solver K × Nat)
    (h : st.1.NoInconsistent) :
    (∀ st1, Solver.equalityLoop sqrt H A Alb Aub param count i st = Step.next st1 →
      st1.1.NoInconsistent) ∧
    (∀ o, Solver.equalityLoop sqrt H A Alb Aub param count i st = Step.done o →
      (∃ (j : Nat) (s : Solver K), i ≤ j ∧ j < i + count ∧ s.NoInconsistent ∧
        o = Outcome.raised QPError.INCONSISTENT_BOUNDS
          (s.setStatus j ConstraintStatus.INCONSISTENT) ∧
        Alb j - param.tolerance_ > Aub j) ∨
      o.state.NoInconsistent) := by
  induction count generalizing i st with
  | zero =>
    have e : Solver.equalityLoop sqrt H A Alb Aub param 0 i st = Step.next st := by
      unfold Solver.equalityLoop
      rfl
    rw [e]
    refine ⟨fun st1 e1 => ?_, fun o e1 => absurd e1 (by simp)⟩
    injection e1 with e1
    subst e1
    exact h
  | succ count ih =>
    obtain ⟨k1, k2⟩ := equalityStep_noInconsistent sqrt H A Alb Aub param i st h
    cases hstep : Solver.equalityStep sqrt H A Alb Aub param i st with
    | next st2 =>
      rw [equalityLoop_cons sqrt H A Alb Aub param count i st st2 hstep]
      obtain ⟨g1, g2⟩ := ih (i + 1) st2 (k1 st2 hstep)
      refine ⟨g1, fun o e => ?_⟩
      rcases g2 o e with ⟨j, s, a1, a2, a3, a4, a5⟩ | a
      · exact Or.inl ⟨j, s, by omega, by omega, a3, a4, a5⟩
      · exact Or.inr a
    | done o1 =>
      rw [equalityLoop_done_first sqrt H A Alb Aub param count i st o1 hstep]
      refine ⟨fun st1 e => absurd e (by simp), fun o e => ?_⟩
      injection e with e
      subst e
      rcases k2 o1 hstep with ⟨a1, a2⟩ | a
      · exact Or.inl ⟨i, st.1, le_refl i, by omega, h, a1, a2⟩
      · exact Or.inr a

/-- One iteration of the main loop never assigns `INCONSISTENT`. -/
theorem mainStep_noInconsistent (sqrt : K → K) (asserts : Bool)
    (H A : QPMatrix K) (Alb Aub : QPVector K) (param : SolverParameters K)
    (st : Solver K × ChosenConstraint K) (h : st.1.NoInconsistent)
    (ht : st.2.type_ ≠ ConstraintStatus.INCONSISTENT) :
    (∀ st1, Solver.mainStep sqrt asserts H A Alb Aub param st = Step.next st1 →
      st1.1.NoInconsistent ∧ st1.2.type_ ≠ ConstraintStatus.INCONSISTENT) ∧
    (∀ o, Solver.mainStep sqrt asserts H A Alb Aub param st = Step.done o →
      o.state.NoInconsistent) := by
  have hs : ((st.1.initializeMachineryLazy H).computeStepDirections A
      st.2).general_constraints_status_ = st.1.general_constraints_status_ := by
    rw [Solver.computeStepDirections_status, Solver.init_status]
  have hs1 : ((st.1.initializeMachineryLazy H).computeStepDirections A st.2).NoInconsistent := by
    intro k
    rw [hs]
    exact h k
  unfold Solver.mainStep
  dsimp only
  split_ifs
  · refine ⟨fun st1 e => absurd e (by simp), fun o e => ?_⟩
    injection e with e
    subst e
    exact h
  · refine ⟨fun st1 e => absurd e (by simp), fun o e => ?_⟩
    injection e with e
    subst e
    exact hs1
  · refine ⟨fun st1 e => absurd e (by simp), fun o e => ?_⟩
    injection e with e
    subst e
    exact hs1
  · refine ⟨fun st1 e => ?_, fun o e => absurd e (by simp)⟩
    injection e with e
    subst e
    exact ⟨update_ne_inconsistent _ _ _ hs1 (by decide), ht⟩
  · refine ⟨fun st1 e => ?_, fun o e => absurd e (by simp)⟩
    injection e with e
    subst e
    exact ⟨chooseConstraint_noInconsistent _ _ A Alb Aub _
        (update_ne_inconsistent _ _ _ hs1 ht),
      chooseConstraint_type _ _ A Alb Aub _⟩
  · refine ⟨fun st1 e => absurd e (by simp), fun o e => ?_⟩
    injection e with e
    subst e
    exact hs1
  · refine ⟨fun st1 e => ?_, fun o e => absurd e (by simp)⟩
    injection e with e
    subst e
    exact ⟨update_ne_inconsistent _ _ _ hs1 (by decide), ht⟩

/-- The main loop never assigns `INCONSISTENT`. -/
theorem mainLoop_noInconsistent (sqrt : K → K) (asserts : Bool)
    (H A : QPMatrix K) (Alb Aub : QPVector K) (param : SolverParameters K)
    (fuel : Nat) (iter : Int) (st : Solver K × ChosenConstraint K) (o : Outcome K)
    (h : st.1.NoInconsistent) (ht : st.2.type_ ≠ ConstraintStatus.INCONSISTENT)
    (hrun : Solver.mainLoop sqrt asserts H A Alb Aub param fuel iter st = some o) :
    o.state.NoInconsistent := by
  induction fuel generalizing iter st with
  | zero =>
    unfold Solver.mainLoop at hrun
    exact absurd hrun (by simp)
  | succ fuel ih =>
    unfold Solver.mainLoop at hrun
    obtain ⟨k1, k2⟩ := mainStep_noInconsistent sqrt asserts H A Alb Aub param st h ht
    split at hrun
    · cases hstep : Solver.mainStep sqrt asserts H A Alb Aub param st with
      | next st1 =>
        rw [hstep] at hrun
        exact ih (iter + 1) st1 (k1 st1 hstep).1 (k1 st1 hstep).2 hrun
      | done o1 =>
        rw [hstep] at hrun
        injection hrun with hrun
        subst hrun
        exact k2 o1 hstep
    · injection hrun with hrun
      subst hrun
      exact h

/-- Every way in which `solve` ends, once the factor is prepared: either it
raises for an inconsistent constraint, the only one then marked `INCONSISTENT`,
or no constraint is marked `INCONSISTENT`. -/
theorem solveWithFactor_noInconsistent (sqrt : K → K) (asserts : Bool) (sizes : InputParser)
    (L : QPMatrix K) (h : QPVector K) (A : QPMatrix K) (Alb Aub : QPVector K)
    (param : SolverParameters K) (fuel : Nat) (o : Outcome K)
    (hrun : Solver.solveWithFactor sqrt asserts sizes L h A Alb Aub param fuel = some o) :
    (∃ (j : Nat) (s : Solver K), j < sizes.num_general_constraints_ ∧ s.NoInconsistent ∧
      o = Outcome.raised QPError.INCONSISTENT_BOUNDS
        (s.setStatus j ConstraintStatus.INCONSISTENT) ∧
      Alb j - param.tolerance_ > Aub j) ∨
    o.state.NoInconsistent := by
  have h0 : (Solver.entry sizes L h).NoInconsistent := by
    intro k
    show ConstraintStatus.UNDEFINED ≠ ConstraintStatus.INCONSISTENT
    decide
  unfold Solver.solveWithFactor at hrun
  dsimp only at hrun
  split at hrun
  · injection hrun with hrun
    subst hrun
    exact Or.inr h0
  obtain ⟨k1, k2⟩ := equalityLoop_noInconsistent sqrt L A Alb Aub param
    (Solver.entry sizes L h).num_general_constraints_ 0 (Solver.entry sizes L h, 0) h0
  cases hloop : Solver.equalityLoop sqrt L A Alb Aub param
      (Solver.entry sizes L h).num_general_constraints_ 0 (Solver.entry sizes L h, 0) with
  | done o1 =>
    rw [hloop] at hrun
    injection hrun with hrun
    subst hrun
    rcases k2 o1 hloop with ⟨j, s, _, a2, a3, a4, a5⟩ | a
    · refine Or.inl ⟨j, s, ?_, a3, a4, a5⟩
      have : (Solver.entry sizes L h).num_general_constraints_
          = sizes.num_general_constraints_ := rfl
      omega
    · exact Or.inr a
  | next st =>
    rw [hloop] at hrun
    dsimp only at hrun
    have hst := k1 st hloop
    split at hrun
    · injection hrun with hrun
      subst hrun
      exact Or.inr hst
    · refine Or.inr (mainLoop_noInconsistent sqrt asserts L A Alb Aub param fuel 0 _ o ?_ ?_ hrun)
      · exact chooseConstraint_noInconsistent _ _ A Alb Aub _ hst
      · exact chooseConstraint_type _ _ A Alb Aub _

/-! ## Update followed by downdate -/


/-- The call `downdate(k, k + 1)` runs no iteration of its loop. -/
theorem downdate_last (sqrt : K → K) (fd : FactorizationData K) (k : Nat) (tol : K) :
    fd.downdate sqrt k (k + 1) tol = fd := by
  unfold FactorizationData.downdate
  rw [Nat.sub_self]
  rfl

/-- A step of `update` on an entry that is already zero changes nothing. -/
theorem updateStep_zero (sqrt : K → K) (k i : Nat) (fd : FactorizationData K)
    (h0 : fd.R i k = 0) : FactorizationData.updateStep sqrt k i fd = fd := by
  have hg : GivensReflection.computeAndApply sqrt (fd.R (i - 1) k) (fd.R i k) 0
      = ({ c := 1, s := 0 }, fd.R (i - 1) k, fd.R i k) := by
    unfold GivensReflection.computeAndApply
    rw [if_pos h0]
  unfold FactorizationData.updateStep
  rw [hg]
  have hR : (fun r c =>
      if c = k then
        if r = i - 1 then fd.R (i - 1) k else if r = i then fd.R i k else fd.R r c
      else fd.R r c) = fd.R := by
    funext r c
    by_cases hc : c = k
    · subst hc
      rw [if_pos rfl]
      by_cases hr : r = i - 1
      · rw [if_pos hr, hr]
      · rw [if_neg hr]
        by_cases hr2 : r = i
        · rw [if_pos hr2, hr2]
        · rw [if_neg hr2]
    · rw [if_neg hc]
  have hJ : GivensReflection.applyColumnWise ({ c := 1, s := 0 } : GivensReflection K)
      fd.QLi_aka_J 0 fd.primal_size_ (i - 1) i = fd.QLi_aka_J := by
    funext r col
    unfold GivensReflection.applyColumnWise
    dsimp only
    by_cases hr : 0 ≤ r ∧ r < fd.primal_size_
    · rw [if_pos hr]
      by_cases h1 : col = i - 1
      · rw [if_pos h1, h1]
        ring
      · rw [if_neg h1]
        by_cases h2 : col = i
        · rw [if_pos h2, h2]
          ring
        · rw [if_neg h2]
    · rw [if_neg hr]
  dsimp only
  rw [hR, hJ]

/-- The loop of `update` on a column that vanishes below the diagonal changes
nothing. -/
theorem updateLoop_zero (sqrt : K → K) (k i : Nat) (fd : FactorizationData K)
    (h0 : ∀ r, k < r → r ≤ i → fd.R r k = 0) :
    FactorizationData.updateLoop sqrt k i fd = fd := by
  induction i with
  | zero => rfl
  | succ i ih =>
    unfold FactorizationData.updateLoop
    split_ifs with h
    · rw [updateStep_zero sqrt k (i + 1) fd (h0 (i + 1) h (le_refl _))]
      exact ih (fun r h1 h2 => h0 r h1 (by omega))
    · rfl

/-! ## The step kernels -/


/-- The dual step direction written by `computeInequalitySteps`. -/
theorem computeInequalitySteps_z (fd : FactorizationData K) (dd a : QPVector K)
    (t : ConstraintStatus) (as : ActiveSet) :
    (fd.computeInequalitySteps dd a t as).2.2
      = fun k =>
          if as.num_equalities_ ≤ k ∧ k < as.num_equalities_ + as.num_inequalities_ then
            -(backSolve (fd.computeInequalitySteps dd a t as).1.R
                (fun k => (fd.computeInequalitySteps dd a t as).1.R k as.size_)
                (as.num_equalities_ + as.num_inequalities_) as.num_inequalities_ k)
          else dd k := rfl

/-! ## update accepts -/


/-- With a tolerance `tol ≤ 1`, `update` accepts every chosen constraint whose
primal step direction has `|A[chosen]·p| > tol`. -/
theorem takeStep_accepts (sqrt : K → K) (hs : IsSqrt sqrt) (s : Solver K) (A : QPMatrix K)
    (ch : ChosenConstraint K) (tol t : K) (htol : 0 ≤ tol) (htol1 : tol ≤ 1)
    (hwf : s.WF A) (hspace : s.active_set_.hasEmptySpace = true)
    (hcp : |dot s.primal_size_ (A ch.index_)
      (s.computeStepDirections A ch).primal_step_direction_| > tol) :
    ((s.computeStepDirections A ch).takeStep sqrt t tol).2 = true := by
  have hq : s.active_set_.size_ < s.primal_size_ := by
    rw [← hwf.max_size]
    exact (hasEmptySpace_iff _).mp hspace
  have hfd := hwf.fd_size
  show ((s.computeStepDirections A ch).factorization_data_.update sqrt
    (s.computeStepDirections A ch).active_set_.size_ tol).2 = true
  rw [Solver.computeStepDirections_fd s A ch hspace, Solver.computeStepDirections_active_set]
  rw [update_snd sqrt hs _ _ _ (by rw [computeInequalitySteps_size, hfd]; exact hq)]
  rw [computeInequalitySteps_size, hfd]
  refine hs.le_sqrt ?_
  rw [Solver.computeStepDirections_p s A ch hspace] at hcp
  have hdot := computeInequalitySteps_dot s.factorization_data_ s.dual_step_direction_
    (A ch.index_) ch.type_ s.active_set_
  rw [hfd] at hdot
  have e : ∑ k in Finset.Ico s.active_set_.size_ s.primal_size_,
      (s.factorization_data_.computeInequalitySteps s.dual_step_direction_ (A ch.index_)
        ch.type_ s.active_set_).1.R k s.active_set_.size_
      * (s.factorization_data_.computeInequalitySteps s.dual_step_direction_ (A ch.index_)
        ch.type_ s.active_set_).1.R k s.active_set_.size_
      = ∑ k in Finset.Ico s.active_set_.size_ s.primal_size_,
          colT s.primal_size_ s.factorization_data_.QLi_aka_J (A ch.index_) k
          * colT s.primal_size_ s.factorization_data_.QLi_aka_J (A ch.index_) k := by
    refine Finset.sum_congr rfl (fun k hk => ?_)
    rw [computeInequalitySteps_R_col _ _ _ _ _ k (by rw [hfd]; exact (Finset.mem_Ico.mp hk).2),
      hfd, colT_signedRow]
    split_ifs
    · ring
    · rfl
  rw [e]
  have hnn : 0 ≤ ∑ k in Finset.Ico s.active_set_.size_ s.primal_size_,
      colT s.primal_size_ s.factorization_data_.QLi_aka_J (A ch.index_) k
      * colT s.primal_size_ s.factorization_data_.QLi_aka_J (A ch.index_) k :=
    Finset.sum_nonneg (fun k _ => mul_self_nonneg _)
  rw [hdot] at hcp
  have hS : tol < ∑ k in Finset.Ico s.active_set_.size_ s.primal_size_,
      colT s.primal_size_ s.factorization_data_.QLi_aka_J (A ch.index_) k
      * colT s.primal_size_ s.factorization_data_.QLi_aka_J (A ch.index_) k := by
    split_ifs at hcp
    · rwa [abs_of_nonneg hnn] at hcp
    · rwa [abs_neg, abs_of_nonneg hnn] at hcp
  nlinarith

/-- With `0 ≤ tol ≤ 1` no pass of the equality-activation loop raises because
`update` failed. -/
theorem equalityStep_no_fail (sqrt : K → K) (hs : IsSqrt sqrt) (H A : QPMatrix K)
    (Alb Aub : QPVector K) (param : SolverParameters K) (htol : 0 ≤ param.tolerance_)
    (htol1 : param.tolerance_ ≤ 1) (i : Nat) (st : Solver K × Nat)
    (hinv : (st.1.initializeMachineryLazy H).EqInv A Alb Aub param.tolerance_ i st.2)
    (e : QPError) (s : Solver K)
    (he : e = QPError.FAILED_TO_ADD_EQUALITY ∨ e = QPError.FAILED_TO_ADD_INEQUALITY) :
    Solver.equalityStep sqrt H A Alb Aub param i st ≠ Step.done (Outcome.raised e s) := by
  intro h
  by_cases h1 : Alb i - param.tolerance_ > Aub i
  · rw [equalityStep_inconsistent sqrt H A Alb Aub param i st h1] at h
    injection h with h
    injection h with h
    rcases he with he | he <;> rw [he] at h <;> exact absurd h (by decide)
  by_cases h2 : |Alb i - Aub i| > param.tolerance_
  · rw [equalityStep_inactive sqrt H A Alb Aub param i st h1 h2] at h
    exact absurd h (by simp)
  by_cases h3 : (st.1.eqCandidate H i).active_set_.hasEmptySpace = true ∧
      st.1.eqRho H A i < -param.tolerance_
  · have h5 := equalityTake_accepts sqrt hs st.1 H A Alb Aub param.tolerance_ i i st.2
      ((Alb i - dot st.1.primal_size_ (A i) st.1.primal) / st.1.eqRho H A i) htol htol1 hinv
      h3.1 h3.2
    rw [equalityStep_activate sqrt H A Alb Aub param i st h1 h2 h3.1 h3.2 h5] at h
    exact absurd h (by simp)
  · have h3' : (st.1.eqCandidate H i).active_set_.hasEmptySpace = false ∨
        ¬ st.1.eqRho H A i < -param.tolerance_ := by
      by_cases hsp : (st.1.eqCandidate H i).active_set_.hasEmptySpace = true
      · exact Or.inr (fun hr => h3 ⟨hsp, hr⟩)
      · exact Or.inl (by simpa using hsp)
    rw [equalityStep_dependent sqrt H A Alb Aub param i st h1 h2 h3'] at h
    split_ifs at h
    all_goals exact absurd h (by simp)

/-- With `0 ≤ tol ≤ 1` the equality-activation loop never raises because `update`
failed. -/
theorem equalityLoop_no_fail (sqrt : K → K) (hs : IsSqrt sqrt) (H A : QPMatrix K)
    (Alb Aub : QPVector K) (param : SolverParameters K) (htol : 0 ≤ param.tolerance_)
    (htol1 : param.tolerance_ ≤ 1) (count i : Nat) (st : Solver K × Nat)
    (hinv : (st.1.initializeMachineryLazy H).EqInv A Alb Aub param.tolerance_ i st.2)
    (e : QPError) (s : Solver K)
    (he : e = QPError.FAILED_TO_ADD_EQUALITY ∨ e = QPError.FAILED_TO_ADD_INEQUALITY) :
    Solver.equalityLoop sqrt H A Alb Aub param count i st ≠ Step.done (Outcome.raised e s) := by
  induction count generalizing i st with
  | zero =>
    unfold Solver.equalityLoop
    simp
  | succ count ih =>
    cases hstep : Solver.equalityStep sqrt H A Alb Aub param i st with
    | next st2 =>
      rw [equalityLoop_cons sqrt H A Alb Aub param count i st st2 hstep]
      exact ih (i + 1) st2
        (equalityStep_next sqrt hs H A Alb Aub param htol i st st2 hinv hstep).1
    | done o =>
      rw [equalityLoop_done_first sqrt H A Alb Aub param count i st o hstep]
      intro h
      rw [h] at hstep
      exact equalityStep_no_fail sqrt hs H A Alb Aub param htol htol1 i st hinv e s he hstep

/-- When an iteration of the main loop raises because `update` failed, the
active set had room, `|A[chosen]·p| > tol`, and `update` returned `false`. -/
theorem mainStep_failed (sqrt : K → K) (asserts : Bool)
    (H A : QPMatrix K) (Alb Aub : QPVector K) (param : SolverParameters K)
    (st : Solver K × ChosenConstraint K) (e : QPError) (s : Solver K)
    (he : e = QPError.FAILED_TO_ADD_EQUALITY ∨ e = QPError.FAILED_TO_ADD_INEQUALITY)
    (hstep : Solver.mainStep sqrt asserts H A Alb Aub param st
      = Step.done (Outcome.raised e s)) :
    (st.1.stepState H A st.2).active_set_.hasEmptySpace = true ∧
    |st.1.stepCp H A st.2| > param.tolerance_ ∧
    ∃ t, ((st.1.stepState H A st.2).takeStep sqrt t param.tolerance_).2 = false := by
  unfold Solver.stepCp Solver.stepState
  unfold Solver.mainStep at hstep
  dsimp only at hstep
  split at hstep
  · exact absurd hstep (by simp)
  split at hstep
  · rename_i hc
    refine ⟨hc.1, hc.2, ?_⟩
    split at hstep
    · injection hstep with hstep
      injection hstep with hstep
      rcases he with he | he <;> rw [he] at hstep <;> exact absurd hstep (by decide)
    split at hstep
    · rename_i hflag
      exact ⟨_, hflag⟩
    split at hstep
    · exact absurd hstep (by simp)
    · exact absurd hstep (by simp)
  · split at hstep
    · exact absurd hstep (by simp)
    · exact absurd hstep (by simp)

/-- With `0 < tol ≤ 1` `update` accepts in every iteration of the main loop that
`solve` gets to in which the active set has room and `|A[chosen]·p| > tol`. -/
theorem iterState_accepts (sqrt : K → K) (hs : IsSqrt sqrt) (asserts : Bool)
    (sizes : InputParser) (L : QPMatrix K) (h : QPVector K) (A : QPMatrix K)
    (Alb Aub : QPVector K) (param : SolverParameters K)
    (htol : 0 < param.tolerance_) (htol1 : param.tolerance_ ≤ 1)
    (k : Nat) (st : Solver K × ChosenConstraint K) (t : K)
    (hk : Solver.iterState sqrt asserts sizes L h A Alb Aub param k = some st)
    (hspace : (st.1.stepState L A st.2).active_set_.hasEmptySpace = true)
    (hcp : |st.1.stepCp L A st.2| > param.tolerance_) :
    ((st.1.stepState L A st.2).takeStep sqrt t param.tolerance_).2 = true := by
  obtain ⟨hM, _⟩ := iterState_mainState sqrt hs asserts sizes L h A Alb Aub param htol k st hk
  unfold Solver.stepCp Solver.stepState at *
  rw [Solver.computeStepDirections_active_set] at hspace
  rw [congrArg InputParser.primal_size_ (Solver.computeStepDirections_sizes _ A _)] at hcp
  exact takeStep_accepts sqrt hs _ A st.2 param.tolerance_ t htol.le htol1 hM.1.wf hspace hcp

/-- In the first iteration of the active-bound scenario the active set has
room. -/
theorem activeBound_space :
    ((singleStart 1 1 (matOf [[1]]) (vecOf [0]) (matOf [[1]])
        (vecOf [1] : QPVector ℝ)).1.stepState (matOf [[1]]) (matOf [[1]])
      (singleStart 1 1 (matOf [[1]]) (vecOf [0]) (matOf [[1]])
        (vecOf [1] : QPVector ℝ)).2).active_set_.hasEmptySpace = true := by
  unfold Solver.stepState
  rw [Solver.computeStepDirections_active_set]
  exact singleStart_space 1 1 _ _ _ _ (by decide)

/-- In the first iteration of the active-bound scenario `A[chosen]·p = 1`. -/
theorem activeBound_cp :
    (singleStart 1 1 (matOf [[1]]) (vecOf [0]) (matOf [[1]])
        (vecOf [1] : QPVector ℝ)).1.stepCp (matOf [[1]]) (matOf [[1]])
      (singleStart 1 1 (matOf [[1]]) (vecOf [0]) (matOf [[1]])
        (vecOf [1] : QPVector ℝ)).2 = 1 := by
  rw [singleStart_cp 1 1 _ _ _ _ (by decide)]
  have hd : ∀ k, k < 1 → (matOf [[1]] : QPMatrix ℝ) k k ≠ 0 := by
    intro k hk
    have : k = 0 := by omega
    subst this
    simp [matOf]
  have hH : ∀ r c, r < 1 → c < 1 → (matOf [[1]] : QPMatrix ℝ) r c
      = ∑ k in Finset.range 1, lowerPart (matOf [[1]] : QPMatrix ℝ) r k
          * lowerPart (matOf [[1]] : QPMatrix ℝ) c k := by
    intro r c hr hc
    have : r = 0 := by omega
    subst this
    have : c = 0 := by omega
    subst this
    simp [lowerPart, matOf]
  rw [curvature_factor 1 (matOf [[1]] : QPMatrix ℝ) (matOf [[1]])
    ((matOf [[1]] : QPMatrix ℝ) 0) (vecOf [1]) hd hH (by
      intro r hr
      have : r = 0 := by omega
      subst this
      simp [matOf, vecOf])]
  simp [vecOf, matOf, dot]

/-! ## The dual-only branch -/


/-- The dual blocking sweep returns the sentinel `n` exactly when no position
among the active inequalities has a dual step direction below `−tol`. -/
theorem Solver.dualBlocking_sentinel (s : Solver K) (tol : K)
    (hle : s.active_set_.num_equalities_ ≤ s.active_set_.size_)
    (hn : s.active_set_.size_ ≤ s.primal_size_) :
    (s.dualBlocking tol).1 = s.primal_size_ ↔
      ∀ i, s.active_set_.num_equalities_ ≤ i → i < s.active_set_.size_ →
        ¬ s.dual_step_direction_ i < -tol := by
  have := forUp_induction (Solver.dualBlockingStep tol s.dual_ s.dual_step_direction_)
    (fun i st => ((st.1 = s.primal_size_ ∧ st.2 = none) ∧
        ∀ j, s.active_set_.num_equalities_ ≤ j → j < i → ¬ s.dual_step_direction_ j < -tol) ∨
      (s.active_set_.num_equalities_ ≤ st.1 ∧ st.1 < i ∧ s.dual_step_direction_ st.1 < -tol ∧
        ∃ t, st.2 = some t))
    s.active_set_.num_equalities_ (s.active_set_.size_ - s.active_set_.num_equalities_)
    (s.primal_size_, none) (Or.inl ⟨⟨rfl, rfl⟩, fun j h1 h2 => by omega⟩) (by
      intro i st h1 h2 h3
      unfold Solver.dualBlockingStep
      split_ifs with hd
      · rcases h3 with ⟨⟨_, h4⟩, _⟩ | ⟨h4, h5, h7, t, h6⟩
        · rw [h4]
          exact Or.inr ⟨h1, Nat.lt_succ_self i, hd, _, rfl⟩
        · rw [h6]
          dsimp only
          split_ifs
          · exact Or.inr ⟨h1, Nat.lt_succ_self i, hd, _, rfl⟩
          · exact Or.inr ⟨h4, by omega, h7, t, h6⟩
      · rcases h3 with ⟨h3, h4⟩ | ⟨h4, h5, h6⟩
        · refine Or.inl ⟨h3, fun j hj1 hj2 => ?_⟩
          rcases Nat.eq_or_lt_of_le (Nat.le_of_lt_succ hj2) with e | e
          · rw [e]
            exact hd
          · exact h4 j hj1 e
        · exact Or.inr ⟨h4, by omega, h6⟩)
  rw [Nat.add_sub_cancel' hle] at this
  have hdef : s.dualBlocking tol
      = forUp (Solver.dualBlockingStep tol s.dual_ s.dual_step_direction_)
          s.active_set_.num_equalities_ (s.active_set_.size_ - s.active_set_.num_equalities_)
          (s.primal_size_, none) := rfl
  rw [hdef]
  rcases this with ⟨⟨h1, _⟩, h2⟩ | ⟨h1, h2, h3, _⟩
  · exact ⟨fun _ => h2, fun _ => h1⟩
  · constructor
    · intro h
      rw [h] at h2
      omega
    · intro h
      exact absurd h3 (h _ h1 h2)

/-- When an iteration returns `INFEASIBLE_INEQUALITY` (line 326): the violation is
not below the tolerance, the primal step is not taken, the sweep found no dual
blocker, and the state returned is the one after the step directions were
computed. -/
theorem mainStep_infeasible_iff (sqrt : K → K) (asserts : Bool)
    (H A : QPMatrix K) (Alb Aub : QPVector K) (param : SolverParameters K)
    (st : Solver K × ChosenConstraint K) (s : Solver K) :
    Solver.mainStep sqrt asserts H A Alb Aub param st
        = Step.done (Outcome.returned ReturnStatus.INFEASIBLE_INEQUALITY s) ↔
      ¬ |st.2.violation_| < param.tolerance_ ∧
      ¬ ((st.1.stepState H A st.2).active_set_.hasEmptySpace = true ∧
          |st.1.stepCp H A st.2| > param.tolerance_) ∧
      ((st.1.stepState H A st.2).dualBlocking param.tolerance_).1
        = (st.1.stepState H A st.2).primal_size_ ∧
      s = st.1.stepState H A st.2 := by
  unfold Solver.stepCp Solver.stepState
  unfold Solver.mainStep
  dsimp only
  constructor
  · intro hstep
    split at hstep
    · injection hstep with hstep
      injection hstep with hstep
      exact absurd hstep (by decide)
    rename_i h0
    split at hstep
    · exfalso
      split at hstep
      · exact absurd hstep (by simp)
      split at hstep
      · exact absurd hstep (by simp)
      split at hstep
      · exact absurd hstep (by simp)
      · exact absurd hstep (by simp)
    rename_i h1
    split at hstep
    · rename_i h2
      injection hstep with hstep
      injection hstep with _ hstep
      exact ⟨h0, h1, h2, hstep.symm⟩
    · exact absurd hstep (by simp)
  · rintro ⟨h0, h1, h2, h3⟩
    rw [if_neg h0, if_neg h1, if_pos h2, h3]

/-- The dual-only step (lines 331-348): the violation is not below the tolerance,
the primal step is not taken and the sweep found a dual blocker. -/
theorem mainStep_dual_only (sqrt : K → K) (asserts : Bool)
    (H A : QPMatrix K) (Alb Aub : QPVector K) (param : SolverParameters K)
    (st : Solver K × ChosenConstraint K)
    (h0 : ¬ |st.2.violation_| < param.tolerance_)
    (h1 : ¬ ((st.1.stepState H A st.2).active_set_.hasEmptySpace = true ∧
          |st.1.stepCp H A st.2| > param.tolerance_))
    (h2 : ((st.1.stepState H A st.2).dualBlocking param.tolerance_).1
        ≠ (st.1.stepState H A st.2).primal_size_) :
    Solver.mainStep sqrt asserts H A Alb Aub param st
      = Step.next (Solver.deactivate sqrt
            ((st.1.stepState H A st.2).dualUpdate
              (((st.1.stepState H A st.2).dualBlocking param.tolerance_).2.getD 0))
            ((st.1.stepState H A st.2).dualBlocking param.tolerance_).1 param.tolerance_,
          { st.2 with
            dual_ := st.2.dual_
              + ((st.1.stepState H A st.2).dualBlocking param.tolerance_).2.getD 0 }) := by
  unfold Solver.stepCp Solver.stepState at *
  unfold Solver.mainStep
  dsimp only
  rw [if_neg h0, if_neg h1, if_neg h2]

/-- The equality-activation loop returns no status other than
`INFEASIBLE_EQUALITY`. -/
theorem equalityLoop_returned (sqrt : K → K) (H A : QPMatrix K) (Alb Aub : QPVector K)
    (param : SolverParameters K) (count i : Nat) (st : Solver K × Nat)
    (status : ReturnStatus) (s : Solver K)
    (h : Solver.equalityLoop sqrt H A Alb Aub param count i st
      = Step.done (Outcome.returned status s)) :
    status = ReturnStatus.INFEASIBLE_EQUALITY := by
  induction count generalizing i st with
  | zero =>
    unfold Solver.equalityLoop at h
    exact absurd h (by simp)
  | succ count ih =>
    cases hstep : Solver.equalityStep sqrt H A Alb Aub param i st with
    | next st2 =>
      rw [equalityLoop_cons sqrt H A Alb Aub param count i st st2 hstep] at h
      exact ih (i + 1) st2 h
    | done o =>
      rw [equalityLoop_done_first sqrt H A Alb Aub param count i st o hstep] at h
      injection h with h
      subst h
      unfold Solver.equalityStep at hstep
      dsimp only at hstep
      repeat' split at hstep
      all_goals (simp at hstep <;> exact hstep.1.symm)

/-- How a call of `solve` can end once the factor is prepared: at one of the two
early `OK` exits, in the equality-activation loop, or in the main loop. -/
theorem solveWithFactor_cases (sqrt : K → K) (asserts : Bool) (sizes : InputParser)
    (L : QPMatrix K) (h : QPVector K) (A : QPMatrix K) (Alb Aub : QPVector K)
    (param : SolverParameters K) (fuel : Nat) (o : Outcome K)
    (hrun : Solver.solveWithFactor sqrt asserts sizes L h A Alb Aub param fuel = some o) :
    (∃ s, o = Outcome.returned ReturnStatus.OK s) ∨
    Solver.equalityLoop sqrt L A Alb Aub param sizes.num_general_constraints_ 0
      (Solver.entry sizes L h, 0) = Step.done o ∨
    ∃ st0, Solver.mainStart sqrt sizes L h A Alb Aub param = some st0 ∧
      Solver.mainLoop sqrt asserts L A Alb Aub param fuel 0 st0 = some o := by
  unfold Solver.solveWithFactor at hrun
  dsimp only at hrun
  split at hrun
  · injection hrun with hrun
    exact Or.inl ⟨_, hrun.symm⟩
  rename_i h0
  cases hloop : Solver.equalityLoop sqrt L A Alb Aub param
      (Solver.entry sizes L h).num_general_constraints_ 0 (Solver.entry sizes L h, 0) with
  | done o1 =>
    rw [hloop] at hrun
    injection hrun with hrun
    subst hrun
    exact Or.inr (Or.inl hloop)
  | next st =>
    rw [hloop] at hrun
    dsimp only at hrun
    split at hrun
    · injection hrun with hrun
      exact Or.inl ⟨_, hrun.symm⟩
    rename_i hne
    refine Or.inr (Or.inr ⟨_, ?_, hrun⟩)
    unfold Solver.mainStart
    rw [if_neg (show ¬ 0 = sizes.num_simple_bounds_ + sizes.num_general_constraints_
      from h0)]
    have hloop' : Solver.equalityLoop sqrt L A Alb Aub param
        sizes.num_general_constraints_ 0 (Solver.entry sizes L h, 0) = Step.next st :=
      hloop
    rw [hloop']
    dsimp only
    rw [if_neg hne]

theorem Solver.computeStepDirections_dual (s : Solver K) (A : QPMatrix K)
    (ch : ChosenConstraint K) : (s.computeStepDirections A ch).dual_ = s.dual_ := by
  unfold Solver.computeStepDirections
  split_ifs <;> rfl

/-- Computing the step directions changes neither `x`, nor `μ`, nor the active
set. -/
theorem stepState_unchanged (H A : QPMatrix K) (st : Solver K × ChosenConstraint K)
    (hraw : st.1.RawEmpty) :
    (st.1.stepState H A st.2).primal = st.1.primal ∧
    (st.1.stepState H A st.2).dual_ = st.1.dual_ ∧
    (st.1.stepState H A st.2).active_set_.size_ = st.1.active_set_.size_ ∧
    (st.1.stepState H A st.2).active_set_.num_equalities_ = st.1.active_set_.num_equalities_ ∧
    (st.1.stepState H A st.2).active_set_.num_inequalities_
      = st.1.active_set_.num_inequalities_ ∧
    ∀ c, c < st.1.active_set_.size_ →
      (st.1.stepState H A st.2).active_set_.getIndex c = st.1.active_set_.getIndex c := by
  unfold Solver.stepState
  rw [Solver.computeStepDirections_primal, Solver.computeStepDirections_dual,
    Solver.computeStepDirections_active_set, Solver.init_primal, Solver.init_dual]
  refine ⟨rfl, rfl, ?_⟩
  cases hinit : st.1.machinery_initialized_ with
  | true =>
    rw [Solver.init_of_initialized st.1 H hinit]
    exact ⟨rfl, rfl, rfl, fun _ _ => rfl⟩
  | false =>
    obtain ⟨h1, h2, h3⟩ := hraw hinit
    have e : (st.1.initializeMachineryLazy H).active_set_
        = ActiveSet.initialize st.1.primal_size_ := by
      unfold Solver.initializeMachineryLazy
      rw [if_pos hinit]
    rw [e, h1, h2, h3]
    exact ⟨rfl, rfl, rfl, fun c hc => absurd hc (Nat.not_lt_zero c)⟩

/-! ## The objective across a primal step -/


theorem bil_add_smul (n : Nat) (Hm : QPMatrix K) (x p : QPVector K) (t : K)
    (hsym : ∀ a b, a < n → b < n → Hm a b = Hm b a) :
    bil n Hm (fun r => x r + t * p r) (fun r => x r + t * p r)
      = bil n Hm x x + 2 * t * bil n Hm x p + t * t * bil n Hm p p := by
  have hxp : bil n Hm p x = bil n Hm x p := by
    unfold bil
    rw [Finset.sum_comm]
    refine Finset.sum_congr rfl (fun a ha => Finset.sum_congr rfl (fun b hb => ?_))
    rw [hsym b a (Finset.mem_range.mp hb) (Finset.mem_range.mp ha)]
    ring
  have e : bil n Hm (fun r => x r + t * p r) (fun r => x r + t * p r)
      = bil n Hm x x + t * bil n Hm x p + t * bil n Hm p x + t * t * bil n Hm p p := by
    unfold bil
    simp only [Finset.mul_sum, ← Finset.sum_add_distrib]
    refine Finset.sum_congr rfl (fun a _ => Finset.sum_congr rfl (fun b _ => ?_))
    ring
  rw [e, hxp]
  ring

/-- The form `pᵀ·H·p` of a step direction built from the columns `q, …, n-1` of
`J`, when `Jᵀ·H·J = I`: the squared length of the coefficients. -/
theorem bil_step (n q : Nat) (Hm J : QPMatrix K) (d : QPVector K)
    (hJ : HOrthonormal n Hm J) :
    bil n Hm (fun r => if r < n then -(∑ k in Finset.Ico q n, J r k * d k) else 0)
        (fun r => if r < n then -(∑ k in Finset.Ico q n, J r k * d k) else 0)
      = ∑ k in Finset.Ico q n, d k * d k := by
  have e1 : ∀ a ∈ Finset.range n, ∀ b ∈ Finset.range n,
      (if a < n then -(∑ k in Finset.Ico q n, J a k * d k) else 0) * Hm a b
        * (if b < n then -(∑ k in Finset.Ico q n, J b k * d k) else 0)
      = ∑ k in Finset.Ico q n, ∑ l in Finset.Ico q n,
          d k * d l * (J a k * Hm a b * J b l) := by
    intro a ha b hb
    rw [if_pos (Finset.mem_range.mp ha), if_pos (Finset.mem_range.mp hb)]
    have : -(∑ k in Finset.Ico q n, J a k * d k) * Hm a b
          * -(∑ k in Finset.Ico q n, J b k * d k)
        = (∑ k in Finset.Ico q n, J a k * d k) * (∑ l in Finset.Ico q n, Hm a b * (J b l * d l)) := by
      rw [← Finset.mul_sum]
      ring
    rw [this, Finset.sum_mul_sum]
    refine Finset.sum_congr rfl (fun k _ => Finset.sum_congr rfl (fun l _ => ?_))
    ring
  unfold bil
  rw [Finset.sum_congr rfl (fun a ha => Finset.sum_congr rfl (fun b hb => e1 a ha b hb))]
  have e2 : ∑ a in Finset.range n, ∑ b in Finset.range n, ∑ k in Finset.Ico q n,
      ∑ l in Finset.Ico q n, d k * d l * (J a k * Hm a b * J b l)
      = ∑ k in Finset.Ico q n, ∑ l in Finset.Ico q n, d k * d l * gram n Hm J k l := by
    have s1 : ∀ a ∈ Finset.range n, ∑ b in Finset.range n, ∑ k in Finset.Ico q n,
        ∑ l in Finset.Ico q n, d k * d l * (J a k * Hm a b * J b l)
        = ∑ k in Finset.Ico q n, ∑ l in Finset.Ico q n, ∑ b in Finset.range n,
            d k * d l * (J a k * Hm a b * J b l) := by
      intro a _
      rw [Finset.sum_comm]
      refine Finset.sum_congr rfl (fun k _ => ?_)
      rw [Finset.sum_comm]
    rw [Finset.sum_congr rfl s1, Finset.sum_comm]
    refine Finset.sum_congr rfl (fun k _ => ?_)
    rw [Finset.sum_comm]
    refine Finset.sum_congr rfl (fun l _ => ?_)
    unfold gram
    rw [Finset.mul_sum]
    refine Finset.sum_congr rfl (fun a _ => ?_)
    rw [Finset.mul_sum]
  rw [e2]
  refine Finset.sum_congr rfl (fun k hk => ?_)
  have hk' := Finset.mem_Ico.mp hk
  have e3 : ∀ l ∈ Finset.Ico q n, d k * d l * gram n Hm J k l
      = if k = l then d k * d k else 0 := by
    intro l hl
    rw [hJ k l hk'.2 (Finset.mem_Ico.mp hl).2]
    split_ifs with hkl
    · rw [hkl]
      ring
    · ring
  rw [Finset.sum_congr rfl e3, Finset.sum_ite_eq, if_pos hk]

/-- The form `pᵀ·H·p` of the primal step direction of the main loop is
`|A[chosen]·p|` when `Jᵀ·H·J = I`. -/
theorem bil_stepDirection (n : Nat) (Hm : QPMatrix K) (s : Solver K) (A : QPMatrix K)
    (ch : ChosenConstraint K)
    (hfd : s.factorization_data_.primal_size_ = n)
    (hspace : s.active_set_.hasEmptySpace = true)
    (hJ : HOrthonormal n Hm s.factorization_data_.QLi_aka_J) :
    bil n Hm (s.computeStepDirections A ch).primal_step_direction_
        (s.computeStepDirections A ch).primal_step_direction_
      = |dot n (A ch.index_) (s.computeStepDirections A ch).primal_step_direction_| := by
  rw [Solver.computeStepDirections_p s A ch hspace]
  have hdot := computeInequalitySteps_dot s.factorization_data_ s.dual_step_direction_
    (A ch.index_) ch.type_ s.active_set_
  rw [hfd] at hdot
  have hnn : 0 ≤ ∑ k in Finset.Ico s.active_set_.size_ n,
      colT n s.factorization_data_.QLi_aka_J (A ch.index_) k
      * colT n s.factorization_data_.QLi_aka_J (A ch.index_) k :=
    Finset.sum_nonneg (fun k _ => mul_self_nonneg _)
  have habs : |dot n (A ch.index_) (s.factorization_data_.computeInequalitySteps
      s.dual_step_direction_ (A ch.index_) ch.type_ s.active_set_).2.1|
      = ∑ k in Finset.Ico s.active_set_.size_ n,
          colT n s.factorization_data_.QLi_aka_J (A ch.index_) k
          * colT n s.factorization_data_.QLi_aka_J (A ch.index_) k := by
    rw [hdot]
    split_ifs
    · exact abs_of_nonneg hnn
    · rw [abs_neg]
      exact abs_of_nonneg hnn
  rw [habs, computeInequalitySteps_p, hfd,
    bil_step n s.active_set_.size_ Hm s.factorization_data_.QLi_aka_J _ hJ]
  refine Finset.sum_congr rfl (fun k hk => ?_)
  rw [computeInequalitySteps_R_col _ _ _ _ _ k (by rw [hfd]; exact (Finset.mem_Ico.mp hk).2),
    hfd, colT_signedRow]
  split_ifs
  · ring
  · rfl

/-- The objective across a primal step of the main loop (exact arithmetic).
For a symmetric `H` and a state with `Jᵀ·H·J = I` and room in the active set, the
step `x_new = x + τ·p` changes the objective `f = ½·xᵀ·H·x + hᵀ·x` by
`τ·(H·x + h)·p + ½·τ²·|A[chosen]·p|`.  So `f(x_new) ≥ f(x)` when `τ ≥ 0` and
`(H·x + h)·p ≥ 0`, and from the unconstrained minimum (`H·x + h = 0`) the
objective rises by `½·τ²·|A[chosen]·p|`. -/
theorem objective_step_identity (sqrt : K → K) (n : Nat) (Hmat : QPMatrix K) (h : QPVector K)
    (s : Solver K) (A : QPMatrix K) (ch : ChosenConstraint K) (τ tol : K)
    (hfd : s.factorization_data_.primal_size_ = n)
    (hspace : s.active_set_.hasEmptySpace = true)
    (hsym : ∀ a b, a < n → b < n → Hmat a b = Hmat b a)
    (hJ : HOrthonormal n Hmat s.factorization_data_.QLi_aka_J) :
    objective n Hmat h ((s.computeStepDirections A ch).takeStep sqrt τ tol).1.primal
      = objective n Hmat h s.primal
        + τ * (bil n Hmat s.primal (s.computeStepDirections A ch).primal_step_direction_
            + dot n h (s.computeStepDirections A ch).primal_step_direction_)
        + 1 / 2 * (τ * τ)
          * |dot n (A ch.index_) (s.computeStepDirections A ch).primal_step_direction_| ∧
    (0 ≤ τ →
      0 ≤ bil n Hmat s.primal (s.computeStepDirections A ch).primal_step_direction_
          + dot n h (s.computeStepDirections A ch).primal_step_direction_ →
      objective n Hmat h s.primal
        ≤ objective n Hmat h ((s.computeStepDirections A ch).takeStep sqrt τ tol).1.primal) ∧
    ((∀ r, r < n → ∑ j in Finset.range n, Hmat r j * s.primal j + h r = 0) →
      objective n Hmat h ((s.computeStepDirections A ch).takeStep sqrt τ tol).1.primal
        = objective n Hmat h s.primal
          + 1 / 2 * (τ * τ)
            * |dot n (A ch.index_) (s.computeStepDirections A ch).primal_step_direction_|) := by
  have hx : ((s.computeStepDirections A ch).takeStep sqrt τ tol).1.primal
      = fun k => s.primal k + τ * (s.computeStepDirections A ch).primal_step_direction_ k := by
    show (fun k => (s.computeStepDirections A ch).primal k
      + τ * (s.computeStepDirections A ch).primal_step_direction_ k) = _
    rw [Solver.computeStepDirections_primal]
  have hpp := bil_stepDirection n Hmat s A ch hfd hspace hJ
  have key : objective n Hmat h ((s.computeStepDirections A ch).takeStep sqrt τ tol).1.primal
      = objective n Hmat h s.primal
        + τ * (bil n Hmat s.primal (s.computeStepDirections A ch).primal_step_direction_
            + dot n h (s.computeStepDirections A ch).primal_step_direction_)
        + 1 / 2 * (τ * τ)
          * |dot n (A ch.index_) (s.computeStepDirections A ch).primal_step_direction_| := by
    rw [hx]
    unfold objective
    rw [bil_add_smul n Hmat _ _ τ hsym, dot_add_smul, hpp]
    ring
  refine ⟨key, fun h1 h2 => ?_, fun h0 => ?_⟩
  · rw [key]
    have h3 : 0 ≤ τ * (bil n Hmat s.primal (s.computeStepDirections A ch).primal_step_direction_
            + dot n h (s.computeStepDirections A ch).primal_step_direction_) :=
      mul_nonneg h1 h2
    have h4 : 0 ≤ 1 / 2 * (τ * τ)
        * |dot n (A ch.index_) (s.computeStepDirections A ch).primal_step_direction_| :=
      mul_nonneg (mul_nonneg (by norm_num) (mul_self_nonneg τ)) (abs_nonneg _)
    linarith
  · rw [key]
    have hz : bil n Hmat s.primal (s.computeStepDirections A ch).primal_step_direction_
        + dot n h (s.computeStepDirections A ch).primal_step_direction_ = 0 := by
      unfold bil dot
      rw [Finset.sum_comm, ← Finset.sum_add_distrib]
      refine Finset.sum_eq_zero (fun b hb => ?_)
      have hb' := Finset.mem_range.mp hb
      have e : ∑ a in Finset.range n,
          s.primal a * Hmat a b * (s.computeStepDirections A ch).primal_step_direction_ b
          = (∑ j in Finset.range n, Hmat b j * s.primal j)
            * (s.computeStepDirections A ch).primal_step_direction_ b := by
        rw [Finset.sum_mul]
        refine Finset.sum_congr rfl (fun a ha => ?_)
        rw [hsym a b (Finset.mem_range.mp ha) hb']
        ring
      rw [e, ← add_mul, h0 b hb', zero_mul]
    rw [hz, mul_zero, add_zero]

/-- The example state with `H = I`, the row `(3, 4)` as an upper bound and the
step length `1/5`. -/
theorem objective_step_identity_example :
    objective 2 idMat (vecOf [0, 0])
        (((exampleSolver : Solver ℝ).computeStepDirections (matOf [[3, 4]])
          ⟨2, 0, 0, ConstraintStatus.ACTIVE_UPPER_BOUND⟩).takeStep Real.sqrt (1 / 5) 1).1.primal
      = objective 2 idMat (vecOf [0, 0]) (exampleSolver : Solver ℝ).primal
        + 1 / 5 * (bil 2 idMat (exampleSolver : Solver ℝ).primal
              ((exampleSolver : Solver ℝ).computeStepDirections (matOf [[3, 4]])
                ⟨2, 0, 0, ConstraintStatus.ACTIVE_UPPER_BOUND⟩).primal_step_direction_
            + dot 2 (vecOf [0, 0])
              ((exampleSolver : Solver ℝ).computeStepDirections (matOf [[3, 4]])
                ⟨2, 0, 0, ConstraintStatus.ACTIVE_UPPER_BOUND⟩).primal_step_direction_)
        + 1 / 2 * (1 / 5 * (1 / 5))
          * |dot 2 ((matOf [[3, 4]] : QPMatrix ℝ)
              (⟨2, 0, 0, ConstraintStatus.ACTIVE_UPPER_BOUND⟩ : ChosenConstraint ℝ).index_)
              ((exampleSolver : Solver ℝ).computeStepDirections (matOf [[3, 4]])
                ⟨2, 0, 0, ConstraintStatus.ACTIVE_UPPER_BOUND⟩).primal_step_direction_| :=
  (objective_step_identity Real.sqrt 2 idMat (vecOf [0, 0]) exampleSolver (matOf [[3, 4]])
    ⟨2, 0, 0, ConstraintStatus.ACTIVE_UPPER_BOUND⟩ (1 / 5) 1 rfl rfl
    (fun a b _ _ => by
      unfold idMat
      by_cases hab : a = b
      · rw [if_pos hab, if_pos hab.symm]
      · rw [if_neg hab, if_neg (fun e => hab e.symm)])
    (hOrthonormal_idMat 2)).1

/-! ## Dual feasibility -/


/-- The dual step length found by the sweep is non-negative and at most the
ratio `−μ[i]/z[i]` of every position with `z[i] < −tol`; it is `+∞` only when
there is no such position. -/
theorem Solver.dualBlocking_min (s : Solver K) (tol : K) (htol : 0 ≤ tol)
    (hle : s.active_set_.num_equalities_ ≤ s.active_set_.size_)
    (hmu : ∀ i, s.active_set_.num_equalities_ ≤ i → i < s.active_set_.size_ → 0 ≤ s.dual_ i) :
    (∀ t, (s.dualBlocking tol).2 = some t →
      0 ≤ t ∧ ∀ i, s.active_set_.num_equalities_ ≤ i → i < s.active_set_.size_ →
        s.dual_step_direction_ i < -tol → t ≤ -s.dual_ i / s.dual_step_direction_ i) ∧
    ((s.dualBlocking tol).2 = none →
      ∀ i, s.active_set_.num_equalities_ ≤ i → i < s.active_set_.size_ →
        ¬ s.dual_step_direction_ i < -tol) := by
  have := forUp_induction (Solver.dualBlockingStep tol s.dual_ s.dual_step_direction_)
    (fun i st => (st.2 = none ∧
        ∀ j, s.active_set_.num_equalities_ ≤ j → j < i → ¬ s.dual_step_direction_ j < -tol) ∨
      (∃ t, st.2 = some t ∧ 0 ≤ t ∧
        ∀ j, s.active_set_.num_equalities_ ≤ j → j < i → s.dual_step_direction_ j < -tol →
          t ≤ -s.dual_ j / s.dual_step_direction_ j))
    s.active_set_.num_equalities_ (s.active_set_.size_ - s.active_set_.num_equalities_)
    (s.primal_size_, none) (Or.inl ⟨rfl, fun j h1 h2 => by omega⟩) (by
      intro i st h1 h2 h3
      have hi : i < s.active_set_.size_ := by omega
      unfold Solver.dualBlockingStep
      split_ifs with hd
      · have hz : s.dual_step_direction_ i < 0 := lt_of_lt_of_le hd (by linarith)
        have hti : 0 ≤ -s.dual_ i / s.dual_step_direction_ i := by
          rw [neg_div, ← div_neg]
          exact div_nonneg (hmu i h1 hi) (by linarith)
        rcases h3 with ⟨h4, _⟩ | ⟨t, h4, h5, h6⟩
        · rw [h4]
          refine Or.inr ⟨_, rfl, hti, fun j hj1 hj2 hj3 => ?_⟩
          rcases Nat.eq_or_lt_of_le (Nat.le_of_lt_succ hj2) with e | e
          · rw [e]
          · rename_i h7
            exact absurd hj3 (h7 j hj1 e)
        · rw [h4]
          dsimp only
          split_ifs with hlt
          · refine Or.inr ⟨_, rfl, hti, fun j hj1 hj2 hj3 => ?_⟩
            rcases Nat.eq_or_lt_of_le (Nat.le_of_lt_succ hj2) with e | e
            · rw [e]
            · exact le_trans (le_of_lt hlt) (h6 j hj1 e hj3)
          · refine Or.inr ⟨t, h4, h5, fun j hj1 hj2 hj3 => ?_⟩
            rcases Nat.eq_or_lt_of_le (Nat.le_of_lt_succ hj2) with e | e
            · rw [e]
              exact not_lt.mp hlt
            · exact h6 j hj1 e hj3
      · rcases h3 with ⟨h4, h5⟩ | ⟨t, h4, h5, h6⟩
        · refine Or.inl ⟨h4, fun j hj1 hj2 => ?_⟩
          rcases Nat.eq_or_lt_of_le (Nat.le_of_lt_succ hj2) with e | e
          · rw [e]
            exact hd
          · exact h5 j hj1 e
        · refine Or.inr ⟨t, h4, h5, fun j hj1 hj2 hj3 => ?_⟩
          rcases Nat.eq_or_lt_of_le (Nat.le_of_lt_succ hj2) with e | e
          · rw [e] at hj3
            exact absurd hj3 hd
          · exact h6 j hj1 e hj3)
  rw [Nat.add_sub_cancel' hle] at this
  have hdef : s.dualBlocking tol
      = forUp (Solver.dualBlockingStep tol s.dual_ s.dual_step_direction_)
          s.active_set_.num_equalities_ (s.active_set_.size_ - s.active_set_.num_equalities_)
          (s.primal_size_, none) := rfl
  rw [hdef]
  rcases this with ⟨h1, h2⟩ | ⟨t, h1, h2, h3⟩
  · refine ⟨fun t ht => ?_, fun _ => h2⟩
    rw [h1] at ht
    exact absurd ht (by simp)
  · refine ⟨fun t' ht' => ?_, fun hn => ?_⟩
    · rw [h1] at ht'
      injection ht' with ht'
      subst ht'
      exact ⟨h2, h3⟩
    · rw [h1] at hn
      exact absurd hn (by simp)

/-- A step of length `0 ≤ t` that respects the ratios keeps the multipliers
non-negative. -/
theorem dual_step_nonneg (mu z t tol : K) (hmu : 0 ≤ mu) (ht : 0 ≤ t)
    (hz : z < -tol ∨ 0 ≤ z) (hb : z < -tol → t ≤ -mu / z) (htol : 0 ≤ tol) :
    0 ≤ mu + t * z := by
  rcases hz with hz | hz
  · have hz0 : z < 0 := lt_of_lt_of_le hz (by linarith)
    have h1 := hb hz
    have h2 : t * z ≥ -mu / z * z := mul_le_mul_of_nonpos_right h1 hz0.le
    rw [div_mul_cancel₀ _ (ne_of_lt hz0)] at h2
    linarith
  · have := mul_nonneg ht hz
    linarith

/-- The record returned by `chooseConstraint` has multiplier `0`, and a violation
with the sign of its bound. -/
theorem chooseConstraint_sign (s : Solver K) (x : QPVector K) (A : QPMatrix K)
    (Alb Aub : QPVector K) (tol : K) (htol : 0 ≤ tol) :
    (s.chooseConstraint x A Alb Aub tol).1.dual_ = 0 ∧
    ((s.chooseConstraint x A Alb Aub tol).1.type_ = ConstraintStatus.ACTIVE_LOWER_BOUND →
      (s.chooseConstraint x A Alb Aub tol).1.violation_ ≤ 0) ∧
    ((s.chooseConstraint x A Alb Aub tol).1.type_ ≠ ConstraintStatus.ACTIVE_LOWER_BOUND →
      0 ≤ (s.chooseConstraint x A Alb Aub tol).1.violation_) := by
  have := forUp_induction (Solver.chooseConstraintStep s.primal_size_ x A Alb Aub tol)
    (fun _ st => st.1.dual_ = 0 ∧
      (st.1.type_ = ConstraintStatus.ACTIVE_LOWER_BOUND → st.1.violation_ ≤ 0) ∧
      (st.1.type_ ≠ ConstraintStatus.ACTIVE_LOWER_BOUND → 0 ≤ st.1.violation_))
    0 s.num_general_constraints_ (ChosenConstraint.init, s.general_constraints_status_)
    ⟨rfl, fun _ => le_refl (0 : K), fun _ => le_refl (0 : K)⟩ (by
      intro i t _ _ ht
      unfold Solver.chooseConstraintStep
      dsimp only
      split_ifs with h1 h2 h3 h4 h5
      · refine ⟨ht.1, fun _ => ?_, fun hc => absurd rfl hc⟩
        show dot s.primal_size_ (A i) x - Alb i ≤ 0
        linarith
      · exact ht
      · refine ⟨ht.1, fun hc => absurd hc (by decide), fun _ => ?_⟩
        show 0 ≤ dot s.primal_size_ (A i) x - Aub i
        linarith
      · exact ht
      · exact ht
      · exact ht)
  exact this

/-- The sign of `A[chosen]·p`: non-negative for a lower bound, non-positive
otherwise. -/
theorem stepCp_sign (s : Solver K) (A : QPMatrix K) (ch : ChosenConstraint K)
    (hwf : s.WF A) (hspace : s.active_set_.hasEmptySpace = true) :
    (ch.type_ = ConstraintStatus.ACTIVE_LOWER_BOUND →
      0 ≤ dot s.primal_size_ (A ch.index_)
        (s.computeStepDirections A ch).primal_step_direction_) ∧
    (ch.type_ ≠ ConstraintStatus.ACTIVE_LOWER_BOUND →
      dot s.primal_size_ (A ch.index_)
        (s.computeStepDirections A ch).primal_step_direction_ ≤ 0) := by
  rw [Solver.computeStepDirections_p s A ch hspace]
  have hdot := computeInequalitySteps_dot s.factorization_data_ s.dual_step_direction_
    (A ch.index_) ch.type_ s.active_set_
  rw [hwf.fd_size] at hdot
  have hnn : 0 ≤ ∑ k in Finset.Ico s.active_set_.size_ s.primal_size_,
      colT s.primal_size_ s.factorization_data_.QLi_aka_J (A ch.index_) k
      * colT s.primal_size_ s.factorization_data_.QLi_aka_J (A ch.index_) k :=
    Finset.sum_nonneg (fun k _ => mul_self_nonneg _)
  rw [hdot]
  constructor
  · intro h
    rw [if_pos h]
    exact hnn
  · intro h
    rw [if_neg h]
    linarith

/-- A step `0 ≤ t ≤ −v/cp` keeps the sign of the violation. -/
theorem violation_sign_step (v cp t : K) (hcp : cp ≠ 0) (hb : t ≤ -v / cp) :
    (0 ≤ cp → v ≤ 0 → v + t * cp ≤ 0) ∧ (cp ≤ 0 → 0 ≤ v → 0 ≤ v + t * cp) := by
  constructor
  · intro h1 _
    have hpos : 0 < cp := lt_of_le_of_ne h1 (Ne.symm hcp)
    have := mul_le_mul_of_nonneg_right hb hpos.le
    rw [div_mul_cancel₀ _ hcp] at this
    linarith
  · intro h1 _
    have hneg : cp < 0 := lt_of_le_of_ne h1 hcp
    have := mul_le_mul_of_nonpos_right hb hneg.le
    rw [div_mul_cancel₀ _ hcp] at this
    linarith

/-- Dropping a position of the active inequalities keeps the stored multipliers
non-negative. -/
theorem deactivate_dual_nonneg (sqrt : K → K) (r : Solver K) (j : Nat) (tol : K)
    (hmu : ∀ i, r.active_set_.num_equalities_ ≤ i → i < r.active_set_.size_ → 0 ≤ r.dual_ i) :
    ∀ i, (Solver.deactivate sqrt r j tol).active_set_.num_equalities_ ≤ i →
      i < (Solver.deactivate sqrt r j tol).active_set_.size_ →
      0 ≤ (Solver.deactivate sqrt r j tol).dual_ i := by
  intro i h1 h2
  have h1' : r.active_set_.num_equalities_ ≤ i := h1
  have h2' : i < r.active_set_.size_ - 1 := h2
  show 0 ≤ dropElementWithoutResize r.dual_ j r.active_set_.size_ i
  unfold dropElementWithoutResize
  split_ifs with h
  · exact hmu (i + 1) (by omega) h.2
  · exact hmu i h1' (by omega)

/-- An iteration of the main loop that goes on to the next one keeps the
multipliers non-negative, provided no component of its dual step direction lies
in `[−tol, 0)`. -/
theorem mainStep_dualInv (sqrt : K → K) (asserts : Bool)
    (H A : QPMatrix K) (Alb Aub : QPVector K) (param : SolverParameters K)
    (htol : 0 < param.tolerance_) (st st1 : Solver K × ChosenConstraint K)
    (hinv : Solver.MainState H A Alb Aub param.tolerance_ st)
    (hD : (st.1.initializeMachineryLazy H).DualInv st.2)
    (hN : (st.1.stepState H A st.2).NoSmallDual param.tolerance_)
    (hstep : Solver.mainStep sqrt asserts H A Alb Aub param st = Step.next st1) :
    (st1.1.initializeMachineryLazy H).DualInv st1.2 := by
  obtain ⟨h0, hcases⟩ := mainStep_cases sqrt asserts H A Alb Aub param htol.le st st1 hstep
  have hinit : st1.1.machinery_initialized_ = true := by
    have hS := (hinv.1.stepDirections st.2).wf.init
    rcases hcases with ⟨_, _, t, _, _, _, e4⟩ | ⟨_, _, t, _, _, _, e4⟩ | ⟨_, _, e2⟩
    · rw [e4]
      exact hS
    · rw [e4]
      exact hS
    · rw [e2]
      exact hS
  rw [Solver.init_of_initialized st1.1 H hinit]
  obtain ⟨hI, _, _⟩ := hinv
  obtain ⟨hmu, hu, hlo, hup⟩ := hD
  have eas : (st.1.stepState H A st.2).active_set_
      = (st.1.initializeMachineryLazy H).active_set_ :=
    Solver.computeStepDirections_active_set _ A st.2
  have edual : (st.1.stepState H A st.2).dual_ = (st.1.initializeMachineryLazy H).dual_ :=
    Solver.computeStepDirections_dual _ A st.2
  have esz : (st.1.stepState H A st.2).primal_size_
      = (st.1.initializeMachineryLazy H).primal_size_ :=
    congrArg InputParser.primal_size_ (Solver.computeStepDirections_sizes _ A st.2)
  have hq := hI.wf.size_eq
  rw [← eas] at hq
  have hle : (st.1.stepState H A st.2).active_set_.num_equalities_
      ≤ (st.1.stepState H A st.2).active_set_.size_ := by omega
  have hmuS : ∀ i, (st.1.stepState H A st.2).active_set_.num_equalities_ ≤ i →
      i < (st.1.stepState H A st.2).active_set_.size_ → 0 ≤ (st.1.stepState H A st.2).dual_ i := by
    intro i h1 h2
    rw [edual]
    rw [eas] at h1 h2
    exact hmu i h1 h2
  obtain ⟨hmin, hnone⟩ := Solver.dualBlocking_min (st.1.stepState H A st.2) param.tolerance_
    htol.le hle hmuS
  -- the multipliers after a step of an admissible length
  have hDt : ∀ t, 0 ≤ t →
      (∀ i, (st.1.stepState H A st.2).active_set_.num_equalities_ ≤ i →
        i < (st.1.stepState H A st.2).active_set_.size_ →
        (st.1.stepState H A st.2).dual_step_direction_ i < -param.tolerance_ →
        t ≤ -(st.1.stepState H A st.2).dual_ i
          / (st.1.stepState H A st.2).dual_step_direction_ i) →
      ∀ i, (st.1.stepState H A st.2).active_set_.num_equalities_ ≤ i →
        i < (st.1.stepState H A st.2).active_set_.size_ →
        0 ≤ ((st.1.stepState H A st.2).dualUpdate t).dual_ i := by
    intro t ht hb i h1 h2
    show 0 ≤ (if (st.1.stepState H A st.2).active_set_.num_equalities_ ≤ i ∧
        i < (st.1.stepState H A st.2).active_set_.num_equalities_
          + (st.1.stepState H A st.2).active_set_.num_inequalities_ then
        (st.1.stepState H A st.2).dual_ i + t * (st.1.stepState H A st.2).dual_step_direction_ i
      else (st.1.stepState H A st.2).dual_ i)
    rw [if_pos ⟨h1, by omega⟩]
    exact dual_step_nonneg _ _ t param.tolerance_ (hmuS i h1 h2) ht (hN i h1 h2)
      (hb i h1 h2) htol.le
  -- the sign of the product and of the primal step length
  have hsign : (st.1.stepState H A st.2).active_set_.hasEmptySpace = true →
      |st.1.stepCp H A st.2| > param.tolerance_ →
      st.1.stepCp H A st.2 ≠ 0 ∧ 0 ≤ -st.2.violation_ / st.1.stepCp H A st.2 ∧
      ∀ t, t ≤ -st.2.violation_ / st.1.stepCp H A st.2 →
        (st.2.type_ = ConstraintStatus.ACTIVE_LOWER_BOUND →
          st.2.violation_ + t * st.1.stepCp H A st.2 ≤ 0) ∧
        (st.2.type_ ≠ ConstraintStatus.ACTIVE_LOWER_BOUND →
          0 ≤ st.2.violation_ + t * st.1.stepCp H A st.2) := by
    intro hsp hcp
    rw [eas] at hsp
    have hne : st.1.stepCp H A st.2 ≠ 0 := by
      intro e
      rw [e, abs_zero] at hcp
      exact absurd hcp (not_lt.mpr htol.le)
    obtain ⟨s1, s2⟩ := stepCp_sign (st.1.initializeMachineryLazy H) A st.2 hI.wf hsp
    have ecp : st.1.stepCp H A st.2
        = dot (st.1.initializeMachineryLazy H).primal_size_ (A st.2.index_)
          ((st.1.initializeMachineryLazy H).computeStepDirections A st.2).primal_step_direction_ := by
      unfold Solver.stepCp Solver.stepState
      rw [congrArg InputParser.primal_size_ (Solver.computeStepDirections_sizes _ A st.2)]
    rw [← ecp] at s1 s2
    refine ⟨hne, ?_, fun t ht => ?_⟩
    · by_cases hty : st.2.type_ = ConstraintStatus.ACTIVE_LOWER_BOUND
      · have h1 := s1 hty
        have h2 := hlo hty
        rw [neg_div]
        exact neg_nonneg.mpr (div_nonpos_of_nonpos_of_nonneg h2 h1)
      · have h1 := s2 hty
        have h2 := hup hty
        rw [neg_div, ← div_neg]
        exact div_nonneg h2 (by linarith)
    · obtain ⟨v1, v2⟩ := violation_sign_step st.2.violation_ (st.1.stepCp H A st.2) t hne ht
      exact ⟨fun hty => v1 (s1 hty) (hlo hty), fun hty => v2 (s2 hty) (hup hty)⟩
  rcases hcases with ⟨hsp, hcp, t, e1, e2, _, e4⟩ | ⟨hsp, hcp, t, _, _, e3, e4⟩ | ⟨_, e1, e2⟩
  · -- partial step
    obtain ⟨_, _, hv⟩ := hsign hsp hcp
    obtain ⟨ht0, hb⟩ := hmin t e1
    rw [e4]
    refine ⟨?_, add_nonneg hu ht0, (hv t e2).1, (hv t e2).2⟩
    exact deactivate_dual_nonneg sqrt _ _ _ (hDt t ht0 hb)
  · -- activation of the chosen constraint
    obtain ⟨_, hsl, hv⟩ := hsign hsp hcp
    have ht : 0 ≤ t ∧ (∀ i, (st.1.stepState H A st.2).active_set_.num_equalities_ ≤ i →
        i < (st.1.stepState H A st.2).active_set_.size_ →
        (st.1.stepState H A st.2).dual_step_direction_ i < -param.tolerance_ →
        t ≤ -(st.1.stepState H A st.2).dual_ i
          / (st.1.stepState H A st.2).dual_step_direction_ i) := by
      rcases e3 with ⟨a1, _⟩ | ⟨a1, a2 | ⟨t', a2, a3⟩⟩
      · exact hmin t a1
      · rw [a1]
        exact ⟨hsl, fun i h1 h2 h3 => absurd h3 (hnone a2 i h1 h2)⟩
      · rw [a1]
        exact ⟨hsl, fun i h1 h2 h3 => le_trans (le_of_lt a3) ((hmin t' a2).2 i h1 h2 h3)⟩
    rw [e4]
    obtain ⟨c1, c2, c3⟩ := chooseConstraint_sign
      (((st.1.stepState H A st.2).takeStep sqrt t param.tolerance_).1.activate
        { st.2 with
          dual_ := st.2.dual_ + t
          violation_ := st.2.violation_ + t * st.1.stepCp H A st.2 })
      (((st.1.stepState H A st.2).takeStep sqrt t param.tolerance_).1.activate
        { st.2 with
          dual_ := st.2.dual_ + t
          violation_ := st.2.violation_ + t * st.1.stepCp H A st.2 }).primal
      A Alb Aub param.tolerance_ htol.le
    refine ⟨?_, by rw [c1], c2, c3⟩
    intro i h1 h2
    have h1' : (st.1.stepState H A st.2).active_set_.num_equalities_ ≤ i := h1
    have h2' : i < (st.1.stepState H A st.2).active_set_.size_ + 1 := h2
    show 0 ≤ Function.update ((st.1.stepState H A st.2).dualUpdate t).dual_
      (st.1.stepState H A st.2).active_set_.size_ (st.2.dual_ + t) i
    by_cases hi : i = (st.1.stepState H A st.2).active_set_.size_
    · rw [hi, Function.update_same]
      exact add_nonneg hu ht.1
    · rw [Function.update_noteq hi]
      exact hDt t ht.1 ht.2 i h1' (by omega)
  · -- step in the dual space
    have hsome : ∃ t, ((st.1.stepState H A st.2).dualBlocking param.tolerance_).2 = some t := by
      rcases Solver.dualBlocking_range (st.1.stepState H A st.2) param.tolerance_ hle with
        ⟨a, _⟩ | ⟨_, _, a⟩
      · exact absurd a e1
      · exact a
    obtain ⟨t, ht⟩ := hsome
    obtain ⟨ht0, hb⟩ := hmin t ht
    rw [e2, ht]
    refine ⟨?_, add_nonneg hu ht0, hlo, hup⟩
    exact deactivate_dual_nonneg sqrt _ _ _ (hDt t ht0 hb)

/-- The main loop is entered with all multipliers zero. -/
theorem mainEntry_dualInv (s : Solver K) (H A : QPMatrix K) (Alb Aub : QPVector K)
    (param : SolverParameters K) (htol : 0 ≤ param.tolerance_) :
    ((Solver.mainEntry s A Alb Aub param).1.initializeMachineryLazy H).DualInv
      (Solver.mainEntry s A Alb Aub param).2 := by
  obtain ⟨c1, c2, c3⟩ := chooseConstraint_sign
    ({ s with dual_ := fun _ => 0, dual_step_direction_ := fun _ => 0 } : Solver K)
    s.primal A Alb Aub param.tolerance_ htol
  refine ⟨fun i _ _ => ?_, ?_, c2, c3⟩
  · rw [Solver.init_dual]
    exact le_refl (0 : K)
  · show 0 ≤ (({ s with dual_ := fun _ => 0, dual_step_direction_ := fun _ => 0 } :
      Solver K).chooseConstraint s.primal A Alb Aub param.tolerance_).1.dual_
    rw [c1]

/-- The state with which `solve` enters the main loop is the one built by
`mainEntry`. -/
theorem mainStart_entry (sqrt : K → K) (sizes : InputParser) (H : QPMatrix K) (h : QPVector K)
    (A : QPMatrix K) (Alb Aub : QPVector K) (param : SolverParameters K)
    (st0 : Solver K × ChosenConstraint K)
    (h0 : Solver.mainStart sqrt sizes H h A Alb Aub param = some st0) :
    ∃ s : Solver K, st0 = Solver.mainEntry s A Alb Aub param := by
  unfold Solver.mainStart at h0
  split at h0
  · exact absurd h0 (by simp)
  cases hloop : Solver.equalityLoop sqrt H A Alb Aub param sizes.num_general_constraints_ 0
    (Solver.entry sizes H h, 0) with
  | done o =>
    rw [hloop] at h0
    exact absurd h0 (by simp)
  | next st =>
    rw [hloop] at h0
    dsimp only at h0
    split at h0
    · exact absurd h0 (by simp)
    injection h0 with h0
    exact ⟨st.1, h0.symm⟩

/-- At the head of every iteration that the main loop of `solve` reaches the
multipliers are non-negative, provided that in no iteration that computes step
directions a component of the dual step direction lies in `[−tol, 0)`. -/
theorem iterState_dualInv (sqrt : K → K) (hs : IsSqrt sqrt) (asserts : Bool)
    (sizes : InputParser) (L : QPMatrix K) (h : QPVector K) (A : QPMatrix K)
    (Alb Aub : QPVector K) (param : SolverParameters K) (htol : 0 < param.tolerance_)
    (hN : ∀ (k : Nat) (st : Solver K × ChosenConstraint K),
      Solver.iterState sqrt asserts sizes L h A Alb Aub param k = some st →
      ¬ |st.2.violation_| < param.tolerance_ →
      (st.1.stepState L A st.2).NoSmallDual param.tolerance_)
    (k : Nat) (st : Solver K × ChosenConstraint K)
    (hk : Solver.iterState sqrt asserts sizes L h A Alb Aub param k = some st) :
    (st.1.initializeMachineryLazy L).DualInv st.2 := by
  induction k generalizing st with
  | zero =>
    unfold Solver.iterState at hk
    cases h0 : Solver.mainStart sqrt sizes L h A Alb Aub param with
    | none =>
      rw [h0] at hk
      exact absurd hk (by simp)
    | some st0 =>
      rw [h0] at hk
      have e : st0 = st := by
        have : some st0 = some st := hk
        injection this
      obtain ⟨s, hs0⟩ := mainStart_entry sqrt sizes L h A Alb Aub param st0 h0
      rw [← e, hs0]
      exact mainEntry_dualInv s L A Alb Aub param htol.le
  | succ k ih =>
    obtain ⟨st', a1, _, a3⟩ := iterState_succ sqrt asserts sizes L h A Alb Aub param k st hk
    have hM := (iterState_mainState sqrt hs asserts sizes L h A Alb Aub param htol k st' a1).1
    have h0 := (mainStep_cases sqrt asserts L A Alb Aub param htol.le st' st a3).1
    exact mainStep_dualInv sqrt asserts L A Alb Aub param htol st' st hM (ih st' a1)
      (hN k st' a1 h0) a3

/-- The ways in which a call of `solve` ends once the factor is prepared: the
exit without constraints, an exit from the equality-activation loop, the exit
with equalities only, or an exit from the main loop. -/
theorem solveWithFactor_exits (sqrt : K → K) (asserts : Bool) (sizes : InputParser)
    (L : QPMatrix K) (h : QPVector K) (A : QPMatrix K) (Alb Aub : QPVector K)
    (param : SolverParameters K) (fuel : Nat) (o : Outcome K)
    (hrun : Solver.solveWithFactor sqrt asserts sizes L h A Alb Aub param fuel = some o) :
    o = Outcome.returned ReturnStatus.OK (Solver.entry sizes L h) ∨
    Solver.equalityLoop sqrt L A Alb Aub param sizes.num_general_constraints_ 0
      (Solver.entry sizes L h, 0) = Step.done o ∨
    (∃ st, Solver.equalityLoop sqrt L A Alb Aub param sizes.num_general_constraints_ 0
        (Solver.entry sizes L h, 0) = Step.next st ∧
      st.2 = st.1.num_general_constraints_ ∧ o = Outcome.returned ReturnStatus.OK st.1) ∨
    ∃ st0, Solver.mainStart sqrt sizes L h A Alb Aub param = some st0 ∧
      Solver.mainLoop sqrt asserts L A Alb Aub param fuel 0 st0 = some o := by
  unfold Solver.solveWithFactor at hrun
  dsimp only at hrun
  split at hrun
  · injection hrun with hrun
    exact Or.inl hrun.symm
  rename_i h0
  cases hloop : Solver.equalityLoop sqrt L A Alb Aub param
      (Solver.entry sizes L h).num_general_constraints_ 0 (Solver.entry sizes L h, 0) with
  | done o1 =>
    rw [hloop] at hrun
    injection hrun with hrun
    subst hrun
    exact Or.inr (Or.inl hloop)
  | next st =>
    rw [hloop] at hrun
    dsimp only at hrun
    split at hrun
    · rename_i hall
      injection hrun with hrun
      exact Or.inr (Or.inr (Or.inl ⟨st, hloop, hall.1, hrun.symm⟩))
    rename_i hne
    refine Or.inr (Or.inr (Or.inr ⟨_, ?_, hrun⟩))
    unfold Solver.mainStart
    rw [if_neg (show ¬ 0 = sizes.num_simple_bounds_ + sizes.num_general_constraints_
      from h0)]
    have hloop' : Solver.equalityLoop sqrt L A Alb Aub param
        sizes.num_general_constraints_ 0 (Solver.entry sizes L h, 0) = Step.next st :=
      hloop
    rw [hloop']
    dsimp only
    rw [if_neg hne]

/-- Once an iteration leaves `solve`, the main loop reaches no further
iteration. -/
theorem iterState_stops (sqrt : K → K) (asserts : Bool)
    (sizes : InputParser) (L : QPMatrix K) (h : QPVector K) (A : QPMatrix K)
    (Alb Aub : QPVector K) (param : SolverParameters K) (k : Nat)
    (st : Solver K × ChosenConstraint K) (o : Outcome K)
    (hk : Solver.iterState sqrt asserts sizes L h A Alb Aub param k = some st)
    (hstep : Solver.mainStep sqrt asserts L A Alb Aub param st = Step.done o)
    (j : Nat) (hj : k < j) :
    Solver.iterState sqrt asserts sizes L h A Alb Aub param j = none := by
  induction j with
  | zero => omega
  | succ j ih =>
    cases hj1 : Solver.iterState sqrt asserts sizes L h A Alb Aub param (j + 1) with
    | none => rfl
    | some st1 =>
      exfalso
      obtain ⟨st', a1, _, a3⟩ := iterState_succ sqrt asserts sizes L h A Alb Aub param j st1 hj1
      rcases Nat.eq_or_lt_of_le (Nat.le_of_lt_succ hj) with e | e
      · rw [← e, hk] at a1
        injection a1 with a1
        rw [← a1, hstep] at a3
        exact absurd a3 (by simp)
      · rw [ih e] at a1
        exact absurd a1 (by simp)

/-- In the active-bound scenario no iteration that computes step directions has
a dual step direction with a component in `[−tol, 0)`. -/
theorem activeBound_noSmallDual (k : Nat) (st : Solver ℝ × ChosenConstraint ℝ)
    (hk : Solver.iterState Real.sqrt true ⟨1, 1, 0, 1⟩ (matOf [[1]]) (vecOf [0]) (matOf [[1]])
      (vecOf [1]) (vecOf [100]) ⟨HessianType.HESSIAN_CHOLESKY_FACTOR, 1 / 2, -1⟩ k = some st)
    (hv : ¬ |st.2.violation_| < 1 / 2) :
    (st.1.stepState (matOf [[1]]) (matOf [[1]]) st.2).NoSmallDual (1 / 2) := by
  have hok : Solver.mainStep Real.sqrt true (matOf [[1]]) (matOf [[1]]) (vecOf [1]) (vecOf [100])
      ⟨HessianType.HESSIAN_CHOLESKY_FACTOR, 1 / 2, -1⟩
      (singleNext Real.sqrt 1 1 (matOf [[1]]) (vecOf [0]) (matOf [[1]]) (vecOf [1]) (1 / 2))
      = Step.done (Outcome.returned ReturnStatus.OK
        (singleNext Real.sqrt 1 1 (matOf [[1]]) (vecOf [0]) (matOf [[1]]) (vecOf [1])
          (1 / 2 : ℝ)).1) :=
    mainStep_ok_eq Real.sqrt true _ _ _ _ _ _ (by
      show |(0 : ℝ)| < 1 / 2
      rw [abs_zero]
      norm_num)
  rcases Nat.lt_or_ge k 2 with h2 | h2
  · rcases Nat.eq_or_lt_of_le (Nat.le_of_lt_succ h2) with e | e
    · subst e
      rw [activeBound_iterStates.2] at hk
      injection hk with hk
      subst hk
      exfalso
      apply hv
      show |(0 : ℝ)| < 1 / 2
      rw [abs_zero]
      norm_num
    · have e0 : k = 0 := by omega
      subst e0
      rw [activeBound_iterStates.1] at hk
      injection hk with hk
      subst hk
      intro i _ hi
      rw [singleStart_active_set] at hi
      exact absurd hi (Nat.not_lt_zero i)
  · rw [iterState_stops Real.sqrt true _ _ _ _ _ _ _ 1 _ _ activeBound_iterStates.2 hok k
      (by omega)] at hk
    exact absurd hk (by simp)

theorem toMatrix_mul (n : Nat) (A B : QPMatrix K) (i j : Fin n) :
    (toMatrix n A * toMatrix n B) i j = ∑ k in Finset.range n, A i k * B k j := by
  rw [Matrix.mul_apply]
  exact Fin.sum_univ_eq_sum_range (fun k => A i k * B k j) n

/-- From `Jᵀ·H·J = I` follows `H·J·Jᵀ = I`. -/
theorem hOrthonormal_right (n : Nat) (Hmat J : QPMatrix K) (hJ : HOrthonormal n Hmat J)
    (i j : Nat) (hi : i < n) (hj : j < n) :
    ∑ a in Finset.range n, ∑ b in Finset.range n, Hmat i a * J a b * J j b
      = if i = j then 1 else 0 := by
  have h1 : (toMatrix n (fun a b => J b a)) * (toMatrix n (fun a b =>
      ∑ c in Finset.range n, Hmat a c * J c b)) = 1 := by
    ext a b
    rw [toMatrix_mul, Matrix.one_apply]
    have := hJ a b a.2 b.2
    unfold gram at this
    have e : (if a = b then (1 : K) else 0) = if (a : Nat) = (b : Nat) then 1 else 0 := by
      by_cases h : a = b
      · rw [if_pos h, if_pos (congrArg Fin.val h)]
      · rw [if_neg h, if_neg (fun h1 => h (Fin.ext h1))]
    rw [e, ← this]
    refine Finset.sum_congr rfl (fun x _ => ?_)
    rw [Finset.mul_sum]
    refine Finset.sum_congr rfl (fun y _ => ?_)
    ring
  have h2 := Matrix.mul_eq_one_comm.mp h1
  have h3 := congrFun (congrFun h2 ⟨i, hi⟩) ⟨j, hj⟩
  rw [toMatrix_mul, Matrix.one_apply] at h3
  simp only [Fin.mk.injEq] at h3
  rw [← h3, Finset.sum_comm]
  refine Finset.sum_congr rfl (fun b _ => ?_)
  rw [Finset.sum_mul]

theorem spread_congr (n : Nat) (Hmat J : QPMatrix K) (e e1 : QPVector K)
    (h : ∀ b, b < n → e b = e1 b) (k : Nat) : spread n Hmat J e k = spread n Hmat J e1 k := by
  unfold spread
  refine Finset.sum_congr rfl (fun a _ => ?_)
  congr 1
  refine Finset.sum_congr rfl (fun b hb => ?_)
  rw [h b (Finset.mem_range.mp hb)]

theorem spread_zero (n : Nat) (Hmat J : QPMatrix K) (k : Nat) :
    spread n Hmat J (fun _ => 0) k = 0 := by
  unfold spread
  simp

theorem spread_add (n : Nat) (Hmat J : QPMatrix K) (e e1 : QPVector K) (k : Nat) :
    spread n Hmat J (fun b => e b + e1 b) k = spread n Hmat J e k + spread n Hmat J e1 k := by
  unfold spread
  rw [← Finset.sum_add_distrib]
  refine Finset.sum_congr rfl (fun a _ => ?_)
  rw [← mul_add, ← Finset.sum_add_distrib]
  congr 1
  refine Finset.sum_congr rfl (fun b _ => ?_)
  ring

theorem spread_sum (n q : Nat) (Hmat J : QPMatrix K) (y : QPVector K) (T : QPMatrix K)
    (k : Nat) :
    ∑ c in Finset.range q, y c * spread n Hmat J (fun b => T b c) k
      = spread n Hmat J (fun b => ∑ c in Finset.range q, T b c * y c) k := by
  unfold spread
  simp only [Finset.mul_sum]
  rw [Finset.sum_comm]
  refine Finset.sum_congr rfl (fun a _ => ?_)
  rw [Finset.sum_comm]
  refine Finset.sum_congr rfl (fun b _ => ?_)
  refine Finset.sum_congr rfl (fun c _ => ?_)
  ring

/-- With `Jᵀ·H·J = I` every vector `v` is `H·J·(Jᵀ·v)`. -/
theorem spread_colT (n : Nat) (Hmat J : QPMatrix K) (hJ : HOrthonormal n Hmat J)
    (v : QPVector K) (k : Nat) (hk : k < n) :
    spread n Hmat J (colT n J v) k = v k := by
  have e : spread n Hmat J (colT n J v) k
      = ∑ j in Finset.range n,
          (∑ a in Finset.range n, ∑ b in Finset.range n, Hmat k a * J a b * J j b) * v j := by
    unfold spread colT
    simp only [Finset.mul_sum, Finset.sum_mul]
    refine (Finset.sum_congr rfl (fun a _ => Finset.sum_comm)).trans ?_
    rw [Finset.sum_comm]
    refine Finset.sum_congr rfl (fun j _ => ?_)
    refine Finset.sum_congr rfl (fun a _ => ?_)
    refine Finset.sum_congr rfl (fun b _ => ?_)
    ring
  rw [e]
  have e2 : ∀ j ∈ Finset.range n,
      (∑ a in Finset.range n, ∑ b in Finset.range n, Hmat k a * J a b * J j b) * v j
        = if k = j then v j else 0 := by
    intro j hj
    rw [hOrthonormal_right n Hmat J hJ k j hk (Finset.mem_range.mp hj)]
    split_ifs <;> simp
  rw [Finset.sum_congr rfl e2, Finset.sum_ite_eq, if_pos (Finset.mem_range.mpr hk)]

theorem sum_range_ge (n q : Nat) (hq : q ≤ n) (f : Nat → K) :
    ∑ b in Finset.range n, (if q ≤ b then f b else 0) = ∑ b in Finset.Ico q n, f b := by
  rw [Finset.range_eq_Ico, ← Finset.sum_Ico_consecutive _ (Nat.zero_le q) hq]
  have h1 : ∑ b in Finset.Ico 0 q, (if q ≤ b then f b else 0) = 0 :=
    Finset.sum_eq_zero (fun b hb => if_neg (by have := (Finset.mem_Ico.mp hb).2; omega))
  have h2 : ∑ b in Finset.Ico q n, (if q ≤ b then f b else 0) = ∑ b in Finset.Ico q n, f b :=
    Finset.sum_congr rfl (fun b hb => if_pos (Finset.mem_Ico.mp hb).1)
  rw [h1, h2, zero_add]

theorem sum_range_upper (q b : Nat) (f : Nat → K) :
    ∑ c in Finset.range q, (if b ≤ c then f c else 0) = ∑ c in Finset.Ico b q, f c := by
  by_cases hb : b ≤ q
  · exact sum_range_ge q b hb f
  · rw [Finset.Ico_eq_empty (by omega), Finset.sum_empty]
    exact Finset.sum_eq_zero (fun c hc => if_neg (by have := Finset.mem_range.mp hc; omega))

/-- The step directions and the chosen normal: with `Jᵀ·H·J = I`, the columns of
`R` tracking the active normals `N c` and `R·y = −d₁` for `d = Jᵀ·v`, the primal
direction `p = −J₂·d₂` satisfies `H·p + Σ y[c]·N c + v = 0`. -/
theorem direction_identity (n q : Nat) (Hmat J R : QPMatrix K) (N : Nat → QPVector K)
    (v y : QPVector K) (hq : q ≤ n) (hJ : HOrthonormal n Hmat J) (hT : Tracks n J R N q)
    (hy : ∀ b, b < q → ∑ c in Finset.Ico b q, R b c * y c = -colT n J v b)
    (k : Nat) (hk : k < n) :
    ∑ a in Finset.range n,
        Hmat k a * -(∑ b in Finset.Ico q n, J a b * colT n J v b)
      + ∑ c in Finset.range q, y c * N c k + v k = 0 := by
  have e1 : ∑ a in Finset.range n,
      Hmat k a * -(∑ b in Finset.Ico q n, J a b * colT n J v b)
      = spread n Hmat J (fun b => if q ≤ b then -colT n J v b else 0) k := by
    unfold spread
    refine Finset.sum_congr rfl (fun a _ => ?_)
    congr 1
    rw [← Finset.sum_neg_distrib, ← sum_range_ge n q hq]
    refine Finset.sum_congr rfl (fun b _ => ?_)
    by_cases h : q ≤ b
    · simp only [if_pos h]
      ring
    · simp only [if_neg h]
      ring
  have e2 : ∑ c in Finset.range q, y c * N c k
      = spread n Hmat J (fun b => if b < q then -colT n J v b else 0) k := by
    have h1 : ∀ c ∈ Finset.range q, y c * N c k
        = y c * spread n Hmat J (fun b => if b ≤ c then R b c else 0) k := by
      intro c hc
      rw [← spread_colT n Hmat J hJ (N c) k hk]
      congr 1
      exact spread_congr n Hmat J _ _ (fun b hb => hT c (Finset.mem_range.mp hc) b hb) k
    rw [Finset.sum_congr rfl h1,
      spread_sum n q Hmat J y (fun b c => if b ≤ c then R b c else 0) k]
    refine spread_congr n Hmat J _ _ (fun b _ => ?_) k
    have h2 : ∑ c in Finset.range q, (if b ≤ c then R b c else 0) * y c
        = ∑ c in Finset.Ico b q, R b c * y c := by
      rw [← sum_range_upper q b (fun c => R b c * y c)]
      refine Finset.sum_congr rfl (fun c _ => ?_)
      by_cases h : b ≤ c
      · simp only [if_pos h]
      · simp only [if_neg h]
        ring
    rw [h2]
    by_cases hb : b < q
    · rw [if_pos hb, hy b hb]
    · rw [if_neg hb, Finset.Ico_eq_empty (by omega), Finset.sum_empty]
  rw [e1, e2, ← spread_colT n Hmat J hJ v k hk, ← spread_add, ← spread_add]
  refine (spread_congr n Hmat J _ (fun _ => 0) (fun b _ => ?_) k).trans (spread_zero n Hmat J k)
  by_cases hb : b < q
  · simp only [if_neg (show ¬ q ≤ b by omega), if_pos hb]
    ring
  · simp only [if_pos (show q ≤ b by omega), if_neg hb]
    ring

/-! ## The diagonal of R -/


/-- Back substitution on the last `c` rows reads the right-hand side in those
rows only. -/
theorem backSolve_rhs (U : QPMatrix K) (b b1 : QPVector K) (hi c : Nat) (hc : c ≤ hi)
    (h : ∀ i, hi - c ≤ i → i < hi → b i = b1 i) :
    backSolve U b hi c = backSolve U b1 hi c := by
  induction c with
  | zero => rfl
  | succ c ih =>
    unfold backSolve
    dsimp only
    rw [ih (by omega) (fun i h1 h2 => h i (by omega) h2), h (hi - (c + 1)) (le_refl _) (by omega)]

/-- Rotating a pair with a nonzero second entry gives a nonzero length. -/
theorem computeAndApply_ne_zero (sqrt : K → K) (hs : IsSqrt sqrt) (a b : K) (hb : b ≠ 0) :
    (GivensReflection.computeAndApply sqrt a b 0).2.1 ≠ 0 := by
  intro h0
  have h1 := computeAndApply_a_sq sqrt hs a b
  rw [h0, mul_zero] at h1
  have h2 : 0 < b * b := mul_self_pos.mpr hb
  have h3 : 0 ≤ a * a := mul_self_nonneg a
  linarith

/-- The loop of `downdate` keeps the diagonal of `R` nonzero. -/
theorem downdateLoop_diag (sqrt : K → K) (hs : IsSqrt sqrt) (q : Nat) (cnt i : Nat)
    (fd : FactorizationData K) (hi : 1 ≤ i) (hcnt : i + cnt = q)
    (h1 : ∀ c, c + 1 < i → fd.R c c ≠ 0) (h2 : ∀ c, i ≤ c → c < q → fd.R c c ≠ 0) :
    ∀ c, c + 1 < q →
      (forUp (FactorizationData.downdateStep sqrt q) i cnt fd).R c c ≠ 0 := by
  induction cnt generalizing i fd with
  | zero =>
    have : i = q := by omega
    subst this
    exact h1
  | succ cnt ih =>
    unfold forUp
    refine ih (i + 1) (FactorizationData.downdateStep sqrt q i fd) (by omega) (by omega) ?_ ?_
    · intro c hc
      by_cases hci : c + 1 < i
      · rw [downdateStep_R_left sqrt q i fd c c hci]
        exact h1 c hci
      · have e : c = i - 1 := by omega
        rw [downdateStep_R, if_pos ⟨e, by omega⟩, if_pos e]
        exact computeAndApply_ne_zero sqrt hs _ _ (h2 i (le_refl i) (by omega))
    · intro c hc hcq
      rw [downdateStep_R, if_neg (by omega), if_neg (by omega), if_pos ⟨hc, hcq⟩,
        if_neg (by omega), if_neg (by omega)]
      exact h2 c (by omega) hcq

/-- After `downdate(j, q)` the diagonal of the remaining `q − 1` columns of `R`
is nonzero. -/
theorem downdate_diag (sqrt : K → K) (hs : IsSqrt sqrt) (j q : Nat) (fd : FactorizationData K)
    (tol : K) (hjq : j < q) (hd : ∀ c, c < q → fd.R c c ≠ 0) :
    ∀ c, c < q - 1 → (fd.downdate sqrt j q tol).R c c ≠ 0 := by
  intro c hc
  unfold FactorizationData.downdate
  exact downdateLoop_diag sqrt hs q (q - (j + 1)) (j + 1) fd (by omega) (by omega)
    (fun c hc => hd c (by omega)) (fun c _ hcq => hd c hcq) c (by omega)

/-- When `update(k, tol)` accepts with `tol > 0`, the new diagonal entry is
nonzero and the columns left of `k` are unchanged. -/
theorem update_diag (sqrt : K → K) (fd : FactorizationData K) (k : Nat) (tol : K)
    (htol : 0 < tol) (hacc : (fd.update sqrt k tol).2 = true)
    (hd : ∀ c, c < k → fd.R c c ≠ 0) :
    ∀ c, c < k + 1 → (fd.update sqrt k tol).1.R c c ≠ 0 := by
  intro c hc
  by_cases hck : c = k
  · subst hck
    unfold FactorizationData.update at hacc ⊢
    dsimp only at hacc ⊢
    split_ifs at hacc ⊢ with h
    intro h0
    rw [h0, abs_zero] at h
    exact h htol
  · rw [update_fst, updateLoop_R_other sqrt k _ fd c c hck]
    exact hd c (by omega)

/-- The columns left of `k` keep their diagonal under `update(k, tol)`. -/
theorem update_diag_left (sqrt : K → K) (fd : FactorizationData K) (k : Nat) (tol : K)
    (hd : ∀ c, c < k → fd.R c c ≠ 0) :
    ∀ c, c < k → (fd.update sqrt k tol).1.R c c ≠ 0 := by
  intro c hc
  rw [update_fst, updateLoop_R_other sqrt k _ fd c c (by omega)]
  exact hd c hc

/-! ## The direction identity -/


/-- The triangular inverse of the factor of `H = L·Lᵀ` satisfies `Jᵀ·H·J = I`. -/
theorem inversion_hOrthonormal (n : Nat) (L Hmat : QPMatrix K)
    (hd : ∀ k, k < n → L k k ≠ 0)
    (hH : ∀ r c, r < n → c < n →
      Hmat r c = ∑ k in Finset.range n, lowerPart L r k * lowerPart L c k) :
    HOrthonormal n Hmat (TriangularInversion.compute n L) := by
  rw [inversion_lowerPart]
  have htri : ∀ r c, r < c → c < n → lowerPart L r c = 0 :=
    fun r c h _ => lowerPart_upper L r c h
  have hd1 : ∀ k, k < n → lowerPart L k k ≠ 0 := by
    intro k hk
    rw [← lowerPart_lower L k k (le_refl k)]
    exact hd k hk
  have h1 : toMatrix n (lowerPart L)
      * toMatrix n (fun a b => TriangularInversion.compute n (lowerPart L) b a) = 1 := by
    ext a b
    rw [toMatrix_mul, Matrix.one_apply]
    have e : (if a = b then (1 : K) else 0) = if (a : Nat) = (b : Nat) then 1 else 0 := by
      by_cases h : a = b
      · rw [if_pos h, if_pos (congrArg Fin.val h)]
      · rw [if_neg h, if_neg (fun h1 => h (Fin.ext h1))]
    rw [e]
    exact inversion_spec n (lowerPart L) a b a.2 b.2 htri hd1
  have h2 := Matrix.mul_eq_one_comm.mp h1
  have hleft : ∀ i k, i < n → k < n →
      ∑ a in Finset.range n, TriangularInversion.compute n (lowerPart L) a i * lowerPart L a k
        = if i = k then 1 else 0 := by
    intro i k hi hk
    have h3 := congrFun (congrFun h2 ⟨i, hi⟩) ⟨k, hk⟩
    rw [toMatrix_mul, Matrix.one_apply] at h3
    simp only [Fin.mk.injEq] at h3
    exact h3
  intro i j hi hj
  unfold gram
  have e1 : ∑ a in Finset.range n, ∑ b in Finset.range n,
      TriangularInversion.compute n (lowerPart L) a i * Hmat a b
        * TriangularInversion.compute n (lowerPart L) b j
      = ∑ k in Finset.range n,
          (∑ a in Finset.range n,
            TriangularInversion.compute n (lowerPart L) a i * lowerPart L a k)
          * (∑ b in Finset.range n,
            TriangularInversion.compute n (lowerPart L) b j * lowerPart L b k) := by
    have e0 : ∀ a ∈ Finset.range n, ∀ b ∈ Finset.range n,
        TriangularInversion.compute n (lowerPart L) a i * Hmat a b
          * TriangularInversion.compute n (lowerPart L) b j
        = ∑ k in Finset.range n,
            (TriangularInversion.compute n (lowerPart L) a i * lowerPart L a k)
            * (TriangularInversion.compute n (lowerPart L) b j * lowerPart L b k) := by
      intro a ha b hb
      rw [hH a b (Finset.mem_range.mp ha) (Finset.mem_range.mp hb), Finset.mul_sum,
        Finset.sum_mul]
      refine Finset.sum_congr rfl (fun k _ => ?_)
      ring
    rw [Finset.sum_congr rfl (fun a ha => Finset.sum_congr rfl (fun b hb => e0 a ha b hb))]
    simp only [Finset.sum_mul_sum]
    refine (Finset.sum_congr rfl (fun a _ => Finset.sum_comm)).trans ?_
    rw [Finset.sum_comm]
  rw [e1]
  have e2 : ∀ k ∈ Finset.range n,
      (∑ a in Finset.range n,
          TriangularInversion.compute n (lowerPart L) a i * lowerPart L a k)
        * (∑ b in Finset.range n,
          TriangularInversion.compute n (lowerPart L) b j * lowerPart L b k)
      = if i = k then (if j = k then 1 else 0) else 0 := by
    intro k hk
    rw [hleft i k hi (Finset.mem_range.mp hk), hleft j k hj (Finset.mem_range.mp hk)]
    split_ifs <;> simp
  rw [Finset.sum_congr rfl e2, Finset.sum_ite_eq, if_pos (Finset.mem_range.mpr hi)]
  by_cases hij : i = j
  · rw [if_pos hij, if_pos hij.symm]
  · rw [if_neg hij, if_neg (fun h => hij h.symm)]

/-- A stationary point stays stationary along a direction that satisfies the
direction identity. -/
theorem stationary_step (n q : Nat) (Hmat : QPMatrix K) (h x p : QPVector K)
    (N : Nat → QPVector K) (w y : Nat → K) (u t : K) (v : QPVector K) (k : Nat)
    (hS : ∑ c in Finset.range n, Hmat k c * x c + h k
      + ∑ c in Finset.range q, w c * N c k + u * v k = 0)
    (hD : ∑ c in Finset.range n, Hmat k c * p c
      + ∑ c in Finset.range q, y c * N c k + v k = 0) :
    ∑ c in Finset.range n, Hmat k c * (x c + t * p c) + h k
      + ∑ c in Finset.range q, (w c + t * y c) * N c k + (u + t) * v k = 0 := by
  have e1 : ∑ c in Finset.range n, Hmat k c * (x c + t * p c)
      = ∑ c in Finset.range n, Hmat k c * x c
        + t * ∑ c in Finset.range n, Hmat k c * p c := by
    rw [Finset.mul_sum, ← Finset.sum_add_distrib]
    refine Finset.sum_congr rfl (fun c _ => ?_)
    ring
  have e2 : ∑ c in Finset.range q, (w c + t * y c) * N c k
      = ∑ c in Finset.range q, w c * N c k + t * ∑ c in Finset.range q, y c * N c k := by
    rw [Finset.mul_sum, ← Finset.sum_add_distrib]
    refine Finset.sum_congr rfl (fun c _ => ?_)
    ring
  rw [e1, e2]
  linear_combination hS + t * hD

/-- The step directions of an iteration of the main loop: with `v` the signed
row of the chosen constraint and `d = Jᵀ·v`, there are coefficients `y` on the
active positions, equal to the dual step direction on the active inequalities,
with `H·(−J₂·d₂) + Σ y[c]·N c + v = 0`. -/
theorem Solver.computeStepDirections_identity (s : Solver K) (A : QPMatrix K)
    (ch : ChosenConstraint K) (Hmat : QPMatrix K) (hwf : s.WF A)
    (hJ : HOrthonormal s.primal_size_ Hmat s.factorization_data_.QLi_aka_J)
    (hd : ∀ c, c < s.active_set_.size_ → s.factorization_data_.R c c ≠ 0) :
    ∃ y : Nat → K,
      (∀ c, s.active_set_.num_equalities_ ≤ c → c < s.active_set_.size_ →
        y c = (s.computeStepDirections A ch).dual_step_direction_ c) ∧
      ∀ k, k < s.primal_size_ →
        ∑ a in Finset.range s.primal_size_, Hmat k a *
            -(∑ b in Finset.Ico s.active_set_.size_ s.primal_size_,
                s.factorization_data_.QLi_aka_J a b
                * colT s.primal_size_ s.factorization_data_.QLi_aka_J
                    (signedRow (A ch.index_) ch.type_) b)
          + ∑ c in Finset.range s.active_set_.size_, y c * s.normal A c k
          + signedRow (A ch.index_) ch.type_ k = 0 := by
  have hq := hwf.size_eq
  have hfd := hwf.fd_size
  by_cases hspace : s.active_set_.hasEmptySpace = true
  · refine ⟨fun c => -backSolve
      (s.factorization_data_.computeInequalitySteps s.dual_step_direction_
        (A ch.index_) ch.type_ s.active_set_).1.R
      (fun k => (s.factorization_data_.computeInequalitySteps s.dual_step_direction_
        (A ch.index_) ch.type_ s.active_set_).1.R k s.active_set_.size_)
      s.active_set_.size_ s.active_set_.size_ c, ?_, ?_⟩
    · intro c h1 h2
      unfold Solver.computeStepDirections
      rw [if_pos hspace]
      show _ = (s.factorization_data_.computeInequalitySteps s.dual_step_direction_
        (A ch.index_) ch.type_ s.active_set_).2.2 c
      show _ = if s.active_set_.num_equalities_ ≤ c ∧
          c < s.active_set_.num_equalities_ + s.active_set_.num_inequalities_ then
          -(backSolve (s.factorization_data_.computeInequalitySteps s.dual_step_direction_
              (A ch.index_) ch.type_ s.active_set_).1.R
            (fun k => (s.factorization_data_.computeInequalitySteps s.dual_step_direction_
              (A ch.index_) ch.type_ s.active_set_).1.R k s.active_set_.size_)
            (s.active_set_.num_equalities_ + s.active_set_.num_inequalities_)
            s.active_set_.num_inequalities_ c)
        else s.dual_step_direction_ c
      rw [if_pos ⟨h1, by omega⟩, ← hq]
      dsimp only
      rw [backSolve_stable _ _ s.active_set_.size_ s.active_set_.num_inequalities_
        s.active_set_.size_ c (by omega) (le_refl _) (by omega)]
    · intro k hk
      refine direction_identity s.primal_size_ s.active_set_.size_ Hmat
        s.factorization_data_.QLi_aka_J s.factorization_data_.R (s.normal A)
        (signedRow (A ch.index_) ch.type_) _ hwf.size_le hJ hwf.tracks ?_ k hk
      intro b hb
      have spec := backSolve_spec
        (s.factorization_data_.computeInequalitySteps s.dual_step_direction_
          (A ch.index_) ch.type_ s.active_set_).1.R
        (fun k => (s.factorization_data_.computeInequalitySteps s.dual_step_direction_
          (A ch.index_) ch.type_ s.active_set_).1.R k s.active_set_.size_)
        s.active_set_.size_ s.active_set_.size_ b (le_refl _) (by omega) hb (by
          rw [computeInequalitySteps_R_other _ _ _ _ _ _ _ (Nat.ne_of_lt hb)]
          exact hd b hb)
      dsimp only at spec
      rw [computeInequalitySteps_R_col _ _ _ _ _ b (by rw [hfd]; have := hwf.size_le; omega),
        hfd] at spec
      rw [← spec, ← Finset.sum_neg_distrib]
      refine Finset.sum_congr rfl (fun c hc => ?_)
      rw [computeInequalitySteps_R_other _ _ _ _ _ _ _
        (Nat.ne_of_lt (Finset.mem_Ico.mp hc).2)]
      ring
  · have hfull : s.active_set_.size_ = s.primal_size_ := by
      have h1 : ¬ s.active_set_.size_ < s.active_set_.max_size_ :=
        fun h => hspace ((hasEmptySpace_iff _).mpr h)
      have h2 := hwf.max_size
      have h3 := hwf.size_le
      omega
    refine ⟨backSolve s.factorization_data_.R
      (fun b => -colT s.primal_size_ s.factorization_data_.QLi_aka_J
        (signedRow (A ch.index_) ch.type_) b)
      s.active_set_.size_ s.active_set_.size_, ?_, ?_⟩
    · intro c h1 h2
      unfold Solver.computeStepDirections
      rw [if_neg hspace]
      show _ = s.factorization_data_.computeInequalityDualStep s.dual_step_direction_
        (A ch.index_) ch.type_ s.active_set_ c
      unfold FactorizationData.computeInequalityDualStep
      rw [if_pos ⟨h1, by omega⟩, ← hq]
      rw [backSolve_stable _ _ s.active_set_.size_ s.active_set_.num_inequalities_
        s.active_set_.size_ c (by omega) (le_refl _) (by omega)]
      refine congrFun (backSolve_rhs _ _ _ _ _ (by omega) ?_) c
      intro i hi1 hi2
      rw [if_pos ⟨by omega, by omega⟩, colT_signedRow, hfd]
      have ei : s.primal_size_ - s.active_set_.num_inequalities_
          + (i - s.active_set_.num_equalities_) = i := by omega
      rw [ei]
      unfold colT
      split_ifs
      · rw [neg_neg]
      · rfl
    · intro k hk
      refine direction_identity s.primal_size_ s.active_set_.size_ Hmat
        s.factorization_data_.QLi_aka_J s.factorization_data_.R (s.normal A)
        (signedRow (A ch.index_) ch.type_) _ hwf.size_le hJ hwf.tracks ?_ k hk
      intro b hb
      exact backSolve_spec s.factorization_data_.R _ s.active_set_.size_ s.active_set_.size_ b
        (le_refl _) (by omega) hb (hd b hb)

/-! ## Stationarity of a state -/


theorem sum_drop (f : Nat → K) (j m : Nat) (hj : j ≤ m) :
    ∑ c in Finset.range m, f (if j ≤ c then c + 1 else c) + f j
      = ∑ c in Finset.range (m + 1), f c := by
  induction m, hj using Nat.le_induction with
  | base =>
    rw [Finset.sum_range_succ]
    congr 1
    refine Finset.sum_congr rfl (fun c hc => ?_)
    rw [if_neg (by have := Finset.mem_range.mp hc; omega)]
  | succ m hm ih =>
    rw [Finset.sum_range_succ, Finset.sum_range_succ _ (m + 1), ← ih, if_pos hm]
    ring

/-- The dual step length found by the sweep is the ratio `−μ[j]/z[j]` at the
blocking position `j`, an active inequality with `z[j] < −tol`. -/
theorem Solver.dualBlocking_exact (s : Solver K) (tol : K)
    (hle : s.active_set_.num_equalities_ ≤ s.active_set_.size_) (t : K)
    (ht : (s.dualBlocking tol).2 = some t) :
    s.active_set_.num_equalities_ ≤ (s.dualBlocking tol).1 ∧
    (s.dualBlocking tol).1 < s.active_set_.size_ ∧
    s.dual_step_direction_ (s.dualBlocking tol).1 < -tol ∧
    t = -s.dual_ (s.dualBlocking tol).1 / s.dual_step_direction_ (s.dualBlocking tol).1 := by
  have := forUp_induction (Solver.dualBlockingStep tol s.dual_ s.dual_step_direction_)
    (fun i st => st.2 = none ∨
      (s.active_set_.num_equalities_ ≤ st.1 ∧ st.1 < i ∧ s.dual_step_direction_ st.1 < -tol ∧
        st.2 = some (-s.dual_ st.1 / s.dual_step_direction_ st.1)))
    s.active_set_.num_equalities_ (s.active_set_.size_ - s.active_set_.num_equalities_)
    (s.primal_size_, none) (Or.inl rfl) (by
      intro i st h1 h2 h3
      unfold Solver.dualBlockingStep
      split_ifs with hd
      · rcases h3 with h4 | ⟨h4, h5, h7, h6⟩
        · rw [h4]
          exact Or.inr ⟨h1, Nat.lt_succ_self i, hd, rfl⟩
        · rw [h6]
          dsimp only
          split_ifs
          · exact Or.inr ⟨h1, Nat.lt_succ_self i, hd, rfl⟩
          · exact Or.inr ⟨h4, by omega, h7, h6⟩
      · rcases h3 with h3 | ⟨h4, h5, h6⟩
        · exact Or.inl h3
        · exact Or.inr ⟨h4, by omega, h6⟩)
  rw [Nat.add_sub_cancel' hle] at this
  have hdef : s.dualBlocking tol
      = forUp (Solver.dualBlockingStep tol s.dual_ s.dual_step_direction_)
          s.active_set_.num_equalities_ (s.active_set_.size_ - s.active_set_.num_equalities_)
          (s.primal_size_, none) := rfl
  rw [← hdef] at this
  rcases this with h | ⟨h1, h2, h3, h4⟩
  · rw [h] at ht
    exact absurd ht (by simp)
  · rw [h4] at ht
    injection ht with ht
    exact ⟨h1, h2, h3, ht.symm⟩

/-- The constraint chooser does not change which rows enter negated. -/
theorem chooseConstraint_normal (s : Solver K) (x : QPVector K) (A : QPMatrix K)
    (Alb Aub : QPVector K) (tol : K) :
    (s.chooseConstraint x A Alb Aub tol).2.normal A = s.normal A := by
  funext c k
  have e : ∀ i, ((s.chooseConstraint x A Alb Aub tol).2.general_constraints_status_ i
        = ConstraintStatus.ACTIVE_LOWER_BOUND)
      ↔ (s.general_constraints_status_ i = ConstraintStatus.ACTIVE_LOWER_BOUND) := by
    intro i
    obtain ⟨c1, c2⟩ := chooseConstraint_status s x A Alb Aub tol i
    by_cases hi : (¬ (s.general_constraints_status_ i = ConstraintStatus.INACTIVE ∨
          s.general_constraints_status_ i = ConstraintStatus.VIOLATED) ∨
        s.num_general_constraints_ ≤ i)
    · rw [c1 hi]
    · have h1 : i < s.num_general_constraints_ := by
        by_contra hcon
        exact hi (Or.inr (by omega))
      have h2 : s.general_constraints_status_ i = ConstraintStatus.INACTIVE ∨
          s.general_constraints_status_ i = ConstraintStatus.VIOLATED := by
        by_contra hcon
        exact hi (Or.inl hcon)
      constructor
      · intro h3
        rcases c2 h1 h2 with ⟨a, _⟩ | ⟨a, _⟩
        · rw [a] at h3
          exact absurd h3 (by decide)
        · rw [a] at h3
          exact absurd h3 (by decide)
      · intro h3
        rcases h2 with a | a
        · rw [a] at h3
          exact absurd h3 (by decide)
        · rw [a] at h3
          exact absurd h3 (by decide)
  show (if (s.chooseConstraint x A Alb Aub tol).2.general_constraints_status_
      (s.active_set_.getIndex c) = ConstraintStatus.ACTIVE_LOWER_BOUND then _ else _) = _
  unfold Solver.normal
  by_cases h : s.general_constraints_status_ (s.active_set_.getIndex c)
      = ConstraintStatus.ACTIVE_LOWER_BOUND
  · rw [if_pos ((e _).mpr h), if_pos h]
    rfl
  · rw [if_neg (fun h1 => h ((e _).mp h1)), if_neg h]
    rfl

/-- A stationary state without a pending multiplier is stationary with every
pending normal. -/
theorem Solver.Stationary.no_pending {s : Solver K} {Hmat : QPMatrix K} {h : QPVector K}
    {A : QPMatrix K} {v : QPVector K} (hS : s.Stationary Hmat h A 0 v) (v1 : QPVector K) :
    s.Stationary Hmat h A 0 v1 := by
  obtain ⟨lam, hl⟩ := hS
  refine ⟨lam, fun k hk => ?_⟩
  have := hl k hk
  rw [zero_mul] at this ⊢
  exact this

/-- Stationarity depends on the sizes, the point, the active set, the statuses
and the multipliers only. -/
theorem Solver.Stationary.congr_stat {s s2 : Solver K} {Hmat : QPMatrix K} {h : QPVector K}
    {A : QPMatrix K} {u : K} {v : QPVector K} (hS : s.Stationary Hmat h A u v)
    (en : s2.primal_size_ = s.primal_size_) (eas : s2.active_set_ = s.active_set_)
    (est : s2.general_constraints_status_ = s.general_constraints_status_)
    (ex : s2.primal = s.primal) (ed : s2.dual_ = s.dual_) :
    s2.Stationary Hmat h A u v := by
  obtain ⟨lam, hl⟩ := hS
  refine ⟨lam, fun k hk => ?_⟩
  have eN : s2.normal A = s.normal A := by
    funext c k
    unfold Solver.normal
    rw [eas, est]
  rw [en] at hk ⊢
  rw [eas, eN, ex, ed]
  exact hl k hk

/-- A step of length `t` along directions that satisfy the direction identity
keeps the state stationary, the pending multiplier growing by `t`. -/
theorem Solver.Stationary.move {s s2 : Solver K} {Hmat : QPMatrix K} {h : QPVector K}
    {A : QPMatrix K} {u : K} {v : QPVector K} (hS : s.Stationary Hmat h A u v)
    (p : QPVector K) (y : Nat → K) (t : K)
    (hD : ∀ k, k < s.primal_size_ →
      ∑ a in Finset.range s.primal_size_, Hmat k a * p a
        + ∑ c in Finset.range s.active_set_.size_, y c * s.normal A c k + v k = 0)
    (en : s2.primal_size_ = s.primal_size_) (eas : s2.active_set_ = s.active_set_)
    (est : s2.general_constraints_status_ = s.general_constraints_status_)
    (ex : ∀ a, a < s.primal_size_ → s2.primal a = s.primal a + t * p a)
    (ed : ∀ c, s.active_set_.num_equalities_ ≤ c → c < s.active_set_.size_ →
      s2.dual_ c = s.dual_ c + t * y c) :
    s2.Stationary Hmat h A (u + t) v := by
  obtain ⟨lam, hl⟩ := hS
  refine ⟨fun c => lam c + t * y c, fun k hk => ?_⟩
  have eN : s2.normal A = s.normal A := by
    funext c k
    unfold Solver.normal
    rw [eas, est]
  rw [en] at hk ⊢
  rw [eas, eN]
  have e1 : ∑ c in Finset.range s.primal_size_, Hmat k c * s2.primal c
      = ∑ c in Finset.range s.primal_size_, Hmat k c * (s.primal c + t * p c) :=
    Finset.sum_congr rfl (fun c hc => by rw [ex c (Finset.mem_range.mp hc)])
  have e2 : ∑ c in Finset.range s.active_set_.size_,
      (if c < s.active_set_.num_equalities_ then lam c + t * y c else s2.dual_ c)
        * s.normal A c k
      = ∑ c in Finset.range s.active_set_.size_,
          ((if c < s.active_set_.num_equalities_ then lam c else s.dual_ c) + t * y c)
            * s.normal A c k := by
    refine Finset.sum_congr rfl (fun c hc => ?_)
    by_cases hc1 : c < s.active_set_.num_equalities_
    · simp only [if_pos hc1]
    · simp only [if_neg hc1]
      rw [ed c (by omega) (Finset.mem_range.mp hc)]
  rw [e1, e2]
  exact stationary_step s.primal_size_ s.active_set_.size_ Hmat h s.primal p (s.normal A)
    (fun c => if c < s.active_set_.num_equalities_ then lam c else s.dual_ c) y u t v k
    (hl k hk) (hD k hk)

/-- Activating the chosen constraint turns its pending multiplier into the
stored multiplier of the new position. -/
theorem Solver.Stationary.activate_stat {r : Solver K} {Hmat : QPMatrix K} {h : QPVector K}
    {A : QPMatrix K} (ch : ChosenConstraint K)
    (hS : r.Stationary Hmat h A ch.dual_ (signedRow (A ch.index_) ch.type_))
    (hle : r.active_set_.num_equalities_ ≤ r.active_set_.size_)
    (hne : ∀ c, c < r.active_set_.size_ → r.active_set_.getIndex c ≠ ch.index_)
    (v1 : QPVector K) :
    (r.activate ch).Stationary Hmat h A 0 v1 := by
  obtain ⟨lam, hl⟩ := hS
  refine ⟨lam, fun k hk => ?_⟩
  have hk' : k < r.primal_size_ := hk
  show ∑ c in Finset.range r.primal_size_, Hmat k c * r.primal c + h k
      + ∑ c in Finset.range (r.active_set_.size_ + 1),
          (if c < r.active_set_.num_equalities_ then lam c
            else Function.update r.dual_ r.active_set_.size_ ch.dual_ c)
          * (r.activate ch).normal A c k
      + 0 * v1 k = 0
  rw [Finset.sum_range_succ, if_neg (by omega), Function.update_same, zero_mul, add_zero]
  have e1 : ∑ c in Finset.range r.active_set_.size_,
      (if c < r.active_set_.num_equalities_ then lam c
        else Function.update r.dual_ r.active_set_.size_ ch.dual_ c)
      * (r.activate ch).normal A c k
      = ∑ c in Finset.range r.active_set_.size_,
          (if c < r.active_set_.num_equalities_ then lam c else r.dual_ c)
          * r.normal A c k := by
    refine Finset.sum_congr rfl (fun c hc => ?_)
    have hc' := Finset.mem_range.mp hc
    rw [Function.update_noteq (Nat.ne_of_lt hc')]
    congr 1
    have hne1 : r.active_set_.active_constraints_indices_ c ≠ ch.index_ := hne c hc'
    unfold Solver.normal Solver.activate ActiveSet.addInequality ActiveSet.getIndex
    dsimp only
    rw [Function.update_noteq (Nat.ne_of_lt hc'), Function.update_noteq hne1]
  have e2 : (r.activate ch).normal A r.active_set_.size_ k
      = signedRow (A ch.index_) ch.type_ k := by
    unfold Solver.normal Solver.activate ActiveSet.addInequality ActiveSet.getIndex signedRow
    dsimp only
    rw [Function.update_same, Function.update_same]
  rw [e1, e2, ← add_assoc]
  exact hl k hk'

/-- Dropping an active inequality whose multiplier is zero keeps the state
stationary. -/
theorem Solver.Stationary.deactivate_stat (sqrt : K → K) {r : Solver K} {Hmat : QPMatrix K}
    {h : QPVector K} {A : QPMatrix K} {u : K} {v : QPVector K}
    (hS : r.Stationary Hmat h A u v) (j : Nat) (tol : K)
    (hj1 : r.active_set_.num_equalities_ ≤ j) (hj2 : j < r.active_set_.size_)
    (hz : r.dual_ j = 0)
    (hinj : ∀ c c1, c < r.active_set_.size_ → c1 < r.active_set_.size_ →
      r.active_set_.getIndex c = r.active_set_.getIndex c1 → c = c1) :
    (Solver.deactivate sqrt r j tol).Stationary Hmat h A u v := by
  obtain ⟨lam, hl⟩ := hS
  refine ⟨lam, fun k hk => ?_⟩
  have hk' : k < r.primal_size_ := hk
  show ∑ c in Finset.range r.primal_size_, Hmat k c * r.primal c + h k
      + ∑ c in Finset.range (r.active_set_.size_ - 1),
          (if c < r.active_set_.num_equalities_ then lam c
            else dropElementWithoutResize r.dual_ j r.active_set_.size_ c)
          * (Solver.deactivate sqrt r j tol).normal A c k
      + u * v k = 0
  have e1 : ∑ c in Finset.range (r.active_set_.size_ - 1),
      (if c < r.active_set_.num_equalities_ then lam c
        else dropElementWithoutResize r.dual_ j r.active_set_.size_ c)
      * (Solver.deactivate sqrt r j tol).normal A c k
      = ∑ c in Finset.range (r.active_set_.size_ - 1),
          (fun c => (if c < r.active_set_.num_equalities_ then lam c else r.dual_ c)
            * r.normal A c k) (if j ≤ c then c + 1 else c) := by
    refine Finset.sum_congr rfl (fun c hc => ?_)
    have hc' := Finset.mem_range.mp hc
    dsimp only
    have eN : (Solver.deactivate sqrt r j tol).normal A c k
        = r.normal A (if j ≤ c then c + 1 else c) k := by
      have eI : (Solver.deactivate sqrt r j tol).active_set_.getIndex c
          = r.active_set_.getIndex (if j ≤ c then c + 1 else c) := by
        show dropElementWithoutResize r.active_set_.active_constraints_indices_ j
          r.active_set_.size_ c
          = r.active_set_.active_constraints_indices_ (if j ≤ c then c + 1 else c)
        unfold dropElementWithoutResize
        by_cases hjc : j ≤ c
        · rw [if_pos ⟨hjc, by omega⟩, if_pos hjc]
        · rw [if_neg (fun e => hjc e.1), if_neg hjc]
      have eS : ∀ i, i ≠ r.active_set_.getIndex j →
          (Solver.deactivate sqrt r j tol).general_constraints_status_ i
            = r.general_constraints_status_ i :=
        fun i hi => Function.update_noteq hi _ _
      have hne1 : r.active_set_.getIndex (if j ≤ c then c + 1 else c)
          ≠ r.active_set_.getIndex j := by
        intro e
        have := hinj _ j (by split_ifs <;> omega) hj2 e
        split_ifs at this <;> omega
      unfold Solver.normal
      rw [eI, eS _ hne1]
    rw [eN]
    congr 1
    unfold dropElementWithoutResize
    by_cases hjc : j ≤ c
    · rw [if_neg (by omega), if_pos ⟨hjc, by omega⟩, if_pos hjc, if_neg (by omega)]
    · rw [if_neg hjc]
      by_cases hc1 : c < r.active_set_.num_equalities_
      · rw [if_pos hc1, if_pos hc1]
      · rw [if_neg hc1, if_neg (fun e => hjc e.1), if_neg hc1]
  rw [e1]
  have e2 := sum_drop (fun c => (if c < r.active_set_.num_equalities_ then lam c else r.dual_ c)
    * r.normal A c k) j (r.active_set_.size_ - 1) (by omega)
  rw [Nat.sub_add_cancel (by omega : 1 ≤ r.active_set_.size_)] at e2
  dsimp only at e2
  rw [if_neg (by omega), hz, zero_mul, add_zero] at e2
  rw [e2]
  exact hl k hk'

/-! ## Step directions and the factorization -/


theorem Solver.computeStepDirections_J (s : Solver K) (A : QPMatrix K)
    (ch : ChosenConstraint K) :
    (s.computeStepDirections A ch).factorization_data_.QLi_aka_J
      = s.factorization_data_.QLi_aka_J := by
  unfold Solver.computeStepDirections
  split_ifs <;> rfl

theorem Solver.computeStepDirections_R_left (s : Solver K) (A : QPMatrix K)
    (ch : ChosenConstraint K) (r c : Nat) (hc : c < s.active_set_.size_) :
    (s.computeStepDirections A ch).factorization_data_.R r c = s.factorization_data_.R r c := by
  unfold Solver.computeStepDirections
  split_ifs
  · exact computeInequalitySteps_R_other s.factorization_data_ s.dual_step_direction_
      (A ch.index_) ch.type_ s.active_set_ r c (Nat.ne_of_lt hc)
  · rfl

/-- With room in the active set the primal step direction is `−J₂·d₂` for
`d = Jᵀ·v`, `v` the signed row of the chosen constraint. -/
theorem Solver.computeStepDirections_tail (s : Solver K) (A : QPMatrix K)
    (ch : ChosenConstraint K) (hfd : s.factorization_data_.primal_size_ = s.primal_size_)
    (hspace : s.active_set_.hasEmptySpace = true) (a : Nat) (ha : a < s.primal_size_) :
    (s.computeStepDirections A ch).primal_step_direction_ a
      = -(∑ b in Finset.Ico s.active_set_.size_ s.primal_size_,
            s.factorization_data_.QLi_aka_J a b
            * colT s.primal_size_ s.factorization_data_.QLi_aka_J
                (signedRow (A ch.index_) ch.type_) b) := by
  rw [Solver.computeStepDirections_p s A ch hspace, computeInequalitySteps_p, hfd]
  dsimp only
  rw [if_pos ha]
  congr 1
  refine Finset.sum_congr rfl (fun b hb => ?_)
  rw [computeInequalitySteps_R_col _ _ _ _ _ b (by rw [hfd]; exact (Finset.mem_Ico.mp hb).2),
    hfd]

/-- When the product `A[chosen]·p` vanishes, so does the tail of `d = Jᵀ·v`. -/
theorem Solver.computeStepDirections_tail_zero (s : Solver K) (A : QPMatrix K)
    (ch : ChosenConstraint K) (hfd : s.factorization_data_.primal_size_ = s.primal_size_)
    (hspace : s.active_set_.hasEmptySpace = true)
    (hcp : dot s.primal_size_ (A ch.index_)
      (s.computeStepDirections A ch).primal_step_direction_ = 0)
    (b : Nat) (hb1 : s.active_set_.size_ ≤ b) (hb2 : b < s.primal_size_) :
    colT s.primal_size_ s.factorization_data_.QLi_aka_J
      (signedRow (A ch.index_) ch.type_) b = 0 := by
  rw [Solver.computeStepDirections_p s A ch hspace] at hcp
  have hdot := computeInequalitySteps_dot s.factorization_data_ s.dual_step_direction_
    (A ch.index_) ch.type_ s.active_set_
  rw [hfd] at hdot
  rw [hdot] at hcp
  have hsum : ∑ k in Finset.Ico s.active_set_.size_ s.primal_size_,
      colT s.primal_size_ s.factorization_data_.QLi_aka_J (A ch.index_) k
      * colT s.primal_size_ s.factorization_data_.QLi_aka_J (A ch.index_) k = 0 := by
    split_ifs at hcp
    · exact hcp
    · exact neg_eq_zero.mp hcp
  have hz := (Finset.sum_eq_zero_iff_of_nonneg (fun k _ => mul_self_nonneg _)).mp hsum b
    (Finset.mem_Ico.mpr ⟨hb1, hb2⟩)
  have h0 : colT s.primal_size_ s.factorization_data_.QLi_aka_J (A ch.index_) b = 0 :=
    mul_self_eq_zero.mp hz
  rw [colT_signedRow, h0]
  split_ifs
  · exact neg_zero
  · rfl

theorem update_hOrthonormal (sqrt : K → K) (hs : IsSqrt sqrt) (Hmat : QPMatrix K)
    (fd : FactorizationData K) (k : Nat) (tol : K)
    (hJ : HOrthonormal fd.primal_size_ Hmat fd.QLi_aka_J) :
    HOrthonormal fd.primal_size_ Hmat (fd.update sqrt k tol).1.QLi_aka_J := by
  rw [update_fst]
  by_cases hn : 0 < fd.primal_size_
  · exact updateLoop_hOrthonormal sqrt hs Hmat k _ fd (by omega) hJ
  · intro i j hi
    omega

theorem downdate_hOrthonormal (sqrt : K → K) (hs : IsSqrt sqrt) (Hmat : QPMatrix K)
    (fd : FactorizationData K) (j q : Nat) (tol : K) (hj : j < q) (hq : q ≤ fd.primal_size_)
    (hJ : HOrthonormal fd.primal_size_ Hmat fd.QLi_aka_J) :
    HOrthonormal fd.primal_size_ Hmat (fd.downdate sqrt j q tol).QLi_aka_J := by
  unfold FactorizationData.downdate
  exact downdateLoop_hOrthonormal sqrt hs Hmat q _ _ fd (by omega) (by omega) hJ

/-! ## Back substitution on a block -/


/-- Back substitution is odd in the right-hand side. -/
theorem backSolve_neg (U : QPMatrix K) (b : QPVector K) (hi c : Nat) (k : Nat) :
    backSolve U (fun i => -b i) hi c k = -backSolve U b hi c k := by
  induction c generalizing k with
  | zero => exact neg_zero.symm
  | succ c ih =>
    unfold backSolve
    dsimp only
    by_cases hk : k = hi - (c + 1)
    · rw [hk, Function.update_same, Function.update_same]
      have e : ∑ j in Finset.Ico (hi - (c + 1) + 1) hi,
          U (hi - (c + 1)) j * backSolve U (fun i => -b i) hi c j
          = -(∑ j in Finset.Ico (hi - (c + 1) + 1) hi,
              U (hi - (c + 1)) j * backSolve U b hi c j) := by
        rw [← Finset.sum_neg_distrib]
        refine Finset.sum_congr rfl (fun j _ => ?_)
        rw [ih j]
        ring
      rw [e]
      ring
    · rw [Function.update_noteq hk, Function.update_noteq hk]
      exact ih k

/-- Back substitution on the block ending at `hi` reads only the upper triangle
left of column `hi`. -/
theorem backSolve_block (U U1 : QPMatrix K) (b : QPVector K) (hi c : Nat) (hc : c ≤ hi)
    (hU : ∀ r k, r ≤ k → k < hi → U r k = U1 r k) :
    backSolve U b hi c = backSolve U1 b hi c := by
  induction c with
  | zero => rfl
  | succ c ih =>
    unfold backSolve
    dsimp only
    have e : ∑ j in Finset.Ico (hi - (c + 1) + 1) hi,
        U (hi - (c + 1)) j * backSolve U1 b hi c j
        = ∑ j in Finset.Ico (hi - (c + 1) + 1) hi,
            U1 (hi - (c + 1)) j * backSolve U1 b hi c j := by
      refine Finset.sum_congr rfl (fun j hj => ?_)
      rw [hU (hi - (c + 1)) j (by have := (Finset.mem_Ico.mp hj).1; omega)
        (Finset.mem_Ico.mp hj).2]
    rw [ih (by omega), hU (hi - (c + 1)) (hi - (c + 1)) (le_refl _) (by omega), e]

/-! ## The step-length assertion -/


/-- The equality-activation loop raises only for inconsistent bounds or a failed
`update`. -/
theorem equalityLoop_raised (sqrt : K → K) (H A : QPMatrix K) (Alb Aub : QPVector K)
    (param : SolverParameters K) (count i : Nat) (st : Solver K × Nat) (e : QPError)
    (s : Solver K)
    (hloop : Solver.equalityLoop sqrt H A Alb Aub param count i st
      = Step.done (Outcome.raised e s)) :
    e = QPError.INCONSISTENT_BOUNDS ∨ e = QPError.FAILED_TO_ADD_EQUALITY := by
  induction count generalizing i st with
  | zero =>
    unfold Solver.equalityLoop at hloop
    exact absurd hloop (by simp)
  | succ count ih =>
    unfold Solver.equalityLoop at hloop
    cases hstep : Solver.equalityStep sqrt H A Alb Aub param i st with
    | next st2 =>
      rw [hstep] at hloop
      exact ih (i + 1) st2 hloop
    | done o =>
      rw [hstep] at hloop
      have h : o = Outcome.raised e s := by
        injection hloop
      subst h
      unfold Solver.equalityStep at hstep
      dsimp only at hstep
      repeat' split at hstep
      all_goals (simp at hstep <;> first | exact Or.inl hstep.1.symm | exact Or.inr hstep.1.symm)

/-- When an iteration of the main loop raises because a step length is negative,
assertions are on, the active set had room, `|A[chosen]·p| > tol`, and one of
the two step lengths is negative. -/
theorem mainStep_negative (sqrt : K → K) (asserts : Bool)
    (H A : QPMatrix K) (Alb Aub : QPVector K) (param : SolverParameters K)
    (st : Solver K × ChosenConstraint K) (s : Solver K)
    (hstep : Solver.mainStep sqrt asserts H A Alb Aub param st
      = Step.done (Outcome.raised QPError.NEGATIVE_STEP_LENGTH s)) :
    ¬ |st.2.violation_| < param.tolerance_ ∧
    (st.1.stepState H A st.2).active_set_.hasEmptySpace = true ∧
    |st.1.stepCp H A st.2| > param.tolerance_ ∧
    Solver.lengthsOk ((st.1.stepState H A st.2).dualBlocking param.tolerance_).2
      (-st.2.violation_ / st.1.stepCp H A st.2) = false := by
  unfold Solver.stepCp Solver.stepState
  unfold Solver.mainStep at hstep
  dsimp only at hstep
  split at hstep
  · exact absurd hstep (by simp)
  rename_i h0
  split at hstep
  · rename_i hc
    refine ⟨h0, hc.1, hc.2, ?_⟩
    split at hstep
    · rename_i hass
      exact hass.2
    split at hstep
    · injection hstep with hstep
      injection hstep with hstep
      exact absurd hstep (by decide)
    split at hstep
    · exact absurd hstep (by simp)
    · exact absurd hstep (by simp)
  · split at hstep
    · exact absurd hstep (by simp)
    · exact absurd hstep (by simp)

/-- In the first iteration of the active-bound scenario the violation is `−1`. -/
theorem activeBound_violation :
    (singleStart 1 1 (matOf [[1]]) (vecOf [0]) (matOf [[1]])
        (vecOf [1] : QPVector ℝ)).2.violation_ = -1 := by
  have hd : ∀ k, k < 1 → (matOf [[1]] : QPMatrix ℝ) k k ≠ 0 := by
    intro k hk
    have : k = 0 := by omega
    subst this
    simp [matOf]
  have hH : ∀ r c, r < 1 → c < 1 → (matOf [[1]] : QPMatrix ℝ) r c
      = ∑ k in Finset.range 1, lowerPart (matOf [[1]] : QPMatrix ℝ) r k
          * lowerPart (matOf [[1]] : QPMatrix ℝ) c k := by
    intro r c hr hc
    have : r = 0 := by omega
    subst this
    have : c = 0 := by omega
    subst this
    simp [lowerPart, matOf]
  have ex : dot 1 ((matOf [[1]] : QPMatrix ℝ) 0)
      (Solver.entry ⟨1, 1, 0, 1⟩ (matOf [[1]]) (vecOf [0])).primal
      = dot 1 ((matOf [[1]] : QPMatrix ℝ) 0) (vecOf [0]) :=
    dot_congr 1 _ _ _ (entry_primal_eq 1 (matOf [[1]]) (matOf [[1]]) (vecOf [0]) (vecOf [0])
      ⟨1, 1, 0, 1⟩ rfl (by decide) hd hH (by
        intro r hr
        have : r = 0 := by omega
        subst this
        simp [matOf, vecOf]))
  show dot 1 ((matOf [[1]] : QPMatrix ℝ) 0)
      (Solver.entry ⟨1, 1, 0, 1⟩ (matOf [[1]]) (vecOf [0])).primal
    - (vecOf [1] : QPVector ℝ) 0 = -1
  rw [ex]
  simp [vecOf, matOf, dot]

/-! ## Stationarity across an iteration of the main loop -/


/-- The primal and dual step of lines 280-284 keeps the state stationary, the
multiplier of the chosen constraint growing by the step length. -/
theorem takeStep_stationary (sqrt : K → K) {s : Solver K} {A Hmat : QPMatrix K}
    {h : QPVector K} (ch : ChosenConstraint K) (hwf : s.WF A)
    (hI : s.StatInv Hmat h A ch.dual_ (signedRow (A ch.index_) ch.type_))
    (hspace : s.active_set_.hasEmptySpace = true) (t tol : K) :
    ((s.computeStepDirections A ch).takeStep sqrt t tol).1.Stationary Hmat h A
      (ch.dual_ + t) (signedRow (A ch.index_) ch.type_) := by
  obtain ⟨y, hy1, hy2⟩ :=
    Solver.computeStepDirections_identity s A ch Hmat hwf hI.orth hI.diag
  have hq := hwf.size_eq
  refine hI.stat.move
    (fun a => -(∑ b in Finset.Ico s.active_set_.size_ s.primal_size_,
      s.factorization_data_.QLi_aka_J a b
        * colT s.primal_size_ s.factorization_data_.QLi_aka_J
            (signedRow (A ch.index_) ch.type_) b))
    y t hy2
    (congrArg InputParser.primal_size_ (Solver.computeStepDirections_sizes s A ch))
    (Solver.computeStepDirections_active_set s A ch)
    (Solver.computeStepDirections_status s A ch) ?_ ?_
  · intro a ha
    show (s.computeStepDirections A ch).primal a
      + t * (s.computeStepDirections A ch).primal_step_direction_ a = _
    rw [Solver.computeStepDirections_primal,
      Solver.computeStepDirections_tail s A ch hwf.fd_size hspace a ha]
  · intro c h1 h2
    show (if (s.computeStepDirections A ch).active_set_.num_equalities_ ≤ c ∧
        c < (s.computeStepDirections A ch).active_set_.num_equalities_
          + (s.computeStepDirections A ch).active_set_.num_inequalities_ then
        (s.computeStepDirections A ch).dual_ c
          + t * (s.computeStepDirections A ch).dual_step_direction_ c
      else (s.computeStepDirections A ch).dual_ c) = _
    rw [Solver.computeStepDirections_active_set, if_pos ⟨h1, by omega⟩,
      Solver.computeStepDirections_dual, hy1 c h1 h2]

/-- The step in the dual space of lines 336-338 keeps the state stationary when
the tail `d[q:n]` of `d = Jᵀ·v` vanishes (as it does for a full active set). -/
theorem dualUpdate_stationary {s : Solver K} {A Hmat : QPMatrix K}
    {h : QPVector K} (ch : ChosenConstraint K) (hwf : s.WF A)
    (hI : s.StatInv Hmat h A ch.dual_ (signedRow (A ch.index_) ch.type_))
    (hzero : ∀ b, s.active_set_.size_ ≤ b → b < s.primal_size_ →
      colT s.primal_size_ s.factorization_data_.QLi_aka_J
        (signedRow (A ch.index_) ch.type_) b = 0)
    (t : K) :
    ((s.computeStepDirections A ch).dualUpdate t).Stationary Hmat h A
      (ch.dual_ + t) (signedRow (A ch.index_) ch.type_) := by
  obtain ⟨y, hy1, hy2⟩ :=
    Solver.computeStepDirections_identity s A ch Hmat hwf hI.orth hI.diag
  have hq := hwf.size_eq
  refine hI.stat.move
    (fun a => -(∑ b in Finset.Ico s.active_set_.size_ s.primal_size_,
      s.factorization_data_.QLi_aka_J a b
        * colT s.primal_size_ s.factorization_data_.QLi_aka_J
            (signedRow (A ch.index_) ch.type_) b))
    y t hy2
    (congrArg InputParser.primal_size_ (Solver.computeStepDirections_sizes s A ch))
    (Solver.computeStepDirections_active_set s A ch)
    (Solver.computeStepDirections_status s A ch) ?_ ?_
  · intro a _
    show (s.computeStepDirections A ch).primal a = _
    have e0 : ∑ b in Finset.Ico s.active_set_.size_ s.primal_size_,
        s.factorization_data_.QLi_aka_J a b
          * colT s.primal_size_ s.factorization_data_.QLi_aka_J
              (signedRow (A ch.index_) ch.type_) b = 0 :=
      Finset.sum_eq_zero (fun b hb => by
        rw [hzero b (Finset.mem_Ico.mp hb).1 (Finset.mem_Ico.mp hb).2, mul_zero])
    rw [Solver.computeStepDirections_primal]
    dsimp only
    rw [e0, neg_zero, mul_zero, add_zero]
  · intro c h1 h2
    show (if (s.computeStepDirections A ch).active_set_.num_equalities_ ≤ c ∧
        c < (s.computeStepDirections A ch).active_set_.num_equalities_
          + (s.computeStepDirections A ch).active_set_.num_inequalities_ then
        (s.computeStepDirections A ch).dual_ c
          + t * (s.computeStepDirections A ch).dual_step_direction_ c
      else (s.computeStepDirections A ch).dual_ c) = _
    rw [Solver.computeStepDirections_active_set, if_pos ⟨h1, by omega⟩,
      Solver.computeStepDirections_dual, hy1 c h1 h2]

/-- At the blocking position the dual step of the length found by the sweep
takes the multiplier to zero. -/
theorem Solver.dualBlocking_zero (s : Solver K) (tol : K) (htol : 0 ≤ tol)
    (hle : s.active_set_.num_equalities_ ≤ s.active_set_.size_) (t : K)
    (ht : (s.dualBlocking tol).2 = some t) :
    s.dual_ (s.dualBlocking tol).1 + t * s.dual_step_direction_ (s.dualBlocking tol).1 = 0 := by
  obtain ⟨_, _, h3, h4⟩ := Solver.dualBlocking_exact s tol hle t ht
  have hz : s.dual_step_direction_ (s.dualBlocking tol).1 ≠ 0 := by
    intro e
    rw [e] at h3
    linarith
  rw [h4, div_mul_cancel₀ _ hz, add_neg_cancel]

/-- Deactivating an active inequality whose multiplier is zero keeps the
invariant behind stationarity. -/
theorem deactivate_statInv (sqrt : K → K) (hs : IsSqrt sqrt) {r : Solver K}
    {A Hmat : QPMatrix K} {h : QPVector K} {u : K} {v : QPVector K}
    (hI : r.StatInv Hmat h A u v) (j : Nat) (tol : K)
    (hfd : r.factorization_data_.primal_size_ = r.primal_size_)
    (hle : r.active_set_.size_ ≤ r.primal_size_)
    (hinj : ∀ c c1, c < r.active_set_.size_ → c1 < r.active_set_.size_ →
      r.active_set_.getIndex c = r.active_set_.getIndex c1 → c = c1)
    (hj1 : r.active_set_.num_equalities_ ≤ j) (hj2 : j < r.active_set_.size_)
    (hz : r.dual_ j = 0) :
    (Solver.deactivate sqrt r j tol).StatInv Hmat h A u v := by
  refine ⟨?_, ?_, hI.stat.deactivate_stat sqrt j tol hj1 hj2 hz hinj⟩
  · show HOrthonormal r.primal_size_ Hmat
      (r.factorization_data_.downdate sqrt j r.active_set_.size_ tol).QLi_aka_J
    have := downdate_hOrthonormal sqrt hs Hmat r.factorization_data_ j r.active_set_.size_ tol
      hj2 (by rw [hfd]; exact hle) (by rw [hfd]; exact hI.orth)
    rw [hfd] at this
    exact this
  · intro c hc
    have hc' : c < r.active_set_.size_ - 1 := hc
    exact downdate_diag sqrt hs j r.active_set_.size_ r.factorization_data_ tol hj2 hI.diag c hc'

/-- Activating the chosen constraint and choosing the next one keeps the
invariant behind stationarity, with no pending multiplier. -/
theorem activate_statInv {r : Solver K} {A Hmat : QPMatrix K} {h : QPVector K}
    (ch : ChosenConstraint K) (Alb Aub : QPVector K) (tol : K) (htol : 0 ≤ tol)
    (x : QPVector K)
    (horth : HOrthonormal r.primal_size_ Hmat r.factorization_data_.QLi_aka_J)
    (hdiag : ∀ c, c < r.active_set_.size_ + 1 → r.factorization_data_.R c c ≠ 0)
    (hS : r.Stationary Hmat h A ch.dual_ (signedRow (A ch.index_) ch.type_))
    (hle : r.active_set_.num_equalities_ ≤ r.active_set_.size_)
    (hne : ∀ c, c < r.active_set_.size_ → r.active_set_.getIndex c ≠ ch.index_) :
    ((r.activate ch).chooseConstraint x A Alb Aub tol).2.StatInv Hmat h A
      ((r.activate ch).chooseConstraint x A Alb Aub tol).1.dual_
      (signedRow (A ((r.activate ch).chooseConstraint x A Alb Aub tol).1.index_)
        ((r.activate ch).chooseConstraint x A Alb Aub tol).1.type_) := by
  rw [(chooseConstraint_sign (r.activate ch) x A Alb Aub tol htol).1]
  refine ⟨horth, hdiag, ?_⟩
  obtain ⟨lam, hl⟩ := hS.activate_stat ch hle hne
    (signedRow (A ((r.activate ch).chooseConstraint x A Alb Aub tol).1.index_)
      ((r.activate ch).chooseConstraint x A Alb Aub tol).1.type_)
  refine ⟨lam, fun k hk => ?_⟩
  have := hl k hk
  rw [chooseConstraint_normal]
  exact this

/-- An iteration of the main loop that goes on to the next one keeps the
invariant behind stationarity, provided that it does not step in the dual space
only while the active set has room and `A[chosen]·p ≠ 0`. -/
theorem mainStep_statInv (sqrt : K → K) (hs : IsSqrt sqrt) (asserts : Bool)
    (Hmat L A : QPMatrix K) (h Alb Aub : QPVector K) (param : SolverParameters K)
    (htol : 0 < param.tolerance_) (st st1 : Solver K × ChosenConstraint K)
    (hinv : Solver.MainState L A Alb Aub param.tolerance_ st)
    (hS : Solver.StatState Hmat L h A param.tolerance_ st)
    (hN : (st.1.stepState L A st.2).active_set_.hasEmptySpace = true →
      |st.1.stepCp L A st.2| ≤ param.tolerance_ → st.1.stepCp L A st.2 = 0)
    (hstep : Solver.mainStep sqrt asserts L A Alb Aub param st = Step.next st1) :
    Solver.StatState Hmat L h A param.tolerance_ st1 := by
  obtain ⟨h0, hcases⟩ := mainStep_cases sqrt asserts L A Alb Aub param htol.le st st1 hstep
  obtain ⟨hI, hC, _⟩ := hinv
  obtain ⟨hSI, _⟩ := hS
  have hp : (st.1.initializeMachineryLazy L).Pending A Alb Aub st.2 := by
    rcases hC with ⟨c1, _⟩ | c
    · rw [c1, abs_zero] at h0
      exact absurd htol h0
    · exact c.2
  have hinit : st1.1.machinery_initialized_ = true := by
    have hS := (hI.stepDirections st.2).wf.init
    rcases hcases with ⟨_, _, t, _, _, _, e4⟩ | ⟨_, _, t, _, _, _, e4⟩ | ⟨_, _, e2⟩
    · rw [e4]
      exact hS
    · rw [e4]
      exact hS
    · rw [e2]
      exact hS
  unfold Solver.StatState
  rw [Solver.init_of_initialized st1.1 L hinit]
  have eas : (st.1.stepState L A st.2).active_set_
      = (st.1.initializeMachineryLazy L).active_set_ :=
    Solver.computeStepDirections_active_set _ A st.2
  have esz : (st.1.stepState L A st.2).primal_size_
      = (st.1.initializeMachineryLazy L).primal_size_ :=
    congrArg InputParser.primal_size_ (Solver.computeStepDirections_sizes _ A st.2)
  have hq := hI.wf.size_eq
  rw [← eas] at hq
  have hle : (st.1.stepState L A st.2).active_set_.num_equalities_
      ≤ (st.1.stepState L A st.2).active_set_.size_ := by omega
  have hMS : (st.1.stepState L A st.2).MainInv A Alb Aub param.tolerance_ :=
    hI.stepDirections st.2
  rcases hcases with ⟨hsp, hcp, t, e1, _, e3, e4⟩ | ⟨hsp, hcp, t, _, hflag, _, e4⟩ | ⟨hno, e1, e2⟩
  · -- partial step
    rw [eas] at hsp
    have hT := hI.takeStep sqrt hs st.2 hsp t
    have hTS := takeStep_stationary sqrt st.2 hI.wf hSI hsp t param.tolerance_
    obtain ⟨j1, j2, _, _⟩ := Solver.dualBlocking_exact (st.1.stepState L A st.2)
      param.tolerance_ hle t e1
    have hz := Solver.dualBlocking_zero (st.1.stepState L A st.2) param.tolerance_ htol.le hle t e1
    have hTI : ((st.1.stepState L A st.2).takeStep sqrt t param.tolerance_).1.StatInv Hmat h A
        (st.2.dual_ + t) (signedRow (A st.2.index_) st.2.type_) := by
      refine ⟨?_, ?_, hTS⟩
      · show HOrthonormal (st.1.stepState L A st.2).primal_size_ Hmat
          ((st.1.stepState L A st.2).factorization_data_.update sqrt
            (st.1.stepState L A st.2).active_set_.size_ param.tolerance_).1.QLi_aka_J
        have := update_hOrthonormal sqrt hs Hmat (st.1.stepState L A st.2).factorization_data_
          (st.1.stepState L A st.2).active_set_.size_ param.tolerance_ (by
            rw [hMS.wf.fd_size, esz]
            unfold Solver.stepState
            rw [Solver.computeStepDirections_J]
            exact hSI.orth)
        rw [hMS.wf.fd_size] at this
        exact this
      · intro c hc
        have hc' : c < (st.1.stepState L A st.2).active_set_.size_ := hc
        refine update_diag_left sqrt (st.1.stepState L A st.2).factorization_data_
          (st.1.stepState L A st.2).active_set_.size_ param.tolerance_ ?_ c hc'
        intro c1 hc1
        unfold Solver.stepState
        rw [Solver.computeStepDirections_R_left _ A st.2 c1 c1 (by rw [← eas]; exact hc1)]
        exact hSI.diag c1 (by rw [← eas]; exact hc1)
    have hzT : ((st.1.stepState L A st.2).takeStep sqrt t param.tolerance_).1.dual_
        ((st.1.stepState L A st.2).dualBlocking param.tolerance_).1 = 0 := by
      show (if (st.1.stepState L A st.2).active_set_.num_equalities_
            ≤ ((st.1.stepState L A st.2).dualBlocking param.tolerance_).1 ∧
          ((st.1.stepState L A st.2).dualBlocking param.tolerance_).1
            < (st.1.stepState L A st.2).active_set_.num_equalities_
              + (st.1.stepState L A st.2).active_set_.num_inequalities_ then
          (st.1.stepState L A st.2).dual_ ((st.1.stepState L A st.2).dualBlocking
              param.tolerance_).1
            + t * (st.1.stepState L A st.2).dual_step_direction_
              ((st.1.stepState L A st.2).dualBlocking param.tolerance_).1
        else _) = 0
      rw [if_pos ⟨j1, by omega⟩]
      exact hz
    have hD := deactivate_statInv sqrt hs hTI
      ((st.1.stepState L A st.2).dualBlocking param.tolerance_).1 param.tolerance_
      hT.wf.fd_size hT.wf.size_le hT.wf.inj j1 j2 hzT
    rw [e4]
    exact ⟨hD, fun hv => absurd hv (not_lt.mpr (le_of_lt e3))⟩
  · -- activation of the chosen constraint
    rw [eas] at hsp
    have hT := hI.takeStep sqrt hs st.2 hsp t
    have hTS := takeStep_stationary sqrt st.2 hI.wf hSI hsp t param.tolerance_
    rw [e4]
    refine ⟨?_, fun _ => ?_⟩
    · refine activate_statInv
        { st.2 with
          dual_ := st.2.dual_ + t
          violation_ := st.2.violation_ + t * st.1.stepCp L A st.2 }
        Alb Aub param.tolerance_ htol.le _ ?_ ?_ hTS hle ?_
      · show HOrthonormal (st.1.stepState L A st.2).primal_size_ Hmat
          ((st.1.stepState L A st.2).factorization_data_.update sqrt
            (st.1.stepState L A st.2).active_set_.size_ param.tolerance_).1.QLi_aka_J
        have := update_hOrthonormal sqrt hs Hmat (st.1.stepState L A st.2).factorization_data_
          (st.1.stepState L A st.2).active_set_.size_ param.tolerance_ (by
            rw [hMS.wf.fd_size, esz]
            unfold Solver.stepState
            rw [Solver.computeStepDirections_J]
            exact hSI.orth)
        rw [hMS.wf.fd_size] at this
        exact this
      · intro c hc
        have hc' : c < (st.1.stepState L A st.2).active_set_.size_ + 1 := hc
        refine update_diag sqrt (st.1.stepState L A st.2).factorization_data_
          (st.1.stepState L A st.2).active_set_.size_ param.tolerance_ htol hflag ?_ c hc'
        intro c1 hc1
        unfold Solver.stepState
        rw [Solver.computeStepDirections_R_left _ A st.2 c1 c1 (by rw [← eas]; exact hc1)]
        exact hSI.diag c1 (by rw [← eas]; exact hc1)
      · intro c hc e
        have hc' : c < (st.1.initializeMachineryLazy L).active_set_.size_ := by
          rw [← eas]
          exact hc
        have e' : (st.1.initializeMachineryLazy L).active_set_.getIndex c = st.2.index_ := by
          rw [← eas]
          exact e
        obtain ⟨_, p2, _⟩ := hp
        rcases (hI.active c hc').2 with ⟨_, a, _⟩ | ⟨_, a, _⟩ | ⟨_, a, _⟩ <;>
          (rw [e', p2] at a; exact absurd a (by decide))
    · exact (chooseConstraint_sign _ _ A Alb Aub param.tolerance_ htol.le).1
  · -- step in the dual space
    have hsome : ∃ t, ((st.1.stepState L A st.2).dualBlocking param.tolerance_).2 = some t := by
      rcases Solver.dualBlocking_range (st.1.stepState L A st.2) param.tolerance_ hle with
        ⟨a, _⟩ | ⟨_, _, a⟩
      · exact absurd a e1
      · exact a
    obtain ⟨t, ht⟩ := hsome
    obtain ⟨j1, j2, _, _⟩ := Solver.dualBlocking_exact (st.1.stepState L A st.2)
      param.tolerance_ hle t ht
    have hz := Solver.dualBlocking_zero (st.1.stepState L A st.2) param.tolerance_ htol.le hle t ht
    have hzero : ∀ b, (st.1.initializeMachineryLazy L).active_set_.size_ ≤ b →
        b < (st.1.initializeMachineryLazy L).primal_size_ →
        colT (st.1.initializeMachineryLazy L).primal_size_
          (st.1.initializeMachineryLazy L).factorization_data_.QLi_aka_J
          (signedRow (A st.2.index_) st.2.type_) b = 0 := by
      intro b hb1 hb2
      by_cases hsp : (st.1.initializeMachineryLazy L).active_set_.hasEmptySpace = true
      · have hsp' : (st.1.stepState L A st.2).active_set_.hasEmptySpace = true := by
          rw [eas]
          exact hsp
        have hcp0 := hN hsp' (not_lt.mp (fun hc => hno ⟨hsp', hc⟩))
        refine Solver.computeStepDirections_tail_zero _ A st.2 hI.wf.fd_size hsp ?_ b hb1 hb2
        rw [← esz]
        exact hcp0
      · have h1 : ¬ (st.1.initializeMachineryLazy L).active_set_.size_
            < (st.1.initializeMachineryLazy L).active_set_.max_size_ :=
          fun hlt => hsp ((hasEmptySpace_iff _).mpr hlt)
        have h2 := hI.wf.max_size
        omega
    have hUS := dualUpdate_stationary st.2 hI.wf hSI hzero t
    have hUI : ((st.1.stepState L A st.2).dualUpdate t).StatInv Hmat h A
        (st.2.dual_ + t) (signedRow (A st.2.index_) st.2.type_) := by
      refine ⟨?_, ?_, hUS⟩
      · show HOrthonormal (st.1.stepState L A st.2).primal_size_ Hmat
          (st.1.stepState L A st.2).factorization_data_.QLi_aka_J
        rw [esz]
        unfold Solver.stepState
        rw [Solver.computeStepDirections_J]
        exact hSI.orth
      · intro c hc
        have hc' : c < (st.1.initializeMachineryLazy L).active_set_.size_ := by
          rw [← eas]
          exact hc
        show (st.1.stepState L A st.2).factorization_data_.R c c ≠ 0
        unfold Solver.stepState
        rw [Solver.computeStepDirections_R_left _ A st.2 c c hc']
        exact hSI.diag c hc'
    have hzU : ((st.1.stepState L A st.2).dualUpdate t).dual_
        ((st.1.stepState L A st.2).dualBlocking param.tolerance_).1 = 0 := by
      show (if (st.1.stepState L A st.2).active_set_.num_equalities_
            ≤ ((st.1.stepState L A st.2).dualBlocking param.tolerance_).1 ∧
          ((st.1.stepState L A st.2).dualBlocking param.tolerance_).1
            < (st.1.stepState L A st.2).active_set_.num_equalities_
              + (st.1.stepState L A st.2).active_set_.num_inequalities_ then
          (st.1.stepState L A st.2).dual_ ((st.1.stepState L A st.2).dualBlocking
              param.tolerance_).1
            + t * (st.1.stepState L A st.2).dual_step_direction_
              ((st.1.stepState L A st.2).dualBlocking param.tolerance_).1
        else _) = 0
      rw [if_pos ⟨j1, by omega⟩]
      exact hz
    have hD := deactivate_statInv sqrt hs hUI
      ((st.1.stepState L A st.2).dualBlocking param.tolerance_).1 param.tolerance_
      hMS.wf.fd_size hMS.wf.size_le hMS.wf.inj j1 j2 hzU
    rw [e2, ht]
    exact ⟨hD, fun hv => absurd hv h0⟩

/-! ## Stationarity across the activation of an equality -/


/-- The invariant behind stationarity depends on the sizes, the point, the
multipliers, the active normals, `J` and the diagonal of the active columns of
`R` only. -/
theorem Solver.StatInv.congr_statInv {s s2 : Solver K} {Hmat : QPMatrix K} {h : QPVector K}
    {A : QPMatrix K} {u : K} {v : QPVector K} (hI : s.StatInv Hmat h A u v)
    (en : s2.primal_size_ = s.primal_size_)
    (eq1 : s2.active_set_.size_ = s.active_set_.size_)
    (eq2 : s2.active_set_.num_equalities_ = s.active_set_.num_equalities_)
    (eN : ∀ c, c < s.active_set_.size_ → s2.normal A c = s.normal A c)
    (ex : s2.primal = s.primal) (ed : s2.dual_ = s.dual_)
    (eJ : s2.factorization_data_.QLi_aka_J = s.factorization_data_.QLi_aka_J)
    (eR : ∀ c, c < s.active_set_.size_ →
      s2.factorization_data_.R c c = s.factorization_data_.R c c) :
    s2.StatInv Hmat h A u v := by
  refine ⟨?_, ?_, ?_⟩
  · rw [en, eJ]
    exact hI.orth
  · intro c hc
    rw [eq1] at hc
    rw [eR c hc]
    exact hI.diag c hc
  · obtain ⟨lam, hl⟩ := hI.stat
    refine ⟨lam, fun k hk => ?_⟩
    rw [en] at hk ⊢
    rw [eq1, eq2, ex, ed]
    have e : ∑ c in Finset.range s.active_set_.size_,
        (if c < s.active_set_.num_equalities_ then lam c else s.dual_ c) * s2.normal A c k
        = ∑ c in Finset.range s.active_set_.size_,
          (if c < s.active_set_.num_equalities_ then lam c else s.dual_ c) * s.normal A c k :=
      Finset.sum_congr rfl (fun c hc => by rw [eN c (Finset.mem_range.mp hc)])
    rw [e]
    exact hl k hk

/-- Changing the status of a constraint that is not active keeps the invariant
behind stationarity. -/
theorem Solver.StatInv.setStatus_stat {s : Solver K} {Hmat : QPMatrix K} {h : QPVector K}
    {A : QPMatrix K} {u : K} {v : QPVector K} (hI : s.StatInv Hmat h A u v) (i : Nat)
    (st : ConstraintStatus) (hne : ∀ c, c < s.active_set_.size_ → s.active_set_.getIndex c ≠ i) :
    (s.setStatus i st).StatInv Hmat h A u v := by
  refine hI.congr_statInv rfl rfl rfl ?_ rfl rfl rfl (fun _ _ => rfl)
  intro c hc
  funext k
  unfold Solver.normal
  show (if Function.update s.general_constraints_status_ i st (s.active_set_.getIndex c)
    = ConstraintStatus.ACTIVE_LOWER_BOUND then _ else _) = _
  rw [Function.update_noteq (hne c hc)]
  rfl

/-- Writing the candidate column and the step direction of an equality keeps
the invariant behind stationarity. -/
theorem Solver.StatInv.scratch_stat {s : Solver K} {Hmat : QPMatrix K} {h : QPVector K}
    {A : QPMatrix K} {u : K} {v : QPVector K} (hI : s.StatInv Hmat h A u v) (a : QPVector K) :
    (s.equalityDirection a).StatInv Hmat h A u v := by
  refine hI.congr_statInv rfl rfl rfl (fun _ _ => rfl) rfl rfl rfl ?_
  intro c hc
  exact computeEqualityPrimalStep_R_other _ _ _ _ _ (Nat.ne_of_lt hc)

/-- The step direction of an equality: with `d = Jᵀ·aᵀ` there are coefficients
`y` on the active positions with `H·p + Σ y[c]·N c + a = 0`. -/
theorem equalityDirection_identity (s : Solver K) (A : QPMatrix K) (a : QPVector K)
    (Hmat : QPMatrix K) (hwf : s.WF A)
    (hJ : HOrthonormal s.primal_size_ Hmat s.factorization_data_.QLi_aka_J)
    (hd : ∀ c, c < s.active_set_.size_ → s.factorization_data_.R c c ≠ 0) :
    ∃ y : Nat → K, ∀ k, k < s.primal_size_ →
      ∑ b in Finset.range s.primal_size_,
          Hmat k b * (s.equalityDirection a).primal_step_direction_ b
        + ∑ c in Finset.range s.active_set_.size_, y c * s.normal A c k + a k = 0 := by
  refine ⟨backSolve s.factorization_data_.R
    (fun b => -colT s.primal_size_ s.factorization_data_.QLi_aka_J a b)
    s.active_set_.size_ s.active_set_.size_, fun k hk => ?_⟩
  have hfd := hwf.fd_size
  have e : ∑ b in Finset.range s.primal_size_,
      Hmat k b * (s.equalityDirection a).primal_step_direction_ b
      = ∑ b in Finset.range s.primal_size_, Hmat k b *
          -(∑ c in Finset.Ico s.active_set_.size_ s.primal_size_,
              s.factorization_data_.QLi_aka_J b c
              * colT s.primal_size_ s.factorization_data_.QLi_aka_J a c) := by
    refine Finset.sum_congr rfl (fun b hb => ?_)
    congr 1
    show (s.factorization_data_.computeEqualityPrimalStep a s.active_set_.size_).2 b = _
    rw [computeEqualityPrimalStep_p, hfd]
    dsimp only
    rw [if_pos (Finset.mem_range.mp hb)]
    congr 1
    refine Finset.sum_congr rfl (fun c hc => ?_)
    rw [computeEqualityPrimalStep_R_col _ _ _ c (by rw [hfd]; exact (Finset.mem_Ico.mp hc).2),
      hfd]
  rw [e]
  refine direction_identity s.primal_size_ s.active_set_.size_ Hmat
    s.factorization_data_.QLi_aka_J s.factorization_data_.R (s.normal A) a _ hwf.size_le hJ
    hwf.tracks ?_ k hk
  intro b hb
  exact backSolve_spec s.factorization_data_.R _ s.active_set_.size_ s.active_set_.size_ b
    (le_refl _) (by omega) hb (hd b hb)

/-- Activating an equality (lines 142-150) keeps the invariant behind
stationarity. -/
theorem equalityTake_statInv (sqrt : K → K) (hs : IsSqrt sqrt) {s : Solver K}
    {A Hmat : QPMatrix K} {h : QPVector K} {v : QPVector K} (i : Nat) (t tol : K)
    (htol : 0 < tol) (hwf : s.WF A) (hI : s.StatInv Hmat h A 0 v)
    (hno : s.active_set_.num_inequalities_ = 0)
    (hsi : s.general_constraints_status_ i = ConstraintStatus.EQUALITY)
    (hacc : ((s.equalityDirection (A i)).equalityTake sqrt t tol).2 = true) :
    (((s.equalityDirection (A i)).equalityTake sqrt t tol).1.addEquality i).StatInv
      Hmat h A 0 v := by
  have hq := hwf.size_eq
  have hfd := hwf.fd_size
  refine ⟨?_, ?_, ?_⟩
  · show HOrthonormal s.primal_size_ Hmat
      ((s.equalityDirection (A i)).factorization_data_.update sqrt s.active_set_.size_
        tol).1.QLi_aka_J
    have := update_hOrthonormal sqrt hs Hmat (s.equalityDirection (A i)).factorization_data_
      s.active_set_.size_ tol (by
        show HOrthonormal s.factorization_data_.primal_size_ Hmat s.factorization_data_.QLi_aka_J
        rw [hfd]
        exact hI.orth)
    have e : (s.equalityDirection (A i)).factorization_data_.primal_size_ = s.primal_size_ :=
      hfd
    rw [e] at this
    exact this
  · intro c hc
    have hc' : c < s.active_set_.size_ + 1 := hc
    refine update_diag sqrt (s.equalityDirection (A i)).factorization_data_
      s.active_set_.size_ tol htol hacc ?_ c hc'
    intro c1 hc1
    show (s.factorization_data_.computeEqualityPrimalStep (A i) s.active_set_.size_).1.R c1 c1
      ≠ 0
    rw [computeEqualityPrimalStep_R_other _ _ _ _ _ (Nat.ne_of_lt hc1)]
    exact hI.diag c1 hc1
  · obtain ⟨y, hy⟩ := equalityDirection_identity s A (A i) Hmat hwf hI.orth hI.diag
    obtain ⟨lam, hl⟩ := hI.stat
    refine ⟨Function.update (fun c => lam c + t * y c) s.active_set_.size_ t, fun k hk => ?_⟩
    have hk' : k < s.primal_size_ := hk
    show ∑ c in Finset.range s.primal_size_,
          Hmat k c * (s.primal c + t * (s.equalityDirection (A i)).primal_step_direction_ c)
        + h k
        + ∑ c in Finset.range (s.active_set_.size_ + 1),
            (if c < s.active_set_.num_equalities_ + 1 then
              Function.update (fun c => lam c + t * y c) s.active_set_.size_ t c
            else s.dual_ c)
            * (((s.equalityDirection (A i)).equalityTake sqrt t tol).1.addEquality i).normal A c k
        + 0 * v k = 0
    rw [Finset.sum_range_succ, if_pos (by omega), Function.update_same, zero_mul, add_zero]
    have e1 : ∑ c in Finset.range s.active_set_.size_,
        (if c < s.active_set_.num_equalities_ + 1 then
          Function.update (fun c => lam c + t * y c) s.active_set_.size_ t c
        else s.dual_ c)
        * (((s.equalityDirection (A i)).equalityTake sqrt t tol).1.addEquality i).normal A c k
        = ∑ c in Finset.range s.active_set_.size_,
            ((if c < s.active_set_.num_equalities_ then lam c else s.dual_ c) + t * y c)
            * s.normal A c k := by
      refine Finset.sum_congr rfl (fun c hc => ?_)
      have hc' := Finset.mem_range.mp hc
      rw [if_pos (by omega), Function.update_noteq (Nat.ne_of_lt hc'), if_pos (by omega)]
      congr 1
      have hidx : (((s.equalityDirection (A i)).equalityTake sqrt t tol).1.addEquality
          i).active_set_.getIndex c = s.active_set_.getIndex c := by
        show Function.update s.active_set_.active_constraints_indices_ s.active_set_.size_ i c
          = s.active_set_.active_constraints_indices_ c
        rw [Function.update_noteq (Nat.ne_of_lt hc')]
      unfold Solver.normal
      rw [hidx]
      rfl
    have e2 : (((s.equalityDirection (A i)).equalityTake sqrt t tol).1.addEquality i).normal A
        s.active_set_.size_ k = A i k := by
      have hidx : (((s.equalityDirection (A i)).equalityTake sqrt t tol).1.addEquality
          i).active_set_.getIndex s.active_set_.size_ = i := by
        show Function.update s.active_set_.active_constraints_indices_ s.active_set_.size_ i
          s.active_set_.size_ = i
        rw [Function.update_same]
      have hsi1 : (((s.equalityDirection (A i)).equalityTake sqrt t tol).1.addEquality
          i).general_constraints_status_ i = ConstraintStatus.EQUALITY := hsi
      unfold Solver.normal
      rw [hidx, hsi1, if_neg (by decide)]
    rw [e1, e2]
    have := stationary_step s.primal_size_ s.active_set_.size_ Hmat h s.primal
      (s.equalityDirection (A i)).primal_step_direction_ (s.normal A)
      (fun c => if c < s.active_set_.num_equalities_ then lam c else s.dual_ c) y 0 t (A i) k
      (by
        have := hl k hk'
        rw [zero_mul] at this ⊢
        exact this)
      (hy k hk')
    rw [zero_add] at this
    rw [← this]
    ring

/-! ## Stationarity along the run -/


/-- One pass of the equality-activation loop keeps the invariant behind
stationarity. -/
theorem equalityStep_statInv (sqrt : K → K) (hs : IsSqrt sqrt) (Hmat L A : QPMatrix K)
    (h Alb Aub : QPVector K) (param : SolverParameters K) (htol : 0 < param.tolerance_)
    (i : Nat) (st st1 : Solver K × Nat) (v : QPVector K)
    (hinv : (st.1.initializeMachineryLazy L).EqInv A Alb Aub param.tolerance_ i st.2)
    (hS : (st.1.initializeMachineryLazy L).StatInv Hmat h A 0 v)
    (hstep : Solver.equalityStep sqrt L A Alb Aub param i st = Step.next st1) :
    (st1.1.initializeMachineryLazy L).StatInv Hmat h A 0 v := by
  have hne : ∀ c, c < (st.1.initializeMachineryLazy L).active_set_.size_ →
      (st.1.initializeMachineryLazy L).active_set_.getIndex c ≠ i :=
    fun c hc => Nat.ne_of_lt (hinv.active c hc).1
  by_cases h1 : Alb i - param.tolerance_ > Aub i
  · rw [equalityStep_inconsistent sqrt L A Alb Aub param i st h1] at hstep
    exact absurd hstep (by simp)
  by_cases h2 : |Alb i - Aub i| > param.tolerance_
  · rw [equalityStep_inactive sqrt L A Alb Aub param i st h1 h2] at hstep
    injection hstep with hstep
    subst hstep
    show ((st.1.setStatus i ConstraintStatus.INACTIVE).initializeMachineryLazy L).StatInv
      Hmat h A 0 v
    rw [Solver.init_setStatus]
    exact hS.setStatus_stat i _ hne
  have hb : |Alb i - Aub i| ≤ param.tolerance_ := not_lt.mp h2
  have hE := Solver.EqInv.candidate hinv hb
  have hSE : (st.1.eqCandidate L i).StatInv Hmat h A 0 v := by
    rw [Solver.eqCandidate_eq]
    exact hS.setStatus_stat i _ hne
  have hinit : (st.1.eqCandidate L i).machinery_initialized_ = true :=
    Solver.init_initialized _ _
  by_cases h3 : (st.1.eqCandidate L i).active_set_.hasEmptySpace = true ∧
      st.1.eqRho L A i < -param.tolerance_
  · obtain ⟨h3, h4⟩ := h3
    cases h5 : (((st.1.eqCandidate L i).equalityDirection (A i)).equalityTake sqrt
      ((Alb i - dot st.1.primal_size_ (A i) st.1.primal) / st.1.eqRho L A i)
      param.tolerance_).2 with
    | false =>
      rw [equalityStep_rejected sqrt L A Alb Aub param i st h1 h2 h3 h4 h5] at hstep
      exact absurd hstep (by simp)
    | true =>
      rw [equalityStep_activate sqrt L A Alb Aub param i st h1 h2 h3 h4 h5] at hstep
      injection hstep with hstep
      subst hstep
      have hsi : (st.1.eqCandidate L i).general_constraints_status_ i
          = ConstraintStatus.EQUALITY := by
        rw [Solver.eqCandidate_eq]
        show Function.update _ i _ i = _
        rw [Function.update_same]
      have hinit2 : ((((st.1.eqCandidate L i).equalityDirection (A i)).equalityTake sqrt
          ((Alb i - dot st.1.primal_size_ (A i) st.1.primal) / st.1.eqRho L A i)
          param.tolerance_).1.addEquality i).machinery_initialized_ = true := hinit
      rw [Solver.init_of_initialized _ _ hinit2]
      exact equalityTake_statInv sqrt hs i _ param.tolerance_ htol hE.wf hSE hE.no_ineq hsi h5
  · have h3' : (st.1.eqCandidate L i).active_set_.hasEmptySpace = false ∨
        ¬ st.1.eqRho L A i < -param.tolerance_ := by
      by_cases hsp : (st.1.eqCandidate L i).active_set_.hasEmptySpace = true
      · exact Or.inr (fun h4 => h3 ⟨hsp, h4⟩)
      · exact Or.inl (by simpa using hsp)
    rw [equalityStep_dependent sqrt L A Alb Aub param i st h1 h2 h3'] at hstep
    split_ifs at hstep
    injection hstep with hstep
    subst hstep
    have hsk : (st.1.eqSkipped L A i).StatInv Hmat h A 0 v := by
      unfold Solver.eqSkipped
      split_ifs
      · exact hSE.scratch_stat (A i)
      · exact hSE
    rw [Solver.init_of_initialized _ _ (Solver.eqSkipped_initialized st.1 L A i)]
    exact hsk

/-- The equality-activation loop keeps the invariant behind stationarity. -/
theorem equalityLoop_statInv (sqrt : K → K) (hs : IsSqrt sqrt) (Hmat L A : QPMatrix K)
    (h Alb Aub : QPVector K) (param : SolverParameters K) (htol : 0 < param.tolerance_)
    (v : QPVector K) (count i : Nat) (st st1 : Solver K × Nat)
    (hinv : (st.1.initializeMachineryLazy L).EqInv A Alb Aub param.tolerance_ i st.2)
    (hS : (st.1.initializeMachineryLazy L).StatInv Hmat h A 0 v)
    (hloop : Solver.equalityLoop sqrt L A Alb Aub param count i st = Step.next st1) :
    (st1.1.initializeMachineryLazy L).StatInv Hmat h A 0 v := by
  induction count generalizing i st with
  | zero =>
    unfold Solver.equalityLoop at hloop
    injection hloop with hloop
    subst hloop
    exact hS
  | succ count ih =>
    unfold Solver.equalityLoop at hloop
    cases hstep : Solver.equalityStep sqrt L A Alb Aub param i st with
    | next st2 =>
      rw [hstep] at hloop
      obtain ⟨a1, _⟩ := equalityStep_next sqrt hs L A Alb Aub param htol.le i st st2 hinv hstep
      exact ih (i + 1) st2 a1
        (equalityStep_statInv sqrt hs Hmat L A h Alb Aub param htol i st st2 v hinv hS hstep)
        hloop
    | done o =>
      rw [hstep] at hloop
      exact absurd hloop (by simp)

/-- The starting point of `solve` is stationary: with `H = L·Lᵀ` for the factor
`L` (nonzero diagonal), `H·x₀ + h = 0` and `Jᵀ·H·J = I` for `J = L⁻ᵀ`. -/
theorem Solver.entry_statInv (sizes : InputParser) (Hmat L : QPMatrix K) (h : QPVector K)
    (A : QPMatrix K) (v : QPVector K)
    (hd : ∀ k, k < sizes.primal_size_ → L k k ≠ 0)
    (hH : ∀ r c, r < sizes.primal_size_ → c < sizes.primal_size_ →
      Hmat r c = ∑ k in Finset.range sizes.primal_size_, lowerPart L r k * lowerPart L c k)
    (hh : sizes.h_size_ = 0 → ∀ k, k < sizes.primal_size_ → h k = 0) :
    ((Solver.entry sizes L h).initializeMachineryLazy L).StatInv Hmat h A 0 v := by
  have e : (Solver.entry sizes L h).initializeMachineryLazy L
      = { (Solver.entry sizes L h) with
          active_set_ := ActiveSet.initialize sizes.primal_size_
          factorization_data_ := FactorizationData.initialize L sizes.primal_size_
          primal_step_direction_ := fun _ => 0
          machinery_initialized_ := true } := by
    unfold Solver.initializeMachineryLazy
    rw [if_pos (show (Solver.entry sizes L h).machinery_initialized_ = false from rfl)]
    rfl
  rw [e]
  refine ⟨inversion_hOrthonormal sizes.primal_size_ L Hmat hd hH,
    fun c hc => absurd hc (Nat.not_lt_zero c), ⟨fun _ => 0, fun k hk => ?_⟩⟩
  have hk' : k < sizes.primal_size_ := hk
  show ∑ c in Finset.range sizes.primal_size_, Hmat k c * (Solver.entry sizes L h).primal c
      + h k + ∑ c in Finset.range 0, _ + 0 * v k = 0
  rw [Finset.sum_range_zero, zero_mul, add_zero, add_zero]
  have htri : ∀ r c, r < c → c < sizes.primal_size_ → lowerPart L r c = 0 :=
    fun r c hrc _ => lowerPart_upper L r c hrc
  have hd1 : ∀ k, k < sizes.primal_size_ → lowerPart L k k ≠ 0 := by
    intro k hk
    rw [← lowerPart_lower L k k (le_refl k)]
    exact hd k hk
  by_cases h0 : sizes.h_size_ > 0
  · have ex : (Solver.entry sizes L h).primal
        = CholeskyFactorization.solve sizes.primal_size_ (lowerPart L) (fun k => -h k) := by
      show (if sizes.h_size_ > 0 then
        CholeskyFactorization.solve sizes.primal_size_ L (fun k => -h k) else fun _ => 0) = _
      rw [if_pos h0, cholesky_solve_lowerPart]
    rw [ex, cholesky_solve_spec sizes.primal_size_ (lowerPart L) Hmat (fun k => -h k) htri hd1
      hH k hk']
    exact neg_add_cancel (h k)
  · have ex : (Solver.entry sizes L h).primal = fun _ => 0 := by
      show (if sizes.h_size_ > 0 then
        CholeskyFactorization.solve sizes.primal_size_ L (fun k => -h k) else fun _ => 0) = _
      rw [if_neg h0]
    rw [ex, hh (by omega) k hk']
    simp

/-- Resetting the multipliers of a state without active inequalities keeps the
invariant behind stationarity. -/
theorem Solver.StatInv.setDuals_stat {s : Solver K} {Hmat : QPMatrix K} {h : QPVector K}
    {A : QPMatrix K} {u : K} {v : QPVector K} (hI : s.StatInv Hmat h A u v)
    (hq : s.active_set_.size_ = s.active_set_.num_equalities_) (d e : QPVector K) :
    ({ s with dual_ := d, dual_step_direction_ := e } : Solver K).StatInv Hmat h A u v := by
  refine ⟨hI.orth, hI.diag, ?_⟩
  obtain ⟨lam, hl⟩ := hI.stat
  refine ⟨lam, fun k hk => ?_⟩
  have hk' : k < s.primal_size_ := hk
  have := hl k hk'
  show ∑ c in Finset.range s.primal_size_, Hmat k c * s.primal c + h k
      + ∑ c in Finset.range s.active_set_.size_,
          (if c < s.active_set_.num_equalities_ then lam c else d c) * s.normal A c k
      + u * v k = 0
  have e1 : ∑ c in Finset.range s.active_set_.size_,
      (if c < s.active_set_.num_equalities_ then lam c else d c) * s.normal A c k
      = ∑ c in Finset.range s.active_set_.size_,
          (if c < s.active_set_.num_equalities_ then lam c else s.dual_ c) * s.normal A c k := by
    refine Finset.sum_congr rfl (fun c hc => ?_)
    have := Finset.mem_range.mp hc
    rw [if_pos (by omega), if_pos (by omega)]
  rw [e1]
  exact this

/-- The state with which `solve` enters the main loop satisfies the invariant
behind stationarity. -/
theorem mainEntry_statState {s : Solver K} {Hmat L A : QPMatrix K} {h Alb Aub : QPVector K}
    (param : SolverParameters K) {neq : Nat} {v : QPVector K} (htol : 0 ≤ param.tolerance_)
    (hE : (s.initializeMachineryLazy L).EqInv A Alb Aub param.tolerance_
      s.num_general_constraints_ neq)
    (hS : (s.initializeMachineryLazy L).StatInv Hmat h A 0 v) :
    Solver.StatState Hmat L h A param.tolerance_ (Solver.mainEntry s A Alb Aub param) := by
  have hq : (s.initializeMachineryLazy L).active_set_.size_
      = (s.initializeMachineryLazy L).active_set_.num_equalities_ := by
    have h1 := hE.wf.size_eq
    have h2 := hE.no_ineq
    omega
  obtain ⟨e1, e2⟩ := Solver.init_chooseConstraint
    ({ s with dual_ := fun _ => 0, dual_step_direction_ := fun _ => 0 } : Solver K) L
    s.primal A Alb Aub param.tolerance_
  have hd0 := (chooseConstraint_sign
    ({ s with dual_ := fun _ => 0, dual_step_direction_ := fun _ => 0 } : Solver K)
    s.primal A Alb Aub param.tolerance_ htol).1
  refine ⟨?_, fun _ => hd0⟩
  show ((({ s with dual_ := fun _ => 0, dual_step_direction_ := fun _ => 0 } :
      Solver K).chooseConstraint s.primal A Alb Aub param.tolerance_).2.initializeMachineryLazy
        L).StatInv Hmat h A
      (({ s with dual_ := fun _ => 0, dual_step_direction_ := fun _ => 0 } :
        Solver K).chooseConstraint s.primal A Alb Aub param.tolerance_).1.dual_
      (signedRow (A (({ s with dual_ := fun _ => 0, dual_step_direction_ := fun _ => 0 } :
        Solver K).chooseConstraint s.primal A Alb Aub param.tolerance_).1.index_)
        (({ s with dual_ := fun _ => 0, dual_step_direction_ := fun _ => 0 } :
        Solver K).chooseConstraint s.primal A Alb Aub param.tolerance_).1.type_)
  rw [hd0, e1, Solver.init_setDuals]
  have hS1 := (hS.setDuals_stat hq (fun _ => 0) (fun _ => 0))
  refine ⟨hS1.orth, hS1.diag, ?_⟩
  obtain ⟨lam, hl⟩ := hS1.stat
  refine ⟨lam, fun k hk => ?_⟩
  have := hl k hk
  rw [chooseConstraint_normal]
  rw [zero_mul] at this ⊢
  exact this

/-- The state with which `solve` enters the main loop satisfies the invariant
behind stationarity. -/
theorem mainStart_statState (sqrt : K → K) (hs : IsSqrt sqrt)
    (sizes : InputParser) (Hmat L : QPMatrix K) (h : QPVector K) (A : QPMatrix K)
    (Alb Aub : QPVector K) (param : SolverParameters K)
    (htol : 0 < param.tolerance_)
    (hd : ∀ k, k < sizes.primal_size_ → L k k ≠ 0)
    (hH : ∀ r c, r < sizes.primal_size_ → c < sizes.primal_size_ →
      Hmat r c = ∑ k in Finset.range sizes.primal_size_, lowerPart L r k * lowerPart L c k)
    (hh : sizes.h_size_ = 0 → ∀ k, k < sizes.primal_size_ → h k = 0)
    (st0 : Solver K × ChosenConstraint K)
    (h0 : Solver.mainStart sqrt sizes L h A Alb Aub param = some st0) :
    Solver.StatState Hmat L h A param.tolerance_ st0 := by
  unfold Solver.mainStart at h0
  split at h0
  · exact absurd h0 (by simp)
  cases hloop : Solver.equalityLoop sqrt L A Alb Aub param sizes.num_general_constraints_ 0
    (Solver.entry sizes L h, 0) with
  | done o =>
    rw [hloop] at h0
    exact absurd h0 (by simp)
  | next st =>
    rw [hloop] at h0
    dsimp only at h0
    split at h0
    · exact absurd h0 (by simp)
    injection h0 with h0
    obtain ⟨hE, _, hsz⟩ := equalityLoop_next sqrt hs L A Alb Aub param htol.le
      sizes.num_general_constraints_ 0 (Solver.entry sizes L h, 0) st
      (Solver.entry_eqInv sizes L h A Alb Aub _) (Solver.entry_rawEmpty sizes L h) hloop
    rw [Nat.zero_add] at hE
    have hsz' : st.1.toInputParser = sizes := hsz
    have hm : st.1.num_general_constraints_ = sizes.num_general_constraints_ :=
      congrArg InputParser.num_general_constraints_ hsz'
    have hS := equalityLoop_statInv sqrt hs Hmat L A h Alb Aub param htol (fun _ => 0)
      sizes.num_general_constraints_ 0 (Solver.entry sizes L h, 0) st
      (Solver.entry_eqInv sizes L h A Alb Aub _)
      (Solver.entry_statInv sizes Hmat L h A (fun _ => 0) hd hH hh) hloop
    rw [← h0]
    exact mainEntry_statState param htol.le
      (show (st.1.initializeMachineryLazy L).EqInv A Alb Aub param.tolerance_
        st.1.num_general_constraints_ st.2 by rw [hm]; exact hE) hS

/-- Every loop state that the main loop of `solve` reaches satisfies the
invariant behind stationarity, provided that no iteration steps in the dual
space only while the active set has room and `A[chosen]·p ≠ 0`. -/
theorem iterState_statState (sqrt : K → K) (hs : IsSqrt sqrt) (asserts : Bool)
    (sizes : InputParser) (Hmat L : QPMatrix K) (h : QPVector K) (A : QPMatrix K)
    (Alb Aub : QPVector K) (param : SolverParameters K) (htol : 0 < param.tolerance_)
    (hd : ∀ k, k < sizes.primal_size_ → L k k ≠ 0)
    (hH : ∀ r c, r < sizes.primal_size_ → c < sizes.primal_size_ →
      Hmat r c = ∑ k in Finset.range sizes.primal_size_, lowerPart L r k * lowerPart L c k)
    (hh : sizes.h_size_ = 0 → ∀ k, k < sizes.primal_size_ → h k = 0)
    (hN : ∀ (k : Nat) (st : Solver K × ChosenConstraint K),
      Solver.iterState sqrt asserts sizes L h A Alb Aub param k = some st →
      ¬ |st.2.violation_| < param.tolerance_ →
      (st.1.stepState L A st.2).active_set_.hasEmptySpace = true →
      |st.1.stepCp L A st.2| ≤ param.tolerance_ → st.1.stepCp L A st.2 = 0)
    (k : Nat) (st : Solver K × ChosenConstraint K)
    (hk : Solver.iterState sqrt asserts sizes L h A Alb Aub param k = some st) :
    Solver.StatState Hmat L h A param.tolerance_ st := by
  induction k generalizing st with
  | zero =>
    unfold Solver.iterState at hk
    cases h0 : Solver.mainStart sqrt sizes L h A Alb Aub param with
    | none =>
      rw [h0] at hk
      exact absurd hk (by simp)
    | some st0 =>
      rw [h0] at hk
      have e : st0 = st := by
        have : some st0 = some st := hk
        injection this
      rw [← e]
      exact mainStart_statState sqrt hs sizes Hmat L h A Alb Aub param htol hd hH hh st0 h0
  | succ k ih =>
    obtain ⟨st', a1, _, a3⟩ := iterState_succ sqrt asserts sizes L h A Alb Aub param k st hk
    have hM := (iterState_mainState sqrt hs asserts sizes L h A Alb Aub param htol k st' a1).1
    have h0 := (mainStep_cases sqrt asserts L A Alb Aub param htol.le st' st a3).1
    exact mainStep_statInv sqrt hs asserts Hmat L A h Alb Aub param htol st' st hM (ih st' a1)
      (hN k st' a1 h0) a3

/-! ## The residual at OK -/


/-- A state that satisfies the invariants of the main loop and is stationary
without a pending multiplier has a residual in the span of the rows of the
active equalities. -/
theorem residual_of_statInv (s : Solver K) (Hmat L A : QPMatrix K) (h Alb Aub : QPVector K)
    (tol : K) (v : QPVector K)
    (hM : s.machinery_initialized_ = true → s.MainInv A Alb Aub tol) (hraw : s.RawEmpty)
    (hS : (s.initializeMachineryLazy L).StatInv Hmat h A 0 v) :
    ∃ lam : Nat → K, ∀ k, k < s.primal_size_ →
      s.residual Hmat h A k
        = ∑ c in Finset.range s.active_set_.num_equalities_,
            lam c * A (s.active_set_.getIndex c) k := by
  obtain ⟨lam, hl⟩ := hS.stat
  refine ⟨fun c => -lam c, fun k hk => ?_⟩
  cases hinit : s.machinery_initialized_ with
  | false =>
    obtain ⟨e1, e2, _⟩ := hraw hinit
    have e : s.initializeMachineryLazy L
        = { s with
            active_set_ := ActiveSet.initialize s.primal_size_
            factorization_data_ := FactorizationData.initialize L s.primal_size_
            primal_step_direction_ := fun _ => 0
            machinery_initialized_ := true } := by
      unfold Solver.initializeMachineryLazy
      rw [if_pos hinit]
    have := hl k (by rw [Solver.init_primal_size]; exact hk)
    rw [e] at this
    have this1 : ∑ c in Finset.range s.primal_size_, Hmat k c * s.primal c + h k
        + ∑ c in Finset.range 0, _ + 0 * v k = 0 := this
    rw [Finset.sum_range_zero, zero_mul, add_zero, add_zero] at this1
    unfold Solver.residual
    rw [e1, e2, Finset.Ico_self, Finset.sum_empty, Finset.sum_range_zero, add_zero]
    exact this1
  | true =>
    rw [Solver.init_of_initialized s L hinit] at hl
    have hM := hM hinit
    have := hl k hk
    have hq := hM.wf.size_eq
    rw [← Finset.sum_range_add_sum_Ico _ (by omega :
      s.active_set_.num_equalities_ ≤ s.active_set_.size_), zero_mul, add_zero] at this
    have e1 : ∑ c in Finset.range s.active_set_.num_equalities_,
        (if c < s.active_set_.num_equalities_ then lam c else s.dual_ c) * s.normal A c k
        = ∑ c in Finset.range s.active_set_.num_equalities_,
            lam c * A (s.active_set_.getIndex c) k := by
      refine Finset.sum_congr rfl (fun c hc => ?_)
      have hc' := Finset.mem_range.mp hc
      rw [if_pos hc']
      congr 1
      unfold Solver.normal
      rcases (hM.active c (by omega)).2 with ⟨_, a, _⟩ | ⟨a, _⟩ | ⟨a, _⟩
      · rw [a]
        simp
      · omega
      · omega
    have e2 : ∑ c in Finset.Ico s.active_set_.num_equalities_ s.active_set_.size_,
        (if c < s.active_set_.num_equalities_ then lam c else s.dual_ c) * s.normal A c k
        = ∑ c in Finset.Ico s.active_set_.num_equalities_ s.active_set_.size_,
            (if s.general_constraints_status_ (s.active_set_.getIndex c)
                = ConstraintStatus.ACTIVE_UPPER_BOUND then
              s.dual_ c * A (s.active_set_.getIndex c) k
            else if s.general_constraints_status_ (s.active_set_.getIndex c)
                = ConstraintStatus.ACTIVE_LOWER_BOUND then
              -(s.dual_ c * A (s.active_set_.getIndex c) k)
            else 0) := by
      refine Finset.sum_congr rfl (fun c hc => ?_)
      have hc' := Finset.mem_Ico.mp hc
      rw [if_neg (by omega)]
      unfold Solver.normal
      rcases (hM.active c hc'.2).2 with ⟨a, _⟩ | ⟨_, a, _⟩ | ⟨_, a, _⟩
      · omega
      · rw [a]
        simp
      · rw [a]
        simp
    rw [e1, e2] at this
    unfold Solver.residual
    rw [Finset.sum_congr rfl (fun c _ => neg_mul (lam c) (A (s.active_set_.getIndex c) k)),
      Finset.sum_neg_distrib]
    linear_combination this

/-- In the active-bound scenario no iteration with room in the active set has
`0 < |A[chosen]·p| ≤ tol`. -/
theorem activeBound_noDegenerate (k : Nat) (st : Solver ℝ × ChosenConstraint ℝ)
    (hk : Solver.iterState Real.sqrt true ⟨1, 1, 0, 1⟩ (matOf [[1]]) (vecOf [0]) (matOf [[1]])
      (vecOf [1]) (vecOf [100]) ⟨HessianType.HESSIAN_CHOLESKY_FACTOR, 1 / 2, -1⟩ k = some st)
    (hv : ¬ |st.2.violation_| < 1 / 2)
    (hcp : |st.1.stepCp (matOf [[1]]) (matOf [[1]]) st.2| ≤ 1 / 2) :
    st.1.stepCp (matOf [[1]]) (matOf [[1]]) st.2 = 0 := by
  have hok : Solver.mainStep Real.sqrt true (matOf [[1]]) (matOf [[1]]) (vecOf [1]) (vecOf [100])
      ⟨HessianType.HESSIAN_CHOLESKY_FACTOR, 1 / 2, -1⟩
      (singleNext Real.sqrt 1 1 (matOf [[1]]) (vecOf [0]) (matOf [[1]]) (vecOf [1]) (1 / 2))
      = Step.done (Outcome.returned ReturnStatus.OK
        (singleNext Real.sqrt 1 1 (matOf [[1]]) (vecOf [0]) (matOf [[1]]) (vecOf [1])
          (1 / 2 : ℝ)).1) :=
    mainStep_ok_eq Real.sqrt true _ _ _ _ _ _ (by
      show |(0 : ℝ)| < 1 / 2
      rw [abs_zero]
      norm_num)
  exfalso
  rcases Nat.lt_or_ge k 2 with h2 | h2
  · rcases Nat.eq_or_lt_of_le (Nat.le_of_lt_succ h2) with e | e
    · subst e
      rw [activeBound_iterStates.2] at hk
      injection hk with hk
      subst hk
      apply hv
      show |(0 : ℝ)| < 1 / 2
      rw [abs_zero]
      norm_num
    · have e0 : k = 0 := by omega
      subst e0
      rw [activeBound_iterStates.1] at hk
      injection hk with hk
      subst hk
      rw [activeBound_cp, abs_one] at hcp
      norm_num at hcp
  · rw [iterState_stops Real.sqrt true _ _ _ _ _ _ _ 1 _ _ activeBound_iterStates.2 hok k
      (by omega)] at hk
    exact absurd hk (by simp)

/-- The run of `solve` on the active-bound scenario. -/
theorem activeBound_solve :
    Solver.solve Real.sqrt true ⟨1, 1, 0, 1⟩ (matOf [[1]]) (vecOf [0]) (matOf [[1]])
        (vecOf [1]) (vecOf [100]) ⟨HessianType.HESSIAN_CHOLESKY_FACTOR, 1 / 2, -1⟩ 2
      = some (Outcome.returned ReturnStatus.OK
          (singleNext Real.sqrt 1 1 (matOf [[1]]) (vecOf [0]) (matOf [[1]]) (vecOf [1])
            (1 / 2 : ℝ)).1) := by
  have hd : ∀ k, k < 1 → (matOf [[1]] : QPMatrix ℝ) k k ≠ 0 := by
    intro k hk
    have : k = 0 := by omega
    subst this
    simp [matOf]
  have hH : ∀ r c, r < 1 → c < 1 → (matOf [[1]] : QPMatrix ℝ) r c
      = ∑ k in Finset.range 1, lowerPart (matOf [[1]] : QPMatrix ℝ) r k
          * lowerPart (matOf [[1]] : QPMatrix ℝ) c k := by
    intro r c hr hc
    have : r = 0 := by omega
    subst this
    have : c = 0 := by omega
    subst this
    simp [lowerPart, matOf]
  have ex : dot 1 ((matOf [[1]] : QPMatrix ℝ) 0)
      (Solver.entry ⟨1, 1, 0, 1⟩ (matOf [[1]]) (vecOf [0])).primal
      = dot 1 ((matOf [[1]] : QPMatrix ℝ) 0) (vecOf [0]) :=
    dot_congr 1 _ _ _ (entry_primal_eq 1 (matOf [[1]]) (matOf [[1]]) (vecOf [0]) (vecOf [0])
      ⟨1, 1, 0, 1⟩ rfl (by decide) hd hH (by
        intro r hr
        have : r = 0 := by omega
        subst this
        simp [matOf, vecOf]))
  have ec := curvature_factor 1 (matOf [[1]] : QPMatrix ℝ) (matOf [[1]])
    ((matOf [[1]] : QPMatrix ℝ) 0) (vecOf [1]) hd hH (by
      intro r hr
      have : r = 0 := by omega
      subst this
      simp [matOf, vecOf])
  exact single_solveWithFactor Real.sqrt isSqrt_real true 1 1 (matOf [[1]]) (vecOf [0])
    (matOf [[1]]) (vecOf [1]) (vecOf [100]) ⟨HessianType.HESSIAN_CHOLESKY_FACTOR, 1 / 2, -1⟩ 2
    (by decide) (le_refl 2) (show (0 : ℝ) < 1 / 2 by norm_num)
    (show (1 / 2 : ℝ) ≤ 1 by norm_num) (Or.inl (by decide))
    (by
      show (vecOf [1] : QPVector ℝ) 0 + 1 / 2 < (vecOf [100] : QPVector ℝ) 0
      simp [vecOf]
      norm_num)
    (by
      rw [ex]
      show (vecOf [1] : QPVector ℝ) 0 - 1 / 2 > dot 1 ((matOf [[1]] : QPMatrix ℝ) 0) (vecOf [0])
      simp [vecOf, matOf, dot]
      norm_num)
    (by
      rw [ec]
      show (1 / 2 : ℝ) < dot 1 ((matOf [[1]] : QPMatrix ℝ) 0) (vecOf [1])
      simp [vecOf, matOf, dot]
      norm_num)

/-! ## Step lengths of the primal-step branch -/


/-- With `tol > 0`, for a run in which no iteration that computes step
directions has a component of the dual step direction in `[−tol, 0)`: in every
iteration reached that enters the primal-step branch, the primal step length and
the dual step length are `≥ 0`. -/
theorem iterState_step_lengths (sqrt : K → K) (hs : IsSqrt sqrt) (asserts : Bool)
    (sizes : InputParser) (L : QPMatrix K) (h : QPVector K) (A : QPMatrix K)
    (Alb Aub : QPVector K) (param : SolverParameters K)
    (htol : 0 < param.tolerance_)
    (hN : ∀ (k : Nat) (st : Solver K × ChosenConstraint K),
      Solver.iterState sqrt asserts sizes L h A Alb Aub param k = some st →
      ¬ |st.2.violation_| < param.tolerance_ →
      (st.1.stepState L A st.2).NoSmallDual param.tolerance_) :
    ∀ (k : Nat) (st : Solver K × ChosenConstraint K),
    Solver.iterState sqrt asserts sizes L h A Alb Aub param k = some st →
    ¬ |st.2.violation_| < param.tolerance_ →
    (st.1.stepState L A st.2).active_set_.hasEmptySpace = true →
    |st.1.stepCp L A st.2| > param.tolerance_ →
    0 ≤ -st.2.violation_ / st.1.stepCp L A st.2 ∧
    (∀ t, ((st.1.stepState L A st.2).dualBlocking param.tolerance_).2 = some t → 0 ≤ t) ∧
    Solver.lengthsOk ((st.1.stepState L A st.2).dualBlocking param.tolerance_).2
      (-st.2.violation_ / st.1.stepCp L A st.2) = true := by
  intro k st hk h0 hsp hcp
  obtain ⟨hmu, hu, hlo, hup⟩ :=
    iterState_dualInv sqrt hs asserts sizes L h A Alb Aub param htol hN k st hk
  obtain ⟨hI, _, _⟩ :=
    (iterState_mainState sqrt hs asserts sizes L h A Alb Aub param htol k st hk).1
  have eas : (st.1.stepState L A st.2).active_set_
      = (st.1.initializeMachineryLazy L).active_set_ :=
    Solver.computeStepDirections_active_set _ A st.2
  have edual : (st.1.stepState L A st.2).dual_ = (st.1.initializeMachineryLazy L).dual_ :=
    Solver.computeStepDirections_dual _ A st.2
  have hq := hI.wf.size_eq
  rw [← eas] at hq
  have hle : (st.1.stepState L A st.2).active_set_.num_equalities_
      ≤ (st.1.stepState L A st.2).active_set_.size_ := by omega
  have hmuS : ∀ i, (st.1.stepState L A st.2).active_set_.num_equalities_ ≤ i →
      i < (st.1.stepState L A st.2).active_set_.size_ →
      0 ≤ (st.1.stepState L A st.2).dual_ i := by
    intro i h1 h2
    rw [edual]
    rw [eas] at h1 h2
    exact hmu i h1 h2
  obtain ⟨hmin, _⟩ := Solver.dualBlocking_min (st.1.stepState L A st.2) param.tolerance_
    htol.le hle hmuS
  rw [eas] at hsp
  obtain ⟨s1, s2⟩ := stepCp_sign (st.1.initializeMachineryLazy L) A st.2 hI.wf hsp
  have ecp : st.1.stepCp L A st.2
      = dot (st.1.initializeMachineryLazy L).primal_size_ (A st.2.index_)
        ((st.1.initializeMachineryLazy L).computeStepDirections A
          st.2).primal_step_direction_ := by
    unfold Solver.stepCp Solver.stepState
    rw [congrArg InputParser.primal_size_ (Solver.computeStepDirections_sizes _ A st.2)]
  rw [← ecp] at s1 s2
  have hsl : 0 ≤ -st.2.violation_ / st.1.stepCp L A st.2 := by
    by_cases hty : st.2.type_ = ConstraintStatus.ACTIVE_LOWER_BOUND
    · have h1 := s1 hty
      have h2 := hlo hty
      rw [neg_div]
      exact neg_nonneg.mpr (div_nonpos_of_nonpos_of_nonneg h2 h1)
    · have h1 := s2 hty
      have h2 := hup hty
      rw [neg_div, ← div_neg]
      exact div_nonneg h2 (by linarith)
  refine ⟨hsl, fun t ht => (hmin t ht).1, ?_⟩
  cases hdb : ((st.1.stepState L A st.2).dualBlocking param.tolerance_).2 with
  | none =>
    show decide (-st.2.violation_ / st.1.stepCp L A st.2 ≥ 0) = true
    exact decide_eq_true hsl
  | some t =>
    show decide (-st.2.violation_ / st.1.stepCp L A st.2 ≥ 0 ∧ t ≥ 0) = true
    exact decide_eq_true ⟨hsl, (hmin t hdb).1⟩

/-- The step lengths, with `tol > 0`, for a run in which no iteration
that computes step directions has a component of the dual step direction `z[i]`,
`i` in `[nE, q)`, in `[−tol, 0)`: in every main-loop iteration that `solve`
reaches and that enters the primal-step branch (the violation is not below the
tolerance, the active set has room, `|A[chosen]·p| > tol`), the primal step length
`−chosen.violation/(A[chosen]·p)` and the dual step length are `≥ 0`, the
condition of the assertion holds, and `solve` does not raise on it. -/
theorem step_lengths_nonneg (sqrt : K → K) (hs : IsSqrt sqrt) (asserts : Bool)
    (sizes : InputParser) (H L : QPMatrix K) (h : QPVector K) (A : QPMatrix K)
    (Alb Aub : QPVector K) (param : SolverParameters K) (fuel : Nat)
    (htol : 0 < param.tolerance_)
    (hL : Solver.prepareHessian sqrt sizes.primal_size_ H param = some L)
    (hN : ∀ (k : Nat) (st : Solver K × ChosenConstraint K),
      Solver.iterState sqrt asserts sizes L h A Alb Aub param k = some st →
      ¬ |st.2.violation_| < param.tolerance_ →
      (st.1.stepState L A st.2).NoSmallDual param.tolerance_) :
    (∀ (k : Nat) (st : Solver K × ChosenConstraint K),
      Solver.iterState sqrt asserts sizes L h A Alb Aub param k = some st →
      ¬ |st.2.violation_| < param.tolerance_ →
      (st.1.stepState L A st.2).active_set_.hasEmptySpace = true →
      |st.1.stepCp L A st.2| > param.tolerance_ →
      0 ≤ -st.2.violation_ / st.1.stepCp L A st.2 ∧
      (∀ t, ((st.1.stepState L A st.2).dualBlocking param.tolerance_).2 = some t → 0 ≤ t) ∧
      Solver.lengthsOk ((st.1.stepState L A st.2).dualBlocking param.tolerance_).2
        (-st.2.violation_ / st.1.stepCp L A st.2) = true) ∧
    (∀ s : Solver K, Solver.solve sqrt asserts sizes H h A Alb Aub param fuel
      ≠ some (Outcome.raised QPError.NEGATIVE_STEP_LENGTH s)) := by
  have hsolve : Solver.solve sqrt asserts sizes H h A Alb Aub param fuel
      = Solver.solveWithFactor sqrt asserts sizes L h A Alb Aub param fuel := by
    unfold Solver.solve
    show (match Solver.prepareHessian sqrt sizes.primal_size_ H param with
      | none => _
      | some L => _) = _
    rw [hL]
  have hiter := iterState_step_lengths sqrt hs asserts sizes L h A Alb Aub param htol hN
  refine ⟨hiter, ?_⟩
  intro s hrun
  rw [hsolve] at hrun
  rcases solveWithFactor_cases sqrt asserts sizes L h A Alb Aub param fuel _ hrun with
    ⟨s1, e⟩ | hloop | ⟨st0, hms, hmain⟩
  · exact absurd e (by simp)
  · rcases equalityLoop_raised sqrt L A Alb Aub param _ _ _ _ _ hloop with e | e <;>
      exact absurd e (by decide)
  · obtain ⟨k, stk, _, hk, hcase⟩ :=
      (mainLoop_some_iff sqrt asserts L A Alb Aub param fuel 0 _ _).mp hmain
    have hit : Solver.iterState sqrt asserts sizes L h A Alb Aub param k = some stk := by
      unfold Solver.iterState
      rw [hms]
      exact hk
    rcases hcase with ⟨_, hstep⟩ | ⟨_, hmaxed⟩
    · obtain ⟨a0, a1, a2, a3⟩ := mainStep_negative sqrt asserts L A Alb Aub param stk s hstep
      rw [(hiter k stk hit a0 a1 a2).2.2] at a3
      exact absurd a3 (by decide)
    · exact absurd hmaxed (by simp)

/-- The first iteration of the active-bound scenario: the primal step length
is non-negative. -/
theorem step_lengths_nonneg_witness :
    0 ≤ -(singleStart 1 1 (matOf [[1]]) (vecOf [0]) (matOf [[1]])
          (vecOf [1] : QPVector ℝ)).2.violation_
        / (singleStart 1 1 (matOf [[1]]) (vecOf [0]) (matOf [[1]])
          (vecOf [1] : QPVector ℝ)).1.stepCp (matOf [[1]]) (matOf [[1]])
          (singleStart 1 1 (matOf [[1]]) (vecOf [0]) (matOf [[1]])
            (vecOf [1] : QPVector ℝ)).2 :=
  ((step_lengths_nonneg Real.sqrt isSqrt_real true ⟨1, 1, 0, 1⟩ (matOf [[1]]) (matOf [[1]])
    (vecOf [0]) (matOf [[1]]) (vecOf [1]) (vecOf [100])
    ⟨HessianType.HESSIAN_CHOLESKY_FACTOR, 1 / 2, -1⟩ 2
    (show (0 : ℝ) < 1 / 2 by norm_num) rfl activeBound_noSmallDual).1 0
    (singleStart 1 1 (matOf [[1]]) (vecOf [0]) (matOf [[1]]) (vecOf [1]))
    activeBound_iterStates.1
    (by
      rw [activeBound_violation]
      show ¬ |(-1 : ℝ)| < 1 / 2
      rw [abs_neg, abs_one]
      norm_num)
    activeBound_space
    (by
      rw [activeBound_cp]
      show |(1 : ℝ)| > 1 / 2
      rw [abs_one]
      norm_num)).1

/-! ## Two concrete runs of the main loop -/


/-- The run on two opposed bounds (`n = 1`, factor `[[1]]`, `h = 0`, the
constraints `1 ≤ x ≤ 100` and `−100 ≤ x ≤ −1`, tolerance `1/2`): the first
iteration activates the first constraint at `x = 1`; at the head of the second
iteration the second constraint is chosen with violation `2`, the active set is
full and the dual step direction at the only active position is not below
`−tol`. -/
theorem opposedBounds_states :
    ∃ st : Solver ℝ × ChosenConstraint ℝ,
      Solver.iterState Real.sqrt true ⟨1, 1, 0, 2⟩ (matOf [[1]]) (vecOf [0])
        (matOf [[1], [1]]) (vecOf [1, -100]) (vecOf [100, -1])
        ⟨HessianType.HESSIAN_CHOLESKY_FACTOR, 1 / 2, -1⟩ 1 = some st ∧
      st.2.index_ = 1 ∧ st.2.violation_ = 2 ∧ st.1.primal 0 = 1 ∧ st.1.dual_ 0 = 1 ∧
      (st.1.stepState (matOf [[1]]) (matOf [[1], [1]]) st.2).active_set_.hasEmptySpace = false ∧
      (st.1.stepState (matOf [[1]]) (matOf [[1], [1]]) st.2).active_set_.num_equalities_ = 0 ∧
      (st.1.stepState (matOf [[1]]) (matOf [[1], [1]]) st.2).active_set_.size_ = 1 ∧
      (st.1.stepState (matOf [[1]]) (matOf [[1], [1]]) st.2).dual_step_direction_ 0 = 1 := by
  norm_num +decide [Solver.iterState, Solver.mainStart, Solver.equalityLoop, Solver.equalityStep,
    Solver.mainEntry, Solver.chooseConstraint, forUp, Solver.chooseConstraintStep,
    Solver.statesFrom, Solver.entry, Solver.start, Solver.setStatus, vecOf, matOf, dot,
    Finset.sum_range_succ, CholeskyFactorization.solve, backSolve, forwardSolve,
    ChosenConstraint.init, Function.update_apply, Solver.initializeMachineryLazy,
    ActiveSet.initialize, ActiveSet.hasEmptySpace, FactorizationData.initialize,
    TriangularInversion.compute, Solver.primalUpdate, FactorizationData.update,
    FactorizationData.updateLoop, FactorizationData.updateStep,
    GivensReflection.computeAndApply, GivensReflection.applyColumnWise,
    GivensReflection.applyRowWise, Solver.mainStep, Solver.stepState, Solver.stepCp,
    Solver.computeStepDirections, FactorizationData.computeInequalitySteps,
    FactorizationData.computeInequalityDualStep, Solver.dualBlocking, Solver.dualBlockingStep,
    Solver.dualUpdate, Solver.activate, Solver.deactivate, Solver.lengthsOk,
    Solver.truncateStep, Solver.takeStep, ActiveSet.addInequality, ActiveSet.removeInequality,
    ActiveSet.getIndex, dropElementWithoutResize, FactorizationData.downdate,
    FactorizationData.downdateStep, Finset.sum_Ico_eq_sum_range, abs_eq_max_neg, max_def]

/-- The run with an equality and a dropped inequality (`n = 2`, factor `I`,
`h = 0`, the constraints `x₀ = 0`, `1 ≤ x₁ ≤ 100` and `1 ≤ x₁/2 ≤ 100`, tolerance
`1/10`): the equality is activated first; iteration 0 activates the second
constraint at `x = (0, 1)`; at the head of iteration 1 the third constraint is
chosen with violation `−1/2`, the active set is full, and the blocking position
is 1; iteration 1 drops position 1 and keeps the equality. -/
theorem equalityDrop_states :
    ∃ st0 st st1 : Solver ℝ × ChosenConstraint ℝ,
      Solver.iterState Real.sqrt true ⟨2, 2, 0, 3⟩ (matOf [[1, 0], [0, 1]]) (vecOf [0, 0])
        (matOf [[1, 0], [0, 1], [0, 1 / 2]]) (vecOf [0, 1, 1]) (vecOf [0, 100, 100])
        ⟨HessianType.HESSIAN_CHOLESKY_FACTOR, 1 / 10, -1⟩ 0 = some st0 ∧
      Solver.iterState Real.sqrt true ⟨2, 2, 0, 3⟩ (matOf [[1, 0], [0, 1]]) (vecOf [0, 0])
        (matOf [[1, 0], [0, 1], [0, 1 / 2]]) (vecOf [0, 1, 1]) (vecOf [0, 100, 100])
        ⟨HessianType.HESSIAN_CHOLESKY_FACTOR, 1 / 10, -1⟩ 1 = some st ∧
      Solver.iterState Real.sqrt true ⟨2, 2, 0, 3⟩ (matOf [[1, 0], [0, 1]]) (vecOf [0, 0])
        (matOf [[1, 0], [0, 1], [0, 1 / 2]]) (vecOf [0, 1, 1]) (vecOf [0, 100, 100])
        ⟨HessianType.HESSIAN_CHOLESKY_FACTOR, 1 / 10, -1⟩ 2 = some st1 ∧
      st.2.index_ = 2 ∧ st.2.violation_ = -(1 / 2) ∧
      st.1.machinery_initialized_ = true ∧ st1.1.machinery_initialized_ = true ∧
      st0.1.machinery_initialized_ = true ∧
      st0.1.active_set_.num_equalities_ = 1 ∧
      st.1.active_set_.num_equalities_ = 1 ∧ st.1.active_set_.size_ = 2 ∧
      st.1.active_set_.getIndex 0 = 0 ∧ st.1.active_set_.getIndex 1 = 1 ∧
      st1.1.active_set_.num_equalities_ = 1 ∧ st1.1.active_set_.size_ = 1 ∧
      st1.1.active_set_.getIndex 0 = 0 ∧
      (st.1.stepState (matOf [[1, 0], [0, 1]]) (matOf [[1, 0], [0, 1], [0, 1 / 2]])
        st.2).active_set_.hasEmptySpace = false ∧
      (st.1.stepState (matOf [[1, 0], [0, 1]]) (matOf [[1, 0], [0, 1], [0, 1 / 2]])
        st.2).primal_size_ = 2 ∧
      ((st.1.stepState (matOf [[1, 0], [0, 1]]) (matOf [[1, 0], [0, 1], [0, 1 / 2]])
        st.2).dualBlocking (1 / 10)).1 = 1 ∧
      ((st.1.stepState (matOf [[1, 0], [0, 1]]) (matOf [[1, 0], [0, 1], [0, 1 / 2]])
        st.2).dualBlocking (1 / 10)).2 = some 2 := by
  norm_num +decide [Solver.iterState, Solver.mainStart, Solver.equalityLoop, Solver.equalityStep,
    Solver.mainEntry, Solver.equalityDirection,
    FactorizationData.computeEqualityPrimalStep, Solver.equalityTake, Solver.addEquality,
    ActiveSet.addEquality, Solver.chooseConstraint, forUp, Solver.chooseConstraintStep,
    Solver.statesFrom, Solver.entry, Solver.start, Solver.setStatus, vecOf, matOf, dot,
    Finset.sum_range_succ, CholeskyFactorization.solve, backSolve, forwardSolve,
    ChosenConstraint.init, Function.update_apply, Solver.initializeMachineryLazy,
    ActiveSet.initialize, ActiveSet.hasEmptySpace, FactorizationData.initialize,
    TriangularInversion.compute, Solver.primalUpdate, FactorizationData.update,
    FactorizationData.updateLoop, FactorizationData.updateStep,
    GivensReflection.computeAndApply, GivensReflection.applyColumnWise,
    GivensReflection.applyRowWise, Solver.mainStep, Solver.stepState, Solver.stepCp,
    Solver.computeStepDirections, FactorizationData.computeInequalitySteps,
    FactorizationData.computeInequalityDualStep, Solver.dualBlocking, Solver.dualBlockingStep,
    Solver.dualUpdate, Solver.activate, Solver.deactivate, Solver.lengthsOk,
    Solver.truncateStep, Solver.takeStep, ActiveSet.addInequality, ActiveSet.removeInequality,
    ActiveSet.getIndex, dropElementWithoutResize, FactorizationData.downdate,
    FactorizationData.downdateStep, Finset.sum_Ico_eq_sum_range, abs_eq_max_neg, max_def]

/-! ## The gradient along the primal step direction -/


/-- At a stationary state with room in the active set the directional derivative
of the objective along the primal step direction is the pending multiplier times
`|A[chosen]·p|`: the active normals are orthogonal to `p`, and the signed row of
the chosen constraint has product `−|A[chosen]·p|` with it. -/
theorem gradient_dot_step (s : Solver K) (A Hmat : QPMatrix K) (h : QPVector K)
    (ch : ChosenConstraint K) (hwf : s.WF A)
    (hS : s.Stationary Hmat h A ch.dual_ (signedRow (A ch.index_) ch.type_))
    (hspace : s.active_set_.hasEmptySpace = true)
    (hsym : ∀ a b, a < s.primal_size_ → b < s.primal_size_ → Hmat a b = Hmat b a) :
    bil s.primal_size_ Hmat s.primal (s.computeStepDirections A ch).primal_step_direction_
      + dot s.primal_size_ h (s.computeStepDirections A ch).primal_step_direction_
      = ch.dual_ * |dot s.primal_size_ (A ch.index_)
          (s.computeStepDirections A ch).primal_step_direction_| := by
  obtain ⟨lam, hl⟩ := hS
  have hnull : ∀ c, c < s.active_set_.size_ →
      dot s.primal_size_ (s.normal A c)
        (s.computeStepDirections A ch).primal_step_direction_ = 0 := by
    intro c hc
    rw [Solver.computeStepDirections_p s A ch hspace, computeInequalitySteps_p, hwf.fd_size]
    exact dot_step_of_tracks _ _ _ _ _ _ hwf.tracks c hc
  have hdot := computeInequalitySteps_dot s.factorization_data_ s.dual_step_direction_
    (A ch.index_) ch.type_ s.active_set_
  rw [hwf.fd_size, ← Solver.computeStepDirections_p s A ch hspace] at hdot
  have hnn : 0 ≤ ∑ k in Finset.Ico s.active_set_.size_ s.primal_size_,
      colT s.primal_size_ s.factorization_data_.QLi_aka_J (A ch.index_) k
      * colT s.primal_size_ s.factorization_data_.QLi_aka_J (A ch.index_) k :=
    Finset.sum_nonneg (fun k _ => mul_self_nonneg _)
  have esign : dot s.primal_size_ (signedRow (A ch.index_) ch.type_)
        (s.computeStepDirections A ch).primal_step_direction_
      = if ch.type_ = ConstraintStatus.ACTIVE_LOWER_BOUND then
          -dot s.primal_size_ (A ch.index_)
            (s.computeStepDirections A ch).primal_step_direction_
        else dot s.primal_size_ (A ch.index_)
            (s.computeStepDirections A ch).primal_step_direction_ := by
    unfold signedRow dot
    by_cases ht : ch.type_ = ConstraintStatus.ACTIVE_LOWER_BOUND
    · simp only [if_pos ht]
      rw [← Finset.sum_neg_distrib]
      refine Finset.sum_congr rfl (fun k _ => ?_)
      ring
    · simp only [if_neg ht]
  have hv : dot s.primal_size_ (signedRow (A ch.index_) ch.type_)
        (s.computeStepDirections A ch).primal_step_direction_
      = -|dot s.primal_size_ (A ch.index_)
          (s.computeStepDirections A ch).primal_step_direction_| := by
    rw [esign, hdot]
    by_cases ht : ch.type_ = ConstraintStatus.ACTIVE_LOWER_BOUND
    · simp only [if_pos ht]
      rw [abs_of_nonneg hnn]
    · simp only [if_neg ht]
      rw [abs_neg, abs_of_nonneg hnn]
  have hsum : ∑ k in Finset.range s.primal_size_,
      (s.computeStepDirections A ch).primal_step_direction_ k
        * (∑ c in Finset.range s.primal_size_, Hmat k c * s.primal c + h k
          + ∑ c in Finset.range s.active_set_.size_,
              (if c < s.active_set_.num_equalities_ then lam c else s.dual_ c)
                * s.normal A c k
          + ch.dual_ * signedRow (A ch.index_) ch.type_ k) = 0 :=
    Finset.sum_eq_zero (fun k hk => by rw [hl k (Finset.mem_range.mp hk), mul_zero])
  have T1 : ∑ k in Finset.range s.primal_size_,
      (s.computeStepDirections A ch).primal_step_direction_ k
        * ∑ c in Finset.range s.primal_size_, Hmat k c * s.primal c
      = bil s.primal_size_ Hmat s.primal
          (s.computeStepDirections A ch).primal_step_direction_ := by
    unfold bil
    rw [Finset.sum_comm]
    refine Finset.sum_congr rfl (fun b hb => ?_)
    rw [Finset.mul_sum]
    refine Finset.sum_congr rfl (fun a ha => ?_)
    rw [hsym a b (Finset.mem_range.mp ha) (Finset.mem_range.mp hb)]
    ring
  have T2 : ∑ k in Finset.range s.primal_size_,
      (s.computeStepDirections A ch).primal_step_direction_ k * h k
      = dot s.primal_size_ h (s.computeStepDirections A ch).primal_step_direction_ := by
    unfold dot
    exact Finset.sum_congr rfl (fun k _ => mul_comm _ _)
  have T3 : ∑ k in Finset.range s.primal_size_,
      (s.computeStepDirections A ch).primal_step_direction_ k
        * ∑ c in Finset.range s.active_set_.size_,
            (if c < s.active_set_.num_equalities_ then lam c else s.dual_ c)
              * s.normal A c k = 0 := by
    have e : ∀ k ∈ Finset.range s.primal_size_,
        (s.computeStepDirections A ch).primal_step_direction_ k
          * ∑ c in Finset.range s.active_set_.size_,
              (if c < s.active_set_.num_equalities_ then lam c else s.dual_ c)
                * s.normal A c k
        = ∑ c in Finset.range s.active_set_.size_,
            (if c < s.active_set_.num_equalities_ then lam c else s.dual_ c)
              * (s.normal A c k * (s.computeStepDirections A ch).primal_step_direction_ k) := by
      intro k _
      rw [Finset.mul_sum]
      refine Finset.sum_congr rfl (fun c _ => ?_)
      ring
    rw [Finset.sum_congr rfl e, Finset.sum_comm]
    refine Finset.sum_eq_zero (fun c hc => ?_)
    rw [← Finset.mul_sum]
    have := hnull c (Finset.mem_range.mp hc)
    unfold dot at this
    rw [this, mul_zero]
  have T4 : ∑ k in Finset.range s.primal_size_,
      (s.computeStepDirections A ch).primal_step_direction_ k
        * (ch.dual_ * signedRow (A ch.index_) ch.type_ k)
      = ch.dual_ * dot s.primal_size_ (signedRow (A ch.index_) ch.type_)
          (s.computeStepDirections A ch).primal_step_direction_ := by
    unfold dot
    rw [Finset.mul_sum]
    refine Finset.sum_congr rfl (fun k _ => ?_)
    ring
  simp only [mul_add, Finset.sum_add_distrib] at hsum
  rw [T1, T2, T3, T4, hv] at hsum
  linarith

/-! ## The claims about the factorization and the constraint selection -/

theorem upperTriangular_exampleFD (K : Type) [LinearOrderedField K] :
    UpperTriangular (exampleFD : FactorizationData K).R 2 2 := by
  intro r c hr hc hcr
  have h1 : r = 1 := by omega
  have h2 : c = 0 := by omega
  subst h1 h2
  simp [exampleFD, matOf]

/-- C1. Primal feasibility at `OK`: when `solve`, run with a tolerance `tol > 0`,
returns `OK`, the returned `x` satisfies `Alb[i] − tol ≤ A[i]·x ≤ Aub[i] + tol`
for every general constraint `i` that is not classified as an equality, and for
every equality that is in the active set (that was activated, not skipped as
linearly dependent). -/
theorem primal_feasibility (sqrt : K → K) (hs : IsSqrt sqrt) (asserts : Bool)
    (sizes : InputParser) (H : QPMatrix K) (h : QPVector K) (A : QPMatrix K)
    (Alb Aub : QPVector K) (param : SolverParameters K) (fuel : Nat)
    (htol : 0 < param.tolerance_) (s : Solver K)
    (hret : Solver.solve sqrt asserts sizes H h A Alb Aub param fuel
      = some (Outcome.returned ReturnStatus.OK s))
    (i : Nat) (hi : i < sizes.num_general_constraints_)
    (hact : s.general_constraints_status_ i ≠ ConstraintStatus.EQUALITY ∨
      ∃ c, c < s.active_set_.size_ ∧ s.active_set_.getIndex c = i) :
    Alb i - param.tolerance_ ≤ dot sizes.primal_size_ (A i) s.primal ∧
    dot sizes.primal_size_ (A i) s.primal ≤ Aub i + param.tolerance_ := by
  unfold Solver.solve at hret
  cases hp : Solver.prepareHessian sqrt sizes.primal_size_ H param with
  | none =>
    rw [hp] at hret
    exact absurd hret (by simp)
  | some L =>
    rw [hp] at hret
    exact solveWithFactor_feasible sqrt hs asserts sizes L h A Alb Aub param fuel htol s hret
      i hi hact

/-- The single-equality problem `x₀ + x₁ = 1` over `H = I` with tolerance `1`:
`solve` returns `OK` and the equality holds up to the tolerance. -/
theorem primal_feasibility_witness :
    ∃ s : Solver ℝ,
      Solver.solve Real.sqrt true ⟨2, 2, 0, 1⟩ (matOf [[1, 0], [0, 1]]) (vecOf [0, 0])
        (matOf [[1, 1]]) (vecOf [1]) (vecOf [1]) ⟨HessianType.HESSIAN_CHOLESKY_FACTOR, 1, -1⟩ 0
        = some (Outcome.returned ReturnStatus.OK s) ∧
      (vecOf [1] : QPVector ℝ) 0 - 1 ≤ dot 2 ((matOf [[1, 1]] : QPMatrix ℝ) 0) s.primal ∧
      dot 2 ((matOf [[1, 1]] : QPMatrix ℝ) 0) s.primal ≤ (vecOf [1] : QPVector ℝ) 0 + 1 := by
  have ht : (0 : ℝ) < (⟨HessianType.HESSIAN_CHOLESKY_FACTOR, 1, -1⟩ :
      SolverParameters ℝ).tolerance_ := by
    show (0 : ℝ) < 1
    norm_num
  obtain ⟨s, hret, _, _, h3, _, _, h6, _⟩ := scenarioB_solve Real.sqrt isSqrt_real
    ⟨HessianType.HESSIAN_CHOLESKY_FACTOR, 1, -1⟩ ht
    (by show (1 : ℝ) * 1 ≤ 2; norm_num) (by decide) true 0
  exact ⟨s, hret, primal_feasibility Real.sqrt isSqrt_real true ⟨2, 2, 0, 1⟩ _ _ _ _ _
    ⟨HessianType.HESSIAN_CHOLESKY_FACTOR, 1, -1⟩ 0 ht s hret 0 (Nat.succ_pos 0)
    (Or.inr ⟨0, by rw [h3]; exact Nat.succ_pos 0, h6⟩)⟩

/-- With `H = I`, `h = 0`, the equalities `x₀/20 = 0` and `x₀ = 1` and the
tolerance `1/100`: the first equality is skipped as linearly dependent
(`ρ = −1/400` is not below `−tol`, its violation is `0`), the second is
activated and moves `x` to `(1, 0)`; `solve` returns `OK` although
`A[0]·x = 1/20` exceeds `Aub[0] + tol = 1/100`.  No square root is taken. -/
theorem primal_feasibility_counterexample :
    returnedWith
      (Solver.solve Rat.sqrt true ⟨2, 2, 0, 2⟩ (matOf [[1, 0], [0, 1]]) (vecOf [0, 0])
        (matOf [[1 / 20, 0], [1, 0]]) (vecOf [0, 1]) (vecOf [0, 1])
        ⟨HessianType.HESSIAN_CHOLESKY_FACTOR, 1 / 100, -1⟩ 0)
      (fun status s => decide (status = ReturnStatus.OK ∧ s.primal 0 = 1 ∧ s.primal 1 = 0 ∧
        s.general_constraints_status_ 0 = ConstraintStatus.EQUALITY ∧
        (1 / 20 : ℚ) * s.primal 0 + 0 * s.primal 1 > 0 + 1 / 100)) = true := by
  decide!

/-- C4. Factorization identity: if `Jᵀ·H·J = I` holds for a state of
`FactorizationData` (for any matrix `H`, in particular a symmetric
positive-definite one), it holds again after `update(k, tol)` for every `k < n`,
whatever `update` returns, and after `downdate(j, q, tol)` for every
`j < q ≤ n`. -/
theorem factorization_identity (sqrt : K → K) (hs : IsSqrt sqrt) (H : QPMatrix K)
    (fd : FactorizationData K) (tol : K)
    (hJ : HOrthonormal fd.primal_size_ H fd.QLi_aka_J) :
    (∀ k, k < fd.primal_size_ →
      HOrthonormal fd.primal_size_ H (fd.update sqrt k tol).1.QLi_aka_J) ∧
    (∀ j q, j < q → q ≤ fd.primal_size_ →
      HOrthonormal fd.primal_size_ H (fd.downdate sqrt j q tol).QLi_aka_J) := by
  constructor
  · intro k hk
    have hfd : (fd.update sqrt k tol).1
        = FactorizationData.updateLoop sqrt k (fd.primal_size_ - 1) fd := by
      unfold FactorizationData.update
      dsimp only
      split_ifs <;> rfl
    rw [hfd]
    exact updateLoop_hOrthonormal sqrt hs H k _ fd (by omega) hJ
  · intro j q hjq hq
    unfold FactorizationData.downdate
    exact downdateLoop_hOrthonormal sqrt hs H q _ _ fd (by omega) (by omega) hJ

theorem factorization_identity_witness :
    IsSqrt Real.sqrt ∧
    HOrthonormal (exampleFD : FactorizationData ℝ).primal_size_ idMat
      (exampleFD : FactorizationData ℝ).QLi_aka_J ∧
    ((∀ k, k < (exampleFD : FactorizationData ℝ).primal_size_ →
      HOrthonormal (exampleFD : FactorizationData ℝ).primal_size_ idMat
        ((exampleFD : FactorizationData ℝ).update Real.sqrt k 1).1.QLi_aka_J) ∧
    (∀ j q, j < q → q ≤ (exampleFD : FactorizationData ℝ).primal_size_ →
      HOrthonormal (exampleFD : FactorizationData ℝ).primal_size_ idMat
        ((exampleFD : FactorizationData ℝ).downdate Real.sqrt j q 1).QLi_aka_J)) :=
  ⟨isSqrt_real, hOrthonormal_idMat 2,
    factorization_identity Real.sqrt isSqrt_real idMat exampleFD 1 (hOrthonormal_idMat 2)⟩

/-- C5, as amended. `update` postcondition: for every `k < n` and every `R` whose
first `k` columns vanish below the diagonal in the rows up to `k` (the leading
`(k+1) × k` block is upper-triangular), after `update(k, tol)` every entry
`R[i,k]` with `i > k` is 0, `|R[k,k]|` is the Euclidean norm of the previous
`R[k:n, k]`, all other columns of `R` are unchanged, the leading
`(k+1) × (k+1)` block is upper-triangular, and `update` returns false if and
only if the resulting `|R[k,k]| < tol`. -/
theorem update_postcondition (sqrt : K → K) (hs : IsSqrt sqrt)
    (fd : FactorizationData K) (k : Nat) (tol : K) (hk : k < fd.primal_size_)
    (hR : UpperTriangular fd.R (k + 1) k) :
    (∀ i, k < i → i < fd.primal_size_ → (fd.update sqrt k tol).1.R i k = 0) ∧
    |(fd.update sqrt k tol).1.R k k|
      = sqrt (∑ i in Finset.Ico k fd.primal_size_, fd.R i k * fd.R i k) ∧
    (∀ i c, c ≠ k → (fd.update sqrt k tol).1.R i c = fd.R i c) ∧
    UpperTriangular (fd.update sqrt k tol).1.R (k + 1) (k + 1) ∧
    ((fd.update sqrt k tol).2 = false ↔ |(fd.update sqrt k tol).1.R k k| < tol) := by
  have hfd : (fd.update sqrt k tol).1
      = FactorizationData.updateLoop sqrt k (fd.primal_size_ - 1) fd := by
    unfold FactorizationData.update
    dsimp only
    split_ifs <;> rfl
  have hki : k ≤ fd.primal_size_ - 1 := by omega
  obtain ⟨h1, h2⟩ := updateLoop_R_col sqrt hs k (fd.primal_size_ - 1) fd hki
  rw [Nat.sub_add_cancel (by omega : 1 ≤ fd.primal_size_)] at h2
  refine ⟨?_, ?_, ?_, ?_, ?_⟩
  · intro i hi1 hi2
    rw [hfd]
    exact h1 i hi1 (by omega)
  · rw [hfd]
    exact abs_eq_sqrt_of_mul_self sqrt hs _ _
      (Finset.sum_nonneg (fun i _ => mul_self_nonneg _)) h2
  · intro i c hc
    rw [hfd]
    exact updateLoop_R_other sqrt k _ fd i c hc
  · intro r c hr hc hcr
    rw [hfd]
    rcases Nat.lt_or_ge c k with h3 | h3
    · rw [updateLoop_R_other sqrt k _ fd r c (by omega)]
      exact hR r c hr h3 hcr
    · omega
  · rw [hfd]
    unfold FactorizationData.update
    dsimp only
    split_ifs with h <;> simp [h]

theorem update_postcondition_witness :
    IsSqrt Real.sqrt ∧ 1 < (exampleFD : FactorizationData ℝ).primal_size_ ∧
    UpperTriangular (exampleFD : FactorizationData ℝ).R (1 + 1) 1 ∧
    ((∀ i, 1 < i → i < (exampleFD : FactorizationData ℝ).primal_size_ →
        ((exampleFD : FactorizationData ℝ).update Real.sqrt 1 1).1.R i 1 = 0) ∧
    |((exampleFD : FactorizationData ℝ).update Real.sqrt 1 1).1.R 1 1|
      = Real.sqrt (∑ i in Finset.Ico 1 (exampleFD : FactorizationData ℝ).primal_size_,
          (exampleFD : FactorizationData ℝ).R i 1 * (exampleFD : FactorizationData ℝ).R i 1) ∧
    (∀ i c, c ≠ 1 → ((exampleFD : FactorizationData ℝ).update Real.sqrt 1 1).1.R i c
      = (exampleFD : FactorizationData ℝ).R i c) ∧
    UpperTriangular ((exampleFD : FactorizationData ℝ).update Real.sqrt 1 1).1.R (1 + 1) (1 + 1) ∧
    (((exampleFD : FactorizationData ℝ).update Real.sqrt 1 1).2 = false ↔
      |((exampleFD : FactorizationData ℝ).update Real.sqrt 1 1).1.R 1 1| < 1)) :=
  ⟨isSqrt_real, by decide,
    fun r c hr hc hcr => upperTriangular_exampleFD ℝ r c hr (by omega) hcr,
    update_postcondition Real.sqrt isSqrt_real exampleFD 1 1 (by decide)
      (fun r c hr hc hcr => upperTriangular_exampleFD ℝ r c hr (by omega) hcr)⟩

/-- C5, as stated, fails: for `n = 2`, `k = 1` and `R = [[1, 5], [7, 3]]` the
leading `1 × 1` block is upper-triangular, but after `update(1, tol)` the leading
`2 × 2` block is not: `update` does not touch `R[1,0] = 7`. -/
theorem update_postcondition_counterexample :
    UpperTriangular (exampleFDLower : FactorizationData ℚ).R 1 1 ∧
    ¬ UpperTriangular ((exampleFDLower : FactorizationData ℚ).update Rat.sqrt 1 (1 / 2)).1.R
      (1 + 1) (1 + 1) := by
  constructor
  · intro r c hr hc hcr
    omega
  · intro h
    have h1 := h 1 0 (by decide) (by decide) (by decide)
    exact absurd h1 (by decide!)

/-- C6. `downdate` postcondition: for every `j < q ≤ n` and every `R` whose leading
`q × q` block is upper-triangular, after `downdate(j, q, tol)` the leading
`(q−1) × (q−1)` block of `R` is upper-triangular, its columns `0..j−1` are
unchanged, and there is an orthogonal `G` (the product of the applied rotations)
with `J_new = J_old·G` such that the new leading block consists of the first
`q−1` rows of `Gᵀ` applied to the old leading block with column `j` deleted. -/
theorem downdate_postcondition (sqrt : K → K) (hs : IsSqrt sqrt) (fd : FactorizationData K)
    (j q : Nat) (tol : K) (hjq : j < q) (hq : q ≤ fd.primal_size_)
    (hR : UpperTriangular fd.R q q) :
    UpperTriangular (fd.downdate sqrt j q tol).R (q - 1) (q - 1) ∧
    (∀ r c, c < j → (fd.downdate sqrt j q tol).R r c = fd.R r c) ∧
    ∃ G : QPMatrix K,
      (∀ a b, a < fd.primal_size_ → b < fd.primal_size_ →
        ∑ k in Finset.range fd.primal_size_, G k a * G k b = if a = b then 1 else 0) ∧
      (∀ r c, r < fd.primal_size_ → c < fd.primal_size_ →
        (fd.downdate sqrt j q tol).QLi_aka_J r c
          = ∑ k in Finset.range fd.primal_size_, fd.QLi_aka_J r k * G k c) ∧
      (∀ r c, r < q - 1 → c < q - 1 →
        (fd.downdate sqrt j q tol).R r c
          = ∑ k in Finset.range q, G k r * fd.R k (if c < j then c else c + 1)) := by
  have hbelow : ∀ r c, c < r → (fd.downdate sqrt j q tol).R r c = fd.R r c := fun r c h =>
    downdateLoop_R_unchanged sqrt q _ _ fd r c (Or.inl h)
  have hleft : ∀ r c, c < j → (fd.downdate sqrt j q tol).R r c = fd.R r c := fun r c h =>
    downdateLoop_R_unchanged sqrt q _ _ fd r c (Or.inr (by omega))
  have hUT : UpperTriangular (fd.downdate sqrt j q tol).R (q - 1) (q - 1) := by
    intro r c hr hc hcr
    rw [hbelow r c hcr]
    exact hR r c (by omega) (by omega) hcr
  refine ⟨hUT, hleft, ?_⟩
  -- the product of the rotations: the run on the identity matrix
  let fdI : FactorizationData K := { QLi_aka_J := idMat, R := fd.R, primal_size_ := fd.primal_size_ }
  let N : Nat → QPVector K := fun c k => if k ≤ c then fd.R k c else 0
  have hfac := downdateLoop_factor sqrt q fd.QLi_aka_J (q - (j + 1)) (j + 1) fd fdI (by omega)
    (by omega) rfl rfl (by
      intro r c hr hc
      show fd.QLi_aka_J r c = ∑ k in Finset.range fd.primal_size_, fd.QLi_aka_J r k * idMat k c
      simp only [idMat, mul_ite, mul_one, mul_zero, Finset.sum_ite_eq', Finset.mem_range, hc,
        if_true])
  have horth := downdateLoop_hOrthonormal sqrt hs idMat q (q - (j + 1)) (j + 1) fdI (by omega)
    (by show j + 1 + (q - (j + 1)) ≤ fd.primal_size_; omega) (hOrthonormal_idMat fd.primal_size_)
  have htr : Tracks fd.primal_size_ (fdI.downdate sqrt j q tol).QLi_aka_J
      (fdI.downdate sqrt j q tol).R (dropElementWithoutResize N j q) (q - 1) := by
    refine downdate_tracks sqrt hs j q N fdI tol hjq hq ?_
    intro c hc r hr
    show colT fd.primal_size_ idMat (N c) r = if r ≤ c then fd.R r c else 0
    unfold colT idMat
    simp only [ite_mul, one_mul, zero_mul, Finset.sum_ite_eq', Finset.mem_range, hr, if_true]
  refine ⟨(fdI.downdate sqrt j q tol).QLi_aka_J, ?_, ?_, ?_⟩
  · intro a b ha hb
    have := horth a b ha hb
    unfold gram idMat at this
    simp only [mul_ite, mul_one, mul_zero, ite_mul, zero_mul, Finset.sum_ite_eq,
      Finset.mem_range] at this
    rw [← this]
    refine Finset.sum_congr rfl (fun k hk => ?_)
    rw [if_pos (Finset.mem_range.mp hk)]
    rfl
  · exact hfac.2
  · intro r c hr hc
    have hReq : (fd.downdate sqrt j q tol).R = (fdI.downdate sqrt j q tol).R := hfac.1
    have hsplit : ∀ c1, c1 < q →
        ∑ k in Finset.range q, (fdI.downdate sqrt j q tol).QLi_aka_J k r * fd.R k c1
          = colT fd.primal_size_ (fdI.downdate sqrt j q tol).QLi_aka_J (N c1) r := by
      intro c1 hc1
      unfold colT
      rw [← Finset.sum_subset (Finset.range_subset.mpr hq)]
      · refine Finset.sum_congr rfl (fun k hk => ?_)
        have hk' := Finset.mem_range.mp hk
        show _ = _ * (if k ≤ c1 then fd.R k c1 else 0)
        by_cases h : k ≤ c1
        · rw [if_pos h]
        · rw [if_neg h, hR k c1 hk' hc1 (by omega)]
      · intro k _ hk
        have hk' : ¬ k < q := fun h => hk (Finset.mem_range.mpr h)
        show _ * (if k ≤ c1 then fd.R k c1 else 0) = 0
        rw [if_neg (by omega), mul_zero]
    have hT := htr c hc r (by omega)
    by_cases hcj : c < j
    · rw [if_pos hcj, hsplit c (by omega)]
      have hN : dropElementWithoutResize N j q c = N c := by
        unfold dropElementWithoutResize
        rw [if_neg (by omega)]
      rw [hN] at hT
      rw [hT]
      by_cases hrc : r ≤ c
      · rw [if_pos hrc, hReq]
      · rw [if_neg hrc]
        exact hUT r c hr hc (by omega)
    · rw [if_neg hcj, hsplit (c + 1) (by omega)]
      have hN : dropElementWithoutResize N j q c = N (c + 1) := by
        unfold dropElementWithoutResize
        rw [if_pos ⟨by omega, by omega⟩]
      rw [hN] at hT
      rw [hT]
      by_cases hrc : r ≤ c
      · rw [if_pos hrc, hReq]
      · rw [if_neg hrc]
        exact hUT r c hr hc (by omega)

theorem downdate_postcondition_witness :
    IsSqrt Real.sqrt ∧ 0 < 2 ∧ 2 ≤ (exampleFD : FactorizationData ℝ).primal_size_ ∧
    UpperTriangular (exampleFD : FactorizationData ℝ).R 2 2 ∧
    (UpperTriangular ((exampleFD : FactorizationData ℝ).downdate Real.sqrt 0 2 1).R (2 - 1) (2 - 1) ∧
    (∀ r c, c < 0 → ((exampleFD : FactorizationData ℝ).downdate Real.sqrt 0 2 1).R r c
      = (exampleFD : FactorizationData ℝ).R r c) ∧
    ∃ G : QPMatrix ℝ,
      (∀ a b, a < (exampleFD : FactorizationData ℝ).primal_size_ →
        b < (exampleFD : FactorizationData ℝ).primal_size_ →
        ∑ k in Finset.range (exampleFD : FactorizationData ℝ).primal_size_, G k a * G k b
          = if a = b then 1 else 0) ∧
      (∀ r c, r < (exampleFD : FactorizationData ℝ).primal_size_ →
        c < (exampleFD : FactorizationData ℝ).primal_size_ →
        ((exampleFD : FactorizationData ℝ).downdate Real.sqrt 0 2 1).QLi_aka_J r c
          = ∑ k in Finset.range (exampleFD : FactorizationData ℝ).primal_size_,
              (exampleFD : FactorizationData ℝ).QLi_aka_J r k * G k c) ∧
      (∀ r c, r < 2 - 1 → c < 2 - 1 →
        ((exampleFD : FactorizationData ℝ).downdate Real.sqrt 0 2 1).R r c
          = ∑ k in Finset.range 2,
              G k r * (exampleFD : FactorizationData ℝ).R k (if c < 0 then c else c + 1))) :=
  ⟨isSqrt_real, by decide, by decide, upperTriangular_exampleFD ℝ,
    downdate_postcondition Real.sqrt isSqrt_real exampleFD 0 2 1 (by decide) (by decide)
      (upperTriangular_exampleFD ℝ)⟩

/-- C7. Constraint selection: for every `x`, `A`, `Alb`, `Aub`, `tol ≥ 0` and status
vector, `chooseConstraint` returns, among the constraints whose status is
`INACTIVE` or `VIOLATED` and whose value `y = A[i]·x` lies outside
`[Alb[i] − tol, Aub[i] + tol]`, the one with the largest absolute violation, ties
broken by the lowest index; its violation is `y − Alb[i]` (negative) with type
`ACTIVE_LOWER_BOUND` or `y − Aub[i]` (positive) with type `ACTIVE_UPPER_BOUND`,
its dual is 0, and if there is no such constraint the returned violation is 0. -/
theorem chooseConstraint_selects (s : Solver K) (x : QPVector K) (A : QPMatrix K)
    (Alb Aub : QPVector K) (tol : K) (htol : 0 ≤ tol) :
    (s.chooseConstraint x A Alb Aub tol).1.dual_ = 0 ∧
    ((∀ i, i < s.num_general_constraints_ →
        ¬ IsCandidate s.general_constraints_status_ s.primal_size_ x A Alb Aub tol i) →
      (s.chooseConstraint x A Alb Aub tol).1.violation_ = 0) ∧
    ((∃ i, i < s.num_general_constraints_ ∧
        IsCandidate s.general_constraints_status_ s.primal_size_ x A Alb Aub tol i) →
      (s.chooseConstraint x A Alb Aub tol).1.index_ < s.num_general_constraints_ ∧
      IsCandidate s.general_constraints_status_ s.primal_size_ x A Alb Aub tol
        (s.chooseConstraint x A Alb Aub tol).1.index_ ∧
      (∀ i, i < s.num_general_constraints_ →
        IsCandidate s.general_constraints_status_ s.primal_size_ x A Alb Aub tol i →
        |ctrViolation s.primal_size_ x A Alb Aub tol i|
          ≤ |(s.chooseConstraint x A Alb Aub tol).1.violation_|) ∧
      (∀ i, i < (s.chooseConstraint x A Alb Aub tol).1.index_ →
        IsCandidate s.general_constraints_status_ s.primal_size_ x A Alb Aub tol i →
        |ctrViolation s.primal_size_ x A Alb Aub tol i|
          < |(s.chooseConstraint x A Alb Aub tol).1.violation_|) ∧
      (((s.chooseConstraint x A Alb Aub tol).1.type_ = ConstraintStatus.ACTIVE_LOWER_BOUND ∧
          (s.chooseConstraint x A Alb Aub tol).1.violation_
            = dot s.primal_size_ (A (s.chooseConstraint x A Alb Aub tol).1.index_) x
              - Alb (s.chooseConstraint x A Alb Aub tol).1.index_ ∧
          (s.chooseConstraint x A Alb Aub tol).1.violation_ < 0) ∨
       ((s.chooseConstraint x A Alb Aub tol).1.type_ = ConstraintStatus.ACTIVE_UPPER_BOUND ∧
          (s.chooseConstraint x A Alb Aub tol).1.violation_
            = dot s.primal_size_ (A (s.chooseConstraint x A Alb Aub tol).1.index_) x
              - Aub (s.chooseConstraint x A Alb Aub tol).1.index_ ∧
          0 < (s.chooseConstraint x A Alb Aub tol).1.violation_))) := by
  obtain ⟨hd, hmain⟩ := chooseConstraint_chosenUpTo s x A Alb Aub tol htol
  refine ⟨hd, ?_, ?_⟩
  · intro hno
    rcases hmain with ⟨h1, _⟩ | ⟨h1, h2, _⟩
    · exact h1
    · exact absurd h2 (hno _ h1)
  · rintro ⟨i, hi, hci⟩
    rcases hmain with ⟨_, _, _, h4⟩ | ⟨h1, h2, h3, h4, h5, h6⟩
    · exact absurd hci (h4 i hi)
    · refine ⟨h1, h2, h5, h6, ?_⟩
      have hv := ctrViolation_ne_zero _ _ x A Alb Aub tol htol _ h2
      rcases h4 with ⟨hl, hty⟩ | ⟨hl, hty⟩
      · left
        refine ⟨hty, ?_, ?_⟩
        · rw [h3]; unfold ctrViolation; rw [if_pos hl]
        · rw [h3]; exact hv.1 hl
      · right
        refine ⟨hty, ?_, ?_⟩
        · rw [h3]; unfold ctrViolation; rw [if_neg hl]
        · rw [h3]; exact hv.2 hl

/-- The scan at `x = (0, 0)` with the rows `x₀ ≥ 1`, `x₁ ≥ 2`, `x₀ + x₁ ≥ 2`
(all `INACTIVE`) and `x₀ + x₁ ≥ 10` (an `EQUALITY`, not looked at), tolerance
`1/2`: the constraints 0, 1, 2 are candidates with violations `−1`, `−2`, `−2`;
the scan returns constraint 1, the first of the two with the largest absolute
violation, with violation `−2 = A[1]·x − Alb[1]`, type `ACTIVE_LOWER_BOUND` and
dual 0. -/
theorem chooseConstraint_selects_witness :
    (0 : ℚ) ≤ 1 / 2 ∧
    IsCandidate (exampleScan : Solver ℚ).general_constraints_status_ 2 (vecOf [0, 0] : QPVector ℚ)
      (matOf [[1, 0], [0, 1], [1, 1], [1, 1]]) (vecOf [1, 2, 2, 10])
      (vecOf [100, 100, 100, 100]) (1 / 2) 2 ∧
    (((exampleScan : Solver ℚ).chooseConstraint (vecOf [0, 0])
      (matOf [[1, 0], [0, 1], [1, 1], [1, 1]]) (vecOf [1, 2, 2, 10])
      (vecOf [100, 100, 100, 100]) (1 / 2)).1.index_ = 1 ∧
     ((exampleScan : Solver ℚ).chooseConstraint (vecOf [0, 0])
      (matOf [[1, 0], [0, 1], [1, 1], [1, 1]]) (vecOf [1, 2, 2, 10])
      (vecOf [100, 100, 100, 100]) (1 / 2)).1.violation_ = -2 ∧
     ((exampleScan : Solver ℚ).chooseConstraint (vecOf [0, 0])
      (matOf [[1, 0], [0, 1], [1, 1], [1, 1]]) (vecOf [1, 2, 2, 10])
      (vecOf [100, 100, 100, 100]) (1 / 2)).1.type_ = ConstraintStatus.ACTIVE_LOWER_BOUND ∧
     ((exampleScan : Solver ℚ).chooseConstraint (vecOf [0, 0])
      (matOf [[1, 0], [0, 1], [1, 1], [1, 1]]) (vecOf [1, 2, 2, 10])
      (vecOf [100, 100, 100, 100]) (1 / 2)).1.dual_ = 0) ∧
    ((exampleScan : Solver ℚ).chooseConstraint (vecOf [0, 0])
        (matOf [[1, 0], [0, 1], [1, 1], [1, 1]]) (vecOf [1, 2, 2, 10])
        (vecOf [100, 100, 100, 100]) (1 / 2)).1.index_
      < (exampleScan : Solver ℚ).num_general_constraints_ ∧
    IsCandidate (exampleScan : Solver ℚ).general_constraints_status_
      (exampleScan : Solver ℚ).primal_size_ (vecOf [0, 0] : QPVector ℚ)
      (matOf [[1, 0], [0, 1], [1, 1], [1, 1]]) (vecOf [1, 2, 2, 10])
      (vecOf [100, 100, 100, 100]) (1 / 2)
      ((exampleScan : Solver ℚ).chooseConstraint (vecOf [0, 0])
        (matOf [[1, 0], [0, 1], [1, 1], [1, 1]]) (vecOf [1, 2, 2, 10])
        (vecOf [100, 100, 100, 100]) (1 / 2)).1.index_ ∧
    |ctrViolation (exampleScan : Solver ℚ).primal_size_ (vecOf [0, 0] : QPVector ℚ)
        (matOf [[1, 0], [0, 1], [1, 1], [1, 1]]) (vecOf [1, 2, 2, 10])
        (vecOf [100, 100, 100, 100]) (1 / 2) 2|
      ≤ |((exampleScan : Solver ℚ).chooseConstraint (vecOf [0, 0])
        (matOf [[1, 0], [0, 1], [1, 1], [1, 1]]) (vecOf [1, 2, 2, 10])
        (vecOf [100, 100, 100, 100]) (1 / 2)).1.violation_| :=
  have hc : IsCandidate (exampleScan : Solver ℚ).general_constraints_status_ 2 (vecOf [0, 0] : QPVector ℚ)
      (matOf [[1, 0], [0, 1], [1, 1], [1, 1]]) (vecOf [1, 2, 2, 10])
      (vecOf [100, 100, 100, 100]) (1 / 2) 2 := by
    unfold IsCandidate
    decide!
  have key := (chooseConstraint_selects (exampleScan : Solver ℚ) (vecOf [0, 0])
    (matOf [[1, 0], [0, 1], [1, 1], [1, 1]]) (vecOf [1, 2, 2, 10])
    (vecOf [100, 100, 100, 100]) (1 / 2) (by norm_num)).2.2 ⟨2, by decide, hc⟩
  ⟨by norm_num, hc, by decide!, key.1, key.2.1, key.2.2.1 2 (by decide) hc⟩

/-- C8. Infeasible equality: when the equality-activation loop reaches an
equality `i` (`|Alb i − Aub i| ≤ tol`) in the state `st` and the active set is
full or `ρ = A[i]·p` is not below `−tol`, then `solve` returns
`INFEASIBLE_EQUALITY` if `|Alb i − A[i]·x| > tol`, and otherwise the step skips
the constraint, leaving `x` and the active set as they are; and two equalities
with the row `(1, 0)` and the right-hand sides `1` and `2` yield
`INFEASIBLE_EQUALITY` for every objective, provided `2·tol < 1`. -/
theorem infeasible_equality (sqrt : K → K) (hs : IsSqrt sqrt)
    (param : SolverParameters K) (htol : 0 < param.tolerance_) :
    (∀ (sizes : InputParser) (L : QPMatrix K) (h : QPVector K) (A : QPMatrix K)
        (Alb Aub : QPVector K) (asserts : Bool) (fuel : Nat) (i : Nat) (st : Solver K × Nat),
        i < sizes.num_general_constraints_ →
        Solver.equalityLoop sqrt L A Alb Aub param i 0 (Solver.entry sizes L h, 0)
          = Step.next st →
        |Alb i - Aub i| ≤ param.tolerance_ →
        ((st.1.eqCandidate L i).active_set_.hasEmptySpace = false ∨
          ¬ st.1.eqRho L A i < -param.tolerance_) →
        (|Alb i - dot st.1.primal_size_ (A i) st.1.primal| > param.tolerance_ →
          Solver.solveWithFactor sqrt asserts sizes L h A Alb Aub param fuel
            = some (Outcome.returned ReturnStatus.INFEASIBLE_EQUALITY (st.1.eqSkipped L A i))) ∧
        (¬ |Alb i - dot st.1.primal_size_ (A i) st.1.primal| > param.tolerance_ →
          Solver.equalityStep sqrt L A Alb Aub param i st
            = Step.next (st.1.eqSkipped L A i, st.2 + 1) ∧
          (st.1.eqSkipped L A i).primal = st.1.primal ∧
          (st.1.eqSkipped L A i).active_set_
            = (st.1.initializeMachineryLazy L).active_set_)) ∧
    (2 * param.tolerance_ < 1 →
      param.hessian_type_ ≠ HessianType.HESSIAN_UNDEFINED →
      ∀ (H : QPMatrix K) (h : QPVector K) (h_size : Nat) (asserts : Bool) (fuel : Nat),
        ∃ s : Solver K,
          Solver.solve sqrt asserts ⟨2, h_size, 0, 2⟩ H h (matOf [[1, 0], [1, 0]])
            (vecOf [1, 2]) (vecOf [1, 2]) param fuel
            = some (Outcome.returned ReturnStatus.INFEASIBLE_EQUALITY s)) := by
  refine ⟨?_, fun htol2 htype H h h_size asserts fuel =>
    scenarioD_solve sqrt hs param htol htol2 htype H h h_size asserts fuel⟩
  intro sizes L h A Alb Aub asserts fuel i st hi hpre hb hdep
  have h1 : ¬ Alb i - param.tolerance_ > Aub i := by
    intro hc
    have := le_abs_self (Alb i - Aub i)
    linarith
  have e := equalityStep_dependent sqrt L A Alb Aub param i st h1 (not_lt.mpr hb) hdep
  refine ⟨fun hv => ?_, fun hv => ?_⟩
  · rw [if_pos hv] at e
    exact solveWithFactor_step_done sqrt asserts sizes L h A Alb Aub param fuel i st _ hi hpre e
  · rw [if_neg hv] at e
    exact ⟨e, Solver.eqSkipped_primal st.1 L A i, Solver.eqSkipped_active_set st.1 L A i⟩

/-- A zero row with right-hand side `1` is reported as an infeasible equality,
with right-hand side `0` it is skipped; the two equalities `x₀ = 1`, `x₀ = 2`
are reported as infeasible (tolerance `1/4`). -/
theorem infeasible_equality_witness :
    Solver.solveWithFactor Real.sqrt true ⟨1, 0, 0, 1⟩ (matOf [[1]]) (vecOf []) (matOf [[0]])
        (vecOf [1]) (vecOf [1]) ⟨HessianType.HESSIAN_CHOLESKY_FACTOR, 1 / 4, -1⟩ 0
      = some (Outcome.returned ReturnStatus.INFEASIBLE_EQUALITY
          ((Solver.entry ⟨1, 0, 0, 1⟩ (matOf [[1]]) (vecOf [])).eqSkipped (matOf [[1]])
            (matOf [[0]]) 0)) ∧
    Solver.equalityStep Real.sqrt (matOf [[1]]) (matOf [[0]]) (vecOf [0]) (vecOf [0])
        ⟨HessianType.HESSIAN_CHOLESKY_FACTOR, 1 / 4, -1⟩ 0
        (Solver.entry ⟨1, 0, 0, 1⟩ (matOf [[1]]) (vecOf []), 0)
      = Step.next ((Solver.entry ⟨1, 0, 0, 1⟩ (matOf [[1]]) (vecOf [])).eqSkipped (matOf [[1]])
          (matOf [[0]]) 0, 1) ∧
    ∃ s : Solver ℝ,
      Solver.solve Real.sqrt true ⟨2, 2, 0, 2⟩ (matOf [[1, 0], [0, 1]]) (vecOf [0, 0])
        (matOf [[1, 0], [1, 0]]) (vecOf [1, 2]) (vecOf [1, 2])
        ⟨HessianType.HESSIAN_CHOLESKY_FACTOR, 1 / 4, -1⟩ 0
        = some (Outcome.returned ReturnStatus.INFEASIBLE_EQUALITY s) := by
  have ht : (0 : ℝ) < (⟨HessianType.HESSIAN_CHOLESKY_FACTOR, 1 / 4, -1⟩ :
      SolverParameters ℝ).tolerance_ := by
    show (0 : ℝ) < 1 / 4
    norm_num
  have h := infeasible_equality Real.sqrt isSqrt_real
    ⟨HessianType.HESSIAN_CHOLESKY_FACTOR, 1 / 4, -1⟩ ht
  have hrow : ∀ k, (matOf [[0]] : QPMatrix ℝ) 0 k = 0 := by
    intro k
    rcases Nat.lt_or_ge k 1 with hk | hk
    · interval_cases k
      rfl
    · exact vecOf_of_le [0] k hk
  have hrho : (Solver.entry ⟨1, 0, 0, 1⟩ (matOf [[1]] : QPMatrix ℝ) (vecOf [])).eqRho
      (matOf [[1]]) (matOf [[0]]) 0 = 0 :=
    Solver.eqRho_zero_row _ _ _ 0 rfl hrow
  have hdot : dot (Solver.entry ⟨1, 0, 0, 1⟩ (matOf [[1]] : QPMatrix ℝ) (vecOf [])).primal_size_
      ((matOf [[0]] : QPMatrix ℝ) 0)
      (Solver.entry ⟨1, 0, 0, 1⟩ (matOf [[1]] : QPMatrix ℝ) (vecOf [])).primal = 0 := by
    show dot 1 _ _ = 0
    unfold dot
    rw [Finset.sum_range_one, hrow, zero_mul]
  have hdep : ((Solver.entry ⟨1, 0, 0, 1⟩ (matOf [[1]] : QPMatrix ℝ) (vecOf [])).eqCandidate
        (matOf [[1]]) 0).active_set_.hasEmptySpace = false ∨
      ¬ (Solver.entry ⟨1, 0, 0, 1⟩ (matOf [[1]] : QPMatrix ℝ) (vecOf [])).eqRho
        (matOf [[1]]) (matOf [[0]]) 0 < -(1 / 4 : ℝ) := by
    right
    rw [hrho]
    norm_num
  refine ⟨?_, ?_, h.2 (by show 2 * (1 / 4 : ℝ) < 1; norm_num) (by decide)
    (matOf [[1, 0], [0, 1]]) (vecOf [0, 0]) 2 true 0⟩
  · refine (h.1 ⟨1, 0, 0, 1⟩ (matOf [[1]]) (vecOf []) (matOf [[0]]) (vecOf [1]) (vecOf [1])
      true 0 0 (Solver.entry ⟨1, 0, 0, 1⟩ (matOf [[1]]) (vecOf []), 0) (Nat.succ_pos 0) rfl
      ?_ hdep).1 ?_
    · show |(vecOf [1] : QPVector ℝ) 0 - (vecOf [1] : QPVector ℝ) 0| ≤ 1 / 4
      rw [sub_self, abs_zero]
      norm_num
    · rw [hdot]
      show |(1 : ℝ) - 0| > 1 / 4
      rw [sub_zero, abs_one]
      norm_num
  · refine ((h.1 ⟨1, 0, 0, 1⟩ (matOf [[1]]) (vecOf []) (matOf [[0]]) (vecOf [0]) (vecOf [0])
      true 0 0 (Solver.entry ⟨1, 0, 0, 1⟩ (matOf [[1]]) (vecOf []), 0) (Nat.succ_pos 0) rfl
      ?_ hdep).2 ?_).1
    · show |(vecOf [0] : QPVector ℝ) 0 - (vecOf [0] : QPVector ℝ) 0| ≤ 1 / 4
      rw [sub_self, abs_zero]
      norm_num
    · rw [hdot]
      show ¬ |(0 : ℝ) - 0| > 1 / 4
      rw [sub_zero, abs_zero]
      norm_num

/-- With the factor `L = 2·I` (`H = 4·I`), `h = (−6, 0)` and the tolerance `3/5`
the two equalities `x₀ = 1`, `x₀ = 2` are both skipped: at `x = (3/2, 0)` the
product `ρ = −1/4` is not below `−tol` and both violations are `1/2 ≤ tol`, so
`solve` returns `OK`.  No square root is taken. -/
theorem infeasible_equality_counterexample :
    returnedWith
      (Solver.solve Rat.sqrt true ⟨2, 2, 0, 2⟩ (matOf [[2, 0], [0, 2]]) (vecOf [-6, 0])
        (matOf [[1, 0], [1, 0]]) (vecOf [1, 2]) (vecOf [1, 2])
        ⟨HessianType.HESSIAN_CHOLESKY_FACTOR, 3 / 5, -1⟩ 0)
      (fun status s => decide (status = ReturnStatus.OK ∧ s.primal 0 = 3 / 2 ∧
        s.primal 1 = 0 ∧ s.active_set_.size_ = 0)) = true := by
  decide!

/-- C9. Equality activation is exact: when the equality-activation phase
completes, every equality `i` that was activated in it (`|Alb i − Aub i| ≤ tol`,
the active set not full and `ρ < −tol` in the state `st` in which the loop
reaches `i`) satisfies `A[i]·x = Alb[i]` in the state `st1` at the end of the
phase; and on the single-equality problem `n = 2`, `H = I`, `h = 0`,
`A = [[1, 1]]`, `Alb = Aub = [1]`, run with a tolerance `0 < tol`, `tol² ≤ 2`,
`solve` returns `OK` with `x = (1/2, 1/2)` and exactly one active constraint,
the equality. -/
theorem equality_activation_exact (sqrt : K → K) (hs : IsSqrt sqrt)
    (param : SolverParameters K) (htol : 0 < param.tolerance_) :
    (∀ (sizes : InputParser) (L : QPMatrix K) (h : QPVector K) (A : QPMatrix K)
        (Alb Aub : QPVector K) (i : Nat) (st st1 : Solver K × Nat),
        i < sizes.num_general_constraints_ →
        Solver.equalityLoop sqrt L A Alb Aub param i 0 (Solver.entry sizes L h, 0)
          = Step.next st →
        |Alb i - Aub i| ≤ param.tolerance_ →
        (st.1.eqCandidate L i).active_set_.hasEmptySpace = true →
        st.1.eqRho L A i < -param.tolerance_ →
        Solver.equalityLoop sqrt L A Alb Aub param (sizes.num_general_constraints_ - i) i st
          = Step.next st1 →
        dot sizes.primal_size_ (A i) st1.1.primal = Alb i) ∧
    (param.tolerance_ * param.tolerance_ ≤ 2 →
      param.hessian_type_ ≠ HessianType.HESSIAN_UNDEFINED →
      ∀ (asserts : Bool) (fuel : Nat), ∃ s : Solver K,
        Solver.solve sqrt asserts ⟨2, 2, 0, 1⟩ (matOf [[1, 0], [0, 1]]) (vecOf [0, 0])
          (matOf [[1, 1]]) (vecOf [1]) (vecOf [1]) param fuel
          = some (Outcome.returned ReturnStatus.OK s) ∧
        s.primal 0 = 1 / 2 ∧ s.primal 1 = 1 / 2 ∧
        s.active_set_.size_ = 1 ∧ s.active_set_.num_equalities_ = 1 ∧
        s.active_set_.num_inequalities_ = 0 ∧ s.active_set_.getIndex 0 = 0 ∧
        s.general_constraints_status_ 0 = ConstraintStatus.EQUALITY) := by
  refine ⟨?_, fun htol2 htype asserts fuel =>
    scenarioB_solve sqrt hs param htol htol2 htype asserts fuel⟩
  intro sizes L h A Alb Aub i st st1 hi hpre h2 h3 h4 hpost
  obtain ⟨count, hc⟩ : ∃ count, sizes.num_general_constraints_ - i = count + 1 :=
    ⟨sizes.num_general_constraints_ - i - 1, by omega⟩
  rw [hc] at hpost
  exact activated_equality_holds sqrt hs sizes L h A Alb Aub param htol.le i count st st1
    hpre h2 h3 h4 hpost

/-- The single-equality problem run with tolerance `1`: the equality is
activated and holds at the end of the phase, and `solve` returns `OK`. -/
theorem equality_activation_exact_witness :
    (∃ st1 : Solver ℝ × Nat,
      Solver.equalityLoop Real.sqrt (matOf [[1, 0], [0, 1]]) (matOf [[1, 1]]) (vecOf [1])
        (vecOf [1]) ⟨HessianType.HESSIAN_CHOLESKY_FACTOR, 1, -1⟩ 1 0
        (Solver.entry ⟨2, 2, 0, 1⟩ (matOf [[1, 0], [0, 1]]) (vecOf [0, 0]), 0) = Step.next st1 ∧
      dot 2 ((matOf [[1, 1]] : QPMatrix ℝ) 0) st1.1.primal = (vecOf [1] : QPVector ℝ) 0) ∧
    (∃ s : Solver ℝ,
      Solver.solve Real.sqrt true ⟨2, 2, 0, 1⟩ (matOf [[1, 0], [0, 1]]) (vecOf [0, 0])
        (matOf [[1, 1]]) (vecOf [1]) (vecOf [1]) ⟨HessianType.HESSIAN_CHOLESKY_FACTOR, 1, -1⟩ 0
        = some (Outcome.returned ReturnStatus.OK s) ∧
      s.primal 0 = 1 / 2 ∧ s.primal 1 = 1 / 2 ∧
      s.active_set_.size_ = 1 ∧ s.active_set_.num_equalities_ = 1 ∧
      s.active_set_.num_inequalities_ = 0 ∧ s.active_set_.getIndex 0 = 0 ∧
      s.general_constraints_status_ 0 = ConstraintStatus.EQUALITY) := by
  have ht : (0 : ℝ) < (⟨HessianType.HESSIAN_CHOLESKY_FACTOR, 1, -1⟩ :
      SolverParameters ℝ).tolerance_ := by
    show (0 : ℝ) < 1
    norm_num
  have ht2 : (⟨HessianType.HESSIAN_CHOLESKY_FACTOR, 1, -1⟩ : SolverParameters ℝ).tolerance_
      * (⟨HessianType.HESSIAN_CHOLESKY_FACTOR, 1, -1⟩ : SolverParameters ℝ).tolerance_
      ≤ 2 := by
    show (1 : ℝ) * 1 ≤ 2
    norm_num
  obtain ⟨hrho, s, hloop, _⟩ := scenarioB_loop Real.sqrt isSqrt_real
    ⟨HessianType.HESSIAN_CHOLESKY_FACTOR, 1, -1⟩ ht ht2
  have h := equality_activation_exact Real.sqrt isSqrt_real
    ⟨HessianType.HESSIAN_CHOLESKY_FACTOR, 1, -1⟩ ht
  refine ⟨⟨(s, 1), hloop, ?_⟩, h.2 ht2 (by decide) true 0⟩
  refine h.1 ⟨2, 2, 0, 1⟩ (matOf [[1, 0], [0, 1]]) (vecOf [0, 0]) (matOf [[1, 1]]) (vecOf [1])
    (vecOf [1]) 0 (Solver.entry ⟨2, 2, 0, 1⟩ (matOf [[1, 0], [0, 1]]) (vecOf [0, 0]), 0)
    (s, 1) (by decide) rfl ?_ rfl ?_ hloop
  · show |(vecOf [1] : QPVector ℝ) 0 - (vecOf [1] : QPVector ℝ) 0| ≤ 1
    rw [sub_self, abs_zero]
    exact zero_le_one
  · rw [hrho]
    show (-2 : ℝ) < -1
    norm_num

/-- With the tolerance `2` the equality `x₀ + x₁ = 1` of the single-equality
problem is skipped as linearly dependent (`ρ = −2` is not below `−tol`, and the
violation `1` is within the tolerance): `solve` returns `OK` with `x = (0, 0)`
and an empty active set.  The only square root taken is that of `1`. -/
theorem equality_activation_exact_counterexample :
    returnedWith
      (Solver.solve Rat.sqrt true ⟨2, 2, 0, 1⟩ (matOf [[1, 0], [0, 1]]) (vecOf [0, 0])
        (matOf [[1, 1]]) (vecOf [1]) (vecOf [1])
        ⟨HessianType.HESSIAN_LOWER_TRIANGULAR, 2, -1⟩ 0)
      (fun status s => decide (status = ReturnStatus.OK ∧ s.primal 0 = 0 ∧ s.primal 1 = 0 ∧
        s.active_set_.size_ = 0)) = true := by
  decide!


/-- C10. Single active bound: `H = L·Lᵀ` with the factor `L` that `solve` works
with (nonzero diagonal), `x₀` the unconstrained minimum (`H·x₀ = −h`),
`w = H⁻¹·aᵀ`, one general constraint `a = A[0]` that is not an equality, whose
lower bound is violated at `x₀` by more than `tol` and with `a·w > tol`,
`0 < tol ≤ 1` and `max_iter` negative or at least 2.  Then `solve` returns `OK`
with `a·x = Alb`, status `ACTIVE_LOWER_BOUND` and multiplier
`(Alb − a·x₀)/(a·w)`. -/
theorem single_active_bound (sqrt : K → K) (hs : IsSqrt sqrt) (asserts : Bool) (n : Nat)
    (H Hmat L : QPMatrix K) (h : QPVector K) (A : QPMatrix K) (Alb Aub : QPVector K)
    (param : SolverParameters K) (fuel : Nat) (x0 w : QPVector K)
    (hn : 0 < n) (hfuel : 2 ≤ fuel)
    (hL : Solver.prepareHessian sqrt n H param = some L)
    (hd : ∀ k, k < n → L k k ≠ 0)
    (hH : ∀ r c, r < n → c < n →
      Hmat r c = ∑ k in Finset.range n, lowerPart L r k * lowerPart L c k)
    (hx0 : ∀ r, r < n → ∑ c in Finset.range n, Hmat r c * x0 c = -h r)
    (hw : ∀ r, r < n → ∑ c in Finset.range n, Hmat r c * w c = A 0 r)
    (htol : 0 < param.tolerance_) (htol1 : param.tolerance_ ≤ 1)
    (hiter : param.max_iter_ < 0 ∨ 2 ≤ param.max_iter_)
    (hne : Alb 0 + param.tolerance_ < Aub 0)
    (hviol : Alb 0 - param.tolerance_ > dot n (A 0) x0)
    (hcurv : param.tolerance_ < dot n (A 0) w) :
    ∃ s : Solver K,
      Solver.solve sqrt asserts ⟨n, n, 0, 1⟩ H h A Alb Aub param fuel
        = some (Outcome.returned ReturnStatus.OK s) ∧
      dot n (A 0) s.primal = Alb 0 ∧
      s.general_constraints_status_ 0 = ConstraintStatus.ACTIVE_LOWER_BOUND ∧
      s.dual_ 0 = (Alb 0 - dot n (A 0) x0) / dot n (A 0) w := by
  have ex : dot n (A 0) (Solver.entry ⟨n, n, 0, 1⟩ L h).primal = dot n (A 0) x0 :=
    dot_congr n (A 0) _ _ (entry_primal_eq n L Hmat h x0 ⟨n, n, 0, 1⟩ rfl hn hd hH hx0)
  have ec := curvature_factor n L Hmat (A 0) w hd hH hw
  have ecp := singleStart_cp n n L h A Alb hn
  refine ⟨(singleNext sqrt n n L h A Alb param.tolerance_).1, ?_, ?_, ?_, ?_⟩
  · unfold Solver.solve
    show (match Solver.prepareHessian sqrt n H param with
      | none => _
      | some L => _) = _
    rw [hL]
    exact single_solveWithFactor sqrt hs asserts n n L h A Alb Aub param fuel hn hfuel htol
      htol1 hiter hne (by rw [ex]; exact hviol) (by rw [ec]; exact hcurv)
  · refine singleNext_primal sqrt n n L h A Alb param.tolerance_ ?_
    rw [ecp, ec]
    exact ne_of_gt (lt_trans htol hcurv)
  · exact singleNext_status sqrt n n L h A Alb param.tolerance_
  · rw [singleNext_dual, ecp, ec]
    show -(dot n (A 0) (Solver.entry ⟨n, n, 0, 1⟩ L h).primal - Alb 0) / _ = _
    rw [ex, neg_sub]

/-- The scenario `n = 1`, `H = [[1]]`, `h = [0]`, `A = [[1]]`, `Alb = [1]`: `solve`
returns `OK` with `x = 1` and multiplier 1. -/
theorem single_active_bound_witness :
    ∃ s : Solver ℝ,
      Solver.solve Real.sqrt true ⟨1, 1, 0, 1⟩ (matOf [[1]]) (vecOf [0]) (matOf [[1]])
        (vecOf [1]) (vecOf [100]) ⟨HessianType.HESSIAN_LOWER_TRIANGULAR, 1 / 2, -1⟩ 2
        = some (Outcome.returned ReturnStatus.OK s) ∧
      dot 1 ((matOf [[1]] : QPMatrix ℝ) 0) s.primal = (vecOf [1] : QPVector ℝ) 0 ∧
      s.general_constraints_status_ 0 = ConstraintStatus.ACTIVE_LOWER_BOUND ∧
      s.dual_ 0 = ((vecOf [1] : QPVector ℝ) 0 - dot 1 ((matOf [[1]] : QPMatrix ℝ) 0) (vecOf [0]))
        / dot 1 ((matOf [[1]] : QPMatrix ℝ) 0) (vecOf [1]) := by
  have hL00 : CholeskyFactorization.compute Real.sqrt 1 (matOf [[1]] : QPMatrix ℝ) 0 0 = 1 := by
    simp [CholeskyFactorization.compute, CholeskyFactorization.column, forUp, matOf]
  refine single_active_bound Real.sqrt isSqrt_real true 1 (matOf [[1]]) (matOf [[1]])
    (CholeskyFactorization.compute Real.sqrt 1 (matOf [[1]])) (vecOf [0]) (matOf [[1]])
    (vecOf [1]) (vecOf [100]) ⟨HessianType.HESSIAN_LOWER_TRIANGULAR, 1 / 2, -1⟩ 2
    (vecOf [0]) (vecOf [1]) (by decide) (le_refl 2) rfl ?_ ?_ ?_ ?_ ?_ ?_ ?_ ?_ ?_ ?_
  · intro k hk
    have : k = 0 := by omega
    subst this
    rw [hL00]
    exact one_ne_zero
  · intro r c hr hc
    have : r = 0 := by omega
    subst this
    have : c = 0 := by omega
    subst this
    simp [lowerPart, hL00, matOf]
  · intro r hr
    have : r = 0 := by omega
    subst this
    simp [matOf, vecOf]
  · intro r hr
    have : r = 0 := by omega
    subst this
    simp [matOf, vecOf]
  · show (0 : ℝ) < 1 / 2
    norm_num
  · show (1 / 2 : ℝ) ≤ 1
    norm_num
  · exact Or.inl (by decide)
  · show (vecOf [1] : QPVector ℝ) 0 + 1 / 2 < (vecOf [100] : QPVector ℝ) 0
    simp [vecOf]
    norm_num
  · show (vecOf [1] : QPVector ℝ) 0 - 1 / 2 > dot 1 ((matOf [[1]] : QPMatrix ℝ) 0) (vecOf [0])
    simp [vecOf, matOf, dot]
    norm_num
  · show (1 / 2 : ℝ) < dot 1 ((matOf [[1]] : QPMatrix ℝ) 0) (vecOf [1])
    simp [vecOf, matOf, dot]
    norm_num

/-- C14. Equality preservation: with `tol > 0`, in every iteration of the main
loop that `solve` reaches and that goes on to iteration `k + 1`, the active set
either loses the blocking position `j*`, and then `nE ≤ j* < q`, or gains the
chosen constraint; the number `nE` of active equalities is the same at the head
of every iteration. -/
theorem equality_preservation (sqrt : K → K) (hs : IsSqrt sqrt) (asserts : Bool)
    (sizes : InputParser) (L : QPMatrix K) (h : QPVector K) (A : QPMatrix K)
    (Alb Aub : QPVector K) (param : SolverParameters K) (htol : 0 < param.tolerance_)
    (k : Nat) (st0 st st1 : Solver K × ChosenConstraint K)
    (h0 : Solver.iterState sqrt asserts sizes L h A Alb Aub param 0 = some st0)
    (hk : Solver.iterState sqrt asserts sizes L h A Alb Aub param k = some st)
    (hk1 : Solver.iterState sqrt asserts sizes L h A Alb Aub param (k + 1) = some st1) :
    ((∃ r : Solver K,
        st1.1 = Solver.deactivate sqrt r
          ((st.1.stepState L A st.2).dualBlocking param.tolerance_).1 param.tolerance_ ∧
        r.active_set_ = (st.1.initializeMachineryLazy L).active_set_ ∧
        (st.1.initializeMachineryLazy L).active_set_.num_equalities_
          ≤ ((st.1.stepState L A st.2).dualBlocking param.tolerance_).1 ∧
        ((st.1.stepState L A st.2).dualBlocking param.tolerance_).1
          < (st.1.initializeMachineryLazy L).active_set_.size_) ∨
      (∃ (r : Solver K) (ch : ChosenConstraint K),
        st1.1 = ((r.activate ch).chooseConstraint (r.activate ch).primal A Alb Aub
          param.tolerance_).2 ∧
        r.active_set_ = (st.1.initializeMachineryLazy L).active_set_ ∧
        ch.index_ = st.2.index_)) ∧
    (st.1.initializeMachineryLazy L).active_set_.num_equalities_
      = (st0.1.initializeMachineryLazy L).active_set_.num_equalities_ ∧
    (st1.1.initializeMachineryLazy L).active_set_.num_equalities_
      = (st0.1.initializeMachineryLazy L).active_set_.num_equalities_ := by
  have hconst : ∀ j stj, Solver.iterState sqrt asserts sizes L h A Alb Aub param j = some stj →
      (stj.1.initializeMachineryLazy L).active_set_.num_equalities_
        = (st0.1.initializeMachineryLazy L).active_set_.num_equalities_ := by
    intro j
    induction j with
    | zero =>
      intro stj hj
      rw [h0] at hj
      injection hj with hj
      rw [hj]
    | succ j ih =>
      intro stj hj
      obtain ⟨st', hj', _, a3⟩ := iterState_succ sqrt asserts sizes L h A Alb Aub param j stj hj
      have hM := (iterState_mainState sqrt hs asserts sizes L h A Alb Aub param htol j st'
        hj').1
      rw [mainStep_num_equalities sqrt hs asserts L A Alb Aub param htol st' stj hM a3]
      exact ih st' hj'
  refine ⟨?_, hconst k st hk, hconst (k + 1) st1 hk1⟩
  have hM := (iterState_mainState sqrt hs asserts sizes L h A Alb Aub param htol k st hk).1
  obtain ⟨st', a1, _, a3⟩ := iterState_succ sqrt asserts sizes L h A Alb Aub param k st1 hk1
  rw [hk] at a1
  injection a1 with a1
  subst a1
  exact mainStep_active_set sqrt asserts L A Alb Aub param htol st st1 hM a3

/-- The run on `x₀ = 0`, `1 ≤ x₁ ≤ 100`, `1 ≤ x₁/2 ≤ 100` (`n = 2`, factor `I`,
`h = 0`, tolerance `1/10`): one equality is active (`nE = 1`) at the head of the
iterations 0, 1 and 2; iteration 1 is a dual-only step that deactivates the
blocking position `j* = 1`, with `nE ≤ j* < q = 2`, and leaves the equality at
position 0 in the active set. -/
theorem equality_preservation_witness :
    ∃ st0 st st1 : Solver ℝ × ChosenConstraint ℝ,
      Solver.iterState Real.sqrt true ⟨2, 2, 0, 3⟩ (matOf [[1, 0], [0, 1]]) (vecOf [0, 0])
        (matOf [[1, 0], [0, 1], [0, 1 / 2]]) (vecOf [0, 1, 1]) (vecOf [0, 100, 100])
        ⟨HessianType.HESSIAN_CHOLESKY_FACTOR, 1 / 10, -1⟩ 0 = some st0 ∧
      Solver.iterState Real.sqrt true ⟨2, 2, 0, 3⟩ (matOf [[1, 0], [0, 1]]) (vecOf [0, 0])
        (matOf [[1, 0], [0, 1], [0, 1 / 2]]) (vecOf [0, 1, 1]) (vecOf [0, 100, 100])
        ⟨HessianType.HESSIAN_CHOLESKY_FACTOR, 1 / 10, -1⟩ 1 = some st ∧
      Solver.iterState Real.sqrt true ⟨2, 2, 0, 3⟩ (matOf [[1, 0], [0, 1]]) (vecOf [0, 0])
        (matOf [[1, 0], [0, 1], [0, 1 / 2]]) (vecOf [0, 1, 1]) (vecOf [0, 100, 100])
        ⟨HessianType.HESSIAN_CHOLESKY_FACTOR, 1 / 10, -1⟩ 2 = some st1 ∧
      st0.1.active_set_.num_equalities_ = 1 ∧
      st.1.active_set_.size_ = 2 ∧ st1.1.active_set_.size_ = 1 ∧
      st1.1.active_set_.getIndex 0 = 0 ∧
      ((st.1.stepState (matOf [[1, 0], [0, 1]]) (matOf [[1, 0], [0, 1], [0, 1 / 2]]) st.2).dualBlocking (1 / 10)).1 = 1 ∧
      (∃ r : Solver ℝ,
        st1.1 = Solver.deactivate Real.sqrt r
          ((st.1.stepState (matOf [[1, 0], [0, 1]]) (matOf [[1, 0], [0, 1], [0, 1 / 2]]) st.2).dualBlocking (1 / 10)).1 (1 / 10) ∧
        r.active_set_ = (st.1.initializeMachineryLazy (matOf [[1, 0], [0, 1]])).active_set_ ∧
        (st.1.initializeMachineryLazy (matOf [[1, 0], [0, 1]])).active_set_.num_equalities_
          ≤ ((st.1.stepState (matOf [[1, 0], [0, 1]]) (matOf [[1, 0], [0, 1], [0, 1 / 2]]) st.2).dualBlocking (1 / 10)).1 ∧
        ((st.1.stepState (matOf [[1, 0], [0, 1]]) (matOf [[1, 0], [0, 1], [0, 1 / 2]]) st.2).dualBlocking (1 / 10)).1
          < (st.1.initializeMachineryLazy (matOf [[1, 0], [0, 1]])).active_set_.size_) ∧
      (st.1.initializeMachineryLazy (matOf [[1, 0], [0, 1]])).active_set_.num_equalities_
        = (st0.1.initializeMachineryLazy (matOf [[1, 0], [0, 1]])).active_set_.num_equalities_ ∧
      (st1.1.initializeMachineryLazy (matOf [[1, 0], [0, 1]])).active_set_.num_equalities_
        = (st0.1.initializeMachineryLazy (matOf [[1, 0], [0, 1]])).active_set_.num_equalities_ := by
  obtain ⟨st0, st, st1, h0, h1, h2, _, _, hi, _, _, hE0, _, hq, _, _, _, hq1, hidx, _, _, hj, _⟩ :=
    equalityDrop_states
  have T := equality_preservation Real.sqrt isSqrt_real true ⟨2, 2, 0, 3⟩
    (matOf [[1, 0], [0, 1]]) (vecOf [0, 0]) (matOf [[1, 0], [0, 1], [0, 1 / 2]])
    (vecOf [0, 1, 1]) (vecOf [0, 100, 100]) ⟨HessianType.HESSIAN_CHOLESKY_FACTOR, 1 / 10, -1⟩
    (show (0 : ℝ) < 1 / 10 by norm_num) 1 st0 st st1 h0 h1 h2
  refine ⟨st0, st, st1, h0, h1, h2, hE0, hq, hq1, hidx, hj, ?_, T.2.1, T.2.2⟩
  rcases T.1 with hd | ⟨r, ch, e1, e2, _⟩
  · exact hd
  · exfalso
    have e3 : st1.1.active_set_.size_ = r.active_set_.size_ + 1 := by
      rw [e1]
      rfl
    rw [e2, Solver.init_of_initialized st.1 _ hi, hq, hq1] at e3
    exact absurd e3 (by decide)

/-- C12. Iteration cap: with `max_iter = 0` (and `tol > 0`) `solve` returns
`MAXIMAL_NUMBER_OF_ITERATIONS` whenever it gets to the main loop, that is when
the equality-activation loop completes and some general constraint `k` is not an
equality (`Alb[k] + tol < Aub[k]`); the state returned is the one with which the
main loop is entered. -/
theorem iteration_cap (sqrt : K → K) (hs : IsSqrt sqrt) (asserts : Bool)
    (sizes : InputParser) (H L : QPMatrix K) (h : QPVector K) (A : QPMatrix K)
    (Alb Aub : QPVector K) (param : SolverParameters K) (fuel : Nat)
    (htol : 0 < param.tolerance_) (hmax : param.max_iter_ = 0) (hfuel : 0 < fuel)
    (hL : Solver.prepareHessian sqrt sizes.primal_size_ H param = some L)
    (st : Solver K × Nat)
    (hloop : Solver.equalityLoop sqrt L A Alb Aub param sizes.num_general_constraints_ 0
      (Solver.entry sizes L h, 0) = Step.next st)
    (k : Nat) (hk : k < sizes.num_general_constraints_)
    (hne : Alb k + param.tolerance_ < Aub k) :
    Solver.solve sqrt asserts sizes H h A Alb Aub param fuel
      = some (Outcome.returned ReturnStatus.MAXIMAL_NUMBER_OF_ITERATIONS
          (Solver.mainEntry st.1 A Alb Aub param).1) := by
  obtain ⟨hinv, _, hsz⟩ := equalityLoop_next sqrt hs L A Alb Aub param htol.le
    sizes.num_general_constraints_ 0 (Solver.entry sizes L h, 0) st
    (Solver.entry_eqInv sizes L h A Alb Aub param.tolerance_)
    (Solver.entry_rawEmpty sizes L h) hloop
  rw [Nat.zero_add] at hinv
  have hstat : (st.1.initializeMachineryLazy L).general_constraints_status_ k
      = ConstraintStatus.INACTIVE := by
    rcases hinv.status k hk with ⟨_, h2⟩ | ⟨h1, _⟩
    · have := neg_abs_le (Alb k - Aub k)
      linarith
    · exact h1
  have hcount : st.2 < sizes.num_general_constraints_ := hinv.count.2 ⟨k, hk, hstat⟩
  have hm : st.1.num_general_constraints_ = sizes.num_general_constraints_ :=
    congrArg InputParser.num_general_constraints_ hsz
  unfold Solver.solve
  show (match Solver.prepareHessian sqrt sizes.primal_size_ H param with
    | none => _
    | some L => _) = _
  rw [hL]
  show Solver.solveWithFactor sqrt asserts sizes L h A Alb Aub param fuel = _
  unfold Solver.solveWithFactor
  dsimp only
  rw [if_neg (show ¬ 0 = (Solver.entry sizes L h).num_simple_bounds_
    + (Solver.entry sizes L h).num_general_constraints_ by
      show ¬ 0 = sizes.num_simple_bounds_ + sizes.num_general_constraints_
      omega)]
  rw [show (Solver.entry sizes L h).num_general_constraints_ = sizes.num_general_constraints_
    from rfl, hloop]
  dsimp only
  rw [if_neg (by
    intro hc
    rw [hm] at hc
    omega)]
  obtain ⟨f, rfl⟩ : ∃ f, fuel = f + 1 := ⟨fuel - 1, by omega⟩
  unfold Solver.mainLoop
  rw [if_neg (by
    rw [hmax]
    intro hc
    rcases hc with hc | hc <;> exact absurd hc (lt_irrefl 0))]

/-- The active-bound scenario run with `max_iter = 0`. -/
theorem iteration_cap_witness :
    Solver.solve Real.sqrt true ⟨1, 1, 0, 1⟩ (matOf [[1]]) (vecOf [0]) (matOf [[1]])
        (vecOf [1]) (vecOf [100]) ⟨HessianType.HESSIAN_CHOLESKY_FACTOR, 1 / 2, 0⟩ 1
      = some (Outcome.returned ReturnStatus.MAXIMAL_NUMBER_OF_ITERATIONS
          (Solver.mainEntry
            ((Solver.entry ⟨1, 1, 0, 1⟩ (matOf [[1]]) (vecOf [0]) : Solver ℝ).setStatus 0
              ConstraintStatus.INACTIVE)
            (matOf [[1]]) (vecOf [1]) (vecOf [100])
            ⟨HessianType.HESSIAN_CHOLESKY_FACTOR, 1 / 2, 0⟩).1) :=
  iteration_cap Real.sqrt isSqrt_real true ⟨1, 1, 0, 1⟩ (matOf [[1]]) (matOf [[1]]) (vecOf [0])
    (matOf [[1]]) (vecOf [1]) (vecOf [100]) ⟨HessianType.HESSIAN_CHOLESKY_FACTOR, 1 / 2, 0⟩ 1
    (show (0 : ℝ) < 1 / 2 by norm_num) rfl (by decide) rfl
    ((Solver.entry ⟨1, 1, 0, 1⟩ (matOf [[1]]) (vecOf [0]) : Solver ℝ).setStatus 0
      ConstraintStatus.INACTIVE, 0)
    (single_inactive_loop Real.sqrt 1 1 (matOf [[1]]) (vecOf [0]) (matOf [[1]]) (vecOf [1])
      (vecOf [100]) ⟨HessianType.HESSIAN_CHOLESKY_FACTOR, 1 / 2, 0⟩
      (show (0 : ℝ) ≤ 1 / 2 by norm_num)
      (by
        show (vecOf [1] : QPVector ℝ) 0 + 1 / 2 < (vecOf [100] : QPVector ℝ) 0
        simp [vecOf]
        norm_num))
    0 (by decide)
    (by
      show (vecOf [1] : QPVector ℝ) 0 + 1 / 2 < (vecOf [100] : QPVector ℝ) 0
      simp [vecOf]
      norm_num)

/-- Two feasible problems on which `solve` called with `max_iter = 0` returns
`OK`: the unconstrained problem `H = I`, `h = 0` (no constraints at all), and the
same objective with the single equality `x₀ = 1`, which the equality-activation
phase solves (`x = (1, 0)`) before the main loop is reached.  The only square
root taken is that of `1`. -/
theorem iteration_cap_counterexample :
    returnedWith
      (Solver.solve Rat.sqrt true ⟨2, 2, 0, 0⟩ (matOf [[1, 0], [0, 1]]) (vecOf [0, 0])
        (matOf []) (vecOf []) (vecOf [])
        ⟨HessianType.HESSIAN_CHOLESKY_FACTOR, 1 / 10, 0⟩ 1)
      (fun status _ => decide (status = ReturnStatus.OK)) = true ∧
    returnedWith
      (Solver.solve Rat.sqrt true ⟨2, 2, 0, 1⟩ (matOf [[1, 0], [0, 1]]) (vecOf [0, 0])
        (matOf [[1, 0]]) (vecOf [1]) (vecOf [1])
        ⟨HessianType.HESSIAN_CHOLESKY_FACTOR, 1 / 10, 0⟩ 1)
      (fun status s => decide (status = ReturnStatus.OK ∧ s.primal 0 = 1 ∧ s.primal 1 = 0))
      = true := by
  constructor <;> decide!

/-- C20. Scenario E: `n = 2`, `H = I`, `h = 0`, `A = [[1,0],[0,1],[1,1]]`,
`Aub = [1,1,1]` and lower bounds below `−tol`.  The unconstrained minimum
`x = (0, 0)` satisfies all three constraints, so `solve` (run with `tol > 0`,
`max_iter ≠ 0`) returns `OK` in the first iteration with `x = (0, 0)`: no
constraint is activated, no step is taken and nothing is dropped. -/
theorem scenarioE_solve (sqrt : K → K) (hs : IsSqrt sqrt) (asserts : Bool)
    (Alb : QPVector K) (param : SolverParameters K) (fuel : Nat)
    (htol : 0 < param.tolerance_) (hmax : param.max_iter_ ≠ 0) (hfuel : 0 < fuel)
    (htype : param.hessian_type_ ≠ HessianType.HESSIAN_UNDEFINED)
    (hlb : ∀ i, i < 3 → Alb i < -param.tolerance_) :
    ∃ s : Solver K,
      Solver.solve sqrt asserts ⟨2, 2, 0, 3⟩ (matOf [[1, 0], [0, 1]]) (vecOf [0, 0])
        (matOf [[1, 0], [0, 1], [1, 1]]) Alb (vecOf [1, 1, 1]) param fuel
        = some (Outcome.returned ReturnStatus.OK s) ∧
      s.primal 0 = 0 ∧ s.primal 1 = 0 ∧
      s.machinery_initialized_ = false ∧ s.active_set_.size_ = 0 ∧
      ∀ i, i < 3 → s.general_constraints_status_ i = ConstraintStatus.INACTIVE := by
  have hx : (Solver.entry ⟨2, 2, 0, 3⟩ (matOf [[1, 0], [0, 1]]) (vecOf [0, 0]) : Solver K).primal
      = fun _ => 0 := by
    show (if 2 > 0 then CholeskyFactorization.solve 2 (matOf [[1, 0], [0, 1]] : QPMatrix K)
      (fun k => -(vecOf [0, 0] : QPVector K) k) else fun _ => 0) = _
    rw [if_pos (by decide)]
    refine cholesky_solve_identity2_zero _ (fun k => ?_)
    rcases Nat.lt_or_ge k 2 with hk | hk
    · interval_cases k <;> simp [vecOf]
    · show -(vecOf [0, 0] : QPVector K) k = 0
      rw [vecOf_of_le [0, 0] k hk, neg_zero]
  have hub : ∀ i, i < 3 → (vecOf [1, 1, 1] : QPVector K) i = 1 := by
    intro i hi
    interval_cases i <;> simp [vecOf]
  obtain ⟨s, e1, e2, e3, e4, e5⟩ := feasible_start_ok sqrt asserts ⟨2, 2, 0, 3⟩
    (matOf [[1, 0], [0, 1]]) (vecOf [0, 0]) (matOf [[1, 0], [0, 1], [1, 1]]) Alb
    (vecOf [1, 1, 1]) param fuel htol hmax hfuel (by decide)
    (fun j hj => by
      rw [hub j hj]
      have := hlb j hj
      linarith)
    (fun j hj => by
      unfold Within
      rw [hx, hub j hj]
      have h0 : dot 2 ((matOf [[1, 0], [0, 1], [1, 1]] : QPMatrix K) j) (fun _ => 0) = 0 := by
        unfold dot
        simp
      show Alb j - param.tolerance_
          ≤ dot 2 ((matOf [[1, 0], [0, 1], [1, 1]] : QPMatrix K) j) (fun _ => 0) ∧
        dot 2 ((matOf [[1, 0], [0, 1], [1, 1]] : QPMatrix K) j) (fun _ => 0)
          ≤ 1 + param.tolerance_
      rw [h0]
      have := hlb j hj
      constructor <;> linarith)
  refine ⟨s, ?_, by rw [e2, hx], by rw [e2, hx], e3, e4, e5⟩
  unfold Solver.solve Solver.prepareHessian
  cases ht : param.hessian_type_ with
  | HESSIAN_UNDEFINED => exact absurd ht htype
  | HESSIAN_LOWER_TRIANGULAR =>
    dsimp only
    rw [cholesky_identity2 hs]
    exact e1
  | HESSIAN_CHOLESKY_FACTOR =>
    exact e1

/-- Scenario E with lower bounds `−100` and the tolerance `1/10`. -/
theorem scenarioE_solve_witness :
    ∃ s : Solver ℝ,
      Solver.solve Real.sqrt true ⟨2, 2, 0, 3⟩ (matOf [[1, 0], [0, 1]]) (vecOf [0, 0])
        (matOf [[1, 0], [0, 1], [1, 1]]) (vecOf [-100, -100, -100]) (vecOf [1, 1, 1])
        ⟨HessianType.HESSIAN_LOWER_TRIANGULAR, 1 / 10, -1⟩ 1
        = some (Outcome.returned ReturnStatus.OK s) ∧
      s.primal 0 = 0 ∧ s.primal 1 = 0 ∧
      s.machinery_initialized_ = false ∧ s.active_set_.size_ = 0 ∧
      ∀ i, i < 3 → s.general_constraints_status_ i = ConstraintStatus.INACTIVE :=
  scenarioE_solve Real.sqrt isSqrt_real true (vecOf [-100, -100, -100])
    ⟨HessianType.HESSIAN_LOWER_TRIANGULAR, 1 / 10, -1⟩ 1
    (show (0 : ℝ) < 1 / 10 by norm_num) (by decide) (by decide) (by decide)
    (fun i hi => by
      show (vecOf [-100, -100, -100] : QPVector ℝ) i < -(1 / 10)
      interval_cases i <;> simp [vecOf] <;> norm_num)

/-- Scenario E as stated, with lower bounds `−1000` and the tolerance `1/10`:
`solve` returns `OK` with `x = (0, 0)`, which is not `(1, 1)` and not a vertex of
the feasible polytope (no constraint is active there and none was ever activated:
the machinery was not even initialised).  The only square root taken is that
of `1`. -/
theorem scenarioE_solve_counterexample :
    returnedWith
      (Solver.solve Rat.sqrt true ⟨2, 2, 0, 3⟩ (matOf [[1, 0], [0, 1]]) (vecOf [0, 0])
        (matOf [[1, 0], [0, 1], [1, 1]]) (vecOf [-1000, -1000, -1000]) (vecOf [1, 1, 1])
        ⟨HessianType.HESSIAN_LOWER_TRIANGULAR, 1 / 10, -1⟩ 10)
      (fun status s => decide (status = ReturnStatus.OK ∧ s.primal 0 = 0 ∧ s.primal 1 = 0 ∧
        s.machinery_initialized_ = false ∧ s.active_set_.size_ = 0)) = true := by
  decide!

/-- C13. Inconsistent bounds.  When the equality-activation loop of `solve` gets
to a general constraint `i` with `Alb[i] − tol > Aub[i]`, `solve` raises the
inconsistent-bounds error, leaving `i` marked `INCONSISTENT`; this is the case
in particular when no constraint before `i` is an equality (with `tol ≥ 0`).
And however `solve` ends, a constraint `k` marked `INCONSISTENT` in the final
state has `Alb[k] − tol > Aub[k]`, and `solve` ended by raising that error. -/
theorem inconsistent_bounds (sqrt : K → K) (asserts : Bool) (sizes : InputParser)
    (H L : QPMatrix K) (h : QPVector K) (A : QPMatrix K) (Alb Aub : QPVector K)
    (param : SolverParameters K) (fuel : Nat)
    (hL : Solver.prepareHessian sqrt sizes.primal_size_ H param = some L) :
    (∀ (i : Nat) (st : Solver K × Nat), i < sizes.num_general_constraints_ →
      Solver.equalityLoop sqrt L A Alb Aub param i 0 (Solver.entry sizes L h, 0)
        = Step.next st →
      Alb i - param.tolerance_ > Aub i →
      Solver.solve sqrt asserts sizes H h A Alb Aub param fuel
        = some (Outcome.raised QPError.INCONSISTENT_BOUNDS
            (st.1.setStatus i ConstraintStatus.INCONSISTENT))) ∧
    (∀ i : Nat, i < sizes.num_general_constraints_ → 0 ≤ param.tolerance_ →
      (∀ j, j < i → Alb j + param.tolerance_ < Aub j) →
      Alb i - param.tolerance_ > Aub i →
      ∃ s : Solver K, Solver.solve sqrt asserts sizes H h A Alb Aub param fuel
        = some (Outcome.raised QPError.INCONSISTENT_BOUNDS s) ∧
        s.general_constraints_status_ i = ConstraintStatus.INCONSISTENT) ∧
    (∀ (o : Outcome K) (k : Nat),
      Solver.solve sqrt asserts sizes H h A Alb Aub param fuel = some o →
      o.state.general_constraints_status_ k = ConstraintStatus.INCONSISTENT →
      Alb k - param.tolerance_ > Aub k ∧ k < sizes.num_general_constraints_ ∧
      ∃ s, o = Outcome.raised QPError.INCONSISTENT_BOUNDS s) := by
  have hsolve : Solver.solve sqrt asserts sizes H h A Alb Aub param fuel
      = Solver.solveWithFactor sqrt asserts sizes L h A Alb Aub param fuel := by
    unfold Solver.solve
    show (match Solver.prepareHessian sqrt sizes.primal_size_ H param with
      | none => _
      | some L => _) = _
    rw [hL]
  have key : ∀ (i : Nat) (st : Solver K × Nat), i < sizes.num_general_constraints_ →
      Solver.equalityLoop sqrt L A Alb Aub param i 0 (Solver.entry sizes L h, 0)
        = Step.next st →
      Alb i - param.tolerance_ > Aub i →
      Solver.solve sqrt asserts sizes H h A Alb Aub param fuel
        = some (Outcome.raised QPError.INCONSISTENT_BOUNDS
            (st.1.setStatus i ConstraintStatus.INCONSISTENT)) := by
    intro i st hi hloop hinc
    rw [hsolve]
    refine solveWithFactor_done sqrt asserts sizes L h A Alb Aub param fuel _ (by omega) ?_
    obtain ⟨c, hc⟩ : ∃ c, sizes.num_general_constraints_ = i + (c + 1) :=
      ⟨sizes.num_general_constraints_ - i - 1, by omega⟩
    rw [hc, equalityLoop_append, hloop]
    dsimp only
    rw [Nat.zero_add]
    exact equalityLoop_done_first sqrt L A Alb Aub param c i st _
      (equalityStep_inconsistent sqrt L A Alb Aub param i st hinc)
  refine ⟨key, ?_, ?_⟩
  · intro i hi htol hne hinc
    obtain ⟨s1, e1, _⟩ := inactive_loop sqrt L A Alb Aub param htol i 0
      (Solver.entry sizes L h, 0) (fun j _ h2 => hne j (by omega))
    refine ⟨_, key i _ hi e1 hinc, ?_⟩
    show Function.update s1.general_constraints_status_ i ConstraintStatus.INCONSISTENT i = _
    rw [Function.update_same]
  · intro o k hrun hk
    rw [hsolve] at hrun
    rcases solveWithFactor_noInconsistent sqrt asserts sizes L h A Alb Aub param fuel o hrun
      with ⟨j, s, a1, a2, a3, a4⟩ | a
    · subst a3
      have hkj : k = j := by
        by_contra hne
        have : Function.update s.general_constraints_status_ j
            ConstraintStatus.INCONSISTENT k = ConstraintStatus.INCONSISTENT := hk
        rw [Function.update_noteq hne] at this
        exact a2 k this
      subst hkj
      exact ⟨a4, a1, _, rfl⟩
    · exact absurd hk (a k)

/-- One constraint `2 ≤ x ≤ 1` with the tolerance `1/2`: `solve` raises. -/
theorem inconsistent_bounds_witness :
    Solver.solve Real.sqrt true ⟨1, 1, 0, 1⟩ (matOf [[1]]) (vecOf [0]) (matOf [[1]])
        (vecOf [2]) (vecOf [1]) ⟨HessianType.HESSIAN_CHOLESKY_FACTOR, 1 / 2, -1⟩ 0
      = some (Outcome.raised QPError.INCONSISTENT_BOUNDS
          ((Solver.entry ⟨1, 1, 0, 1⟩ (matOf [[1]]) (vecOf [0]) : Solver ℝ).setStatus 0
            ConstraintStatus.INCONSISTENT)) :=
  (inconsistent_bounds Real.sqrt true ⟨1, 1, 0, 1⟩ (matOf [[1]]) (matOf [[1]]) (vecOf [0])
    (matOf [[1]]) (vecOf [2]) (vecOf [1]) ⟨HessianType.HESSIAN_CHOLESKY_FACTOR, 1 / 2, -1⟩ 0
    rfl).1 0 (Solver.entry ⟨1, 1, 0, 1⟩ (matOf [[1]]) (vecOf [0]), 0) (by decide) rfl
    (by
      show (vecOf [2] : QPVector ℝ) 0 - 1 / 2 > (vecOf [1] : QPVector ℝ) 0
      simp [vecOf]
      norm_num)

/-- With `H = I`, `h = 0`, the equality `0·x = 1` followed by the constraint
`5 ≤ x₀ ≤ 0` and the tolerance `1/10`: the second constraint has
`Alb − tol > Aub`, but the loop never gets to it, `solve` returns the status
`INFEASIBLE_EQUALITY` for the first.  No square root is taken. -/
theorem inconsistent_bounds_counterexample :
    (vecOf [1, 5] : QPVector ℚ) 1 - 1 / 10 > (vecOf [1, 0] : QPVector ℚ) 1 ∧
    returnedWith
      (Solver.solve Rat.sqrt true ⟨2, 2, 0, 2⟩ (matOf [[1, 0], [0, 1]]) (vecOf [0, 0])
        (matOf [[0, 0], [1, 0]]) (vecOf [1, 5]) (vecOf [1, 0])
        ⟨HessianType.HESSIAN_CHOLESKY_FACTOR, 1 / 10, -1⟩ 0)
      (fun status _ => decide (status = ReturnStatus.INFEASIBLE_EQUALITY)) = true := by
  constructor <;> decide!

/-- C15. `update` followed by `downdate` at the same position.  The call
`downdate(k, k + 1, tol)` runs no iteration, so after `update(k, tol)` and
`downdate(k, k + 1, tol)` the state is the one left by `update`: every column of
`R` other than `k` (in particular the leading `k × k` block) is as before the
update and `Jᵀ·H·J = I` still holds, but `J` is the rotated matrix; `J` and `R`
are as before the update when column `k` of `R` was zero below the diagonal. -/
theorem update_downdate_round_trip (sqrt : K → K) (hs : IsSqrt sqrt) (H : QPMatrix K)
    (fd : FactorizationData K) (k : Nat) (tol : K) (hk : k < fd.primal_size_)
    (hJ : HOrthonormal fd.primal_size_ H fd.QLi_aka_J) :
    (fd.update sqrt k tol).1.downdate sqrt k (k + 1) tol = (fd.update sqrt k tol).1 ∧
    (∀ r c, c ≠ k → ((fd.update sqrt k tol).1.downdate sqrt k (k + 1) tol).R r c = fd.R r c) ∧
    HOrthonormal fd.primal_size_ H
      ((fd.update sqrt k tol).1.downdate sqrt k (k + 1) tol).QLi_aka_J ∧
    ((∀ i, k < i → i < fd.primal_size_ → fd.R i k = 0) →
      ((fd.update sqrt k tol).1.downdate sqrt k (k + 1) tol).QLi_aka_J = fd.QLi_aka_J ∧
      ((fd.update sqrt k tol).1.downdate sqrt k (k + 1) tol).R = fd.R) := by
  rw [downdate_last, update_fst]
  refine ⟨rfl, fun r c hc => updateLoop_R_other sqrt k _ fd r c hc,
    updateLoop_hOrthonormal sqrt hs H k _ fd (by omega) hJ, fun h0 => ?_⟩
  rw [updateLoop_zero sqrt k _ fd (fun r h1 h2 => h0 r h1 (by omega))]
  exact ⟨rfl, rfl⟩

/-- The example state `J = I`, `R = [[1, 5], [0, 3]]` with `k = 1`. -/
theorem update_downdate_round_trip_witness :
    ((exampleFD : FactorizationData ℝ).update Real.sqrt 1 1).1.downdate Real.sqrt 1 (1 + 1) 1
      = ((exampleFD : FactorizationData ℝ).update Real.sqrt 1 1).1 ∧
    HOrthonormal 2 idMat
      (((exampleFD : FactorizationData ℝ).update Real.sqrt 1 1).1.downdate Real.sqrt 1
        (1 + 1) 1).QLi_aka_J :=
  ⟨(update_downdate_round_trip Real.sqrt isSqrt_real idMat exampleFD 1 1 (by decide)
      (hOrthonormal_idMat 2)).1,
    (update_downdate_round_trip Real.sqrt isSqrt_real idMat exampleFD 1 1 (by decide)
      (hOrthonormal_idMat 2)).2.2.1⟩

/-- With `n = 2`, `H = I`, `J = I` and the candidate `(3, 4)` in column `k = 0` of
`R`: `update(0, tol)` rotates the columns of `J` (`J[0,0]` becomes `3/5`), and
`downdate(0, 1, tol)` does not rotate them back.  The only square root taken is
that of `25`. -/
theorem update_downdate_round_trip_counterexample :
    HOrthonormal (exampleFDCandidate : FactorizationData ℚ).primal_size_ idMat
      (exampleFDCandidate : FactorizationData ℚ).QLi_aka_J ∧
    (((exampleFDCandidate : FactorizationData ℚ).update Rat.sqrt 0 (1 / 2)).1.downdate
      Rat.sqrt 0 (0 + 1) (1 / 2)).QLi_aka_J 0 0 = 3 / 5 ∧
    (exampleFDCandidate : FactorizationData ℚ).QLi_aka_J 0 0 = 1 := by
  refine ⟨hOrthonormal_idMat 2, ?_, ?_⟩ <;> decide!

/-- C18. Step kernels.  For a state of the factorization (`n` the primal size),
a row `c` and an active set of size `q = nE + nI` (also when `q < n` fails):
`computeEqualityPrimalStep` writes `d = Jᵀ·cᵀ` into column `q` of `R`, leaves the
other columns, and returns `p = −J[:, q:n]·d[q:n]`; `computeInequalitySteps`
writes the same `d` and `p` when the type is not `ACTIVE_LOWER_BOUND` and the
negated ones when it is; it leaves `z` outside `[nE, q)` unchanged, and on
`[nE, q)` the new `z` is minus the back substitution on the upper triangle of
`R[nE:q, nE:q]` with right-hand side `d[nE:q]`, which solves
`R[nE:q, nE:q]·z[nE:q] = −d[nE:q]` when the diagonal of the block is nonzero. -/
theorem step_kernels (fd : FactorizationData K) (z c : QPVector K) (t : ConstraintStatus)
    (as : ActiveSet)
    (hsz : as.size_ = as.num_equalities_ + as.num_inequalities_) :
    (∀ r, r < fd.primal_size_ →
      (fd.computeEqualityPrimalStep c as.size_).1.R r as.size_
        = ∑ k in Finset.range fd.primal_size_, fd.QLi_aka_J k r * c k) ∧
    (∀ r col, col ≠ as.size_ →
      (fd.computeEqualityPrimalStep c as.size_).1.R r col = fd.R r col ∧
      (fd.computeInequalitySteps z c t as).1.R r col = fd.R r col) ∧
    (∀ r, r < fd.primal_size_ →
      (fd.computeEqualityPrimalStep c as.size_).2 r
        = -(∑ k in Finset.Ico as.size_ fd.primal_size_,
            fd.QLi_aka_J r k * (fd.computeEqualityPrimalStep c as.size_).1.R k as.size_)) ∧
    (∀ r, r < fd.primal_size_ →
      (fd.computeInequalitySteps z c t as).1.R r as.size_
        = (if t = ConstraintStatus.ACTIVE_LOWER_BOUND then
            -(fd.computeEqualityPrimalStep c as.size_).1.R r as.size_
          else (fd.computeEqualityPrimalStep c as.size_).1.R r as.size_) ∧
      (fd.computeInequalitySteps z c t as).2.1 r
        = (if t = ConstraintStatus.ACTIVE_LOWER_BOUND then
            -(fd.computeEqualityPrimalStep c as.size_).2 r
          else (fd.computeEqualityPrimalStep c as.size_).2 r)) ∧
    (∀ k, ¬ (as.num_equalities_ ≤ k ∧ k < as.size_) →
      (fd.computeInequalitySteps z c t as).2.2 k = z k) ∧
    ((∀ j, as.num_equalities_ ≤ j → j < as.size_ → fd.R j j ≠ 0) →
      ∀ i, as.num_equalities_ ≤ i → i < as.size_ →
        ∑ k in Finset.Ico i as.size_,
          (fd.computeInequalitySteps z c t as).1.R i k
            * (fd.computeInequalitySteps z c t as).2.2 k
          = -(fd.computeInequalitySteps z c t as).1.R i as.size_) := by
  have hcol : ∀ r, r < fd.primal_size_ →
      (fd.computeInequalitySteps z c t as).1.R r as.size_
        = (if t = ConstraintStatus.ACTIVE_LOWER_BOUND then
            -(fd.computeEqualityPrimalStep c as.size_).1.R r as.size_
          else (fd.computeEqualityPrimalStep c as.size_).1.R r as.size_) := by
    intro r hr
    rw [computeEqualityPrimalStep_R_col fd c as.size_ r hr]
    simp only [FactorizationData.computeInequalitySteps, colT]
    rw [if_pos ⟨trivial, hr⟩]
  refine ⟨fun r hr => ?_, fun r col hcol => ⟨?_, ?_⟩, fun r hr => ?_, fun r hr => ⟨hcol r hr, ?_⟩,
    fun k hk => ?_, fun hd i hi1 hi2 => ?_⟩
  · rw [computeEqualityPrimalStep_R_col fd c as.size_ r hr]
    rfl
  · exact computeEqualityPrimalStep_R_other fd c as.size_ r col hcol
  · exact computeInequalitySteps_R_other fd z c t as r col hcol
  · rw [computeEqualityPrimalStep_p]
    dsimp only
    rw [if_pos hr]
  · rw [computeInequalitySteps_p, computeEqualityPrimalStep_p]
    dsimp only
    rw [if_pos hr]
    have e : ∀ k ∈ Finset.Ico as.size_ fd.primal_size_,
        fd.QLi_aka_J r k * (fd.computeInequalitySteps z c t as).1.R k as.size_
          = (if t = ConstraintStatus.ACTIVE_LOWER_BOUND then
              -(fd.QLi_aka_J r k * (fd.computeEqualityPrimalStep c as.size_).1.R k as.size_)
            else fd.QLi_aka_J r k * (fd.computeEqualityPrimalStep c as.size_).1.R k as.size_) := by
      intro k hk
      rw [hcol k (Finset.mem_Ico.mp hk).2]
      split_ifs
      · ring
      · rfl
    rw [Finset.sum_congr rfl e]
    split_ifs
    · rw [Finset.sum_neg_distrib]
    · rfl
  · rw [computeInequalitySteps_z]
    dsimp only
    rw [if_neg (by rw [← hsz]; exact hk)]
  · have hU : (fd.computeInequalitySteps z c t as).1.R i i ≠ 0 := by
      rw [computeInequalitySteps_R_other fd z c t as i i (by omega)]
      exact hd i hi1 hi2
    have hb := backSolve_spec (fd.computeInequalitySteps z c t as).1.R
      (fun k => (fd.computeInequalitySteps z c t as).1.R k as.size_)
      (as.num_equalities_ + as.num_inequalities_) as.num_inequalities_ i (by omega) (by omega)
      (by omega) hU
    rw [← hsz] at hb
    have e : ∀ k ∈ Finset.Ico i as.size_,
        (fd.computeInequalitySteps z c t as).1.R i k
          * (fd.computeInequalitySteps z c t as).2.2 k
        = -((fd.computeInequalitySteps z c t as).1.R i k
          * backSolve (fd.computeInequalitySteps z c t as).1.R
              (fun k => (fd.computeInequalitySteps z c t as).1.R k as.size_)
              as.size_ as.num_inequalities_ k) := by
      intro k hk
      have hk' := Finset.mem_Ico.mp hk
      rw [computeInequalitySteps_z]
      dsimp only
      rw [if_pos ⟨by omega, by omega⟩, ← hsz]
      ring
    rw [Finset.sum_congr rfl e, Finset.sum_neg_distrib, hb]

/-- The example state `J = I`, `R = [[1, 5], [0, 3]]` with one active inequality
and the row `c = (2, 7)` of an upper bound: `R[0,0]·z[0] = −d[0]`. -/
theorem step_kernels_witness :
    ∑ k in Finset.Ico 0 (( ActiveSet.initialize 2).addInequality 0).size_,
      ((exampleFD : FactorizationData ℝ).computeInequalitySteps (vecOf [0, 0]) (vecOf [2, 7])
          ConstraintStatus.ACTIVE_UPPER_BOUND (( ActiveSet.initialize 2).addInequality 0)).1.R 0 k
        * ((exampleFD : FactorizationData ℝ).computeInequalitySteps (vecOf [0, 0]) (vecOf [2, 7])
          ConstraintStatus.ACTIVE_UPPER_BOUND (( ActiveSet.initialize 2).addInequality 0)).2.2 k
      = -((exampleFD : FactorizationData ℝ).computeInequalitySteps (vecOf [0, 0]) (vecOf [2, 7])
          ConstraintStatus.ACTIVE_UPPER_BOUND (( ActiveSet.initialize 2).addInequality 0)).1.R 0
            (( ActiveSet.initialize 2).addInequality 0).size_ :=
  (step_kernels (exampleFD : FactorizationData ℝ) (vecOf [0, 0]) (vecOf [2, 7])
    ConstraintStatus.ACTIVE_UPPER_BOUND (( ActiveSet.initialize 2).addInequality 0)
    rfl).2.2.2.2.2
    (fun j _ hj => by
      have hj1 : j < 1 := hj
      have : j = 0 := by omega
      subst this
      simp [exampleFD, matOf])
    0 (le_refl 0) (by decide)

/-- C17. `update` cannot fail where the driver calls it, for a tolerance
`0 < tol ≤ 1`: whenever the equality-activation loop of `solve` gets to a
constraint `i` with room in the active set and `ρ = A[i]·p < −tol`, and in every
main-loop iteration `solve` gets to with room in the active set and
`|A[chosen]·p| > tol`, `update` returns `true` (whatever the step length), so
`solve` never raises "Failed to add an equality/inequality constraint". -/
theorem update_cannot_fail (sqrt : K → K) (hs : IsSqrt sqrt) (asserts : Bool)
    (sizes : InputParser) (H L : QPMatrix K) (h : QPVector K) (A : QPMatrix K)
    (Alb Aub : QPVector K) (param : SolverParameters K) (fuel : Nat)
    (htol : 0 < param.tolerance_) (htol1 : param.tolerance_ ≤ 1)
    (hL : Solver.prepareHessian sqrt sizes.primal_size_ H param = some L) :
    (∀ (i : Nat) (st : Solver K × Nat) (t : K),
      Solver.equalityLoop sqrt L A Alb Aub param i 0 (Solver.entry sizes L h, 0)
        = Step.next st →
      (st.1.eqCandidate L i).active_set_.hasEmptySpace = true →
      st.1.eqRho L A i < -param.tolerance_ →
      (((st.1.eqCandidate L i).equalityDirection (A i)).equalityTake sqrt t
        param.tolerance_).2 = true) ∧
    (∀ (k : Nat) (st : Solver K × ChosenConstraint K) (t : K),
      Solver.iterState sqrt asserts sizes L h A Alb Aub param k = some st →
      (st.1.stepState L A st.2).active_set_.hasEmptySpace = true →
      |st.1.stepCp L A st.2| > param.tolerance_ →
      ((st.1.stepState L A st.2).takeStep sqrt t param.tolerance_).2 = true) ∧
    (∀ (o : Outcome K) (s : Solver K),
      Solver.solve sqrt asserts sizes H h A Alb Aub param fuel = some o →
      o ≠ Outcome.raised QPError.FAILED_TO_ADD_EQUALITY s ∧
      o ≠ Outcome.raised QPError.FAILED_TO_ADD_INEQUALITY s) := by
  have hsolve : Solver.solve sqrt asserts sizes H h A Alb Aub param fuel
      = Solver.solveWithFactor sqrt asserts sizes L h A Alb Aub param fuel := by
    unfold Solver.solve
    show (match Solver.prepareHessian sqrt sizes.primal_size_ H param with
      | none => _
      | some L => _) = _
    rw [hL]
  have hmain := iterState_accepts sqrt hs asserts sizes L h A Alb Aub param htol htol1
  refine ⟨?_, fun k st t hk hspace hcp => hmain k st t hk hspace hcp, ?_⟩
  · intro i st t hloop hspace hrho
    obtain ⟨hinv, _, _⟩ := equalityLoop_next sqrt hs L A Alb Aub param htol.le i 0
      (Solver.entry sizes L h, 0) st (Solver.entry_eqInv sizes L h A Alb Aub param.tolerance_)
      (Solver.entry_rawEmpty sizes L h) hloop
    exact equalityTake_accepts sqrt hs st.1 L A Alb Aub param.tolerance_ i (0 + i) st.2 t
      htol.le htol1 hinv hspace hrho
  · have key : ∀ (o : Outcome K) (e : QPError) (s : Solver K),
        (e = QPError.FAILED_TO_ADD_EQUALITY ∨ e = QPError.FAILED_TO_ADD_INEQUALITY) →
        Solver.solveWithFactor sqrt asserts sizes L h A Alb Aub param fuel = some o →
        o ≠ Outcome.raised e s := by
      intro o e s he hrun ho
      subst ho
      have hrun0 := hrun
      unfold Solver.solveWithFactor at hrun
      dsimp only at hrun
      split at hrun
      · exact absurd hrun (by simp)
      rename_i h0
      cases hloop : Solver.equalityLoop sqrt L A Alb Aub param
          (Solver.entry sizes L h).num_general_constraints_ 0 (Solver.entry sizes L h, 0) with
      | done o1 =>
        rw [hloop] at hrun
        injection hrun with hrun
        subst hrun
        exact equalityLoop_no_fail sqrt hs L A Alb Aub param htol.le htol1 _ 0 _
          (Solver.entry_eqInv sizes L h A Alb Aub param.tolerance_) e s he hloop
      | next st =>
        rw [hloop] at hrun
        dsimp only at hrun
        split at hrun
        · exact absurd hrun (by simp)
        rename_i hne
        have hms : Solver.mainStart sqrt sizes L h A Alb Aub param
            = some (Solver.mainEntry st.1 A Alb Aub param) := by
          unfold Solver.mainStart
          rw [if_neg (show ¬ 0 = sizes.num_simple_bounds_ + sizes.num_general_constraints_
            from h0)]
          have hloop' : Solver.equalityLoop sqrt L A Alb Aub param
              sizes.num_general_constraints_ 0 (Solver.entry sizes L h, 0) = Step.next st :=
            hloop
          rw [hloop']
          dsimp only
          rw [if_neg hne]
        obtain ⟨k, stk, _, hk, hcase⟩ := (mainLoop_some_iff sqrt asserts L A Alb Aub param fuel 0
          _ _).mp hrun
        have hiter : Solver.iterState sqrt asserts sizes L h A Alb Aub param k = some stk := by
          unfold Solver.iterState
          rw [hms]
          exact hk
        rcases hcase with ⟨_, hstep⟩ | ⟨_, hmaxed⟩
        · obtain ⟨a1, a2, t, a3⟩ := mainStep_failed sqrt asserts L A Alb Aub param stk e s he
            hstep
          rw [hmain k stk t hiter a1 a2] at a3
          exact absurd a3 (by decide)
        · exact absurd hmaxed (by simp)
    intro o s hrun
    rw [hsolve] at hrun
    exact ⟨key o _ s (Or.inl rfl) hrun, key o _ s (Or.inr rfl) hrun⟩

/-- The active-bound scenario: `update` accepts in the first iteration. -/
theorem update_cannot_fail_witness :
    (((singleStart 1 1 (matOf [[1]]) (vecOf [0]) (matOf [[1]])
        (vecOf [1] : QPVector ℝ)).1.stepState (matOf [[1]]) (matOf [[1]])
      (singleStart 1 1 (matOf [[1]]) (vecOf [0]) (matOf [[1]])
        (vecOf [1] : QPVector ℝ)).2).takeStep Real.sqrt 1 (1 / 2)).2 = true :=
  (update_cannot_fail Real.sqrt isSqrt_real true ⟨1, 1, 0, 1⟩ (matOf [[1]]) (matOf [[1]])
    (vecOf [0]) (matOf [[1]]) (vecOf [1]) (vecOf [100])
    ⟨HessianType.HESSIAN_CHOLESKY_FACTOR, 1 / 2, -1⟩ 2
    (show (0 : ℝ) < 1 / 2 by norm_num) (show (1 / 2 : ℝ) ≤ 1 by norm_num) rfl).2.1 0 _ 1
    activeBound_iterStates.1 activeBound_space
    (by
      rw [activeBound_cp]
      show |(1 : ℝ)| > 1 / 2
      rw [abs_one]
      norm_num)

/-- With `n = 1`, `H = [[1]]`, `h = 0`, the equality `(3/2)·x = 1` and the
tolerance `2`: `ρ = −9/4 < −tol`, so the equality is activated, but
`|R[0,0]| = 3/2 < tol`, `update` returns `false` and `solve` raises "Failed to add
an equality constraint".  No square root is taken. -/
theorem update_cannot_fail_counterexample :
    raisedWith
      (Solver.solve Rat.sqrt true ⟨1, 1, 0, 1⟩ (matOf [[1]]) (vecOf [0])
        (matOf [[3 / 2]]) (vecOf [1]) (vecOf [1])
        ⟨HessianType.HESSIAN_CHOLESKY_FACTOR, 2, -1⟩ 0)
      (fun e _ => decide (e = QPError.FAILED_TO_ADD_EQUALITY)) = true := by
  decide!

/-- C11. Infeasible inequality.  With `tol > 0`, `solve` returns
`INFEASIBLE_INEQUALITY` exactly when some iteration `k` of the main loop that it
runs has `|chosen.violation| ≥ tol`, finds the active set full or
`|A[chosen]·p| ≤ tol`, and no position `i` in `[nE, q)` with `z[i] < −tol`; the
state returned is the one after the step directions were computed, in which `x`,
`μ` and the active set are those at the head of the iteration.  In that branch
the blocking index is the sentinel `n` exactly when there is no such position,
and otherwise the iteration performs the dual-only step, which leaves `x`
unchanged: with `j*` the blocking position and `τ` the dual step length,
`nE ≤ j* < q`, `z[j*] < −tol`, `τ = −μ[j*]/z[j*]`, the multipliers of the active
inequalities become `μ[i] + τ·z[i]` and those of the equalities stay, the
multiplier of the chosen constraint grows by `τ`, position `j*` is dropped from
the active set and from `μ` (the positions after it move down by one), and the
dropped constraint gets the status `INACTIVE`. -/
theorem infeasible_inequality (sqrt : K → K) (hs : IsSqrt sqrt) (asserts : Bool)
    (sizes : InputParser) (H L : QPMatrix K) (h : QPVector K) (A : QPMatrix K)
    (Alb Aub : QPVector K) (param : SolverParameters K) (fuel : Nat)
    (htol : 0 < param.tolerance_)
    (hL : Solver.prepareHessian sqrt sizes.primal_size_ H param = some L) :
    (∀ s : Solver K,
      Solver.solve sqrt asserts sizes H h A Alb Aub param fuel
        = some (Outcome.returned ReturnStatus.INFEASIBLE_INEQUALITY s) ↔
      ∃ (k : Nat) (st : Solver K × ChosenConstraint K), k < fuel ∧
        Solver.iterState sqrt asserts sizes L h A Alb Aub param k = some st ∧
        ((k : Int) < param.max_iter_ ∨ param.max_iter_ < 0) ∧
        ¬ |st.2.violation_| < param.tolerance_ ∧
        ((st.1.stepState L A st.2).active_set_.hasEmptySpace = false ∨
          |st.1.stepCp L A st.2| ≤ param.tolerance_) ∧
        (∀ i, (st.1.stepState L A st.2).active_set_.num_equalities_ ≤ i →
          i < (st.1.stepState L A st.2).active_set_.size_ →
          ¬ (st.1.stepState L A st.2).dual_step_direction_ i < -param.tolerance_) ∧
        s = st.1.stepState L A st.2) ∧
    (∀ (k : Nat) (st : Solver K × ChosenConstraint K),
      Solver.iterState sqrt asserts sizes L h A Alb Aub param k = some st →
      ((st.1.stepState L A st.2).primal = st.1.primal ∧
        (st.1.stepState L A st.2).dual_ = st.1.dual_ ∧
        (st.1.stepState L A st.2).active_set_.size_ = st.1.active_set_.size_ ∧
        (st.1.stepState L A st.2).active_set_.num_equalities_
          = st.1.active_set_.num_equalities_ ∧
        (st.1.stepState L A st.2).active_set_.num_inequalities_
          = st.1.active_set_.num_inequalities_ ∧
        ∀ c, c < st.1.active_set_.size_ →
          (st.1.stepState L A st.2).active_set_.getIndex c = st.1.active_set_.getIndex c) ∧
      (((st.1.stepState L A st.2).dualBlocking param.tolerance_).1
          = (st.1.stepState L A st.2).primal_size_ ↔
        ∀ i, (st.1.stepState L A st.2).active_set_.num_equalities_ ≤ i →
          i < (st.1.stepState L A st.2).active_set_.size_ →
          ¬ (st.1.stepState L A st.2).dual_step_direction_ i < -param.tolerance_) ∧
      (¬ |st.2.violation_| < param.tolerance_ →
        ((st.1.stepState L A st.2).active_set_.hasEmptySpace = false ∨
          |st.1.stepCp L A st.2| ≤ param.tolerance_) →
        ((st.1.stepState L A st.2).dualBlocking param.tolerance_).1
          ≠ (st.1.stepState L A st.2).primal_size_ →
        Solver.mainStep sqrt asserts L A Alb Aub param st
          = Step.next (Solver.deactivate sqrt
                ((st.1.stepState L A st.2).dualUpdate
                  (((st.1.stepState L A st.2).dualBlocking param.tolerance_).2.getD 0))
                ((st.1.stepState L A st.2).dualBlocking param.tolerance_).1 param.tolerance_,
              { st.2 with
                dual_ := st.2.dual_
                  + ((st.1.stepState L A st.2).dualBlocking param.tolerance_).2.getD 0 }) ∧
        (Solver.deactivate sqrt
            ((st.1.stepState L A st.2).dualUpdate
              (((st.1.stepState L A st.2).dualBlocking param.tolerance_).2.getD 0))
            ((st.1.stepState L A st.2).dualBlocking param.tolerance_).1
            param.tolerance_).primal = st.1.primal ∧
        ∃ t : K, ((st.1.stepState L A st.2).dualBlocking param.tolerance_).2 = some t ∧
          (st.1.stepState L A st.2).active_set_.num_equalities_
            ≤ ((st.1.stepState L A st.2).dualBlocking param.tolerance_).1 ∧
          ((st.1.stepState L A st.2).dualBlocking param.tolerance_).1
            < (st.1.stepState L A st.2).active_set_.size_ ∧
          (st.1.stepState L A st.2).dual_step_direction_
              ((st.1.stepState L A st.2).dualBlocking param.tolerance_).1
            < -param.tolerance_ ∧
          t = -(st.1.stepState L A st.2).dual_
                ((st.1.stepState L A st.2).dualBlocking param.tolerance_).1
              / (st.1.stepState L A st.2).dual_step_direction_
                ((st.1.stepState L A st.2).dualBlocking param.tolerance_).1 ∧
          (Solver.deactivate sqrt ((st.1.stepState L A st.2).dualUpdate t)
              ((st.1.stepState L A st.2).dualBlocking param.tolerance_).1 param.tolerance_).active_set_.size_ + 1 = (st.1.stepState L A st.2).active_set_.size_ ∧
          (Solver.deactivate sqrt ((st.1.stepState L A st.2).dualUpdate t)
              ((st.1.stepState L A st.2).dualBlocking param.tolerance_).1 param.tolerance_).active_set_.num_equalities_
            = (st.1.stepState L A st.2).active_set_.num_equalities_ ∧
          (Solver.deactivate sqrt ((st.1.stepState L A st.2).dualUpdate t)
              ((st.1.stepState L A st.2).dualBlocking param.tolerance_).1 param.tolerance_).general_constraints_status_
              ((st.1.stepState L A st.2).active_set_.getIndex
                ((st.1.stepState L A st.2).dualBlocking param.tolerance_).1)
            = ConstraintStatus.INACTIVE ∧
          (∀ c, c < ((st.1.stepState L A st.2).dualBlocking param.tolerance_).1 →
            (Solver.deactivate sqrt ((st.1.stepState L A st.2).dualUpdate t)
              ((st.1.stepState L A st.2).dualBlocking param.tolerance_).1 param.tolerance_).active_set_.getIndex c = (st.1.stepState L A st.2).active_set_.getIndex c ∧
            (Solver.deactivate sqrt ((st.1.stepState L A st.2).dualUpdate t)
              ((st.1.stepState L A st.2).dualBlocking param.tolerance_).1 param.tolerance_).dual_ c
              = if (st.1.stepState L A st.2).active_set_.num_equalities_ ≤ c then
                  (st.1.stepState L A st.2).dual_ c
                    + t * (st.1.stepState L A st.2).dual_step_direction_ c
                else (st.1.stepState L A st.2).dual_ c) ∧
          (∀ c, ((st.1.stepState L A st.2).dualBlocking param.tolerance_).1 ≤ c →
            c + 1 < (st.1.stepState L A st.2).active_set_.size_ →
            (Solver.deactivate sqrt ((st.1.stepState L A st.2).dualUpdate t)
              ((st.1.stepState L A st.2).dualBlocking param.tolerance_).1 param.tolerance_).active_set_.getIndex c
              = (st.1.stepState L A st.2).active_set_.getIndex (c + 1) ∧
            (Solver.deactivate sqrt ((st.1.stepState L A st.2).dualUpdate t)
              ((st.1.stepState L A st.2).dualBlocking param.tolerance_).1 param.tolerance_).dual_ c
              = (st.1.stepState L A st.2).dual_ (c + 1)
                + t * (st.1.stepState L A st.2).dual_step_direction_ (c + 1)))) := by
  have hsolve : Solver.solve sqrt asserts sizes H h A Alb Aub param fuel
      = Solver.solveWithFactor sqrt asserts sizes L h A Alb Aub param fuel := by
    unfold Solver.solve
    show (match Solver.prepareHessian sqrt sizes.primal_size_ H param with
      | none => _
      | some L => _) = _
    rw [hL]
  have hbranch : ∀ st : Solver K × ChosenConstraint K,
      (¬ ((st.1.stepState L A st.2).active_set_.hasEmptySpace = true ∧
          |st.1.stepCp L A st.2| > param.tolerance_)) ↔
      ((st.1.stepState L A st.2).active_set_.hasEmptySpace = false ∨
          |st.1.stepCp L A st.2| ≤ param.tolerance_) := by
    intro st
    constructor
    · intro hn
      by_cases hsp : (st.1.stepState L A st.2).active_set_.hasEmptySpace = true
      · exact Or.inr (not_lt.mp (fun hc => hn ⟨hsp, hc⟩))
      · exact Or.inl (by simpa using hsp)
    · rintro (hb | hb) ⟨h1, h2⟩
      · rw [h1] at hb
        exact absurd hb (by decide)
      · exact absurd h2 (not_lt.mpr hb)
  have hsent : ∀ (k : Nat) (st : Solver K × ChosenConstraint K),
      Solver.iterState sqrt asserts sizes L h A Alb Aub param k = some st →
      (((st.1.stepState L A st.2).dualBlocking param.tolerance_).1
          = (st.1.stepState L A st.2).primal_size_ ↔
        ∀ i, (st.1.stepState L A st.2).active_set_.num_equalities_ ≤ i →
          i < (st.1.stepState L A st.2).active_set_.size_ →
          ¬ (st.1.stepState L A st.2).dual_step_direction_ i < -param.tolerance_) := by
    intro k st hk
    obtain ⟨hM, _⟩ := iterState_mainState sqrt hs asserts sizes L h A Alb Aub param htol k st hk
    have hwf := hM.1.wf
    refine Solver.dualBlocking_sentinel _ _ ?_ ?_
    · unfold Solver.stepState
      rw [Solver.computeStepDirections_active_set, hwf.size_eq]
      exact Nat.le_add_right _ _
    · unfold Solver.stepState
      rw [Solver.computeStepDirections_active_set,
        congrArg InputParser.primal_size_ (Solver.computeStepDirections_sizes _ A _)]
      exact hwf.size_le
  refine ⟨fun s => ?_, fun k st hk => ⟨?_, hsent k st hk, fun h0 h1 h2 => ⟨?_, ?_, ?_⟩⟩⟩
  · rw [hsolve]
    constructor
    · intro hrun
      rcases solveWithFactor_cases sqrt asserts sizes L h A Alb Aub param fuel _ hrun with
        ⟨s1, e⟩ | hloop | ⟨st0, hms, hmain⟩
      · injection e with e
        exact absurd e (by decide)
      · exact absurd (equalityLoop_returned sqrt L A Alb Aub param _ _ _ _ _ hloop)
          (by decide)
      · obtain ⟨k, stk, hkf, hk, hcase⟩ :=
          (mainLoop_some_iff sqrt asserts L A Alb Aub param fuel 0 _ _).mp hmain
        have hiter : Solver.iterState sqrt asserts sizes L h A Alb Aub param k = some stk := by
          unfold Solver.iterState
          rw [hms]
          exact hk
        rcases hcase with ⟨hcond, hstep⟩ | ⟨_, hmaxed⟩
        · obtain ⟨a0, a1, a2, a3⟩ :=
            (mainStep_infeasible_iff sqrt asserts L A Alb Aub param stk s).mp hstep
          rw [Int.zero_add] at hcond
          exact ⟨k, stk, hkf, hiter, hcond, a0, (hbranch stk).mp a1,
            (hsent k stk hiter).mp a2, a3⟩
        · injection hmaxed with hmaxed
          exact absurd hmaxed (by decide)
    · rintro ⟨k, st, hkf, hk, hcond, a0, a1, a2, a3⟩
      have hk0 := hk
      unfold Solver.iterState at hk
      cases hms : Solver.mainStart sqrt sizes L h A Alb Aub param with
      | none =>
        rw [hms] at hk
        exact absurd hk (by simp)
      | some st0 =>
        rw [hms] at hk
        rw [solveWithFactor_mainStart sqrt asserts sizes L h A Alb Aub param fuel st0 hms,
          mainLoop_some_iff]
        refine ⟨k, st, hkf, hk, Or.inl ⟨by rw [Int.zero_add]; exact hcond, ?_⟩⟩
        exact (mainStep_infeasible_iff sqrt asserts L A Alb Aub param st s).mpr
          ⟨a0, (hbranch st).mpr a1, (hsent k st hk0).mpr a2, a3⟩
  · exact stepState_unchanged L A st
      (iterState_mainState sqrt hs asserts sizes L h A Alb Aub param htol k st hk).1.2.2
  · exact mainStep_dual_only sqrt asserts L A Alb Aub param st h0 ((hbranch st).mpr h1) h2
  · show (st.1.stepState L A st.2).primal = _
    exact (stepState_unchanged L A st
      (iterState_mainState sqrt hs asserts sizes L h A Alb Aub param htol k st hk).1.2.2).1
  · obtain ⟨hM, _⟩ := iterState_mainState sqrt hs asserts sizes L h A Alb Aub param htol k st hk
    have hwf := (hM.1.stepDirections st.2).wf
    have hq : (st.1.stepState L A st.2).active_set_.size_
        = (st.1.stepState L A st.2).active_set_.num_equalities_
          + (st.1.stepState L A st.2).active_set_.num_inequalities_ := hwf.size_eq
    have hle : (st.1.stepState L A st.2).active_set_.num_equalities_
        ≤ (st.1.stepState L A st.2).active_set_.size_ := by omega
    rcases Solver.dualBlocking_range (st.1.stepState L A st.2) param.tolerance_ hle with
      ⟨e, _⟩ | ⟨_, _, t, ht⟩
    · exact absurd e h2
    obtain ⟨b1, b2, b3, b4⟩ :=
      Solver.dualBlocking_exact (st.1.stepState L A st.2) param.tolerance_ hle t ht
    refine ⟨t, ht, b1, b2, b3, b4, ?_, rfl, ?_, fun c hc => ⟨?_, ?_⟩, fun c hc hc1 => ⟨?_, ?_⟩⟩
    · show (st.1.stepState L A st.2).active_set_.size_ - 1 + 1 = _
      omega
    · show Function.update (st.1.stepState L A st.2).general_constraints_status_
        ((st.1.stepState L A st.2).active_set_.getIndex
          ((st.1.stepState L A st.2).dualBlocking param.tolerance_).1)
        ConstraintStatus.INACTIVE _ = _
      exact Function.update_same _ _ _
    · exact dropElementWithoutResize_lt _ _ _ c hc
    · show dropElementWithoutResize ((st.1.stepState L A st.2).dualUpdate t).dual_ _ _ c = _
      refine (dropElementWithoutResize_lt _ _ _ c hc).trans ?_
      show (if (st.1.stepState L A st.2).active_set_.num_equalities_ ≤ c ∧
          c < (st.1.stepState L A st.2).active_set_.num_equalities_
            + (st.1.stepState L A st.2).active_set_.num_inequalities_ then _ else _) = _
      by_cases h3 : (st.1.stepState L A st.2).active_set_.num_equalities_ ≤ c
      · rw [if_pos ⟨h3, by omega⟩, if_pos h3]
      · rw [if_neg (fun h4 => h3 h4.1), if_neg h3]
    · exact dropElementWithoutResize_ge _ _ _ c hc hc1
    · show dropElementWithoutResize ((st.1.stepState L A st.2).dualUpdate t).dual_ _ _ c = _
      refine (dropElementWithoutResize_ge _ _ _ c hc hc1).trans ?_
      show (if (st.1.stepState L A st.2).active_set_.num_equalities_ ≤ c + 1 ∧
          c + 1 < (st.1.stepState L A st.2).active_set_.num_equalities_
            + (st.1.stepState L A st.2).active_set_.num_inequalities_ then _ else _) = _
      rw [if_pos ⟨by omega, by omega⟩]

/-- Two runs.  On two opposed bounds (`n = 1`, `1 ≤ x ≤ 100` and
`−100 ≤ x ≤ −1`, tolerance `1/2`) the second iteration finds the active set full
and no blocking position, and `solve` returns `INFEASIBLE_INEQUALITY` with the
state in which `x = 1` is the point at the head of that iteration.  On the
problem `x₀ = 0`, `1 ≤ x₁ ≤ 100`, `1 ≤ x₁/2 ≤ 100` (`n = 2`, tolerance `1/10`) the
second iteration finds the active set full and the blocking position 1 with dual
step length 2, and performs the dual-only step, which leaves `x` unchanged. -/
theorem infeasible_inequality_witness :
    (∃ st : Solver ℝ × ChosenConstraint ℝ,
      Solver.iterState Real.sqrt true ⟨1, 1, 0, 2⟩ (matOf [[1]]) (vecOf [0])
        (matOf [[1], [1]]) (vecOf [1, -100]) (vecOf [100, -1])
        ⟨HessianType.HESSIAN_CHOLESKY_FACTOR, 1 / 2, -1⟩ 1 = some st ∧
      Solver.solve Real.sqrt true ⟨1, 1, 0, 2⟩ (matOf [[1]]) (vecOf [0])
        (matOf [[1], [1]]) (vecOf [1, -100]) (vecOf [100, -1])
        ⟨HessianType.HESSIAN_CHOLESKY_FACTOR, 1 / 2, -1⟩ 2
        = some (Outcome.returned ReturnStatus.INFEASIBLE_INEQUALITY
            (st.1.stepState (matOf [[1]]) (matOf [[1], [1]]) st.2)) ∧
      (st.1.stepState (matOf [[1]]) (matOf [[1], [1]]) st.2).primal = st.1.primal ∧
      st.1.primal 0 = 1) ∧
    (∃ st : Solver ℝ × ChosenConstraint ℝ,
      Solver.iterState Real.sqrt true ⟨2, 2, 0, 3⟩ (matOf [[1, 0], [0, 1]]) (vecOf [0, 0])
        (matOf [[1, 0], [0, 1], [0, 1 / 2]]) (vecOf [0, 1, 1]) (vecOf [0, 100, 100])
        ⟨HessianType.HESSIAN_CHOLESKY_FACTOR, 1 / 10, -1⟩ 1 = some st ∧
      ((st.1.stepState (matOf [[1, 0], [0, 1]]) (matOf [[1, 0], [0, 1], [0, 1 / 2]]) st.2).dualBlocking (1 / 10)).1 = 1 ∧
      ((st.1.stepState (matOf [[1, 0], [0, 1]]) (matOf [[1, 0], [0, 1], [0, 1 / 2]]) st.2).dualBlocking (1 / 10)).2 = some 2 ∧
      Solver.mainStep Real.sqrt true (matOf [[1, 0], [0, 1]])
          (matOf [[1, 0], [0, 1], [0, 1 / 2]]) (vecOf [0, 1, 1]) (vecOf [0, 100, 100])
          ⟨HessianType.HESSIAN_CHOLESKY_FACTOR, 1 / 10, -1⟩ st
        = Step.next (Solver.deactivate Real.sqrt
              ((st.1.stepState (matOf [[1, 0], [0, 1]]) (matOf [[1, 0], [0, 1], [0, 1 / 2]]) st.2).dualUpdate
                (((st.1.stepState (matOf [[1, 0], [0, 1]]) (matOf [[1, 0], [0, 1], [0, 1 / 2]]) st.2).dualBlocking (1 / 10)).2.getD 0))
              ((st.1.stepState (matOf [[1, 0], [0, 1]]) (matOf [[1, 0], [0, 1], [0, 1 / 2]]) st.2).dualBlocking (1 / 10)).1 (1 / 10),
            { st.2 with
              dual_ := st.2.dual_
                + ((st.1.stepState (matOf [[1, 0], [0, 1]]) (matOf [[1, 0], [0, 1], [0, 1 / 2]]) st.2).dualBlocking (1 / 10)).2.getD 0 }) ∧
      (Solver.deactivate Real.sqrt
          ((st.1.stepState (matOf [[1, 0], [0, 1]]) (matOf [[1, 0], [0, 1], [0, 1 / 2]]) st.2).dualUpdate
            (((st.1.stepState (matOf [[1, 0], [0, 1]]) (matOf [[1, 0], [0, 1], [0, 1 / 2]]) st.2).dualBlocking (1 / 10)).2.getD 0))
          ((st.1.stepState (matOf [[1, 0], [0, 1]]) (matOf [[1, 0], [0, 1], [0, 1 / 2]]) st.2).dualBlocking (1 / 10)).1 (1 / 10)).primal = st.1.primal) := by
  constructor
  · obtain ⟨st, h1, _, hviol, hx, _, hfull, hnE, hsize, hz⟩ := opposedBounds_states
    have T := infeasible_inequality Real.sqrt isSqrt_real true ⟨1, 1, 0, 2⟩ (matOf [[1]])
      (matOf [[1]]) (vecOf [0]) (matOf [[1], [1]]) (vecOf [1, -100]) (vecOf [100, -1])
      ⟨HessianType.HESSIAN_CHOLESKY_FACTOR, 1 / 2, -1⟩ 2
      (show (0 : ℝ) < 1 / 2 by norm_num) rfl
    refine ⟨st, h1, (T.1 _).mpr ⟨1, st, by decide, h1, Or.inr (by decide), ?_, Or.inl hfull,
      ?_, rfl⟩, (T.2 1 st h1).1.1, hx⟩
    · rw [hviol]
      show ¬ |(2 : ℝ)| < 1 / 2
      rw [abs_of_nonneg (by norm_num)]
      norm_num
    · intro i _ hi
      rw [hsize] at hi
      have e : i = 0 := by omega
      rw [e, hz]
      show ¬ (1 : ℝ) < -(1 / 2)
      norm_num
  · obtain ⟨_, st, _, _, h1, _, _, hviol, _, _, _, _, _, _, _, _, _, _, _, hfull, hn, hj, ht⟩ :=
      equalityDrop_states
    have T := (infeasible_inequality Real.sqrt isSqrt_real true ⟨2, 2, 0, 3⟩
      (matOf [[1, 0], [0, 1]]) (matOf [[1, 0], [0, 1]]) (vecOf [0, 0])
      (matOf [[1, 0], [0, 1], [0, 1 / 2]]) (vecOf [0, 1, 1]) (vecOf [0, 100, 100])
      ⟨HessianType.HESSIAN_CHOLESKY_FACTOR, 1 / 10, -1⟩ 2
      (show (0 : ℝ) < 1 / 10 by norm_num) rfl).2 1 st h1
    have T3 := T.2.2 (by
        rw [hviol]
        show ¬ |(-(1 / 2) : ℝ)| < 1 / 10
        rw [abs_neg, abs_of_nonneg (by norm_num)]
        norm_num) (Or.inl hfull) (by
        rw [hj, hn]
        decide)
    exact ⟨st, h1, hj, ht, T3.1, T3.2.1⟩

/-- The active-bound scenario (`n = 1`, `H = [[1]]`, `h = 0`, the constraint
`1 ≤ x ≤ 100`, tolerance `1/10`): the first iteration of the main loop takes a
full step (no dual blocker, the step is not truncated) from `x = 0` to `x = 1`,
and the objective rises from `0` to `1/2`.  No square root is taken. -/
theorem objective_primal_step_counterexample :
    ((Solver.iterState Rat.sqrt true ⟨1, 1, 0, 1⟩ (matOf [[1]]) (vecOf [0]) (matOf [[1]])
        (vecOf [1]) (vecOf [100]) ⟨HessianType.HESSIAN_CHOLESKY_FACTOR, 1 / 10, -1⟩ 0).bind
      (fun st0 =>
        (Solver.iterState Rat.sqrt true ⟨1, 1, 0, 1⟩ (matOf [[1]]) (vecOf [0]) (matOf [[1]])
          (vecOf [1]) (vecOf [100]) ⟨HessianType.HESSIAN_CHOLESKY_FACTOR, 1 / 10, -1⟩ 1).map
        (fun st1 => decide (
          (Solver.truncateStep
            ((st0.1.stepState (matOf [[1]]) (matOf [[1]]) st0.2).dualBlocking (1 / 10)).2
            (-st0.2.violation_ / st0.1.stepCp (matOf [[1]]) (matOf [[1]]) st0.2)).2 = false ∧
          st0.1.primal 0 = 0 ∧ st1.1.primal 0 = 1 ∧
          st1.1.general_constraints_status_ 0 = ConstraintStatus.ACTIVE_LOWER_BOUND ∧
          objective 1 (matOf [[1]]) (vecOf [0]) st0.1.primal = 0 ∧
          objective 1 (matOf [[1]]) (vecOf [0]) st1.1.primal = 1 / 2)))) = some true := by
  decide!

/-- C21. Sign of the directional product.  With `n` the primal size, `d = Jᵀ·cᵀ`
and any `q`: the `p` of `computeEqualityPrimalStep` has
`c·p = −Σ_{k=q}^{n−1} d_k²`, so `c·p ≤ 0`, with equality exactly when
`d[q:n] = 0`; the `p` of `computeInequalitySteps` (with `q` the size of the
active set) has `c·p = +Σ d_k²` for the type `ACTIVE_LOWER_BOUND` and
`c·p = −Σ d_k²` for every other type. -/
theorem directional_product_sign (fd : FactorizationData K) (z c : QPVector K)
    (t : ConstraintStatus) (as : ActiveSet) (q : Nat) :
    dot fd.primal_size_ c (fd.computeEqualityPrimalStep c q).2
      = -(∑ k in Finset.Ico q fd.primal_size_,
            colT fd.primal_size_ fd.QLi_aka_J c k * colT fd.primal_size_ fd.QLi_aka_J c k) ∧
    dot fd.primal_size_ c (fd.computeEqualityPrimalStep c q).2 ≤ 0 ∧
    (dot fd.primal_size_ c (fd.computeEqualityPrimalStep c q).2 = 0
      ↔ ∀ k, q ≤ k → k < fd.primal_size_ → colT fd.primal_size_ fd.QLi_aka_J c k = 0) ∧
    dot fd.primal_size_ c (fd.computeInequalitySteps z c t as).2.1
      = (if t = ConstraintStatus.ACTIVE_LOWER_BOUND then
          ∑ k in Finset.Ico as.size_ fd.primal_size_,
            colT fd.primal_size_ fd.QLi_aka_J c k * colT fd.primal_size_ fd.QLi_aka_J c k
        else
          -(∑ k in Finset.Ico as.size_ fd.primal_size_,
            colT fd.primal_size_ fd.QLi_aka_J c k
              * colT fd.primal_size_ fd.QLi_aka_J c k)) := by
  have hnn : ∀ k ∈ Finset.Ico q fd.primal_size_,
      0 ≤ colT fd.primal_size_ fd.QLi_aka_J c k * colT fd.primal_size_ fd.QLi_aka_J c k :=
    fun k _ => mul_self_nonneg _
  refine ⟨computeEqualityPrimalStep_dot fd c q, ?_, ?_, computeInequalitySteps_dot fd z c t as⟩
  · rw [computeEqualityPrimalStep_dot]
    exact neg_nonpos.mpr (Finset.sum_nonneg hnn)
  · rw [computeEqualityPrimalStep_dot, neg_eq_zero, Finset.sum_eq_zero_iff_of_nonneg hnn]
    constructor
    · intro h0 k h1 h2
      exact mul_self_eq_zero.mp (h0 k (Finset.mem_Ico.mpr ⟨h1, h2⟩))
    · intro h0 k hk
      rw [h0 k (Finset.mem_Ico.mp hk).1 (Finset.mem_Ico.mp hk).2, mul_zero]

/-- The example state `n = 2`, `J = I`, the row `c = (3, 4)` and `q = 1`: the
product `c·p` is not positive. -/
theorem directional_product_sign_witness :
    dot (exampleFD : FactorizationData ℚ).primal_size_ (vecOf [3, 4])
      ((exampleFD : FactorizationData ℚ).computeEqualityPrimalStep (vecOf [3, 4]) 1).2 ≤ 0 :=
  (directional_product_sign (exampleFD : FactorizationData ℚ) (vecOf [0, 0]) (vecOf [3, 4])
    ConstraintStatus.ACTIVE_UPPER_BOUND ( ActiveSet.initialize 2) 1).2.1

/-- C22. Dual-only kernel.  For a full active set (`q = nE + nI = n`) and a block
`R[nE:q, nE:q]` that is upper-triangular with nonzero diagonal, the segment
`z[nE:q]` written by `computeInequalityDualStep` solves
`R[nE:q, nE:q]·z[nE:q] = −d[nE:q]` with `d = Jᵀ·cᵀ`, negated for
`ACTIVE_LOWER_BOUND`, and it is the segment that `computeInequalitySteps`
writes. -/
theorem dual_only_kernel (fd : FactorizationData K) (z c : QPVector K)
    (t : ConstraintStatus) (as : ActiveSet)
    (hsz : as.size_ = as.num_equalities_ + as.num_inequalities_)
    (hfull : as.size_ = fd.primal_size_)
    (htri : ∀ r k, as.num_equalities_ ≤ k → k < r → r < as.size_ → fd.R r k = 0)
    (hd : ∀ j, as.num_equalities_ ≤ j → j < as.size_ → fd.R j j ≠ 0) :
    (∀ i, as.num_equalities_ ≤ i → i < as.size_ →
      ∑ k in Finset.Ico as.num_equalities_ as.size_,
        fd.R i k * fd.computeInequalityDualStep z c t as k
        = -colT fd.primal_size_ fd.QLi_aka_J (signedRow c t) i) ∧
    (∀ k, as.num_equalities_ ≤ k → k < as.size_ →
      fd.computeInequalityDualStep z c t as k = (fd.computeInequalitySteps z c t as).2.2 k) := by
  have hseg : ∀ k, as.num_equalities_ ≤ k → k < as.size_ →
      fd.computeInequalityDualStep z c t as k
        = backSolve fd.R (fun i => -colT fd.primal_size_ fd.QLi_aka_J (signedRow c t) i)
            as.size_ as.num_inequalities_ k := by
    intro k h1 h2
    unfold FactorizationData.computeInequalityDualStep
    rw [if_pos ⟨h1, by omega⟩, ← hsz]
    refine congrFun (backSolve_rhs _ _ _ _ _ (by omega) ?_) k
    intro i hi1 hi2
    rw [if_pos ⟨by omega, by omega⟩, colT_signedRow]
    have ei : fd.primal_size_ - as.num_inequalities_ + (i - as.num_equalities_) = i := by omega
    rw [ei]
    unfold colT
    split_ifs
    · rw [neg_neg]
    · rfl
  constructor
  · intro i h1 h2
    have e1 : ∑ k in Finset.Ico as.num_equalities_ as.size_,
        fd.R i k * fd.computeInequalityDualStep z c t as k
        = ∑ k in Finset.Ico i as.size_,
            fd.R i k * backSolve fd.R
              (fun i => -colT fd.primal_size_ fd.QLi_aka_J (signedRow c t) i)
              as.size_ as.num_inequalities_ k := by
      rw [← Finset.sum_Ico_consecutive _ h1 (le_of_lt h2)]
      have e0 : ∑ k in Finset.Ico as.num_equalities_ i,
          fd.R i k * fd.computeInequalityDualStep z c t as k = 0 :=
        Finset.sum_eq_zero (fun k hk => by
          rw [htri i k (Finset.mem_Ico.mp hk).1 (Finset.mem_Ico.mp hk).2 h2, zero_mul])
      rw [e0, zero_add]
      refine Finset.sum_congr rfl (fun k hk => ?_)
      rw [hseg k (by have := (Finset.mem_Ico.mp hk).1; omega) (Finset.mem_Ico.mp hk).2]
    rw [e1]
    exact backSolve_spec fd.R _ as.size_ as.num_inequalities_ i (by omega) (by omega) h2
      (hd i h1 h2)
  · intro k h1 h2
    rw [hseg k h1 h2, computeInequalitySteps_z]
    dsimp only
    rw [if_pos ⟨h1, by omega⟩, backSolve_neg, ← hsz]
    congr 1
    have eb : backSolve (fd.computeInequalitySteps z c t as).1.R
        (fun i => (fd.computeInequalitySteps z c t as).1.R i as.size_)
        as.size_ as.num_inequalities_
        = backSolve fd.R (fun i => colT fd.primal_size_ fd.QLi_aka_J (signedRow c t) i)
            as.size_ as.num_inequalities_ := by
      rw [backSolve_block _ fd.R _ _ _ (by omega)
        (fun r k _ hk => computeInequalitySteps_R_other fd z c t as r k (Nat.ne_of_lt hk))]
      refine backSolve_rhs _ _ _ _ _ (by omega) (fun i _ hi2 => ?_)
      exact computeInequalitySteps_R_col fd z c t as i (by omega)
    rw [eb]

/-- The example state `n = 2`, `J = I`, `R = [[1, 5], [0, 3]]` with a full
active set of two inequalities and the row `c = (3, 4)`: the two kernels write
the same `z[1]`. -/
theorem dual_only_kernel_witness :
    (exampleFD : FactorizationData ℚ).computeInequalityDualStep (vecOf [0, 0]) (vecOf [3, 4])
        ConstraintStatus.ACTIVE_UPPER_BOUND ⟨fun _ => 0, 2, 0, 2, 2⟩ 1
      = ((exampleFD : FactorizationData ℚ).computeInequalitySteps (vecOf [0, 0]) (vecOf [3, 4])
        ConstraintStatus.ACTIVE_UPPER_BOUND ⟨fun _ => 0, 2, 0, 2, 2⟩).2.2 1 :=
  (dual_only_kernel (exampleFD : FactorizationData ℚ) (vecOf [0, 0]) (vecOf [3, 4])
    ConstraintStatus.ACTIVE_UPPER_BOUND ⟨fun _ => 0, 2, 0, 2, 2⟩ rfl rfl
    (by
      intro r k _ h1 h2
      have h2 : r < 2 := h2
      interval_cases r
      · omega
      · have hk : k = 0 := by omega
        subst hk
        simp [exampleFD, matOf])
    (by
      intro j _ h2
      have h2 : j < 2 := h2
      interval_cases j
      · simp [exampleFD, matOf]
      · simp [exampleFD, matOf])).2 1 (by decide) (by decide)

/-- C23. The assertion `Non-negative step lengths expected.` fails on a
reachable iteration of the primal-step branch.  With `H = I`, `h = 0`, `n = 3`,
the constraints `10·x₀ ≤ −10`, `x₀ + x₁ ≤ −9`, `3·x₀ + x₂ ≤ −10` and the
tolerance `1/10`: the first two iterations activate the first two constraints
and leave the stored multiplier `μ[0] = −7/10`, as the dual step direction
`z[0] = −1/10` of the second iteration is not below `−tol`.  In the third
iteration the active set has room, `A[chosen]·p = −1` and `z[0] = −3/10 < −tol`,
so the dual step length is `−μ[0]/z[0] = −7/3 < 0`: with assertions on, `solve`
raises on the assertion.  No square root is taken. -/
theorem step_lengths_nonneg_counterexample :
    raisedWith
      (Solver.solve Rat.sqrt true ⟨3, 3, 0, 3⟩ (matOf [[1, 0, 0], [0, 1, 0], [0, 0, 1]])
        (vecOf [0, 0, 0]) (matOf [[10, 0, 0], [1, 1, 0], [3, 0, 1]])
        (vecOf [-1000, -1000, -1000]) (vecOf [-10, -9, -10])
        ⟨HessianType.HESSIAN_CHOLESKY_FACTOR, 1 / 10, -1⟩ 3)
      (fun e s => decide (e = QPError.NEGATIVE_STEP_LENGTH ∧ s.active_set_.size_ = 2 ∧
        s.dual_ 0 = -7 / 10 ∧ s.dual_step_direction_ 0 = -3 / 10 ∧
        (s.dualBlocking (1 / 10)).2 = some (-7 / 3) ∧
        dot 3 ((matOf [[10, 0, 0], [1, 1, 0], [3, 0, 1]] : QPMatrix ℚ) 2)
          s.primal_step_direction_ = -1)) = true := by
  decide!

/-- C2. Stationarity at `OK` in exact arithmetic, with `tol > 0`, `H = L·Lᵀ` for
the factor `L` that `solve` works with (nonzero diagonal), and `h = 0` when no
linear term is given, for a run in which no main-loop iteration with room in the
active set finds `0 < |A[chosen]·p| ≤ tol`: whenever `solve` returns `OK`, the
residual `H·x + h + Σ_{k ∈ [nE, q)} s_k·μ[k]·A[idx_k]ᵀ` (`s_k = +1` for
`ACTIVE_UPPER_BOUND`, `−1` for `ACTIVE_LOWER_BOUND`) is a linear combination of the
rows of the active equalities, and it is 0 when no equality is active. -/
theorem stationarity_at_ok (sqrt : K → K) (hs : IsSqrt sqrt) (asserts : Bool)
    (sizes : InputParser) (H Hmat L : QPMatrix K) (h : QPVector K) (A : QPMatrix K)
    (Alb Aub : QPVector K) (param : SolverParameters K) (fuel : Nat)
    (htol : 0 < param.tolerance_)
    (hL : Solver.prepareHessian sqrt sizes.primal_size_ H param = some L)
    (hd : ∀ k, k < sizes.primal_size_ → L k k ≠ 0)
    (hH : ∀ r c, r < sizes.primal_size_ → c < sizes.primal_size_ →
      Hmat r c = ∑ k in Finset.range sizes.primal_size_, lowerPart L r k * lowerPart L c k)
    (hh : sizes.h_size_ = 0 → ∀ k, k < sizes.primal_size_ → h k = 0)
    (hN : ∀ (k : Nat) (st : Solver K × ChosenConstraint K),
      Solver.iterState sqrt asserts sizes L h A Alb Aub param k = some st →
      ¬ |st.2.violation_| < param.tolerance_ →
      (st.1.stepState L A st.2).active_set_.hasEmptySpace = true →
      |st.1.stepCp L A st.2| ≤ param.tolerance_ → st.1.stepCp L A st.2 = 0)
    (s : Solver K)
    (hrun : Solver.solve sqrt asserts sizes H h A Alb Aub param fuel
      = some (Outcome.returned ReturnStatus.OK s)) :
    (∃ lam : Nat → K, ∀ k, k < sizes.primal_size_ →
      s.residual Hmat h A k
        = ∑ c in Finset.range s.active_set_.num_equalities_,
            lam c * A (s.active_set_.getIndex c) k) ∧
    (s.active_set_.num_equalities_ = 0 →
      ∀ k, k < sizes.primal_size_ → s.residual Hmat h A k = 0) := by
  have hsolve : Solver.solve sqrt asserts sizes H h A Alb Aub param fuel
      = Solver.solveWithFactor sqrt asserts sizes L h A Alb Aub param fuel := by
    unfold Solver.solve
    show (match Solver.prepareHessian sqrt sizes.primal_size_ H param with
      | none => _
      | some L => _) = _
    rw [hL]
  have key : ∃ lam : Nat → K, ∀ k, k < sizes.primal_size_ →
      s.residual Hmat h A k
        = ∑ c in Finset.range s.active_set_.num_equalities_,
            lam c * A (s.active_set_.getIndex c) k := by
    rw [hsolve] at hrun
    have hE0 := Solver.entry_eqInv sizes L h A Alb Aub param.tolerance_
    have hS0 := Solver.entry_statInv sizes Hmat L h A (fun _ => 0) hd hH hh
    rcases solveWithFactor_exits sqrt asserts sizes L h A Alb Aub param fuel _ hrun with
      e | hloop | ⟨st, hloop, hall, e⟩ | ⟨st0, hms, hmain⟩
    · injection e with _ e
      rw [e]
      exact residual_of_statInv (Solver.entry sizes L h) Hmat L A h Alb Aub param.tolerance_
        (fun _ => 0) (fun hi => by
          have : (Solver.entry sizes L h).machinery_initialized_ = false := rfl
          rw [this] at hi
          exact absurd hi (by decide)) (Solver.entry_rawEmpty sizes L h) hS0
    · exact absurd (equalityLoop_returned sqrt L A Alb Aub param _ _ _ _ _ hloop) (by decide)
    · injection e with _ e
      obtain ⟨hE, hraw, hsz⟩ := equalityLoop_next sqrt hs L A Alb Aub param htol.le
        sizes.num_general_constraints_ 0 (Solver.entry sizes L h, 0) st hE0
        (Solver.entry_rawEmpty sizes L h) hloop
      rw [Nat.zero_add] at hE
      have hsz' : st.1.toInputParser = sizes := hsz
      have hS := equalityLoop_statInv sqrt hs Hmat L A h Alb Aub param htol (fun _ => 0)
        sizes.num_general_constraints_ 0 (Solver.entry sizes L h, 0) st hE0 hS0 hloop
      have hM : (st.1.initializeMachineryLazy L).MainInv A Alb Aub param.tolerance_ := by
        apply Solver.EqInv.toMainInv
        rw [Solver.init_sizes, congrArg InputParser.num_general_constraints_ hsz']
        exact hE
      rw [e, ← congrArg InputParser.primal_size_ hsz']
      exact residual_of_statInv st.1 Hmat L A h Alb Aub param.tolerance_ (fun _ => 0)
        (fun hi => by rw [Solver.init_of_initialized st.1 L hi] at hM; exact hM) hraw hS
    · obtain ⟨k, stk, _, hk, hcase⟩ :=
        (mainLoop_some_iff sqrt asserts L A Alb Aub param fuel 0 _ _).mp hmain
      have hiter : Solver.iterState sqrt asserts sizes L h A Alb Aub param k = some stk := by
        unfold Solver.iterState
        rw [hms]
        exact hk
      obtain ⟨⟨hM, _, hraw⟩, hsz⟩ :=
        iterState_mainState sqrt hs asserts sizes L h A Alb Aub param htol k stk hiter
      obtain ⟨hS, hfresh⟩ := iterState_statState sqrt hs asserts sizes Hmat L h A Alb Aub param
        htol hd hH hh hN k stk hiter
      rcases hcase with ⟨_, hstep⟩ | ⟨_, hmaxed⟩
      · obtain ⟨hv, e⟩ := mainStep_ok sqrt asserts L A Alb Aub param stk s hstep
        rw [hfresh hv] at hS
        rw [e, ← congrArg InputParser.primal_size_ hsz]
        exact residual_of_statInv stk.1 Hmat L A h Alb Aub param.tolerance_ _
          (fun hi => by rw [Solver.init_of_initialized stk.1 L hi] at hM; exact hM) hraw hS
      · injection hmaxed with hmaxed
        exact absurd hmaxed (by decide)
  refine ⟨key, fun h0 k hk => ?_⟩
  obtain ⟨lam, hl⟩ := key
  rw [hl k hk, h0, Finset.sum_range_zero]

/-- The active-bound scenario (`n = 1`, `H = 1`, `h = 0`, the constraint
`1 ≤ x ≤ 100`, tolerance `1/2`): `solve` returns `OK` with no active equality
and the residual is 0. -/
theorem stationarity_at_ok_witness :
    (singleNext Real.sqrt 1 1 (matOf [[1]]) (vecOf [0]) (matOf [[1]]) (vecOf [1])
      (1 / 2 : ℝ)).1.residual (matOf [[1]]) (vecOf [0]) (matOf [[1]]) 0 = 0 :=
  (stationarity_at_ok Real.sqrt isSqrt_real true ⟨1, 1, 0, 1⟩ (matOf [[1]]) (matOf [[1]])
    (matOf [[1]]) (vecOf [0]) (matOf [[1]]) (vecOf [1]) (vecOf [100])
    ⟨HessianType.HESSIAN_CHOLESKY_FACTOR, 1 / 2, -1⟩ 2
    (show (0 : ℝ) < 1 / 2 by norm_num) rfl
    (fun k hk => by
      have e : k = 0 := Nat.lt_one_iff.mp hk
      rw [e]
      exact one_ne_zero)
    (fun r c hr hc => by
      have er : r = 0 := Nat.lt_one_iff.mp hr
      have ec : c = 0 := Nat.lt_one_iff.mp hc
      rw [er, ec]
      simp [matOf, lowerPart])
    (fun h0 => absurd h0 (by decide))
    (fun k st hk hv _ hcp => activeBound_noDegenerate k st hk hv hcp)
    _ activeBound_solve).2
    (by rw [singleNext_active_set]; rfl) 0 (by decide)

/-- With `H = I`, `h = 0`, the constraints `x₀ ≤ −5` and `(4/5)·x₀ + (3/5)·x₁ ≤ −5`
and the tolerance `2/5`: the first constraint is activated; for the second the
step in the free subspace has `A[1]·p = −9/25`, of absolute value below the
tolerance, so the iteration is treated as dual-only although `p ≠ 0`; the first
constraint is dropped with the multiplier of the second at `29/4` and the primal
point unchanged, and the second is then activated by a full step.  `solve`
returns `OK` with no active equality and the second component of the residual
equal to `15/4`.  No square root is taken. -/
theorem stationarity_at_ok_counterexample :
    returnedWith
      (Solver.solve Rat.sqrt true ⟨2, 2, 0, 2⟩ (matOf [[1, 0], [0, 1]]) (vecOf [0, 0])
        (matOf [[1, 0], [4 / 5, 3 / 5]]) (vecOf [-1000, -1000]) (vecOf [-5, -5])
        ⟨HessianType.HESSIAN_CHOLESKY_FACTOR, 2 / 5, -1⟩ 4)
      (fun status s => decide (status = ReturnStatus.OK ∧ s.active_set_.num_equalities_ = 0 ∧
        s.residual (matOf [[1, 0], [0, 1]]) (vecOf [0, 0]) (matOf [[1, 0], [4 / 5, 3 / 5]]) 1
          = 15 / 4)) = true := by
  decide!

/-- C16. The objective across the primal steps of the main loop (exact
arithmetic), with `tol > 0`, `H = L·Lᵀ` for the factor `L` that the solver works
with (nonzero diagonal), `h = 0` when no linear term is given, for a run in which
no iteration with room in the active set finds `0 < |A[chosen]·p| ≤ tol` and no
iteration has a component of the dual step direction `z[i]`, `i` in `[nE, q)`, in
`[−tol, 0)`.  In every iteration that the main loop reaches and that enters the
primal-step branch, with `τ` the step length that is taken (the primal step
length `−chosen.violation/(A[chosen]·p)` of a full step, the dual step length of
a partial step) and `u` the multiplier of the chosen constraint: `u ≥ 0`,
`τ ≥ 0`, the step `x_new = x + τ·p` changes the objective `f = ½·xᵀ·H·x + hᵀ·x` by
`τ·(u + τ/2)·|A[chosen]·p|`, so `f(x) ≤ f(x_new)`, and `x_new` is the point with
which the next iteration starts. -/
theorem objective_primal_step (sqrt : K → K) (hs : IsSqrt sqrt) (asserts : Bool)
    (sizes : InputParser) (Hmat L : QPMatrix K) (h : QPVector K) (A : QPMatrix K)
    (Alb Aub : QPVector K) (param : SolverParameters K)
    (htol : 0 < param.tolerance_)
    (hd : ∀ k, k < sizes.primal_size_ → L k k ≠ 0)
    (hH : ∀ r c, r < sizes.primal_size_ → c < sizes.primal_size_ →
      Hmat r c = ∑ k in Finset.range sizes.primal_size_, lowerPart L r k * lowerPart L c k)
    (hh : sizes.h_size_ = 0 → ∀ k, k < sizes.primal_size_ → h k = 0)
    (hN : ∀ (k : Nat) (st : Solver K × ChosenConstraint K),
      Solver.iterState sqrt asserts sizes L h A Alb Aub param k = some st →
      ¬ |st.2.violation_| < param.tolerance_ →
      (st.1.stepState L A st.2).active_set_.hasEmptySpace = true →
      |st.1.stepCp L A st.2| ≤ param.tolerance_ → st.1.stepCp L A st.2 = 0)
    (hZ : ∀ (k : Nat) (st : Solver K × ChosenConstraint K),
      Solver.iterState sqrt asserts sizes L h A Alb Aub param k = some st →
      ¬ |st.2.violation_| < param.tolerance_ →
      (st.1.stepState L A st.2).NoSmallDual param.tolerance_)
    (k : Nat) (st : Solver K × ChosenConstraint K)
    (hk : Solver.iterState sqrt asserts sizes L h A Alb Aub param k = some st)
    (hv : ¬ |st.2.violation_| < param.tolerance_)
    (hspace : (st.1.stepState L A st.2).active_set_.hasEmptySpace = true)
    (hcp : |st.1.stepCp L A st.2| > param.tolerance_) :
    0 ≤ st.2.dual_ ∧
    0 ≤ (Solver.truncateStep ((st.1.stepState L A st.2).dualBlocking param.tolerance_).2
          (-st.2.violation_ / st.1.stepCp L A st.2)).1 ∧
    objective sizes.primal_size_ Hmat h
        ((st.1.stepState L A st.2).takeStep sqrt
          (Solver.truncateStep ((st.1.stepState L A st.2).dualBlocking param.tolerance_).2
            (-st.2.violation_ / st.1.stepCp L A st.2)).1 param.tolerance_).1.primal
      = objective sizes.primal_size_ Hmat h st.1.primal
        + (Solver.truncateStep ((st.1.stepState L A st.2).dualBlocking param.tolerance_).2
            (-st.2.violation_ / st.1.stepCp L A st.2)).1
          * (st.2.dual_
            + (Solver.truncateStep ((st.1.stepState L A st.2).dualBlocking param.tolerance_).2
                (-st.2.violation_ / st.1.stepCp L A st.2)).1 / 2)
          * |st.1.stepCp L A st.2| ∧
    objective sizes.primal_size_ Hmat h st.1.primal
      ≤ objective sizes.primal_size_ Hmat h
        ((st.1.stepState L A st.2).takeStep sqrt
          (Solver.truncateStep ((st.1.stepState L A st.2).dualBlocking param.tolerance_).2
            (-st.2.violation_ / st.1.stepCp L A st.2)).1 param.tolerance_).1.primal ∧
    (∀ st1 : Solver K × ChosenConstraint K,
      Solver.iterState sqrt asserts sizes L h A Alb Aub param (k + 1) = some st1 →
      st1.1.primal
        = ((st.1.stepState L A st.2).takeStep sqrt
          (Solver.truncateStep ((st.1.stepState L A st.2).dualBlocking param.tolerance_).2
            (-st.2.violation_ / st.1.stepCp L A st.2)).1 param.tolerance_).1.primal) := by
  obtain ⟨⟨hM, _, _⟩, hsz⟩ :=
    iterState_mainState sqrt hs asserts sizes L h A Alb Aub param htol k st hk
  obtain ⟨hS, _⟩ := iterState_statState sqrt hs asserts sizes Hmat L h A Alb Aub param
    htol hd hH hh hN k st hk
  obtain ⟨_, hu, _, _⟩ :=
    iterState_dualInv sqrt hs asserts sizes L h A Alb Aub param htol hZ k st hk
  obtain ⟨hsl, hdl, _⟩ := iterState_step_lengths sqrt hs asserts sizes L h A Alb Aub param
    htol hZ k st hk hv hspace hcp
  have en : (st.1.initializeMachineryLazy L).primal_size_ = sizes.primal_size_ := by
    rw [Solver.init_primal_size, congrArg InputParser.primal_size_ hsz]
  have eas : (st.1.stepState L A st.2).active_set_
      = (st.1.initializeMachineryLazy L).active_set_ :=
    Solver.computeStepDirections_active_set _ A st.2
  have hsp : (st.1.initializeMachineryLazy L).active_set_.hasEmptySpace = true := by
    rw [← eas]
    exact hspace
  have ecp : st.1.stepCp L A st.2
      = dot sizes.primal_size_ (A st.2.index_)
        ((st.1.initializeMachineryLazy L).computeStepDirections A
          st.2).primal_step_direction_ := by
    unfold Solver.stepCp Solver.stepState
    rw [congrArg InputParser.primal_size_ (Solver.computeStepDirections_sizes _ A st.2), en]
  have hsym : ∀ a b, a < sizes.primal_size_ → b < sizes.primal_size_ →
      Hmat a b = Hmat b a := by
    intro a b ha hb
    rw [hH a b ha hb, hH b a hb ha]
    exact Finset.sum_congr rfl (fun _ _ => mul_comm _ _)
  have hτ : 0 ≤ (Solver.truncateStep
      ((st.1.stepState L A st.2).dualBlocking param.tolerance_).2
      (-st.2.violation_ / st.1.stepCp L A st.2)).1 := by
    unfold Solver.truncateStep
    cases hdb : ((st.1.stepState L A st.2).dualBlocking param.tolerance_).2 with
    | none => exact hsl
    | some t =>
      dsimp only
      split_ifs
      · exact hdl t hdb
      · exact hsl
  have hJ : HOrthonormal sizes.primal_size_ Hmat
      (st.1.initializeMachineryLazy L).factorization_data_.QLi_aka_J := by
    rw [← en]
    exact hS.orth
  have hgrad := gradient_dot_step (st.1.initializeMachineryLazy L) A Hmat h st.2 hM.wf hS.stat
    hsp (by rw [en]; exact hsym)
  rw [en, ← ecp] at hgrad
  have hid := (objective_step_identity sqrt sizes.primal_size_ Hmat h
    (st.1.initializeMachineryLazy L) A st.2
    (Solver.truncateStep ((st.1.stepState L A st.2).dualBlocking param.tolerance_).2
      (-st.2.violation_ / st.1.stepCp L A st.2)).1 param.tolerance_
    (by rw [hM.wf.fd_size, en]) hsp hsym hJ).1
  rw [hgrad, ← ecp, Solver.init_primal] at hid
  have key : objective sizes.primal_size_ Hmat h
        ((st.1.stepState L A st.2).takeStep sqrt
          (Solver.truncateStep ((st.1.stepState L A st.2).dualBlocking param.tolerance_).2
            (-st.2.violation_ / st.1.stepCp L A st.2)).1 param.tolerance_).1.primal
      = objective sizes.primal_size_ Hmat h st.1.primal
        + (Solver.truncateStep ((st.1.stepState L A st.2).dualBlocking param.tolerance_).2
            (-st.2.violation_ / st.1.stepCp L A st.2)).1
          * (st.2.dual_
            + (Solver.truncateStep ((st.1.stepState L A st.2).dualBlocking param.tolerance_).2
                (-st.2.violation_ / st.1.stepCp L A st.2)).1 / 2)
          * |st.1.stepCp L A st.2| := by
    show objective sizes.primal_size_ Hmat h
        (((st.1.initializeMachineryLazy L).computeStepDirections A st.2).takeStep sqrt
          (Solver.truncateStep ((st.1.stepState L A st.2).dualBlocking param.tolerance_).2
            (-st.2.violation_ / st.1.stepCp L A st.2)).1 param.tolerance_).1.primal = _
    rw [hid]
    ring
  refine ⟨hu, hτ, key, ?_, ?_⟩
  · rw [key]
    have h1 : 0 ≤ (Solver.truncateStep
        ((st.1.stepState L A st.2).dualBlocking param.tolerance_).2
        (-st.2.violation_ / st.1.stepCp L A st.2)).1
        * (st.2.dual_ + (Solver.truncateStep
            ((st.1.stepState L A st.2).dualBlocking param.tolerance_).2
            (-st.2.violation_ / st.1.stepCp L A st.2)).1 / 2)
        * |st.1.stepCp L A st.2| :=
      mul_nonneg (mul_nonneg hτ (add_nonneg hu (div_nonneg hτ (by norm_num))))
        (abs_nonneg _)
    linarith
  · intro st1 hk1
    obtain ⟨st', a1, _, a3⟩ := iterState_succ sqrt asserts sizes L h A Alb Aub param k st1 hk1
    rw [hk] at a1
    injection a1 with a1
    subst a1
    obtain ⟨_, hcases⟩ := mainStep_cases sqrt asserts L A Alb Aub param htol.le st st1 a3
    rcases hcases with ⟨_, _, t, e1, e2, _, e4⟩ | ⟨_, _, t, _, _, e3, e4⟩ | ⟨hno, _, _⟩
    · rw [e4, e1]
      show ((st.1.stepState L A st.2).takeStep sqrt t param.tolerance_).1.primal = _
      unfold Solver.truncateStep
      dsimp only
      rw [if_pos e2]
    · have et : (Solver.truncateStep
          ((st.1.stepState L A st.2).dualBlocking param.tolerance_).2
          (-st.2.violation_ / st.1.stepCp L A st.2)).1 = t := by
        unfold Solver.truncateStep
        rcases e3 with ⟨b1, b2⟩ | ⟨b1, b2 | ⟨t', b2, b3⟩⟩
        · rw [b1]
          dsimp only
          rw [if_pos b2]
        · rw [b2, b1]
        · rw [b2]
          dsimp only
          rw [if_neg (not_le.mpr b3), b1]
      rw [e4, et]
      rfl
    · exact absurd ⟨hspace, hcp⟩ hno

/-- The active-bound scenario (`n = 1`, `H = [[1]]`, `h = 0`, the constraint
`1 ≤ x ≤ 100`, tolerance `1/2`): the first iteration takes a full primal step
from `x = 0` to `x = 1`, and the objective at the head of the second iteration
is not below the one at the head of the first. -/
theorem objective_primal_step_witness :
    objective 1 (matOf [[1]]) (vecOf [0])
        (singleStart 1 1 (matOf [[1]]) (vecOf [0]) (matOf [[1]])
          (vecOf [1] : QPVector ℝ)).1.primal
      ≤ objective 1 (matOf [[1]]) (vecOf [0])
        (singleNext Real.sqrt 1 1 (matOf [[1]]) (vecOf [0]) (matOf [[1]]) (vecOf [1])
          (1 / 2 : ℝ)).1.primal :=
  have T := objective_primal_step Real.sqrt isSqrt_real true ⟨1, 1, 0, 1⟩ (matOf [[1]])
    (matOf [[1]]) (vecOf [0]) (matOf [[1]]) (vecOf [1]) (vecOf [100])
    ⟨HessianType.HESSIAN_CHOLESKY_FACTOR, 1 / 2, -1⟩
    (show (0 : ℝ) < 1 / 2 by norm_num)
    (fun k hk => by
      have e : k = 0 := Nat.lt_one_iff.mp hk
      rw [e]
      exact one_ne_zero)
    (fun r c hr hc => by
      have er : r = 0 := Nat.lt_one_iff.mp hr
      have ec : c = 0 := Nat.lt_one_iff.mp hc
      rw [er, ec]
      simp [matOf, lowerPart])
    (fun h0 => absurd h0 (by decide))
    (fun k st hk hv _ hcp => activeBound_noDegenerate k st hk hv hcp)
    activeBound_noSmallDual 0
    (singleStart 1 1 (matOf [[1]]) (vecOf [0]) (matOf [[1]]) (vecOf [1]))
    activeBound_iterStates.1
    (by
      rw [activeBound_violation]
      show ¬ |(-1 : ℝ)| < 1 / 2
      rw [abs_neg, abs_one]
      norm_num)
    activeBound_space
    (by
      rw [activeBound_cp]
      show |(1 : ℝ)| > 1 / 2
      rw [abs_one]
      norm_num)
  (T.2.2.2.2 _ activeBound_iterStates.2).symm ▸ T.2.2.2.1

end qpmad
